import Mathlib

/-!
# PureCLIP HMM engine (`src/hmm_1.h`): embedding and verified properties

Numeric model.  A C++ `long double` (and the `TDOUBLE` of the tables) is a value of `LD R`:
the NaN sentinel, the two infinities, or a finite number of an ordered field `R`.  The
special values follow IEEE 754 (`NaN` absorbs in arithmetic, every comparison with `NaN`
is false, `0/0 = NaN`, `log 0 = -inf`, `log` of a negative number is `NaN`).  Finite
arithmetic is exact: rounding, overflow, underflow and the sign of zero are not modelled.
The natural logarithm and the exponential of finite numbers are parameters `ln` and `ex`
of the definitions; the theorems instantiate them with `Real.log` and `Real.exp`.  The
conversion of the temporary `double v` in the recursion of `viterbi`, which is compared
with `long double` values, is the parameter `toDouble` of the definitions of `viterbi`.
-/

set_option linter.dupNamespace false

namespace PureCLIP

/-! ## Floating-point values with special values -/

/-- Values of the C++ floating-point types: NaN, the infinities, finite numbers. -/
inductive LD (R : Type) where
  | nan : LD R
  | pinf : LD R
  | ninf : LD R
  | fin (x : R) : LD R
deriving DecidableEq

namespace LD

variable {R : Type} [LinearOrderedField R]

/-- C++ `std::isnan`. -/
def isnan : LD R → Bool
  | nan => true
  | _ => false

/-- C++ `std::isinf`. -/
def isinf : LD R → Bool
  | pinf => true
  | ninf => true
  | _ => false

/-- Unary minus. -/
def neg : LD R → LD R
  | nan => nan
  | pinf => ninf
  | ninf => pinf
  | fin x => fin (-x)

/-- Addition `a + b`: NaN absorbs, `inf + (-inf)` is NaN. -/
def add : LD R → LD R → LD R
  | nan, _ => nan
  | _, nan => nan
  | pinf, ninf => nan
  | ninf, pinf => nan
  | pinf, _ => pinf
  | _, pinf => pinf
  | ninf, _ => ninf
  | _, ninf => ninf
  | fin x, fin y => fin (x + y)

/-- Subtraction `a - b`. -/
def sub (a b : LD R) : LD R := add a (neg b)

/-- Multiplication `a * b`: `inf * 0` is NaN. -/
def mul : LD R → LD R → LD R
  | nan, _ => nan
  | _, nan => nan
  | fin x, fin y => fin (x * y)
  | fin x, pinf => if x = 0 then nan else if 0 < x then pinf else ninf
  | fin x, ninf => if x = 0 then nan else if 0 < x then ninf else pinf
  | pinf, fin y => if y = 0 then nan else if 0 < y then pinf else ninf
  | ninf, fin y => if y = 0 then nan else if 0 < y then ninf else pinf
  | pinf, pinf => pinf
  | ninf, ninf => pinf
  | pinf, ninf => ninf
  | ninf, pinf => ninf

/-- Division `a / b`: `0/0` and `inf/inf` are NaN, `x/0` is an infinity for `x ≠ 0`. -/
def div : LD R → LD R → LD R
  | nan, _ => nan
  | _, nan => nan
  | fin x, fin y =>
    if y = 0 then (if x = 0 then nan else if 0 < x then pinf else ninf) else fin (x / y)
  | fin _, pinf => fin 0
  | fin _, ninf => fin 0
  | pinf, fin y => if 0 ≤ y then pinf else ninf
  | ninf, fin y => if 0 ≤ y then ninf else pinf
  | pinf, pinf => nan
  | pinf, ninf => nan
  | ninf, pinf => nan
  | ninf, ninf => nan

instance : Add (LD R) := ⟨add⟩
instance : Sub (LD R) := ⟨sub⟩
instance : Mul (LD R) := ⟨mul⟩
instance : Div (LD R) := ⟨div⟩

/-- Comparison `a < b`; false when an operand is NaN. -/
def lt : LD R → LD R → Bool
  | nan, _ => false
  | _, nan => false
  | pinf, _ => false
  | _, ninf => false
  | ninf, _ => true
  | _, pinf => true
  | fin x, fin y => decide (x < y)

/-- Comparison `a <= b`; false when an operand is NaN. -/
def le : LD R → LD R → Bool
  | nan, _ => false
  | _, nan => false
  | ninf, _ => true
  | _, pinf => true
  | pinf, _ => false
  | _, ninf => false
  | fin x, fin y => decide (x ≤ y)

/-- Comparison `a == b`; false when an operand is NaN. -/
def eq : LD R → LD R → Bool
  | pinf, pinf => true
  | ninf, ninf => true
  | fin x, fin y => decide (x = y)
  | _, _ => false

/-- C++ `log`: `log 0 = -inf`, `log` of a negative number is NaN. -/
def log (ln : R → R) : LD R → LD R
  | nan => nan
  | pinf => pinf
  | ninf => nan
  | fin x => if x = 0 then ninf else if x < 0 then nan else fin (ln x)

/-- C++ `exp`: `exp (-inf) = 0`. -/
def exp (ex : R → R) : LD R → LD R
  | nan => nan
  | pinf => pinf
  | ninf => fin 0
  | fin x => fin (ex x)

/-- C++ `std::max(a, b)`, that is `(a < b) ? b : a`. -/
def max (a b : LD R) : LD R := if lt a b then b else a

end LD

open LD

variable {R : Type} [LinearOrderedField R]

/-! ## Functionalities for computations in log space -/

/-- Function `myLog`: the NaN sentinel for `x == 0`, else `log x`. -/
def myLog (ln : R → R) (x : LD R) : LD R :=
  if LD.eq x (fin 0) then nan else LD.log ln x

/-- Function `myExp`: `0` for the NaN sentinel, else `exp x`. -/
def myExp (ex : R → R) (x : LD R) : LD R :=
  if x.isnan then fin 0 else LD.exp ex x

/-- Function `get_logSumExp(f1, f2, lookUp)`; `lookUp` stands for `lookUp.logSumExp_add`. -/
def get_logSumExp (lookUp : LD R → LD R → LD R) (f1 f2 : LD R) : LD R :=
  if f1.isnan then f2
  else if f2.isnan then f1
  else if f1.isinf then f1
  else if f2.isinf then f2
  else lookUp f1 f2

/-- Function `get_logSumExp_states(f1, f2, f3, f4, lookUp)`. -/
def get_logSumExp_states (lookUp : LD R → LD R → LD R) (f1 f2 f3 f4 : LD R) : LD R :=
  get_logSumExp lookUp (get_logSumExp lookUp (get_logSumExp lookUp f1 f2) f3) f4

/-- Modelled from the spec: `lookUp.logSumExp_add` of the lookup table (declared outside
`hmm_1.h`) on two finite values, by the direct computation the spec gives for it,
`max(a,b) + log(1 + exp(-|a-b|))`, without quantisation. -/
def logSumExp_add (ln ex : R → R) : LD R → LD R → LD R
  | fin a, fin b => fin (Max.max a b + ln (1 + ex (-|a - b|)))
  | _, _ => nan

/-! ## Data model -/

/-- One value per state; the state index is `2 * enrichment + crosslink`. -/
abbrev Vec4 (R : Type) := Fin 4 → LD R

/-- A 4 x 4 table indexed by two states. -/
abbrev Mat4 (R : Type) := Fin 4 → Fin 4 → LD R

/-- The observation of one position `t` of an interval: `kdes[t]`, `truncCounts[t]`,
`nEstimates[t]`, `rpkms[t]` of the class `Observations`. -/
structure Obs (R : Type) where
  kde : LD R
  truncCount : Nat
  nEstimate : LD R
  rpkm : LD R

/-- The class `Observations` (declared outside `hmm_1.h`): the positions of one interval
and its `discard` flag; `length()` is the number of positions. -/
structure Observations (R : Type) where
  sites : List (Obs R)
  discard : Bool

/-- The fields of `AppOptions` (declared outside `hmm_1.h`) that the engine reads. -/
structure AppOptions (R : Type) where
  lookUp : LD R → LD R → LD R
  nThresholdForTransP : LD R
  minTransProbCS : LD R
  minRPKMtoFit : LD R

/-- The coverage density `GAMMA2` (declared outside `hmm_1.h`): its support threshold
and its evaluator `getDensity(kde)`. -/
structure GAMMA2 (R : Type) where
  tp : LD R
  getDensity : LD R → LD R

/-- The regression-linked coverage density `GAMMA2_REG` (declared outside `hmm_1.h`):
threshold, regression coefficients and the evaluator `getDensity(kde, pred, options)`. -/
structure GAMMA2_REG (R : Type) where
  tp : LD R
  b0 : LD R
  b1 : LD R
  getDensity : LD R → LD R → AppOptions R → LD R

/-- The count density `ZTBIN` (declared outside `hmm_1.h`): its evaluator
`getDensity(truncCount, nEstimate, options)`. -/
structure ZTBIN (R : Type) where
  getDensity : Nat → LD R → AppOptions R → LD R

/-- Everything the engine holds for one interval `(s, i)`: the observations
`setObs[s][i]`, and the rows `initProbs[s][i]`, `eProbs[s][i]` and
`statePosteriors[s][.][i]` of its tables.  The constructor sizes the tables from
`setObs`, so `eProbs` and `statePosteriors` have one entry per position; the loops over
`t < setObs[s][i].length()` are recursions over these lists. -/
structure Interval (R : Type) where
  obs : Observations R
  initProbs : Vec4 R
  eProbs : List (Vec4 R)
  statePosteriors : List (Vec4 R)

/-- The class `HMM` with `K = 4`: the transition matrix and the intervals of the
forward (`s = 0`) and of the reverse (`s = 1`) strand. -/
structure HMM (R : Type) where
  transMatrix : Mat4 R
  fwd : List (Interval R)
  rev : List (Interval R)

/-- The table rows the constructor makes for one interval: uniform initial probabilities
`1.0/K`, and tables of the interval's length whose entries `uninit` are not initialised. -/
def Interval.ofObs (uninit : LD R) (o : Observations R) : Interval R where
  obs := o
  initProbs := fun _ => fin 1 / fin 4
  eProbs := List.replicate o.sites.length (fun _ => uninit)
  statePosteriors := List.replicate o.sites.length (fun _ => uninit)

/-- The constructor `HMM::HMM` for `K_ = 4`: every transition probability is `0.25`. -/
def HMM.HMM (uninit : LD R) (setObsF setObsR : List (Observations R)) : HMM R where
  transMatrix := fun _ _ => fin (1 / 4)
  fwd := setObsF.map (Interval.ofObs uninit)
  rev := setObsR.map (Interval.ofObs uninit)

/-! ## Emission probabilities -/

/-- The local variables `g1_d`, `g2_d` of `computeEProb` for `GAMMA2`. -/
def gammaValues (d1 d2 : GAMMA2 R) (o : Obs R) : LD R × LD R :=
  if LD.le d1.tp o.kde then (d1.getDensity o.kde, d2.getDensity o.kde) else (fin 1, fin 0)

/-- The local variables `g1_d`, `g2_d` of `computeEProb` for `GAMMA2_REG`. -/
def gammaValuesReg (ex : R → R) (d1 d2 : GAMMA2_REG R) (o : Obs R) (options : AppOptions R) :
    LD R × LD R :=
  let x := LD.max o.rpkm options.minRPKMtoFit
  let d1_pred := LD.exp ex (d1.b0 + d1.b1 * x)
  let d2_pred := LD.exp ex (d2.b0 + d2.b1 * x)
  if LD.le d1.tp o.kde then
    (d1.getDensity o.kde d1_pred options, d2.getDensity o.kde d2_pred options)
  else (fin 1, fin 0)

/-- The local variables `bin1_d`, `bin2_d` of `computeEProb` for `ZTBIN`. -/
def binValues (bin1 bin2 : ZTBIN R) (o : Obs R) (options : AppOptions R) : LD R × LD R :=
  if 0 < o.truncCount then
    (bin1.getDensity o.truncCount o.nEstimate options,
     bin2.getDensity o.truncCount o.nEstimate options)
  else (fin 1, fin 0)

/-- The four log-probabilities `eProbs[0..3]` computed from the density values. -/
def logEmissions (ln : R → R) (g b : LD R × LD R) : Vec4 R :=
  ![myLog ln g.1 + myLog ln b.1, myLog ln g.1 + myLog ln b.2,
    myLog ln g.2 + myLog ln b.1, myLog ln g.2 + myLog ln b.2]

/-- The part of `computeEProb` common to all density variants: the log-space entries
and the validity check; returns the flag and the stored entry. -/
def eProbFromValues (ln : R → R) (g b : LD R × LD R) : Bool × Vec4 R :=
  let e := logEmissions ln g b
  if LD.eq (g.1 + g.2) (fin 0) || LD.eq (b.1 + b.2) (fin 0) ||
      ((e 0).isnan && (e 1).isnan && (e 2).isnan && (e 3).isnan) then
    (false, ![fin 0, nan, nan, nan])
  else (true, e)

/-- Function `computeEProb` for `GAMMA2` and `ZTBIN`, at the position with observation `o`. -/
def computeEProb (ln : R → R) (d1 d2 : GAMMA2 R) (bin1 bin2 : ZTBIN R) (o : Obs R)
    (options : AppOptions R) : Bool × Vec4 R :=
  eProbFromValues ln (gammaValues d1 d2 o) (binValues bin1 bin2 o options)

/-- Function `computeEProb` for `GAMMA2_REG` and `ZTBIN`, at the position with observation
`o`. -/
def computeEProbReg (ln ex : R → R) (d1 d2 : GAMMA2_REG R) (bin1 bin2 : ZTBIN R) (o : Obs R)
    (options : AppOptions R) : Bool × Vec4 R :=
  eProbFromValues ln (gammaValuesReg ex d1 d2 o options) (binValues bin1 bin2 o options)

/-! ## Forward-backward algorithm parts -/

/-- The local table `logA` of both forward-backward passes: `log(transMatrix[k_1][k_2])`. -/
def logMatrix (ln : R → R) (A : Mat4 R) : Mat4 R := fun k_1 k_2 => LD.log ln (A k_1 k_2)

/-- True when one of the four entries is infinite. -/
def anyInf (v : Vec4 R) : Bool := (v 0).isinf || (v 1).isinf || (v 2).isinf || (v 3).isinf

/-- One row `alphas_1[t]`, `t >= 1`, of `iForward` from the row `alphas_1[t-1]` and the
emission entry `eProbs[s][i][t]`. -/
def forwardStep (lookUp : LD R → LD R → LD R) (logA : Mat4 R) (prev e : Vec4 R) : Vec4 R :=
  fun k => get_logSumExp_states lookUp
    (prev 0 + logA 0 k + e k) (prev 1 + logA 1 k + e k)
    (prev 2 + logA 2 k + e k) (prev 3 + logA 3 k + e k)

/-- The loop `for t = 2:T` of `iForward`: the rows after `prev`, or `none` when an
infinite value made the function return false. -/
def iForwardFrom (lookUp : LD R → LD R → LD R) (logA : Mat4 R) :
    Vec4 R → List (Vec4 R) → Option (List (Vec4 R))
  | _, [] => some []
  | prev, e :: es =>
    if anyInf (forwardStep lookUp logA prev e) then none
    else (iForwardFrom lookUp logA (forwardStep lookUp logA prev e) es).map
      (fun r => forwardStep lookUp logA prev e :: r)

/-- Method `HMM::iForward` for one interval: the table `alphas_1`, or `none` for the result
false.  (On an interval without positions the source writes `alphas_1[0]` out of bounds;
the model returns the empty table.) -/
def iForward (ln : R → R) (lookUp : LD R → LD R → LD R) (logA : Mat4 R) (initProbs : Vec4 R) :
    List (Vec4 R) → Option (List (Vec4 R))
  | [] => some []
  | e :: es =>
    (iForwardFrom lookUp logA (fun k => myLog ln (initProbs k) + e k) es).map
      (fun r => (fun k => myLog ln (initProbs k) + e k) :: r)

/-- One row `betas_1[t]` of `iBackward` from the row `betas_1[t+1]` and the emission
entry `eProbs[s][i][t+1]`. -/
def backwardStep (lookUp : LD R → LD R → LD R) (logA : Mat4 R) (next e : Vec4 R) : Vec4 R :=
  fun k => get_logSumExp_states lookUp
    (next 0 + logA k 0 + e 0) (next 1 + logA k 1 + e 1)
    (next 2 + logA k 2 + e 2) (next 3 + logA k 3 + e 3)

/-- Method `HMM::iBackward` for one interval: the table `betas_1`, or `none` for the result
false.  (On an interval without positions the source writes `betas_1[T - 1]` out of
bounds; the model returns the empty table.) -/
def iBackward (ln : R → R) (lookUp : LD R → LD R → LD R) (logA : Mat4 R) :
    List (Vec4 R) → Option (List (Vec4 R))
  | [] => some []
  | [_] => some [fun _ => LD.log ln (fin 1)]
  | _ :: e :: es =>
    match iBackward ln lookUp logA (e :: es) with
    | some (next :: bs) =>
      if anyInf (backwardStep lookUp logA next e) then none
      else some (backwardStep lookUp logA next e :: next :: bs)
    | _ => none

/-- The state posteriors of one position from `alphas_1[t]` and `betas_1[t]`:
`myExp(alphas_1[t][k] + betas_1[t][k] - norm)`. -/
def posteriorAt (ex : R → R) (lookUp : LD R → LD R → LD R) (a b : Vec4 R) : Vec4 R :=
  fun k => myExp ex (a k + b k -
    get_logSumExp_states lookUp (a 0 + b 0) (a 1 + b 1) (a 2 + b 2) (a 3 + b 3))

/-- The posteriors of all positions of an interval. -/
def posteriors (ex : R → R) (lookUp : LD R → LD R → LD R) (alphas betas : List (Vec4 R)) :
    List (Vec4 R) :=
  List.zipWith (posteriorAt ex lookUp) alphas betas

/-- The update `initProbs[s][i][k] = statePosteriors[s][k][i][0]`. -/
def newInitProbs (old : Vec4 R) : List (Vec4 R) → Vec4 R
  | [] => old
  | p :: _ => p

/-- The body of the interval loop of `computeStatePosteriorsFB`: `none` when `iForward`
or `iBackward` failed (`stop = true; continue`), else the interval with its new
posteriors and initial probabilities. -/
def fbInterval (ln ex : R → R) (lookUp : LD R → LD R → LD R) (logA : Mat4 R)
    (iv : Interval R) : Option (Interval R) :=
  match iForward ln lookUp logA iv.initProbs iv.eProbs with
  | none => none
  | some alphas =>
    match iBackward ln lookUp logA iv.eProbs with
    | none => none
    | some betas =>
      some { iv with
        statePosteriors := posteriors ex lookUp alphas betas
        initProbs := newInitProbs iv.initProbs (posteriors ex lookUp alphas betas) }

/-- Method `HMM::computeStatePosteriorsFB`: the result flag and the engine afterwards.  The
reverse strand is only processed when no interval of the forward strand failed. -/
def computeStatePosteriorsFB (ln ex : R → R) (options : AppOptions R) (h : HMM R) :
    Bool × HMM R :=
  let logA := logMatrix ln h.transMatrix
  let f := fun iv => (fbInterval ln ex options.lookUp logA iv).getD iv
  let failed := fun iv => (fbInterval ln ex options.lookUp logA iv).isNone
  if h.fwd.any failed then (false, { h with fwd := h.fwd.map f })
  else if h.rev.any failed then (false, { h with fwd := h.fwd.map f, rev := h.rev.map f })
  else (true, { h with fwd := h.fwd.map f, rev := h.rev.map f })

/-! ## Forward-backward pass with update of the transition matrix -/

/-- The accumulators `p`, `p_2_2` and `p_2_3` of the transition statistics. -/
structure TransStats (R : Type) where
  p : Mat4 R
  p_2_2 : LD R
  p_2_3 : LD R

/-- All accumulators `0.0`. -/
def TransStats.zero : TransStats R where
  p := fun _ _ => fin 0
  p_2_2 := fin 0
  p_2_3 := fin 0

/-- The accumulation `p[k_1][k_2] += p_i[k_1][k_2]`, `p_2_2 += p_2_2_i`,
`p_2_3 += p_2_3_i`. -/
def TransStats.add (a b : TransStats R) : TransStats R where
  p := fun k_1 k_2 => a.p k_1 k_2 + b.p k_1 k_2
  p_2_2 := a.p_2_2 + b.p_2_2
  p_2_3 := a.p_2_3 + b.p_2_3

/-- The check on a stored posterior: NaN, infinite, below 0 or above 1. -/
def badPosterior (x : LD R) : Bool :=
  x.isnan || x.isinf || LD.lt x (fin 0) || LD.lt (fin 1) x

/-- True when the check fails for one of the four posteriors of a position. -/
def anyBadPosterior (v : Vec4 R) : Bool :=
  badPosterior (v 0) || badPosterior (v 1) || badPosterior (v 2) || badPosterior (v 3)

/-- The table `xis` at position `t >= 1`:
`alphas_1[t-1][k_1] + logA[k_1][k_2] + eProbs[s][i][t][k_2] + betas_1[t][k_2]`. -/
def xiAt (logA : Mat4 R) (aPrev e b : Vec4 R) : Mat4 R :=
  fun k_1 k_2 => aPrev k_1 + logA k_1 k_2 + e k_2 + b k_2

/-- Four steps `norm = get_logSumExp(norm, xis[k_1][k_2], lookUp)` over one row. -/
def lseRow (lookUp : LD R → LD R → LD R) (norm : LD R) (row : Vec4 R) : LD R :=
  get_logSumExp lookUp (get_logSumExp lookUp (get_logSumExp lookUp
    (get_logSumExp lookUp norm (row 0)) (row 1)) (row 2)) (row 3)

/-- The normaliser of `xis`: `get_logSumExp` folded over all sixteen entries, row by
row, starting from the NaN sentinel. -/
def xiNorm (lookUp : LD R → LD R → LD R) (xis : Mat4 R) : LD R :=
  lseRow lookUp (lseRow lookUp (lseRow lookUp (lseRow lookUp nan (xis 0)) (xis 1)) (xis 2))
    (xis 3)

/-- One iteration `t >= 1` of the loop over the `xis`: adds `myExp(xis - norm)` to `p_i`,
and to `p_2_2_i`, `p_2_3_i` when the threshold is enabled and `nEstimates[t]` reaches it. -/
def xiStep (ex : R → R) (options : AppOptions R) (logA : Mat4 R) (acc : TransStats R)
    (aPrev e b : Vec4 R) (o : Obs R) : TransStats R :=
  let xis := xiAt logA aPrev e b
  let norm := xiNorm options.lookUp xis
  let thr := LD.lt (fin 0) options.nThresholdForTransP &&
    LD.le options.nThresholdForTransP o.nEstimate
  { p := fun k_1 k_2 => acc.p k_1 k_2 + myExp ex (xis k_1 k_2 - norm)
    p_2_2 := if thr then acc.p_2_2 + myExp ex (xis 2 2 - norm) else acc.p_2_2
    p_2_3 := if thr then acc.p_2_3 + myExp ex (xis 2 3 - norm) else acc.p_2_3 }

/-- The loop `for t = 1 .. T-1` over the `xis`; the lists are `alphas_1` from `t-1` on,
and `eProbs[s][i]`, `betas_1` and the observations from `t` on. -/
def xiLoop (ex : R → R) (options : AppOptions R) (logA : Mat4 R) :
    TransStats R → List (Vec4 R) → List (Vec4 R) → List (Vec4 R) → List (Obs R) → TransStats R
  | acc, aPrev :: as, e :: es, b :: bs, o :: os =>
    xiLoop ex options logA (xiStep ex options logA acc aPrev e b o) as es bs os
  | acc, _, _, _, _ => acc

/-- What the body of the interval loop of `computeStatePosteriorsFBupdateTrans` yields:
whether it set `stop`, the interval afterwards, and its contribution to the statistics. -/
structure IntervalUpdate (R : Type) where
  stop : Bool
  interval : Interval R
  stats : TransStats R

/-- The body of the interval loop of `computeStatePosteriorsFBupdateTrans`.  A failed
`iForward` or `iBackward` sets `stop` and skips the interval; a posterior failing the
check sets `stop` but the interval is processed to the end. -/
def fbUpdateInterval (ln ex : R → R) (options : AppOptions R) (logA : Mat4 R)
    (iv : Interval R) : IntervalUpdate R :=
  match iForward ln options.lookUp logA iv.initProbs iv.eProbs with
  | none => { stop := true, interval := iv, stats := TransStats.zero }
  | some alphas =>
    match iBackward ln options.lookUp logA iv.eProbs with
    | none => { stop := true, interval := iv, stats := TransStats.zero }
    | some betas =>
      { stop := (posteriors ex options.lookUp alphas betas).any anyBadPosterior
        interval := { iv with
          statePosteriors := posteriors ex options.lookUp alphas betas
          initProbs := newInitProbs iv.initProbs (posteriors ex options.lookUp alphas betas) }
        stats := xiLoop ex options logA TransStats.zero alphas iv.eProbs.tail betas.tail
          iv.obs.sites.tail }

/-- The constant `DBL_MIN` of `<cfloat>`, the smallest positive normalised `double`. -/
def DBL_MIN : R := 1 / 2 ^ 1022

/-- Replaces the entry `A[i][j]` by `v`. -/
def setEntry (A : Mat4 R) (i j : Fin 4) (v : LD R) : Mat4 R :=
  fun k_1 k_2 => if k_1 = i ∧ k_2 = j then v else A k_1 k_2

/-- The normalisation of `p` by row sums with the floor `DBL_MIN` for entries `<= 0`. -/
def normalizeFloor (p : Mat4 R) : Mat4 R :=
  fun k_1 k_2 =>
    if LD.le (p k_1 k_2 / (fin 0 + p k_1 0 + p k_1 1 + p k_1 2 + p k_1 3)) (fin 0) then
      fin DBL_MIN
    else p k_1 k_2 / (fin 0 + p k_1 0 + p k_1 1 + p k_1 2 + p k_1 3)

/-- The overwrite of `A[2][2]` and `A[2][3]` from the threshold-restricted sums, done
when `options.nThresholdForTransP > 0`. -/
def fixTrans23 (options : AppOptions R) (st : TransStats R) (A : Mat4 R) : Mat4 R :=
  if LD.lt (fin 0) options.nThresholdForTransP then
    setEntry (setEntry A 2 2 ((A 2 2 + A 2 3) * st.p_2_2 / (st.p_2_2 + st.p_2_3))) 2 3
      ((A 2 2 + A 2 3) * st.p_2_3 / (st.p_2_2 + st.p_2_3))
  else A

/-- The minimum `options.minTransProbCS` enforced on `A[2][3]` (and, in that case, on
`A[3][3]`). -/
def keepMinTransProbCS (options : AppOptions R) (A : Mat4 R) : Mat4 R :=
  if LD.lt (A 2 3) options.minTransProbCS then
    if LD.lt (A 3 3) options.minTransProbCS then
      setEntry (setEntry A 2 3 options.minTransProbCS) 3 3 options.minTransProbCS
    else setEntry A 2 3 options.minTransProbCS
  else A

/-- The part `update transition matrix` of `computeStatePosteriorsFBupdateTrans`: the
new matrix from the accumulated statistics. -/
def updateTransMatrix (options : AppOptions R) (st : TransStats R) : Mat4 R :=
  keepMinTransProbCS options (fixTrans23 options st (normalizeFloor st.p))

/-- The statistics accumulated over the intervals of one strand, added to `acc`. -/
def strandStats (ln ex : R → R) (options : AppOptions R) (logA : Mat4 R) (acc : TransStats R)
    (ivs : List (Interval R)) : TransStats R :=
  ivs.foldl (fun a iv => a.add (fbUpdateInterval ln ex options logA iv).stats) acc

/-- The accumulators `p`, `p_2_2`, `p_2_3` after the loops over both strands. -/
def accumulatedStats (ln ex : R → R) (options : AppOptions R) (h : HMM R) : TransStats R :=
  strandStats ln ex options (logMatrix ln h.transMatrix)
    (strandStats ln ex options (logMatrix ln h.transMatrix) TransStats.zero h.fwd) h.rev

/-- Method `HMM::computeStatePosteriorsFBupdateTrans`: the result flag and the engine
afterwards.  The transition matrix is assigned only when no interval set `stop`; the
reverse strand is only processed when no interval of the forward strand set it. -/
def computeStatePosteriorsFBupdateTrans (ln ex : R → R) (options : AppOptions R) (h : HMM R) :
    Bool × HMM R :=
  let logA := logMatrix ln h.transMatrix
  let body := fbUpdateInterval ln ex options logA
  let fwd := h.fwd.map (fun iv => (body iv).interval)
  let rev := h.rev.map (fun iv => (body iv).interval)
  if h.fwd.any (fun iv => (body iv).stop) then (false, { h with fwd := fwd })
  else if h.rev.any (fun iv => (body iv).stop) then (false, { h with fwd := fwd, rev := rev })
  else
    (true, { transMatrix := updateTransMatrix options (accumulatedStats ln ex options h),
             fwd := fwd, rev := rev })

/-! ## Viterbi decoding -/

/-- One step of the loop over the predecessors `k_p >= 1` in the recursion of `viterbi`:
the pair `(max_v, max_k)` is replaced when `v > max_v`.  The temporary `v` is declared
`double` (line 1079) while `max_v` and the rows `vits` are `long double`: the sum
`vits[t-1][k_p] + log(transMatrix[k_p][k])` is converted to `double` before it is compared
and stored.  The conversion `toDouble` is a parameter, like `ln`. -/
def predStep (toDouble : LD R → LD R) (ln : R → R) (A : Mat4 R) (prev : Vec4 R) (k : Fin 4)
    (m : LD R × Fin 4) (k_p : Fin 4) : LD R × Fin 4 :=
  if LD.lt m.1 (toDouble (prev k_p + LD.log ln (A k_p k))) then
    (toDouble (prev k_p + LD.log ln (A k_p k)), k_p)
  else m

/-- The pair `(max_v, max_k)` after the loop over the predecessors of state `k`.  The first
value of `max_v` (line 1075) is the `long double` sum for the predecessor 0, which is not
converted. -/
def bestPred (toDouble : LD R → LD R) (ln : R → R) (A : Mat4 R) (prev : Vec4 R) (k : Fin 4) :
    LD R × Fin 4 :=
  predStep toDouble ln A prev k (predStep toDouble ln A prev k (predStep toDouble ln A prev k
    (prev 0 + LD.log ln (A 0 k), 0) 1) 2) 3

/-- The rows `vits[t]` and `track[t]`, `t >= 1`, from the row `vits[t-1]`; the emission
entry enters as `log(eProbs[s][i][t][k])`. -/
def viterbiStep (toDouble : LD R → LD R) (ln : R → R) (A : Mat4 R) (prev e : Vec4 R) :
    Vec4 R × (Fin 4 → Fin 4) :=
  (fun k => (bestPred toDouble ln A prev k).1 + LD.log ln (e k),
    fun k => (bestPred toDouble ln A prev k).2)

/-- The recursion of `viterbi`: the rows `(vits[t], track[t])` for `t = 1 .. T-1`. -/
def viterbiRows (toDouble : LD R → LD R) (ln : R → R) (A : Mat4 R) :
    Vec4 R → List (Vec4 R) → List (Vec4 R × (Fin 4 → Fin 4))
  | _, [] => []
  | prev, e :: es =>
    viterbiStep toDouble ln A prev e ::
      viterbiRows toDouble ln A (viterbiStep toDouble ln A prev e).1 es

/-- One step of the loop over the final states: `(max_v, max_k)` is replaced when
`vits[T-1][k] >= max_v`. -/
def lastStep (v : Vec4 R) (m : LD R × Fin 4) (k : Fin 4) : LD R × Fin 4 :=
  if LD.le m.1 (v k) then (v k, k) else m

/-- The pair `(max_v, max_k)` at the start of the backtracking. -/
def bestLast (v : Vec4 R) : LD R × Fin 4 :=
  lastStep v (lastStep v (lastStep v (v 0, 0) 1) 2) 3

/-- The backtracking `states[t] = track[t+1][states[t+1]]`: from the rows `track[t]`,
`t = 1 .. T-1`, and the state of the last position, the states of all positions. -/
def backtrack : List (Fin 4 → Fin 4) → Fin 4 → List (Fin 4)
  | [], last => [last]
  | tr :: trs, last =>
    match backtrack trs last with
    | [] => []
    | s :: ss => tr s :: s :: ss

/-- The row `vits[0]`: `log(initProbs[s][i][k]) + log(eProbs[s][i][0][k])`. -/
def viterbiInit (ln : R → R) (initProbs e : Vec4 R) : Vec4 R :=
  fun k => LD.log ln (initProbs k) + LD.log ln (e k)

/-- The body of `viterbi` for one interval that is not discarded: the value `max_v`
added to `p` and the decoded states.  (On an interval without positions the source
indexes out of bounds; the model yields `0.0` and no states.) -/
def viterbiInterval (toDouble : LD R → LD R) (ln : R → R) (A : Mat4 R) (iv : Interval R) :
    LD R × List Nat :=
  match iv.eProbs with
  | [] => (fin 0, [])
  | e :: es =>
    let rows := viterbiRows toDouble ln A (viterbiInit ln iv.initProbs e) es
    let vlast := ((rows.map Prod.fst).getLast?).getD (viterbiInit ln iv.initProbs e)
    ((bestLast vlast).1, (backtrack (rows.map Prod.snd) (bestLast vlast).2).map Fin.val)

/-- Function `resize(xs, n)` of a SeqAn string: the first `n` entries, filled up with `d`. -/
def resize {α : Type} (xs : List α) (n : Nat) (d : α) : List α :=
  xs.take n ++ List.replicate (n - xs.length) d

/-- The loop of `viterbi` over the intervals of one strand, whose `states[s]` has been
resized to the number of intervals: discarded intervals are skipped. -/
def viterbiStrand (toDouble : LD R → LD R) (ln : R → R) (A : Mat4 R) :
    LD R → List (Interval R) → List (List Nat) → LD R × List (List Nat)
  | p, iv :: ivs, st :: sts =>
    if iv.obs.discard then
      ((viterbiStrand toDouble ln A p ivs sts).1,
        st :: (viterbiStrand toDouble ln A p ivs sts).2)
    else
      ((viterbiStrand toDouble ln A (p + (viterbiInterval toDouble ln A iv).1) ivs sts).1,
        (viterbiInterval toDouble ln A iv).2 ::
          (viterbiStrand toDouble ln A (p + (viterbiInterval toDouble ln A iv).1) ivs sts).2)
  | p, _, _ => (p, [])

/-- Method `HMM::viterbi`: the returned log-probability `p` and the table `states` (forward
strand, reverse strand) afterwards. -/
def viterbi (toDouble : LD R → LD R) (ln : R → R) (h : HMM R)
    (states : List (List Nat) × List (List Nat)) :
    LD R × (List (List Nat) × List (List Nat)) :=
  let f := viterbiStrand toDouble ln h.transMatrix (fin 0) h.fwd
    (resize states.1 h.fwd.length [])
  let r := viterbiStrand toDouble ln h.transMatrix f.1 h.rev
    (resize states.2 h.rev.length [])
  (r.1, (f.2, r.2))

/-! ## Posterior decoding -/

/-- One step of the loop over the states in `posteriorDecoding`: the pair
`(max_p, max_k)` is replaced when `statePosteriors[s][k][i][t] > max_p`. -/
def postStep (v : Vec4 R) (m : LD R × Fin 4) (k : Fin 4) : LD R × Fin 4 :=
  if LD.lt m.1 (v k) then (v k, k) else m

/-- The state `max_k` that `posteriorDecoding` assigns to a position with the
posteriors `v`: the loop over `k = 0 .. 3` starting from `max_p = 0.0`, `max_k = 0`. -/
def bestPosterior (v : Vec4 R) : Fin 4 :=
  (postStep v (postStep v (postStep v (postStep v (fin 0, 0) 0) 1) 2) 3).2

/-- The loop of `posteriorDecoding` over the intervals of one strand, whose `states[s]`
has been resized to the number of intervals: discarded intervals are skipped. -/
def posteriorDecodingStrand : List (Interval R) → List (List Nat) → List (List Nat)
  | iv :: ivs, st :: sts =>
    if iv.obs.discard then st :: posteriorDecodingStrand ivs sts
    else iv.statePosteriors.map (fun v => (bestPosterior v).val) ::
      posteriorDecodingStrand ivs sts
  | _, _ => []

/-- Method `HMM::posteriorDecoding`: the table `states` (forward strand, reverse strand)
afterwards. -/
def posteriorDecoding (h : HMM R) (states : List (List Nat) × List (List Nat)) :
    List (List Nat) × List (List Nat) :=
  (posteriorDecodingStrand h.fwd (resize states.1 h.fwd.length []),
    posteriorDecodingStrand h.rev (resize states.2 h.rev.length []))

/-! ## Emission probabilities of all intervals -/

/-- What the body of the interval loop of `computeEmissionProbs` yields: whether it set
`stop`, and the interval afterwards. -/
structure EmissionUpdate (R : Type) where
  stop : Bool
  interval : Interval R

/-- The body of the interval loop of `computeEmissionProbs`; `eProb` is `computeEProb` at
the densities and options of the call.  Every position gets its emission entry; a
position with `kdes[t] == 0.0` sets `stop`; an invalid position sets `stop` when
`learning`, and the interval's `discard` flag otherwise. -/
def emissionInterval (eProb : Obs R → Bool × Vec4 R) (learning : Bool) (iv : Interval R) :
    EmissionUpdate R where
  stop := iv.obs.sites.any (fun o => LD.eq o.kde (fin 0)) ||
    (learning && iv.obs.sites.any (fun o => !(eProb o).1))
  interval :=
    { iv with
      eProbs := iv.obs.sites.map (fun o => (eProb o).2)
      obs := if !learning && iv.obs.sites.any (fun o => !(eProb o).1) then
          { iv.obs with discard := true }
        else iv.obs }

/-- Method `HMM::computeEmissionProbs` for densities of the types `G` and `B`:
`computeEProb` is the overload of `computeEProb` that these types select.  The result
flag and the engine afterwards; all intervals of both strands are processed. -/
def computeEmissionProbs {G B : Type}
    (computeEProb : G → G → B → B → Obs R → AppOptions R → Bool × Vec4 R)
    (d1 d2 : G) (bin1 bin2 : B) (learning : Bool) (options : AppOptions R) (h : HMM R) :
    Bool × HMM R :=
  let body := emissionInterval (fun o => computeEProb d1 d2 bin1 bin2 o options) learning
  (!((h.fwd.any (fun iv => (body iv).stop)) || (h.rev.any (fun iv => (body iv).stop))),
    { h with
      fwd := h.fwd.map (fun iv => (body iv).interval)
      rev := h.rev.map (fun iv => (body iv).interval) })

/-- Method `HMM::applyParameters`: the result flag and the engine afterwards. -/
def applyParameters {G B : Type} (ln ex : R → R)
    (computeEProb : G → G → B → B → Obs R → AppOptions R → Bool × Vec4 R)
    (d1 d2 : G) (bin1 bin2 : B) (options : AppOptions R) (h : HMM R) : Bool × HMM R :=
  if (computeEmissionProbs computeEProb d1 d2 bin1 bin2 false options h).1 then
    computeStatePosteriorsFB ln ex options
      (computeEmissionProbs computeEProb d1 d2 bin1 bin2 false options h).2
  else (false, (computeEmissionProbs computeEProb d1 d2 bin1 bin2 false options h).2)

/-! ## Baum-Welch training -/

/-- The options of a training run: `AppOptions` with the field `maxIter_bw` that
`baumWelch` reads and the bounds on the shape parameters that `updateDensityParams2`
passes on. -/
structure BaumWelchOptions (R : Type) extends AppOptions R where
  maxIter_bw : Nat
  g1_kMin : LD R
  g1_kMax : LD R
  g2_kMin : LD R
  g2_kMax : LD R
  g1_k_le_g2_k : Bool

/-- A table with one value per strand, interval and position, as `updateDensityParams`
builds them from the state posteriors. -/
abbrev PosteriorTable (R : Type) := List (List (LD R)) × List (List (LD R))

/-- The observations `setObs` of both strands. -/
abbrev ObsTable (R : Type) := List (Observations R) × List (Observations R)

/-- The functions that the template arguments `TGAMMA` (here `G`) and `TBIN` (here `B`)
select.  `computeEProb` and `updateDensityParams2` are the overloads of `hmm_1.h` for
these types; `updateP`, `checkOrderBin1Bin2` and `checkConvergence` are declared outside
`hmm_1.h`.  An operation that changes an argument passed by reference returns its new
value: `updateDensityParams2` returns its result flag and `d1`, `d2`, `iter`, `trial`. -/
structure DensityOps (R G B : Type) where
  computeEProb : G → G → B → B → Obs R → AppOptions R → Bool × Vec4 R
  updateDensityParams2 : PosteriorTable R → PosteriorTable R → ObsTable R → G → G → Nat → Nat →
    BaumWelchOptions R → Bool × (G × G × Nat × Nat)
  updateP : B → PosteriorTable R → ObsTable R → BaumWelchOptions R → B
  checkOrderBin1Bin2 : B → B → B × B
  checkConvergenceG : G → G → BaumWelchOptions R → Bool
  checkConvergenceB : B → B → BaumWelchOptions R → Bool

/-- The table that `updateDensityParams` builds from the state posteriors with the
function `f` of the four posteriors of a position. -/
def posteriorTable (f : Vec4 R → LD R) (h : HMM R) : PosteriorTable R :=
  (h.fwd.map (fun iv => iv.statePosteriors.map f), h.rev.map (fun iv => iv.statePosteriors.map f))

/-- The observations of the engine, as passed to the density operations. -/
def setObsTable (h : HMM R) : ObsTable R :=
  (h.fwd.map (fun iv => iv.obs), h.rev.map (fun iv => iv.obs))

/-- Method `HMM::updateDensityParams(d1, d2, iter, trial, options)`: the result flag (always
true, the result of `updateDensityParams2` is not read) and `d1`, `d2`, `iter`, `trial`
afterwards. -/
def updateDensityParams {G B : Type} (ops : DensityOps R G B) (h : HMM R) (d1 d2 : G)
    (iter trial : Nat) (options : BaumWelchOptions R) : Bool × (G × G × Nat × Nat) :=
  (true, (ops.updateDensityParams2 (posteriorTable (fun v => v 0 + v 1) h)
    (posteriorTable (fun v => v 2 + v 3) h) (setObsTable h) d1 d2 iter trial options).2)

/-- Method `HMM::updateDensityParams(d1, d2, bin1, bin2, options)`: the result flag (always
true) and `bin1`, `bin2` afterwards. -/
def updateDensityParamsBin {G B : Type} (ops : DensityOps R G B) (h : HMM R) (bin1 bin2 : B)
    (options : BaumWelchOptions R) : Bool × (B × B) :=
  (true, ops.checkOrderBin1Bin2
    (ops.updateP bin1 (posteriorTable (fun v => v 2) h) (setObsTable h) options)
    (ops.updateP bin2 (posteriorTable (fun v => v 3) h) (setObsTable h) options))

/-- The variables of `baumWelch`: the engine, the densities, their snapshots of the
previous iteration and the counter `trial`. -/
structure BWState (R G B : Type) where
  hmm : HMM R
  d1 : G
  d2 : G
  bin1 : B
  bin2 : B
  prev_d1 : G
  prev_d2 : G
  prev_bin1 : B
  prev_bin2 : B
  trial : Nat

/-- How one iteration of the loop of `baumWelch` ends: `return false`, `break` on
convergence, or the end of the loop body with the value of `iter`. -/
inductive BWStep (R G B : Type) where
  | failed (st : BWState R G B) : BWStep R G B
  | converged (st : BWState R G B) : BWStep R G B
  | next (st : BWState R G B) (iter : Nat) : BWStep R G B

/-- The end of the loop body of `baumWelch`, after the update of the density
parameters: the convergence checks and the snapshots. -/
def bwConvergence {G B : Type} (ops : DensityOps R G B) (learnTag : String)
    (options : BaumWelchOptions R) (iter : Nat) (st : BWState R G B) : BWStep R G B :=
  if learnTag == "LEARN_GAMMA" && ops.checkConvergenceG st.d1 st.prev_d1 options &&
      ops.checkConvergenceG st.d2 st.prev_d2 options then
    BWStep.converged st
  else if learnTag != "LEARN_GAMMA" && ops.checkConvergenceB st.bin1 st.prev_bin1 options &&
      ops.checkConvergenceB st.bin2 st.prev_bin2 options then
    BWStep.converged st
  else
    BWStep.next { st with prev_d1 := st.d1, prev_d2 := st.d2, prev_bin1 := st.bin1,
                          prev_bin2 := st.bin2 } iter

/-- The part of the loop body of `baumWelch` after the forward-backward pass: the update
of the density parameters that `learnTag` selects, the check of the retry budget
`trial > 10`, and the end of the body. -/
def bwUpdate {G B : Type} (ops : DensityOps R G B) (learnTag : String)
    (options : BaumWelchOptions R) (iter : Nat) (st : BWState R G B) : BWStep R G B :=
  if learnTag == "LEARN_BINOMIAL" then
    if (updateDensityParamsBin ops st.hmm st.bin1 st.bin2 options).1 then
      bwConvergence ops learnTag options iter
        { st with bin1 := (updateDensityParamsBin ops st.hmm st.bin1 st.bin2 options).2.1,
                  bin2 := (updateDensityParamsBin ops st.hmm st.bin1 st.bin2 options).2.2 }
    else BWStep.failed st
  else
    if (updateDensityParams ops st.hmm st.d1 st.d2 iter st.trial options).1 then
      if 10 < (updateDensityParams ops st.hmm st.d1 st.d2 iter st.trial options).2.2.2.2 then
        BWStep.failed
          { st with d1 := (updateDensityParams ops st.hmm st.d1 st.d2 iter st.trial options).2.1,
                    d2 := (updateDensityParams ops st.hmm st.d1 st.d2 iter st.trial options).2.2.1,
                    trial :=
                      (updateDensityParams ops st.hmm st.d1 st.d2 iter st.trial options).2.2.2.2 }
      else
        bwConvergence ops learnTag options
          (updateDensityParams ops st.hmm st.d1 st.d2 iter st.trial options).2.2.2.1
          { st with d1 := (updateDensityParams ops st.hmm st.d1 st.d2 iter st.trial options).2.1,
                    d2 := (updateDensityParams ops st.hmm st.d1 st.d2 iter st.trial options).2.2.1,
                    trial :=
                      (updateDensityParams ops st.hmm st.d1 st.d2 iter st.trial options).2.2.2.2 }
    else BWStep.failed st

/-- The loop body of `baumWelch` at the value `iter` of the loop variable:
`computeEmissionProbs` in training mode, then `computeStatePosteriorsFBupdateTrans`, then
the update of the density parameters; a failed call ends the run with `return false`. -/
def bwIteration {G B : Type} (ln ex : R → R) (ops : DensityOps R G B) (learnTag : String)
    (options : BaumWelchOptions R) (iter : Nat) (st : BWState R G B) : BWStep R G B :=
  if (computeEmissionProbs ops.computeEProb st.d1 st.d2 st.bin1 st.bin2 true
      options.toAppOptions st.hmm).1 then
    if (computeStatePosteriorsFBupdateTrans ln ex options.toAppOptions
        (computeEmissionProbs ops.computeEProb st.d1 st.d2 st.bin1 st.bin2 true
          options.toAppOptions st.hmm).2).1 then
      bwUpdate ops learnTag options iter
        { st with hmm := (computeStatePosteriorsFBupdateTrans ln ex options.toAppOptions
            (computeEmissionProbs ops.computeEProb st.d1 st.d2 st.bin1 st.bin2 true
              options.toAppOptions st.hmm).2).2 }
    else
      BWStep.failed
        { st with hmm := (computeStatePosteriorsFBupdateTrans ln ex options.toAppOptions
            (computeEmissionProbs ops.computeEProb st.d1 st.d2 st.bin1 st.bin2 true
              options.toAppOptions st.hmm).2).2 }
  else
    BWStep.failed
      { st with hmm := (computeEmissionProbs ops.computeEProb st.d1 st.d2 st.bin1 st.bin2 true
          options.toAppOptions st.hmm).2 }

/-- The loop `for (iter = 0; iter < options.maxIter_bw; ++iter)` of `baumWelch` from the
value `iter` on.  The density update receives `iter` by reference, so the loop need not
end: `fuel` bounds the number of iterations, and `none` is a run that did not end within
it. -/
def baumWelchLoop {G B : Type} (ln ex : R → R) (ops : DensityOps R G B) (learnTag : String)
    (options : BaumWelchOptions R) : Nat → Nat → BWState R G B → Option (Bool × BWState R G B)
  | 0, _, _ => none
  | fuel + 1, iter, st =>
    if iter < options.maxIter_bw then
      match bwIteration ln ex ops learnTag options iter st with
      | BWStep.failed st_1 => some (false, st_1)
      | BWStep.converged st_1 => some (true, st_1)
      | BWStep.next st_1 iter_1 => baumWelchLoop ln ex ops learnTag options fuel (iter_1 + 1) st_1
    else some (true, st)

/-- Method `HMM::baumWelch`: the result flag and the engine and densities afterwards, or
`none` when the run did not end within `fuel` iterations. -/
def baumWelch {G B : Type} (ln ex : R → R) (ops : DensityOps R G B) (fuel : Nat) (d1 d2 : G)
    (bin1 bin2 : B) (learnTag : String) (options : BaumWelchOptions R) (h : HMM R) :
    Option (Bool × BWState R G B) :=
  baumWelchLoop ln ex ops learnTag options fuel 0
    { hmm := h, d1 := d1, d2 := d2, bin1 := bin1, bin2 := bin2, prev_d1 := d1, prev_d2 := d2,
      prev_bin1 := bin1, prev_bin2 := bin2, trial := 0 }

/-! ## Update of the coverage densities -/

/-- The operations of the coverage density `GAMMA2` that the training uses (declared
outside `hmm_1.h`): `d.updateThetaAndK(statePosteriors, setObs, kMin, kMax, options)`,
which returns its result flag and the density afterwards, and
`checkOrderG1G2(d1, d2, options)`, which returns both densities afterwards. -/
structure GammaOps (R : Type) where
  updateThetaAndK : GAMMA2 R → PosteriorTable R → ObsTable R → LD R → LD R →
    BaumWelchOptions R → Bool × GAMMA2 R
  checkOrderG1G2 : GAMMA2 R → GAMMA2 R → BaumWelchOptions R → GAMMA2 R × GAMMA2 R

/-- Function `updateDensityParams2` for `GAMMA2`: the result flag and `d1`, `d2`, `iter`,
`trial` afterwards. -/
def updateDensityParams2 (gops : GammaOps R) (statePosteriors1 statePosteriors2 : PosteriorTable R)
    (setObs : ObsTable R) (d1 d2 : GAMMA2 R) (iter trial : Nat) (options : BaumWelchOptions R) :
    Bool × (GAMMA2 R × GAMMA2 R × Nat × Nat) :=
  if (gops.updateThetaAndK d1 statePosteriors1 setObs options.g1_kMin options.g1_kMax
      options).1 then
    if (gops.updateThetaAndK d2 statePosteriors2 setObs options.g2_kMin options.g2_kMax
        options).1 then
      (true,
        ((gops.checkOrderG1G2
          (gops.updateThetaAndK d1 statePosteriors1 setObs options.g1_kMin options.g1_kMax
            options).2
          (gops.updateThetaAndK d2 statePosteriors2 setObs options.g2_kMin options.g2_kMax
            options).2 options).1,
        (gops.checkOrderG1G2
          (gops.updateThetaAndK d1 statePosteriors1 setObs options.g1_kMin options.g1_kMax
            options).2
          (gops.updateThetaAndK d2 statePosteriors2 setObs options.g2_kMin options.g2_kMax
            options).2 options).2, iter, trial))
    else
      (false,
        ((gops.updateThetaAndK d1 statePosteriors1 setObs options.g1_kMin options.g1_kMax
          options).2,
        (gops.updateThetaAndK d2 statePosteriors2 setObs options.g2_kMin options.g2_kMax
          options).2, iter, trial))
  else
    (false,
      ((gops.updateThetaAndK d1 statePosteriors1 setObs options.g1_kMin options.g1_kMax
        options).2, d2, iter, trial))

/-- The operations of the coverage density `GAMMA2_REG` that the training uses (declared
outside `hmm_1.h`): the member `k`, `d.updateRegCoeffsAndK(statePosteriors, setObs, kMin,
kMax, options)`, and `checkOrderG1G2(d1, d2, iter, trial, options)`, which returns `d1`,
`d2`, `iter`, `trial` afterwards. -/
structure GammaRegOps (R : Type) where
  k : GAMMA2_REG R → LD R
  updateRegCoeffsAndK : GAMMA2_REG R → PosteriorTable R → ObsTable R → LD R → LD R →
    BaumWelchOptions R → Bool × GAMMA2_REG R
  checkOrderG1G2 : GAMMA2_REG R → GAMMA2_REG R → Nat → Nat → BaumWelchOptions R →
    GAMMA2_REG R × GAMMA2_REG R × Nat × Nat

/-- The local variable `g2_kMin` of `updateDensityParams2` for `GAMMA2_REG`; `d1` is the
first density after its update. -/
def g2_kMin_reg (gops : GammaRegOps R) (d1 : GAMMA2_REG R) (options : BaumWelchOptions R) :
    LD R :=
  if options.g1_k_le_g2_k then LD.max (gops.k d1) options.g2_kMin else options.g2_kMin

/-- Function `updateDensityParams2` for `GAMMA2_REG`: the result flag and `d1`, `d2`,
`iter`, `trial` afterwards. -/
def updateDensityParams2Reg (gops : GammaRegOps R)
    (statePosteriors1 statePosteriors2 : PosteriorTable R) (setObs : ObsTable R)
    (d1 d2 : GAMMA2_REG R) (iter trial : Nat) (options : BaumWelchOptions R) :
    Bool × (GAMMA2_REG R × GAMMA2_REG R × Nat × Nat) :=
  if (gops.updateRegCoeffsAndK d1 statePosteriors1 setObs options.g1_kMin options.g1_kMax
      options).1 then
    if (gops.updateRegCoeffsAndK d2 statePosteriors2 setObs
        (g2_kMin_reg gops (gops.updateRegCoeffsAndK d1 statePosteriors1 setObs options.g1_kMin
          options.g1_kMax options).2 options) options.g2_kMax options).1 then
      (true, gops.checkOrderG1G2
        (gops.updateRegCoeffsAndK d1 statePosteriors1 setObs options.g1_kMin options.g1_kMax
          options).2
        (gops.updateRegCoeffsAndK d2 statePosteriors2 setObs
          (g2_kMin_reg gops (gops.updateRegCoeffsAndK d1 statePosteriors1 setObs
            options.g1_kMin options.g1_kMax options).2 options) options.g2_kMax options).2
        iter trial options)
    else
      (false,
        ((gops.updateRegCoeffsAndK d1 statePosteriors1 setObs options.g1_kMin options.g1_kMax
          options).2,
        (gops.updateRegCoeffsAndK d2 statePosteriors2 setObs
          (g2_kMin_reg gops (gops.updateRegCoeffsAndK d1 statePosteriors1 setObs
            options.g1_kMin options.g1_kMax options).2 options) options.g2_kMax options).2,
        iter, trial))
  else
    (false,
      ((gops.updateRegCoeffsAndK d1 statePosteriors1 setObs options.g1_kMin options.g1_kMax
        options).2, d2, iter, trial))

/-! ## Removal of border artifacts -/

/-- The loop over the positions of one interval in `rmBoarderArtifacts2` for
`GAMMA2_REG`: a state `>= 2` at a position whose coverage estimate is below
`exp(b0 + b1 * rpkms[t])` is lowered by 2.  (The source indexes `states[s][i][t]` for every
position of the interval; the model stops where one of the two lists ends.) -/
def rmPositions (ex : R → R) (g1 : GAMMA2_REG R) : List (Obs R) → List Nat → List Nat
  | o :: os, st :: sts =>
    (if 2 ≤ st ∧ LD.lt o.kde (LD.exp ex (g1.b0 + g1.b1 * o.rpkm)) = true then st - 2 else st) ::
      rmPositions ex g1 os sts
  | _, sts => sts

/-- The loop over the intervals of one strand in `rmBoarderArtifacts2` for `GAMMA2_REG`:
discarded intervals are skipped. -/
def rmIntervals (ex : R → R) (g1 : GAMMA2_REG R) :
    List (Observations R) → List (List Nat) → List (List Nat)
  | o :: os, st :: sts =>
    (if o.discard then st else rmPositions ex g1 o.sites st) :: rmIntervals ex g1 os sts
  | _, sts => sts

/-- Function `rmBoarderArtifacts2` for `GAMMA2_REG`: the table `states` afterwards. -/
def rmBoarderArtifacts2Reg (ex : R → R) (states : List (List Nat) × List (List Nat))
    (setObs : ObsTable R) (g1 : GAMMA2_REG R) : List (List Nat) × List (List Nat) :=
  (rmIntervals ex g1 setObs.1 states.1, rmIntervals ex g1 setObs.2 states.2)

/-- Function `rmBoarderArtifacts2` for `GAMMA2`, whose body is empty: the table `states`
afterwards. -/
def rmBoarderArtifacts2 (states : List (List Nat) × List (List Nat)) (_setObs : ObsTable R)
    (_g1 : GAMMA2 R) : List (List Nat) × List (List Nat) :=
  states

/-- Method `HMM::rmBoarderArtifacts` for `TGAMMA = GAMMA2_REG`. -/
def rmBoarderArtifactsReg (ex : R → R) (h : HMM R) (states : List (List Nat) × List (List Nat))
    (g1 : GAMMA2_REG R) : List (List Nat) × List (List Nat) :=
  rmBoarderArtifacts2Reg ex states (setObsTable h) g1

/-- Method `HMM::rmBoarderArtifacts` for `TGAMMA = GAMMA2`. -/
def rmBoarderArtifacts (h : HMM R) (states : List (List Nat) × List (List Nat))
    (g1 : GAMMA2 R) : List (List Nat) × List (List Nat) :=
  rmBoarderArtifacts2 states (setObsTable h) g1

/-! ## Region records -/

/-- The constant `LDBL_MIN` of `<cfloat>` for the 80-bit extended format, the smallest
positive normalised `long double`. -/
def LDBL_MIN : R := 1 / 2 ^ 16382

/-- A record `BedRecord<Bed6>` with the fields that `writeRegions` assigns. -/
structure BedRecord where
  ref : String
  beginPos : Int
  endPos : Int
  name : String
  score : String
  strand : Char

/-- What `writeRegions` reads besides the tables of the intervals: the fields
`useHighPrecision`, `crosslinkAtTruncSite` and `distMerge` of `AppOptions`, the name
`store.contigNameStore[contigId]` and the length of `store.contigStore[contigId].seq`, and
the output operators of `std::stringstream` for a `double` and for a `long double`. -/
structure RegionEnv (R : Type) where
  useHighPrecision : Bool
  crosslinkAtTruncSite : Bool
  distMerge : Nat
  contigName : String
  contigLength : Nat
  showDouble : LD R → String
  showLongDouble : LD R → String

/-- The tables of `Data` (declared outside `hmm_1.h`) for one interval `(s, i)`: the flag
`setObs[s][i].discard`, `setPos[s][i]`, `states[s][i]` and the rows
`statePosteriors[s][.][i]`. -/
structure DataInterval (R : Type) where
  discard : Bool
  setPos : Nat
  states : List Nat
  statePosteriors : List (Vec4 R)

/-- The intervals of `Data` on the forward (`s = 0`) and on the reverse (`s = 1`)
strand. -/
structure Data (R : Type) where
  fwd : List (DataInterval R)
  rev : List (DataInterval R)

/-- The local variable `min_val` of `writeRegions`. -/
def min_val (env : RegionEnv R) : LD R :=
  if !env.useHighPrecision then fin DBL_MIN else fin LDBL_MIN

/-- One step of the loop over `k` that computes `secondBest` for a position with the
state `state` and the posteriors `post`. -/
def secondBestStep (state : Nat) (post : Vec4 R) (sb : LD R) (k : Fin 4) : LD R :=
  if k.val ≠ state ∧ LD.lt sb (post k) = true then post k else sb

/-- The local variable `secondBest` after the loop over `k = 0 .. 3`, starting from
`0.0`. -/
def secondBest (state : Nat) (post : Vec4 R) : LD R :=
  secondBestStep state post (secondBestStep state post (secondBestStep state post
    (secondBestStep state post (fin 0) 0) 1) 2) 3

/-- The log posterior-probability ratio score
`log(statePosteriors[state] / std::max(secondBest, min_val))` of a position. -/
def ratioScore (ln : R → R) (env : RegionEnv R) (state : Fin 4) (post : Vec4 R) : LD R :=
  LD.log ln (post state / LD.max (secondBest state.val post) (min_val env))

/-- The value that `writeRegions` assigns to `record.beginPos` at position `t` of an
interval of strand `s` (true for the reverse strand). -/
def siteBegin (env : RegionEnv R) (s : Bool) (setPos t : Nat) : Int :=
  if s then
    if !env.crosslinkAtTruncSite then (env.contigLength : Int) - ((t : Int) + setPos)
    else (env.contigLength : Int) - ((t : Int) + setPos) - 1
  else
    if !env.crosslinkAtTruncSite then (t : Int) + setPos - 1 else (t : Int) + setPos

/-- The variables of a region that `writeRegions` is building: the positions of the
record, `scoresSum`, the contents of `ss_indivScores`, and `prev_cs`. -/
structure OpenRegion (R : Type) where
  beginPos : Int
  endPos : Int
  scoresSum : LD R
  indivScores : String
  prev_cs : Nat

/-- The region started at the crosslink position `t` with the posteriors `post`. -/
def startRegion (ln : R → R) (env : RegionEnv R) (s : Bool) (setPos t : Nat) (post : Vec4 R) :
    OpenRegion R where
  beginPos := siteBegin env s setPos t
  endPos := siteBegin env s setPos t + 1
  scoresSum := ratioScore ln env 3 post
  indivScores := env.showDouble (ratioScore ln env 3 post) ++ ";"
  prev_cs := t

/-- The body of `if (data.states[s][i][t] == 3)` in the inner loop of `writeRegions`: the
region extended by the crosslink position `t`. -/
def extendRegion (ln : R → R) (env : RegionEnv R) (s : Bool) (setPos : Nat) (r : OpenRegion R)
    (t : Nat) (post : Vec4 R) : OpenRegion R where
  beginPos := if s then siteBegin env s setPos t else r.beginPos
  endPos :=
    if s then r.endPos
    else if !env.crosslinkAtTruncSite then (t : Int) + setPos else (t : Int) + setPos + 1
  scoresSum := r.scoresSum + ratioScore ln env 3 post
  indivScores := r.indivScores ++ (env.showDouble (ratioScore ln env 3 post) ++ ";")
  prev_cs := t

/-- The record appended for a region when the inner loop of `writeRegions` has ended. -/
def closeRegion (env : RegionEnv R) (s : Bool) (r : OpenRegion R) : BedRecord where
  ref := env.contigName
  beginPos := r.beginPos
  endPos := r.endPos
  name := r.indivScores
  score := env.showLongDouble r.scoresSum
  strand := if s then '-' else '+'

/-- The loops of `writeRegions` over the positions of one interval that is not
discarded, from position `t` on; `states` are the states from `t` on and `post t` are the
posteriors of position `t`.  The first argument is `none` in the outer loop and the region
being built in the inner loop, whose condition `(t+1-prev_cs) <= options.distMerge` is the
test `t - prev_cs <= distMerge` on the position `t` to be read next. -/
def regionScan (ln : R → R) (env : RegionEnv R) (s : Bool) (setPos : Nat) (post : Nat → Vec4 R) :
    Option (OpenRegion R) → Nat → List Nat → List BedRecord
  | none, _, [] => []
  | some r, _, [] => [closeRegion env s r]
  | none, t, x :: xs =>
    if x = 3 then
      regionScan ln env s setPos post (some (startRegion ln env s setPos t (post t))) (t + 1) xs
    else regionScan ln env s setPos post none (t + 1) xs
  | some r, t, x :: xs =>
    if t - r.prev_cs ≤ env.distMerge then
      if x = 3 then
        regionScan ln env s setPos post (some (extendRegion ln env s setPos r t (post t)))
          (t + 1) xs
      else regionScan ln env s setPos post (some r) (t + 1) xs
    else
      closeRegion env s r ::
        (if x = 3 then
          regionScan ln env s setPos post (some (startRegion ln env s setPos t (post t)))
            (t + 1) xs
        else regionScan ln env s setPos post none (t + 1) xs)

/-- The posteriors `statePosteriors[s][.][i][t]` of position `t` of an interval.  (The
source indexes the table for every position of `states[s][i]`; the model yields NaN where
the table has no entry.) -/
def posteriorsAt (iv : DataInterval R) (t : Nat) : Vec4 R :=
  iv.statePosteriors.getD t (fun _ => nan)

/-- The records that `writeRegions` appends for one interval of strand `s`. -/
def writeRegionsInterval (ln : R → R) (env : RegionEnv R) (s : Bool) (iv : DataInterval R) :
    List BedRecord :=
  if iv.discard then []
  else regionScan ln env s iv.setPos (posteriorsAt iv) none 0 iv.states

/-- Function `writeRegions`: the string `bedRecords_regions` afterwards. -/
def writeRegions (ln : R → R) (env : RegionEnv R) (bedRecords_regions : List BedRecord)
    (data : Data R) : List BedRecord :=
  bedRecords_regions ++ (data.fwd.map (writeRegionsInterval ln env false)).flatten ++
    (data.rev.map (writeRegionsInterval ln env true)).flatten

/-! ## Variables shared between the workers of the parallel interval loops -/

/-- A statement of the interval loops of `computeStatePosteriorsFBupdateTrans` and
`computeEmissionProbs` (run by parallel workers when `HMM_PARALLEL` is set) that writes a
variable declared outside the loop body: `p[k_1][k_2] += x`, `p_2_2 += x`, `p_2_3 += x`,
or `stop = true`. -/
inductive SharedUpdate (R : Type) where
  | addP (k_1 k_2 : Fin 4) (x : LD R) : SharedUpdate R
  | addP22 (x : LD R) : SharedUpdate R
  | addP23 (x : LD R) : SharedUpdate R
  | setStop : SharedUpdate R

/-- An executed write to a shared variable, and whether its statement stands under
`SEQAN_OMP_PRAGMA(critical)`. -/
structure SharedWrite (R : Type) where
  update : SharedUpdate R
  critical : Bool

/-- The shared variables of an interval loop: the accumulators `p`, `p_2_2`, `p_2_3` and
the flag `stop`. -/
structure SharedVars (R : Type) where
  stats : TransStats R
  stop : Bool

/-- The effect of one write on the shared variables. -/
def SharedVars.write (v : SharedVars R) (w : SharedWrite R) : SharedVars R :=
  match w.update with
  | SharedUpdate.addP k_1 k_2 x =>
    { v with stats := { v.stats with p := setEntry v.stats.p k_1 k_2 (v.stats.p k_1 k_2 + x) } }
  | SharedUpdate.addP22 x => { v with stats := { v.stats with p_2_2 := v.stats.p_2_2 + x } }
  | SharedUpdate.addP23 x => { v with stats := { v.stats with p_2_3 := v.stats.p_2_3 + x } }
  | SharedUpdate.setStop => { v with stop := true }

/-- The pairs `(k_1, k_2)` in the order of the loops `for k_1`, `for k_2`. -/
def statePairs : List (Fin 4 × Fin 4) :=
  [(0, 0), (0, 1), (0, 2), (0, 3), (1, 0), (1, 1), (1, 2), (1, 3),
   (2, 0), (2, 1), (2, 2), (2, 3), (3, 0), (3, 1), (3, 2), (3, 3)]

/-- The writes `stop = true` of the loop over `k` at a position with the posteriors `v`
(line 669, not under `critical`): one for each state whose posterior fails the check. -/
def badPosteriorWrites (v : Vec4 R) : List (SharedWrite R) :=
  (([0, 1, 2, 3] : List (Fin 4)).filter (fun k => badPosterior (v k))).map
    (fun _ => ⟨SharedUpdate.setStop, false⟩)

/-- The writes to shared variables that the body of the interval loop of
`computeStatePosteriorsFBupdateTrans` executes for one interval, in program order:
`stop = true` after a failed `iForward` (line 633) or `iBackward` (line 645), neither
under `critical`; else the writes `stop = true` of the posterior check, then
`p[k_1][k_2] += p_i[k_1][k_2]` (line 718), `p_2_2 += p_2_2_i` (line 721) and
`p_2_3 += p_2_3_i` (line 723), each under `critical`. -/
def fbUpdateWrites (ln ex : R → R) (options : AppOptions R) (logA : Mat4 R)
    (iv : Interval R) : List (SharedWrite R) :=
  match iForward ln options.lookUp logA iv.initProbs iv.eProbs with
  | none => [⟨SharedUpdate.setStop, false⟩]
  | some alphas =>
    match iBackward ln options.lookUp logA iv.eProbs with
    | none => [⟨SharedUpdate.setStop, false⟩]
    | some betas =>
      (posteriors ex options.lookUp alphas betas).flatMap badPosteriorWrites ++
      statePairs.map (fun kk => ⟨SharedUpdate.addP kk.1 kk.2
        ((xiLoop ex options logA TransStats.zero alphas iv.eProbs.tail betas.tail
          iv.obs.sites.tail).p kk.1 kk.2), true⟩) ++
      [⟨SharedUpdate.addP22 (xiLoop ex options logA TransStats.zero alphas iv.eProbs.tail
          betas.tail iv.obs.sites.tail).p_2_2, true⟩,
       ⟨SharedUpdate.addP23 (xiLoop ex options logA TransStats.zero alphas iv.eProbs.tail
          betas.tail iv.obs.sites.tail).p_2_3, true⟩]

/-- The writes to the shared flag `stop` that the body of the interval loop of
`computeEmissionProbs` executes for one interval, in program order: `stop = true` under
`critical` for each position with `kdes[t] == 0.0` (line 457), then `stop = true` not
under `critical` when `learning && discardInterval` (line 478). -/
def emissionWrites (eProb : Obs R → Bool × Vec4 R) (learning : Bool) (iv : Interval R) :
    List (SharedWrite R) :=
  (iv.obs.sites.filter (fun o => LD.eq o.kde (fin 0))).map
      (fun _ => ⟨SharedUpdate.setStop, true⟩) ++
    (if learning && iv.obs.sites.any (fun o => !(eProb o).1) then
      [⟨SharedUpdate.setStop, false⟩] else [])

/-! ## Spec-side vocabulary -/

/-- The state index `2 * e + c` of enrichment bit `e` and crosslink bit `c`. -/
def stateIndex (e c : Fin 2) : Fin 4 := ⟨2 * e.val + c.val, by omega⟩

/-- The component of a pair of density values selected by a bit. -/
def pick {α : Type} (p : α × α) (b : Fin 2) : α := if b = 0 then p.1 else p.2

/-- A value that is a finite number or the NaN sentinel (a log-space value). -/
def LD.IsLogValue {R : Type} (x : LD R) : Prop := x = nan ∨ ∃ r, x = fin r

/-- The probability that a log-space value stands for: `e^x` for a finite `x`, and `0`
for the NaN sentinel. -/
def linear {R : Type} [Zero R] (ex : R → R) : LD R → R
  | fin x => ex x
  | _ => 0

/-- An exact log-sum-exp on finite operands: `lookUp a b = log (e^a + e^b)`. -/
def ExactLogSumExp (lookUp : LD ℝ → LD ℝ → LD ℝ) : Prop :=
  ∀ a b : ℝ, lookUp (fin a) (fin b) = fin (Real.log (Real.exp a + Real.exp b))

/-- The emission entry of a position at which only state `a` is possible: the finite
log-probability `x` for `a`, the NaN sentinel for the other states. -/
def only {R : Type} (a : Fin 4) (x : R) : Vec4 R := fun k => if k = a then fin x else nan

/-- An interval of two positions with trial estimate `n` at which only state `a`, then
only state `b` is possible (each with log-probability `0`), with the uniform initial
probabilities of the constructor; the truncation count of a position is the crosslink
bit of its state. -/
def twoSiteInterval {R : Type} [LinearOrderedField R] (a b : Fin 4) (n : R) : Interval R where
  obs := ⟨[⟨fin 1, a.val % 2, fin n, fin 0⟩, ⟨fin 1, b.val % 2, fin n, fin 0⟩], false⟩
  initProbs := fun _ => fin (1 / 4)
  eProbs := [only a 0, only b 0]
  statePosteriors := [fun _ => fin 0, fun _ => fin 0]

/-- The joint log-probability of the states `z_t, z_(t+1), ...` after the state `z_p`:
the sum of `log transition[z_p][z_t] + emission[t][z_t]` along the sequence. -/
def jointLogProbFrom {R : Type} [LinearOrderedField R] (ln : R → R) (A : Mat4 R) :
    Fin 4 → List (Vec4 R) → List (Fin 4) → LD R
  | z_p, e :: es, z :: zs => LD.log ln (A z_p z) + e z + jointLogProbFrom ln A z es zs
  | _, _, _ => fin 0

/-- The joint log-probability of a state sequence `z_1 .. z_T` and the observations, as
the spec states it: `log init[z_1] + emission[1][z_1]` plus the sum over `t >= 2` of
`log transition[z_(t-1)][z_t] + emission[t][z_t]`, the emission being the log-probability
stored in the emission table. -/
def jointLogProb {R : Type} [LinearOrderedField R] (ln : R → R) (init : Vec4 R) (A : Mat4 R) :
    List (Vec4 R) → List (Fin 4) → LD R
  | e :: es, z :: zs => LD.log ln (init z) + e z + jointLogProbFrom ln A z es zs
  | _, _ => fin 0

/-- The sum of a row of a transition matrix. -/
def rowSum {R : Type} [LinearOrderedField R] (v : Vec4 R) : LD R := v 0 + v 1 + v 2 + v 3

/-- The value `vits[t-1][k_p] + log(transMatrix[k_p][k])` of the predecessor `k_p` of state
`k` in the recursion of `viterbi`; `prev` is the row `vits[t-1]`. -/
def candidate {R : Type} [LinearOrderedField R] (ln : R → R) (A : Mat4 R) (prev : Vec4 R)
    (k : Fin 4) : Vec4 R :=
  fun k_p => prev k_p + LD.log ln (A k_p k)

/-- The value that the recursion of `viterbi` compares and stores for the predecessor `k_p`
of state `k`: the `long double` sum itself for `k_p = 0` (the first value of `max_v`), the
sum converted to `double` (the temporary `v`) for the other predecessors. -/
def compared {R : Type} [LinearOrderedField R] (toDouble : LD R → LD R) (ln : R → R)
    (A : Mat4 R) (prev : Vec4 R) (k : Fin 4) : Vec4 R :=
  fun k_p => if k_p = 0 then candidate ln A prev k 0 else toDouble (candidate ln A prev k k_p)

/-- The rows `vits[0], vits[1], ..` of `viterbi` for an interval with the row `vits[0] = v0`
and the emission entries `es` of the positions after the first. -/
def vitsTable {R : Type} [LinearOrderedField R] (toDouble : LD R → LD R) (ln : R → R)
    (A : Mat4 R) (v0 : Vec4 R) (es : List (Vec4 R)) : List (Vec4 R) :=
  v0 :: (viterbiRows toDouble ln A v0 es).map Prod.fst

/-- The rows `track[1], track[2], ..` of `viterbi` for the same interval: the entry `t` of
this list is the row `track[t+1]`. -/
def trackTable {R : Type} [LinearOrderedField R] (toDouble : LD R → LD R) (ln : R → R)
    (A : Mat4 R) (v0 : Vec4 R) (es : List (Vec4 R)) : List (Fin 4 → Fin 4) :=
  (viterbiRows toDouble ln A v0 es).map Prod.snd

/-- The state `(max_p, max_k)` of the scan of `posteriorDecoding` after the states below
`n`: either no posterior seen is `> 0` and the pair is still `(0.0, 0)`, or `max_k` is the
lowest-indexed state with the greatest posterior seen, that posterior is `> 0`, and
`max_p` is its value. -/
def PosteriorScan {R : Type} [LinearOrderedField R] (v : Vec4 R) (n : Nat) (m : LD R × Fin 4) :
    Prop :=
  (m = (fin 0, 0) ∧ ∀ j : Fin 4, j.val < n → LD.lt (fin 0) (v j) = false) ∨
  (m.1 = v m.2 ∧ m.2.val < n ∧ LD.lt (fin 0) (v m.2) = true ∧
    (∀ j : Fin 4, j.val < n → LD.lt (v m.2) (v j) = false) ∧
    (∀ j : Fin 4, j < m.2 → LD.le (v m.2) (v j) = false) ∧
    (∀ j : Fin 4, j.val < n → v j ≠ nan → LD.le (v j) (v m.2) = true))

/-- The discard flags of `h_1` are those of `h` or more: the strands have the same numbers
of intervals, and an interval that is discarded in `h` is discarded in `h_1`. -/
def DiscardMonotone {R : Type} (h h_1 : HMM R) : Prop :=
  List.Forall₂ (fun iv iv_1 => iv.obs.discard = true → iv_1.obs.discard = true) h.fwd h_1.fwd ∧
  List.Forall₂ (fun iv iv_1 => iv.obs.discard = true → iv_1.obs.discard = true) h.rev h_1.rev

/-- The positions with state 3 among the states `states` of the positions from `t`
on, in increasing order. -/
def crosslinkPositionsFrom : Nat → List Nat → List Nat
  | _, [] => []
  | t, x :: xs =>
    if x = 3 then t :: crosslinkPositionsFrom (t + 1) xs else crosslinkPositionsFrom (t + 1) xs

/-- The merging of crosslink positions into regions as the spec states it: going through
the positions in increasing order, a position joins the current group `(first, rest)`
when its distance to the last position of the group is at most `distMerge`, and starts a
new group otherwise. -/
def groupFrom (distMerge : Nat) : Nat × List Nat → List Nat → List (Nat × List Nat)
  | g, [] => [g]
  | g, t :: ts =>
    if t - g.2.getLastD g.1 ≤ distMerge then groupFrom distMerge (g.1, g.2 ++ [t]) ts
    else g :: groupFrom distMerge (t, []) ts

/-- The groups of a list of crosslink positions in increasing order. -/
def mergeGroups (distMerge : Nat) : List Nat → List (Nat × List Nat)
  | [] => []
  | t :: ts => groupFrom distMerge (t, []) ts

/-- The region of a group of crosslink positions: started at its first position and
extended by the others in order. -/
def regionOfGroup {R : Type} [LinearOrderedField R] (ln : R → R) (env : RegionEnv R) (s : Bool)
    (setPos : Nat) (post : Nat → Vec4 R) (g : Nat × List Nat) : OpenRegion R :=
  g.2.foldl (fun r t => extendRegion ln env s setPos r t (post t))
    (startRegion ln env s setPos g.1 (post g.1))

/-- The sum of the individual scores of a group, added in the order of the positions. -/
def groupScore {R : Type} [LinearOrderedField R] (score : Nat → LD R) (g : Nat × List Nat) :
    LD R :=
  g.2.foldl (fun acc t => acc + score t) (score g.1)

/-- The individual scores of a group in the order of the positions, each followed by
`;`. -/
def groupName {R : Type} (showDouble : LD R → String) (score : Nat → LD R)
    (g : Nat × List Nat) : String :=
  String.join ((g.1 :: g.2).map (fun t => showDouble (score t) ++ ";"))

/-- The interval with its discard flag set to `d`. -/
def setDiscard {R : Type} (d : Bool) (iv : Interval R) : Interval R :=
  { iv with obs := { iv.obs with discard := d } }

/-- The number of individual scores in the name field of a region record: each of them is
followed by one `;`. -/
def scoreCount (name : String) : Nat := name.data.count ';'

/-- The normaliser `norm` of the state posteriors of a position with the rows `a` of
`alphas_1` and `b` of `betas_1`: the log-sum-exp over the states of `a[k] + b[k]`. -/
def posteriorNorm {R : Type} [LinearOrderedField R] (lookUp : LD R → LD R → LD R)
    (a b : Vec4 R) : LD R :=
  get_logSumExp_states lookUp (a 0 + b 0) (a 1 + b 1) (a 2 + b 2) (a 3 + b 3)

/-! ## Example inputs -/

/-- A coverage density with support threshold `tp` whose value is `x` everywhere. -/
def constGamma {R : Type} (tp x : R) : GAMMA2 R := ⟨fin tp, fun _ => fin x⟩

/-- A count density whose value is `x` everywhere. -/
def constBin {R : Type} (x : R) : ZTBIN R := ⟨fun _ _ _ => fin x⟩

/-- A position with coverage estimate `kde`, truncation count `c`, trial estimate `1`
and covariate `0`. -/
def site {R : Type} [LinearOrderedField R] (kde : R) (c : Nat) : Obs R :=
  ⟨fin kde, c, fin 1, fin 0⟩

/-- Options with the exact log-sum-exp, no threshold for the restricted statistics, no
minimum transition probability, `maxIter_bw` iterations, and shape parameters between 1
and 10. -/
def plainOptions {R : Type} [LinearOrderedField R] (ln ex : R → R) (maxIter_bw : Nat) :
    BaumWelchOptions R where
  lookUp := logSumExp_add ln ex
  nThresholdForTransP := fin 0
  minTransProbCS := fin 0
  minRPKMtoFit := fin 0
  maxIter_bw := maxIter_bw
  g1_kMin := fin 1
  g1_kMax := fin 10
  g2_kMin := fin 1
  g2_kMax := fin 10
  g1_k_le_g2_k := false

/-- Density operations for `GAMMA2` and `ZTBIN` whose parameter updates change nothing
and whose convergence checks hold. -/
def constantOps {R : Type} [LinearOrderedField R] (ln : R → R) :
    DensityOps R (GAMMA2 R) (ZTBIN R) where
  computeEProb := computeEProb ln
  updateDensityParams2 := fun _ _ _ d1 d2 iter trial _ => (true, (d1, d2, iter, trial))
  updateP := fun b _ _ _ => b
  checkOrderBin1Bin2 := fun b1 b2 => (b1, b2)
  checkConvergenceG := fun _ _ _ => true
  checkConvergenceB := fun _ _ _ => true

/-- An interval of one position whose emission entry is `(-inf, 0, NaN, NaN)`, with the
uniform initial probabilities of the constructor. -/
def minusInfInterval {R : Type} [LinearOrderedField R] : Interval R where
  obs := ⟨[site 1 0], false⟩
  initProbs := fun _ => fin (1 / 4)
  eProbs := [![ninf, fin 0, nan, nan]]
  statePosteriors := [fun _ => fin 0]

/-- An interval of one position whose stored posteriors are `(0, 1, 1, 0)`. -/
def tiedPosteriorInterval {R : Type} [LinearOrderedField R] : Interval R where
  obs := ⟨[site 1 1], false⟩
  initProbs := fun _ => fin (1 / 4)
  eProbs := [only 1 0]
  statePosteriors := [![fin 0, fin 1, fin 1, fin 0]]

/-- Density operations like `constantOps`, except that the update of the coverage
densities leaves the counter `trial` at 11. -/
def reseedingOps {R : Type} [LinearOrderedField R] (ln : R → R) :
    DensityOps R (GAMMA2 R) (ZTBIN R) where
  computeEProb := computeEProb ln
  updateDensityParams2 := fun _ _ _ d1 d2 iter _ _ => (true, (d1, d2, iter, 11))
  updateP := fun b _ _ _ => b
  checkOrderBin1Bin2 := fun b1 b2 => (b1, b2)
  checkConvergenceG := fun _ _ _ => true
  checkConvergenceB := fun _ _ _ => true

/-- Operations of `GAMMA2` whose `updateThetaAndK` reports failure and changes nothing. -/
def failingGammaOps {R : Type} : GammaOps R where
  updateThetaAndK := fun d _ _ _ _ _ => (false, d)
  checkOrderG1G2 := fun d1 d2 _ => (d1, d2)

/-- Density operations like `constantOps`, with `updateDensityParams2` for `GAMMA2` over
the operations `failingGammaOps`. -/
def failingUpdateOps {R : Type} [LinearOrderedField R] (ln : R → R) :
    DensityOps R (GAMMA2 R) (ZTBIN R) where
  computeEProb := computeEProb ln
  updateDensityParams2 := updateDensityParams2 failingGammaOps
  updateP := fun b _ _ _ => b
  checkOrderBin1Bin2 := fun b1 b2 => (b1, b2)
  checkConvergenceG := fun _ _ _ => true
  checkConvergenceB := fun _ _ _ => true

/-- An interval of one position at which only state `a` is possible (with log-probability
`0`), with the uniform initial probabilities of the constructor. -/
def oneSiteInterval {R : Type} [LinearOrderedField R] (a : Fin 4) : Interval R where
  obs := ⟨[⟨fin 1, a.val % 2, fin 0, fin 0⟩], false⟩
  initProbs := fun _ => fin (1 / 4)
  eProbs := [only a 0]
  statePosteriors := [fun _ => fin 0]

/-- The uniform transition matrix with the entry `[2][2]` replaced by `0`. -/
def zeroEntryMatrix {R : Type} [LinearOrderedField R] : Mat4 R :=
  setEntry (fun _ _ => fin (1 / 4)) 2 2 (fin 0)

/-- A regression-linked coverage density with support threshold `0` and coefficients
`b0`, `b1` whose evaluator returns the predicted mean it is called with. -/
def meanProbe {R : Type} [LinearOrderedField R] (b0 b1 : R) : GAMMA2_REG R :=
  ⟨fin 0, fin b0, fin b1, fun _ pred _ => pred⟩

/-- Operations of `GAMMA2_REG` whose updates succeed and change nothing, and whose
`checkOrderG1G2` leaves the counter `trial` at 11. -/
def reseedingGammaRegOps {R : Type} [LinearOrderedField R] : GammaRegOps R where
  k := fun _ => fin 1
  updateRegCoeffsAndK := fun d _ _ _ _ _ => (true, d)
  checkOrderG1G2 := fun d1 d2 iter _ _ => (d1, d2, iter, 11)

/-- Density operations for `GAMMA2_REG` and `ZTBIN`: `computeEProb` and
`updateDensityParams2` are the overloads of `hmm_1.h` for `GAMMA2_REG`, the latter over
the operations `reseedingGammaRegOps`; the convergence checks hold. -/
def reseedingRegOps {R : Type} [LinearOrderedField R] (ln ex : R → R) :
    DensityOps R (GAMMA2_REG R) (ZTBIN R) where
  computeEProb := computeEProbReg ln ex
  updateDensityParams2 := updateDensityParams2Reg reseedingGammaRegOps
  updateP := fun b _ _ _ => b
  checkOrderBin1Bin2 := fun b1 b2 => (b1, b2)
  checkConvergenceG := fun _ _ _ => true
  checkConvergenceB := fun _ _ _ => true

/-- A regression-linked coverage density with support threshold `tp`, coefficients `0`
and the value `x` everywhere. -/
def constGammaReg {R : Type} [LinearOrderedField R] (tp x : R) : GAMMA2_REG R :=
  ⟨fin tp, fin 0, fin 0, fun _ _ _ => fin x⟩

/-- An environment of `writeRegions` with merge distance `2` whose output operators write
`s` for every value. -/
def plainRegionEnv {R : Type} : RegionEnv R where
  useHighPrecision := false
  crosslinkAtTruncSite := false
  distMerge := 2
  contigName := "chr"
  contigLength := 100
  showDouble := fun _ => "s"
  showLongDouble := fun _ => "s"

/-- A conversion to `double` near `log 0.25`: a number less than half a unit in the last
place (`2^-53`) away from the binary64 number `-6243314768165359 / 2^52` is rounded to that
number, as rounding to nearest does; every other value is returned as it is. -/
def roundNearLogQuarter {R : Type} [LinearOrderedField R] (x : LD R) : LD R :=
  if LD.lt (fin (-(6243314768165359 / 2 ^ 52) - 1 / 2 ^ 53)) x &&
      LD.lt x (fin (-(6243314768165359 / 2 ^ 52) + 1 / 2 ^ 53)) then
    fin (-(6243314768165359 / 2 ^ 52))
  else x

/-! ## Arithmetic of the special values -/

namespace LD

variable {R : Type}

@[simp] theorem isnan_nan : (nan : LD R).isnan = true := rfl
@[simp] theorem isnan_fin (x : R) : (fin x).isnan = false := rfl
@[simp] theorem isnan_pinf : (pinf : LD R).isnan = false := rfl
@[simp] theorem isnan_ninf : (ninf : LD R).isnan = false := rfl
@[simp] theorem isinf_nan : (nan : LD R).isinf = false := rfl
@[simp] theorem isinf_fin (x : R) : (fin x).isinf = false := rfl
@[simp] theorem isinf_pinf : (pinf : LD R).isinf = true := rfl
@[simp] theorem isinf_ninf : (ninf : LD R).isinf = true := rfl

@[simp] theorem fin_ne_nan (x : R) : (fin x : LD R) ≠ nan := by intro h; cases h
@[simp] theorem nan_ne_fin (x : R) : (nan : LD R) ≠ fin x := by intro h; cases h

theorem isnan_iff (a : LD R) : a.isnan = true ↔ a = nan := by cases a <;> simp [isnan]

variable [LinearOrderedField R]

@[simp] theorem fin_add_fin (x y : R) : (fin x + fin y : LD R) = fin (x + y) := rfl
@[simp] theorem nan_add (a : LD R) : (nan + a : LD R) = nan := by cases a <;> rfl
@[simp] theorem add_nan (a : LD R) : (a + nan : LD R) = nan := by cases a <;> rfl
@[simp] theorem pinf_add_pinf : (pinf + pinf : LD R) = pinf := rfl
@[simp] theorem pinf_add_fin (x : R) : (pinf + fin x : LD R) = pinf := rfl
@[simp] theorem fin_add_pinf (x : R) : (fin x + pinf : LD R) = pinf := rfl
@[simp] theorem ninf_add_ninf : (ninf + ninf : LD R) = ninf := rfl
@[simp] theorem ninf_add_fin (x : R) : (ninf + fin x : LD R) = ninf := rfl
@[simp] theorem fin_add_ninf (x : R) : (fin x + ninf : LD R) = ninf := rfl
@[simp] theorem pinf_add_ninf : (pinf + ninf : LD R) = nan := rfl
@[simp] theorem ninf_add_pinf : (ninf + pinf : LD R) = nan := rfl
@[simp] theorem pinf_sub_pinf : (pinf - pinf : LD R) = nan := rfl
@[simp] theorem ninf_sub_ninf : (ninf - ninf : LD R) = nan := rfl
@[simp] theorem pinf_sub_ninf : (pinf - ninf : LD R) = pinf := rfl
@[simp] theorem ninf_sub_pinf : (ninf - pinf : LD R) = ninf := rfl
@[simp] theorem pinf_sub_fin (x : R) : (pinf - fin x : LD R) = pinf := rfl
@[simp] theorem ninf_sub_fin (x : R) : (ninf - fin x : LD R) = ninf := rfl
@[simp] theorem fin_sub_pinf (x : R) : (fin x - pinf : LD R) = ninf := rfl
@[simp] theorem fin_sub_ninf (x : R) : (fin x - ninf : LD R) = pinf := rfl
@[simp] theorem fin_sub_fin (x y : R) : (fin x - fin y : LD R) = fin (x - y) := by
  show LD.add (fin x) (LD.neg (fin y)) = _
  simp [LD.add, LD.neg, sub_eq_add_neg]
@[simp] theorem nan_sub (a : LD R) : (nan - a : LD R) = nan := by cases a <;> rfl
@[simp] theorem sub_nan (a : LD R) : (a - nan : LD R) = nan := by cases a <;> rfl
@[simp] theorem fin_mul_fin (x y : R) : (fin x * fin y : LD R) = fin (x * y) := rfl
@[simp] theorem nan_mul (a : LD R) : (nan * a : LD R) = nan := by cases a <;> rfl
@[simp] theorem mul_nan (a : LD R) : (a * nan : LD R) = nan := by cases a <;> rfl
@[simp] theorem nan_div (a : LD R) : (nan / a : LD R) = nan := by cases a <;> rfl
@[simp] theorem div_nan (a : LD R) : (a / nan : LD R) = nan := by cases a <;> rfl
theorem fin_div_fin_eq (x y : R) : (fin x / fin y : LD R) =
    if y = 0 then (if x = 0 then nan else if 0 < x then pinf else ninf) else fin (x / y) := rfl
theorem fin_div_fin (x y : R) (h : y ≠ 0) : (fin x / fin y : LD R) = fin (x / y) := by
  show LD.div (fin x) (fin y) = _
  simp [LD.div, h]
@[simp] theorem fin_zero_div_fin_zero : (fin 0 / fin 0 : LD R) = nan := by
  show LD.div (fin 0) (fin 0) = _
  simp [LD.div]
@[simp] theorem lt_fin_fin (x y : R) : LD.lt (fin x) (fin y) = decide (x < y) := rfl
@[simp] theorem le_fin_fin (x y : R) : LD.le (fin x) (fin y) = decide (x ≤ y) := rfl
@[simp] theorem eq_fin_fin (x y : R) : LD.eq (fin x) (fin y) = decide (x = y) := rfl
@[simp] theorem lt_nan_left (a : LD R) : LD.lt nan a = false := by cases a <;> rfl
@[simp] theorem lt_nan_right (a : LD R) : LD.lt a nan = false := by cases a <;> rfl
@[simp] theorem le_nan_left (a : LD R) : LD.le nan a = false := by cases a <;> rfl
@[simp] theorem le_nan_right (a : LD R) : LD.le a nan = false := by cases a <;> rfl
@[simp] theorem eq_nan_left (a : LD R) : LD.eq nan a = false := rfl
@[simp] theorem eq_nan_right (a : LD R) : LD.eq a nan = false := by cases a <;> rfl

end LD

@[simp] theorem myLog_nan (ln : R → R) : myLog ln (nan : LD R) = nan := rfl
@[simp] theorem myLog_zero (ln : R → R) : myLog ln (fin (0 : R)) = nan := by simp [myLog]
theorem myLog_pos (ln : R → R) {x : R} (h : 0 < x) : myLog ln (fin x) = fin (ln x) := by
  simp [myLog, LD.log, h.ne', not_lt.mpr h.le]
@[simp] theorem myExp_nan (ex : R → R) : myExp ex (nan : LD R) = fin 0 := rfl
@[simp] theorem myExp_fin (ex : R → R) (x : R) : myExp ex (fin x) = fin (ex x) := rfl

/-- Function `myLog` never yields minus infinity. -/
theorem myLog_ne_ninf (ln : R → R) (x : LD R) : myLog ln x ≠ ninf := by
  cases x with
  | nan => simp
  | pinf => simp [myLog, LD.eq, LD.log]
  | ninf => simp [myLog, LD.eq, LD.log]
  | fin r =>
    by_cases h : r = 0
    · subst h; simp
    · by_cases h2 : r < 0 <;> simp [myLog, LD.log, h, h2]

/-- C7. `get_logSumExp` treats the NaN sentinel as the neutral element, whatever the
lookup table holds: with a NaN first operand it returns the second operand, with a NaN
second operand the first, and NaN for two NaN operands. -/
theorem get_logSumExp_nan_neutral (lookUp : LD ℝ → LD ℝ → LD ℝ) :
    (∀ b, get_logSumExp lookUp nan b = b) ∧ (∀ a, get_logSumExp lookUp a nan = a) ∧
    get_logSumExp lookUp nan nan = nan := by
  refine ⟨fun b => by simp [get_logSumExp], fun a => ?_, by simp [get_logSumExp]⟩
  cases a <;> simp [get_logSumExp]

/-- C8 fails as stated: with the operands `+inf` and the finite value `0` the result is
`+inf`, not the finite operand. -/
theorem get_logSumExp_inf_not_finite_operand :
    get_logSumExp (logSumExp_add Real.log Real.exp) pinf (fin 0) = pinf ∧
    get_logSumExp (logSumExp_add Real.log Real.exp) pinf (fin 0) ≠ fin 0 := by
  simp [get_logSumExp]

/-- C8, amended. When one operand of `get_logSumExp` is infinite and the other is finite,
the result is the infinite operand, whatever the lookup table holds. -/
theorem get_logSumExp_inf_finite (lookUp : LD ℝ → LD ℝ → LD ℝ) (a b : LD ℝ)
    (h : (a.isinf = true ∧ ∃ y, b = fin y) ∨ ((∃ x, a = fin x) ∧ b.isinf = true)) :
    get_logSumExp lookUp a b = (if a.isinf then a else b) := by
  rcases h with ⟨ha, y, rfl⟩ | ⟨⟨x, rfl⟩, hb⟩
  · cases a <;> simp_all [get_logSumExp]
  · cases b <;> simp_all [get_logSumExp]

/-- Witness for `get_logSumExp_inf_finite`: the operands `-inf` and `3`. -/
theorem get_logSumExp_inf_finite_witness :
    get_logSumExp (logSumExp_add Real.log Real.exp) ninf (fin 3) = ninf := by
  simpa using get_logSumExp_inf_finite (logSumExp_add Real.log Real.exp) ninf (fin 3)
    (Or.inl ⟨rfl, 3, rfl⟩)

theorem myLog_eq_nan_iff (ln : R → R) {x : LD R} (hx : LD.le (fin 0) x = true) :
    myLog ln x = nan ↔ x = fin 0 := by
  cases x with
  | nan => simp at hx
  | pinf => simp [myLog, LD.eq, LD.log]
  | ninf => simp [LD.le] at hx
  | fin r =>
    simp only [le_fin_fin, decide_eq_true_eq] at hx
    rcases hx.eq_or_lt with h | h
    · subst h; simp
    · rw [myLog_pos ln h]; simp [h.ne']

theorem myLog_add_eq_nan_iff (ln : R → R) (x y : LD R) :
    myLog ln x + myLog ln y = nan ↔ myLog ln x = nan ∨ myLog ln y = nan := by
  have hx := myLog_ne_ninf ln x
  have hy := myLog_ne_ninf ln y
  constructor
  · intro h
    cases hX : myLog ln x <;> cases hY : myLog ln y <;> simp_all
  · rintro (h | h) <;> simp [h]

theorem eProbFromValues_valid (ln : R → R) (g b : LD R × LD R)
    (h : (eProbFromValues ln g b).1 = true) :
    (eProbFromValues ln g b).2 = logEmissions ln g b := by
  simp only [eProbFromValues] at h ⊢
  split
  · rename_i hc; simp [hc] at h
  · rfl

theorem logEmissions_stateIndex (ln : R → R) (g b : LD R × LD R) (e c : Fin 2) :
    logEmissions ln g b (stateIndex e c) = myLog ln (pick g e) + myLog ln (pick b c) := by
  fin_cases e <;> fin_cases c <;> simp [logEmissions, stateIndex, pick]

/-- C10. For a position that `computeEProb` accepts as valid (both for `GAMMA2` and for
`GAMMA2_REG` with `ZTBIN`), the emission entry of state `2 * e + c` is
`myLog(g_e) + myLog(bin_c)` for the density values `g` and `bin` used at that position;
for density values that are not negative (and not NaN) the entry is the NaN sentinel
exactly when one of the two factors is `0`. -/
theorem computeEProb_valid_entry (d1 d2 : GAMMA2 ℝ) (r1 r2 : GAMMA2_REG ℝ) (bin1 bin2 : ZTBIN ℝ)
    (o : Obs ℝ) (options : AppOptions ℝ) (e c : Fin 2) :
    ((computeEProb Real.log d1 d2 bin1 bin2 o options).1 = true →
      (computeEProb Real.log d1 d2 bin1 bin2 o options).2 (stateIndex e c) =
          myLog Real.log (pick (gammaValues d1 d2 o) e) +
            myLog Real.log (pick (binValues bin1 bin2 o options) c) ∧
        (LD.le (fin 0) (pick (gammaValues d1 d2 o) e) = true →
          LD.le (fin 0) (pick (binValues bin1 bin2 o options) c) = true →
          ((computeEProb Real.log d1 d2 bin1 bin2 o options).2 (stateIndex e c) = nan ↔
            pick (gammaValues d1 d2 o) e = fin 0 ∨
              pick (binValues bin1 bin2 o options) c = fin 0))) ∧
    ((computeEProbReg Real.log Real.exp r1 r2 bin1 bin2 o options).1 = true →
      (computeEProbReg Real.log Real.exp r1 r2 bin1 bin2 o options).2 (stateIndex e c) =
          myLog Real.log (pick (gammaValuesReg Real.exp r1 r2 o options) e) +
            myLog Real.log (pick (binValues bin1 bin2 o options) c) ∧
        (LD.le (fin 0) (pick (gammaValuesReg Real.exp r1 r2 o options) e) = true →
          LD.le (fin 0) (pick (binValues bin1 bin2 o options) c) = true →
          ((computeEProbReg Real.log Real.exp r1 r2 bin1 bin2 o options).2 (stateIndex e c)
              = nan ↔
            pick (gammaValuesReg Real.exp r1 r2 o options) e = fin 0 ∨
              pick (binValues bin1 bin2 o options) c = fin 0))) := by
  constructor
  · intro h
    have hv := eProbFromValues_valid Real.log _ _ h
    have he : (computeEProb Real.log d1 d2 bin1 bin2 o options).2 (stateIndex e c) =
        myLog Real.log (pick (gammaValues d1 d2 o) e) +
          myLog Real.log (pick (binValues bin1 bin2 o options) c) := by
      unfold computeEProb; rw [hv, logEmissions_stateIndex]
    refine ⟨he, fun hg hb => ?_⟩
    rw [he, myLog_add_eq_nan_iff, myLog_eq_nan_iff _ hg, myLog_eq_nan_iff _ hb]
  · intro h
    have hv := eProbFromValues_valid Real.log _ _ h
    have he : (computeEProbReg Real.log Real.exp r1 r2 bin1 bin2 o options).2 (stateIndex e c) =
        myLog Real.log (pick (gammaValuesReg Real.exp r1 r2 o options) e) +
          myLog Real.log (pick (binValues bin1 bin2 o options) c) := by
      unfold computeEProbReg; rw [hv, logEmissions_stateIndex]
    refine ⟨he, fun hg hb => ?_⟩
    rw [he, myLog_add_eq_nan_iff, myLog_eq_nan_iff _ hg, myLog_eq_nan_iff _ hb]

/-- Witness for `computeEProb_valid_entry`: a position below the support threshold with
truncation count 0 is valid, and its entry of state 0 is `myLog 1 + myLog 1 = 0`. -/
theorem computeEProb_valid_entry_witness :
    (computeEProb Real.log ⟨fin 1, fun _ => fin 1⟩ ⟨fin 1, fun _ => fin 1⟩
        ⟨fun _ _ _ => fin 1⟩ ⟨fun _ _ _ => fin 1⟩ ⟨fin 0, 0, fin 0, fin 0⟩
        ⟨logSumExp_add Real.log Real.exp, fin 0, fin 0, fin 0⟩).2 (stateIndex 0 0) = fin 0 := by
  have h := (computeEProb_valid_entry ⟨fin 1, fun _ => fin 1⟩ ⟨fin 1, fun _ => fin 1⟩
      ⟨fin 1, fin 0, fin 0, fun _ _ _ => fin 1⟩ ⟨fin 1, fin 0, fin 0, fun _ _ _ => fin 1⟩
      ⟨fun _ _ _ => fin 1⟩ ⟨fun _ _ _ => fin 1⟩ ⟨fin 0, 0, fin 0, fin 0⟩
      ⟨logSumExp_add Real.log Real.exp, fin 0, fin 0, fin 0⟩ 0 0).1
    (by norm_num [computeEProb, eProbFromValues, gammaValues, binValues, logEmissions,
      myLog_pos])
  rw [h.1]
  norm_num [gammaValues, binValues, pick, myLog_pos]

/-! ## Exact log-sum-exp -/

/-- The direct computation of the spec is an exact log-sum-exp. -/
theorem logSumExp_add_exact : ExactLogSumExp (logSumExp_add Real.log Real.exp) := by
  intro a b
  show fin _ = fin _
  congr 1
  have key : ∀ x y : ℝ, y ≤ x →
      x + Real.log (1 + Real.exp (-(x - y))) = Real.log (Real.exp x + Real.exp y) := by
    intro x y _
    have h1 : Real.exp x + Real.exp y = Real.exp x * (1 + Real.exp (-(x - y))) := by
      rw [mul_add, mul_one, ← Real.exp_add]; congr 2; ring
    rw [h1, Real.log_mul (Real.exp_pos x).ne' (by positivity), Real.log_exp]
  rcases le_total a b with h | h
  · rw [max_eq_right h, abs_of_nonpos (sub_nonpos.mpr h), neg_neg]
    have := key b a h
    rw [neg_sub] at this
    rw [this, add_comm]
  · rw [max_eq_left h, abs_of_nonneg (sub_nonneg.mpr h)]
    exact key a b h

theorem LD.IsLogValue.nan : LD.IsLogValue (nan : LD ℝ) := Or.inl rfl

theorem LD.IsLogValue.fin (x : ℝ) : LD.IsLogValue (fin x) := Or.inr ⟨x, rfl⟩

theorem LD.IsLogValue.add {a b : LD ℝ} (ha : a.IsLogValue) (hb : b.IsLogValue) :
    (a + b).IsLogValue := by
  rcases ha with rfl | ⟨x, rfl⟩ <;> rcases hb with rfl | ⟨y, rfl⟩ <;>
    simp [LD.IsLogValue]

theorem LD.IsLogValue.not_isinf {a : LD ℝ} (ha : a.IsLogValue) : a.isinf = false := by
  rcases ha with rfl | ⟨x, rfl⟩ <;> rfl

theorem linear_nonneg (a : LD ℝ) : 0 ≤ linear Real.exp a := by
  cases a <;> simp [linear, Real.exp_nonneg]

theorem linear_eq_zero_iff {a : LD ℝ} (ha : a.IsLogValue) : linear Real.exp a = 0 ↔ a = nan := by
  rcases ha with rfl | ⟨x, rfl⟩ <;> simp [linear, (Real.exp_pos _).ne']

theorem myExp_eq_linear {a : LD ℝ} (ha : a.IsLogValue) :
    myExp Real.exp a = fin (linear Real.exp a) := by
  rcases ha with rfl | ⟨x, rfl⟩ <;> simp [linear]

/-- With an exact lookup, `get_logSumExp` adds the probabilities of log-space values. -/
theorem get_logSumExp_linear {lookUp : LD ℝ → LD ℝ → LD ℝ} (hL : ExactLogSumExp lookUp)
    {a b : LD ℝ} (ha : a.IsLogValue) (hb : b.IsLogValue) :
    (get_logSumExp lookUp a b).IsLogValue ∧
      linear Real.exp (get_logSumExp lookUp a b) = linear Real.exp a + linear Real.exp b := by
  rcases ha with rfl | ⟨x, rfl⟩ <;> rcases hb with rfl | ⟨y, rfl⟩
  · simp [get_logSumExp, linear, LD.IsLogValue]
  · simp [get_logSumExp, linear, LD.IsLogValue]
  · simp [get_logSumExp, linear, LD.IsLogValue]
  · simp only [get_logSumExp, isnan_fin, isinf_fin, Bool.false_eq_true, if_false, hL x y]
    refine ⟨LD.IsLogValue.fin _, ?_⟩
    simp only [linear]
    rw [Real.exp_log (by positivity)]

theorem get_logSumExp_states_linear {lookUp : LD ℝ → LD ℝ → LD ℝ} (hL : ExactLogSumExp lookUp)
    {a b c d : LD ℝ} (ha : a.IsLogValue) (hb : b.IsLogValue) (hc : c.IsLogValue)
    (hd : d.IsLogValue) :
    (get_logSumExp_states lookUp a b c d).IsLogValue ∧
      linear Real.exp (get_logSumExp_states lookUp a b c d) =
        linear Real.exp a + linear Real.exp b + linear Real.exp c + linear Real.exp d := by
  have h1 := get_logSumExp_linear hL ha hb
  have h2 := get_logSumExp_linear hL h1.1 hc
  have h3 := get_logSumExp_linear hL h2.1 hd
  exact ⟨h3.1, by rw [get_logSumExp_states, h3.2, h2.2, h1.2]⟩

/-- The exponential of a log-space value minus a finite normaliser is the quotient of
the probabilities. -/
theorem myExp_sub_linear {a n : LD ℝ} (ha : a.IsLogValue) (hn : n.IsLogValue) (hn0 : n ≠ nan) :
    myExp Real.exp (a - n) = fin (linear Real.exp a / linear Real.exp n) := by
  rcases hn with rfl | ⟨y, rfl⟩
  · exact absurd rfl hn0
  · rcases ha with rfl | ⟨x, rfl⟩
    · simp [linear]
    · simp [linear, Real.exp_sub]

/-- The posteriors of one position, when the four values `alpha + beta` are log-space
values and not all the NaN sentinel: the normalised probabilities. -/
theorem posteriorAt_eq {lookUp : LD ℝ → LD ℝ → LD ℝ} (hL : ExactLogSumExp lookUp)
    (a b : Vec4 ℝ) (hf : ∀ k, (a k + b k).IsLogValue) (hne : ∃ k, a k + b k ≠ nan) (k : Fin 4) :
    posteriorAt Real.exp lookUp a b k = fin (linear Real.exp (a k + b k) /
      (linear Real.exp (a 0 + b 0) + linear Real.exp (a 1 + b 1) +
        linear Real.exp (a 2 + b 2) + linear Real.exp (a 3 + b 3))) ∧
    0 < linear Real.exp (a 0 + b 0) + linear Real.exp (a 1 + b 1) +
        linear Real.exp (a 2 + b 2) + linear Real.exp (a 3 + b 3) := by
  have h4 := get_logSumExp_states_linear hL (hf 0) (hf 1) (hf 2) (hf 3)
  have hpos : 0 < linear Real.exp (a 0 + b 0) + linear Real.exp (a 1 + b 1) +
        linear Real.exp (a 2 + b 2) + linear Real.exp (a 3 + b 3) := by
    obtain ⟨j, hj⟩ := hne
    have hjpos : 0 < linear Real.exp (a j + b j) :=
      lt_of_le_of_ne (linear_nonneg _) (fun h => hj ((linear_eq_zero_iff (hf j)).mp h.symm))
    have h0 := linear_nonneg (a 0 + b 0)
    have h1 := linear_nonneg (a 1 + b 1)
    have h2 := linear_nonneg (a 2 + b 2)
    have h3 := linear_nonneg (a 3 + b 3)
    fin_cases j <;> simp at hjpos <;> linarith
  refine ⟨?_, hpos⟩
  have hn0 : get_logSumExp_states lookUp (a 0 + b 0) (a 1 + b 1) (a 2 + b 2) (a 3 + b 3) ≠ nan := by
    intro h
    rw [← linear_eq_zero_iff h4.1, h4.2] at h
    exact hpos.ne' h
  show myExp Real.exp _ = _
  rw [myExp_sub_linear (hf k) h4.1 hn0, h4.2]

/-! ## Forward and backward tables hold log-space values -/

/-- The logarithm of a strictly positive finite transition probability is finite. -/
theorem logMatrix_finite {A : Mat4 ℝ} (hA : ∀ k_1 k_2, ∃ r, 0 < r ∧ A k_1 k_2 = fin r)
    (k_1 k_2 : Fin 4) : ∃ r, logMatrix Real.log A k_1 k_2 = fin r := by
  obtain ⟨r, hr, h⟩ := hA k_1 k_2
  exact ⟨Real.log r, by simp [logMatrix, h, LD.log, hr.ne', not_lt.mpr hr.le]⟩

theorem anyInf_of_isLogValue {v : Vec4 ℝ} (hv : ∀ k, (v k).IsLogValue) : anyInf v = false := by
  simp [anyInf, (hv _).not_isinf]

theorem forwardStep_isLogValue {lookUp : LD ℝ → LD ℝ → LD ℝ} (hL : ExactLogSumExp lookUp)
    {logA : Mat4 ℝ} (hA : ∀ k_1 k_2, ∃ r, logA k_1 k_2 = fin r) {prev e : Vec4 ℝ}
    (hp : ∀ k, (prev k).IsLogValue) (he : ∀ k, (e k).IsLogValue) (k : Fin 4) :
    (forwardStep lookUp logA prev e k).IsLogValue := by
  have h : ∀ j, (prev j + logA j k + e k).IsLogValue := fun j => by
    obtain ⟨r, hr⟩ := hA j k
    rw [hr]
    exact ((hp j).add (LD.IsLogValue.fin r)).add (he k)
  exact (get_logSumExp_states_linear hL (h 0) (h 1) (h 2) (h 3)).1

theorem backwardStep_isLogValue {lookUp : LD ℝ → LD ℝ → LD ℝ} (hL : ExactLogSumExp lookUp)
    {logA : Mat4 ℝ} (hA : ∀ k_1 k_2, ∃ r, logA k_1 k_2 = fin r) {next e : Vec4 ℝ}
    (hn : ∀ k, (next k).IsLogValue) (he : ∀ k, (e k).IsLogValue) (k : Fin 4) :
    (backwardStep lookUp logA next e k).IsLogValue := by
  have h : ∀ j, (next j + logA k j + e j).IsLogValue := fun j => by
    obtain ⟨r, hr⟩ := hA k j
    rw [hr]
    exact ((hn j).add (LD.IsLogValue.fin r)).add (he j)
  exact (get_logSumExp_states_linear hL (h 0) (h 1) (h 2) (h 3)).1

theorem iForwardFrom_total {lookUp : LD ℝ → LD ℝ → LD ℝ} (hL : ExactLogSumExp lookUp)
    {logA : Mat4 ℝ} (hA : ∀ k_1 k_2, ∃ r, logA k_1 k_2 = fin r) (es : List (Vec4 ℝ)) :
    ∀ prev : Vec4 ℝ, (∀ k, (prev k).IsLogValue) → (∀ e ∈ es, ∀ k, (e k).IsLogValue) →
      ∃ as, iForwardFrom lookUp logA prev es = some as ∧ as.length = es.length ∧
        ∀ a ∈ as, ∀ k, (a k).IsLogValue := by
  induction es with
  | nil => intro prev _ _; exact ⟨[], rfl, rfl, by simp⟩
  | cons e es ih =>
    intro prev hp he
    have hstep := fun k => forwardStep_isLogValue hL hA hp (he e (List.mem_cons_self _ _)) k
    obtain ⟨as, has, hlen, hall⟩ := ih _ hstep (fun x hx => he x (List.mem_cons_of_mem _ hx))
    refine ⟨forwardStep lookUp logA prev e :: as, ?_, by simp [hlen], ?_⟩
    · simp [iForwardFrom, anyInf_of_isLogValue hstep, has]
    · intro a ha
      rcases List.mem_cons.mp ha with rfl | h
      · exact hstep
      · exact hall a h

theorem myLog_isLogValue (x : ℝ) : (myLog Real.log (fin x)).IsLogValue := by
  by_cases h0 : x = 0
  · subst h0; simp [LD.IsLogValue]
  · by_cases h1 : x < 0 <;> simp [myLog, LD.log, h0, h1, LD.IsLogValue]

/-- With an exact log-sum-exp, finite logarithms of the transition matrix, finite
initial probabilities and log-space emission entries, `iForward` succeeds and its table
holds log-space values. -/
theorem iForward_total {lookUp : LD ℝ → LD ℝ → LD ℝ} (hL : ExactLogSumExp lookUp)
    {logA : Mat4 ℝ} (hA : ∀ k_1 k_2, ∃ r, logA k_1 k_2 = fin r) {init : Vec4 ℝ}
    (hi : ∀ k, ∃ r, init k = fin r) (es : List (Vec4 ℝ))
    (he : ∀ e ∈ es, ∀ k, (e k).IsLogValue) :
    ∃ as, iForward Real.log lookUp logA init es = some as ∧ as.length = es.length ∧
      ∀ a ∈ as, ∀ k, (a k).IsLogValue := by
  cases es with
  | nil => exact ⟨[], rfl, rfl, by simp⟩
  | cons e es =>
    have h0 : ∀ k, (myLog Real.log (init k) + e k).IsLogValue := fun k => by
      obtain ⟨r, hr⟩ := hi k
      rw [hr]
      exact (myLog_isLogValue r).add (he e (List.mem_cons_self _ _) k)
    obtain ⟨as, has, hlen, hall⟩ :=
      iForwardFrom_total hL hA es _ h0 (fun x hx => he x (List.mem_cons_of_mem _ hx))
    refine ⟨(fun k => myLog Real.log (init k) + e k) :: as, ?_, by simp [hlen], ?_⟩
    · simp only [iForward, has]; rfl
    · intro a ha
      rcases List.mem_cons.mp ha with rfl | h
      · exact h0
      · exact hall a h

/-- Under the same conditions `iBackward` succeeds and its table holds log-space
values. -/
theorem iBackward_total {lookUp : LD ℝ → LD ℝ → LD ℝ} (hL : ExactLogSumExp lookUp)
    {logA : Mat4 ℝ} (hA : ∀ k_1 k_2, ∃ r, logA k_1 k_2 = fin r) (es : List (Vec4 ℝ))
    (he : ∀ e ∈ es, ∀ k, (e k).IsLogValue) :
    ∃ bs, iBackward Real.log lookUp logA es = some bs ∧ bs.length = es.length ∧
      ∀ b ∈ bs, ∀ k, (b k).IsLogValue := by
  induction es with
  | nil => exact ⟨[], rfl, rfl, by simp⟩
  | cons e0 es ih =>
    cases es with
    | nil =>
      refine ⟨[fun _ => LD.log Real.log (fin 1)], rfl, rfl, ?_⟩
      intro b hb k
      simp only [List.mem_singleton] at hb
      subst hb
      norm_num [LD.log, LD.IsLogValue]
    | cons e es =>
      obtain ⟨bs, hbs, hlen, hall⟩ := ih (fun x hx => he x (List.mem_cons_of_mem _ hx))
      cases bs with
      | nil => simp at hlen
      | cons next bs =>
        have hstep := fun k => backwardStep_isLogValue hL hA
          (hall next (List.mem_cons_self _ _)) (he e (by simp)) k
        refine ⟨backwardStep lookUp logA next e :: next :: bs, ?_, ?_, ?_⟩
        · simp [iBackward, hbs, anyInf_of_isLogValue hstep]
        · simpa using hlen
        · intro b hb
          rcases List.mem_cons.mp hb with rfl | h
          · exact hstep
          · exact hall b h

/-! ## Posteriors of a forward-backward pass -/

theorem fin_sum_four (a b c d : ℝ) : (fin a + fin b + fin c + fin d : LD ℝ) = fin (a + b + c + d) := by
  simp

/-- The four posteriors of a position whose values `alpha + beta` are log-space values,
not all the NaN sentinel, lie in `[0, 1]` and sum to `1`. -/
theorem posteriorAt_sum_one {lookUp : LD ℝ → LD ℝ → LD ℝ} (hL : ExactLogSumExp lookUp)
    (a b : Vec4 ℝ) (hf : ∀ k, (a k + b k).IsLogValue) (hne : ∃ k, a k + b k ≠ nan) :
    posteriorAt Real.exp lookUp a b 0 + posteriorAt Real.exp lookUp a b 1 +
        posteriorAt Real.exp lookUp a b 2 + posteriorAt Real.exp lookUp a b 3 = fin 1 ∧
      ∀ k, LD.le (fin 0) (posteriorAt Real.exp lookUp a b k) = true ∧
        LD.le (posteriorAt Real.exp lookUp a b k) (fin 1) = true := by
  have h := fun k => (posteriorAt_eq hL a b hf hne k).1
  have hpos := (posteriorAt_eq hL a b hf hne 0).2
  have h0 := linear_nonneg (a 0 + b 0)
  have h1 := linear_nonneg (a 1 + b 1)
  have h2 := linear_nonneg (a 2 + b 2)
  have h3 := linear_nonneg (a 3 + b 3)
  constructor
  · rw [h 0, h 1, h 2, h 3, fin_sum_four]
    congr 1
    field_simp
  · intro k
    rw [h k]
    simp only [le_fin_fin, decide_eq_true_eq]
    constructor
    · exact div_nonneg (linear_nonneg _) hpos.le
    · rw [div_le_one hpos]
      fin_cases k <;> simp <;> linarith

theorem linear_uniform_add (e : LD ℝ) (he : e.IsLogValue) :
    (myLog Real.log (fin (1 / 4)) + e + LD.log Real.log (fin 1)).IsLogValue ∧
      linear Real.exp (myLog Real.log (fin (1 / 4)) + e + LD.log Real.log (fin 1)) =
        1 / 4 * linear Real.exp e := by
  have h1 : myLog Real.log (fin (1 / 4 : ℝ)) = fin (Real.log (1 / 4)) := myLog_pos _ (by norm_num)
  have h2 : LD.log Real.log (fin (1 : ℝ)) = fin 0 := by norm_num [LD.log]
  rw [h1, h2]
  rcases he with rfl | ⟨x, rfl⟩
  · simp [linear, LD.IsLogValue]
  · refine ⟨by simp [LD.IsLogValue], ?_⟩
    simp only [fin_add_fin, linear, add_zero]
    rw [Real.exp_add, Real.exp_log (by norm_num)]

/-- The posteriors of a single position under the uniform initial distribution are the
normalised emission probabilities. -/
theorem posteriorAt_uniform {lookUp : LD ℝ → LD ℝ → LD ℝ} (hL : ExactLogSumExp lookUp)
    (init e : Vec4 ℝ) (hi : ∀ k, init k = fin (1 / 4)) (he : ∀ k, (e k).IsLogValue)
    (hne : ∃ k, e k ≠ nan) :
    posteriorAt Real.exp lookUp (fun k => myLog Real.log (init k) + e k)
        (fun _ => LD.log Real.log (fin 1)) =
      fun k => myExp Real.exp (e k) /
        (myExp Real.exp (e 0) + myExp Real.exp (e 1) + myExp Real.exp (e 2) +
          myExp Real.exp (e 3)) := by
  funext k
  have hl := fun j => linear_uniform_add (e j) (he j)
  have hf : ∀ j, ((fun k => myLog Real.log (init k) + e k) j +
      (fun _ => LD.log Real.log (fin 1)) j).IsLogValue := fun j => by
    simp only [hi]; exact (hl j).1
  have hne2 : ∃ j, (fun k => myLog Real.log (init k) + e k) j +
      (fun _ => LD.log Real.log (fin 1)) j ≠ nan := by
    obtain ⟨j, hj⟩ := hne
    refine ⟨j, fun h => hj ?_⟩
    simp only [hi] at h
    have h0 := (linear_eq_zero_iff (hl j).1).mpr h
    rw [(hl j).2] at h0
    have : linear Real.exp (e j) = 0 := by linarith
    exact (linear_eq_zero_iff (he j)).mp this
  have hsum : 0 < linear Real.exp (e 0) + linear Real.exp (e 1) + linear Real.exp (e 2) +
      linear Real.exp (e 3) := by
    obtain ⟨j, hj⟩ := hne
    have hjpos : 0 < linear Real.exp (e j) :=
      lt_of_le_of_ne (linear_nonneg _) (fun h => hj ((linear_eq_zero_iff (he j)).mp h.symm))
    have h0 := linear_nonneg (e 0)
    have h1 := linear_nonneg (e 1)
    have h2 := linear_nonneg (e 2)
    have h3 := linear_nonneg (e 3)
    fin_cases j <;> simp at hjpos <;> linarith
  rw [(posteriorAt_eq hL _ _ hf hne2 k).1]
  simp only [hi, (hl _).2, myExp_eq_linear (he _), fin_add_fin]
  rw [LD.fin_div_fin _ _ hsum.ne']
  congr 1
  field_simp

@[simp] theorem get_logSumExp_nan_left (lookUp : LD ℝ → LD ℝ → LD ℝ) (b : LD ℝ) :
    get_logSumExp lookUp nan b = b := by simp [get_logSumExp]

@[simp] theorem get_logSumExp_nan_right (lookUp : LD ℝ → LD ℝ → LD ℝ) (a : LD ℝ) :
    get_logSumExp lookUp a nan = a := by cases a <;> simp [get_logSumExp]

/-- The log-sum-exp over the states when only the entry of state `a` is not NaN. -/
theorem get_logSumExp_states_single (lookUp : LD ℝ → LD ℝ → LD ℝ) (v : Vec4 ℝ) (a : Fin 4)
    (h : ∀ j, j ≠ a → v j = nan) :
    get_logSumExp_states lookUp (v 0) (v 1) (v 2) (v 3) = v a := by
  fin_cases a
  · simp [get_logSumExp_states, h 1 (by decide), h 2 (by decide), h 3 (by decide)]
  · simp [get_logSumExp_states, h 0 (by decide), h 2 (by decide), h 3 (by decide)]
  · simp [get_logSumExp_states, h 0 (by decide), h 1 (by decide), h 3 (by decide)]
  · simp [get_logSumExp_states, h 0 (by decide), h 1 (by decide), h 2 (by decide)]

theorem lseRow_nan (lookUp : LD ℝ → LD ℝ → LD ℝ) (n : LD ℝ) (row : Vec4 ℝ)
    (h : ∀ j, row j = nan) : lseRow lookUp n row = n := by
  simp [lseRow, h]

theorem lseRow_single (lookUp : LD ℝ → LD ℝ → LD ℝ) (row : Vec4 ℝ) (b : Fin 4)
    (h : ∀ j, j ≠ b → row j = nan) : lseRow lookUp nan row = row b := by
  fin_cases b
  · simp [lseRow, h 1 (by decide), h 2 (by decide), h 3 (by decide)]
  · simp [lseRow, h 0 (by decide), h 2 (by decide), h 3 (by decide)]
  · simp [lseRow, h 0 (by decide), h 1 (by decide), h 3 (by decide)]
  · simp [lseRow, h 0 (by decide), h 1 (by decide), h 2 (by decide)]

/-- The normaliser of the `xis` when only the entry `(a, b)` is not NaN. -/
theorem xiNorm_single (lookUp : LD ℝ → LD ℝ → LD ℝ) (xis : Mat4 ℝ) (a b : Fin 4)
    (h : ∀ i j, ¬(i = a ∧ j = b) → xis i j = nan) : xiNorm lookUp xis = xis a b := by
  have hrow : ∀ i, i ≠ a → ∀ j, xis i j = nan := fun i hi j => h i j (fun hc => hi hc.1)
  have hb : ∀ j, j ≠ b → xis a j = nan := fun j hj => h a j (fun hc => hj hc.2)
  have ha : a = 0 ∨ a = 1 ∨ a = 2 ∨ a = 3 := by fin_cases a <;> simp
  rcases ha with rfl | rfl | rfl | rfl
  · simp only [xiNorm]
    rw [lseRow_single lookUp _ b hb, lseRow_nan _ _ _ (hrow 1 (by decide)),
      lseRow_nan _ _ _ (hrow 2 (by decide)), lseRow_nan _ _ _ (hrow 3 (by decide))]
  · simp only [xiNorm]
    rw [lseRow_nan _ _ _ (hrow 0 (by decide)), lseRow_single lookUp _ b hb,
      lseRow_nan _ _ _ (hrow 2 (by decide)), lseRow_nan _ _ _ (hrow 3 (by decide))]
  · simp only [xiNorm]
    rw [lseRow_nan _ _ _ (hrow 0 (by decide)), lseRow_nan _ _ _ (hrow 1 (by decide)),
      lseRow_single lookUp _ b hb, lseRow_nan _ _ _ (hrow 3 (by decide))]
  · simp only [xiNorm]
    rw [lseRow_nan _ _ _ (hrow 0 (by decide)), lseRow_nan _ _ _ (hrow 1 (by decide)),
      lseRow_nan _ _ _ (hrow 2 (by decide)), lseRow_single lookUp _ b hb]

@[simp] theorem only_self (a : Fin 4) (x : ℝ) : only a x a = fin x := by simp [only]

theorem only_ne {a k : Fin 4} (x : ℝ) (h : k ≠ a) : only a x k = nan := by simp [only, h]

theorem only_isLogValue (a : Fin 4) (x : ℝ) (k : Fin 4) : (only a x k).IsLogValue := by
  by_cases hk : k = a <;> simp [only, hk, LD.IsLogValue]

theorem anyInf_only (a : Fin 4) (x : ℝ) : anyInf (only a x) = false := by
  simp only [anyInf, only]
  fin_cases a <;> simp

theorem forwardStep_only (lookUp : LD ℝ → LD ℝ → LD ℝ) (logA : Mat4 ℝ) (l : Fin 4 → Fin 4 → ℝ)
    (hA : ∀ i j, logA i j = fin (l i j)) (a b : Fin 4) (u y : ℝ) :
    forwardStep lookUp logA (only a u) (only b y) = only b (u + l a b + y) := by
  funext k
  simp only [forwardStep]
  rw [get_logSumExp_states_single lookUp (fun j => only a u j + logA j k + only b y k) a
    (fun j hj => by simp [only_ne u hj])]
  by_cases hk : k = b
  · subst hk; simp [hA]
  · simp [only_ne _ hk]

theorem backwardStep_only (lookUp : LD ℝ → LD ℝ → LD ℝ) (logA : Mat4 ℝ) (l : Fin 4 → Fin 4 → ℝ)
    (hA : ∀ i j, logA i j = fin (l i j)) (b : Fin 4) (z y : ℝ) :
    backwardStep lookUp logA (fun _ => fin z) (only b y) = fun k => fin (z + l k b + y) := by
  funext k
  simp only [backwardStep]
  rw [get_logSumExp_states_single lookUp (fun j => fin z + logA k j + only b y j) b
    (fun j hj => by simp [only_ne y hj])]
  simp [hA]

theorem log_one_eq : LD.log Real.log (fin (1 : ℝ)) = fin 0 := by norm_num [LD.log]

theorem log_pos_eq {r : ℝ} (h : 0 < r) : LD.log Real.log (fin r) = fin (Real.log r) := by
  simp [LD.log, h.ne', not_lt.mpr h.le]

theorem posteriorAt_only (lookUp : LD ℝ → LD ℝ → LD ℝ) (a : Fin 4) (u : ℝ) (z : Fin 4 → ℝ) :
    posteriorAt Real.exp lookUp (only a u) (fun k => fin (z k)) =
      fun k => if k = a then fin 1 else fin 0 := by
  funext k
  simp only [posteriorAt]
  rw [get_logSumExp_states_single lookUp (fun j => only a u j + fin (z j)) a
    (fun j hj => by simp [only_ne u hj])]
  by_cases hk : k = a
  · subst hk; simp
  · simp [only_ne _ hk, hk]

theorem anyBadPosterior_indicator (a : Fin 4) :
    anyBadPosterior (fun k => if k = a then (fin 1 : LD ℝ) else fin 0) = false := by
  fin_cases a <;> simp [anyBadPosterior, badPosterior]

theorem iForward_two_only (lookUp : LD ℝ → LD ℝ → LD ℝ) (logA : Mat4 ℝ) (l : Fin 4 → Fin 4 → ℝ)
    (hA : ∀ i j, logA i j = fin (l i j)) (init : Vec4 ℝ) (a b : Fin 4) (x y q : ℝ)
    (hq : 0 < q) (hinit : init a = fin q) :
    iForward Real.log lookUp logA init [only a x, only b y] =
      some [only a (Real.log q + x), only b (Real.log q + x + l a b + y)] := by
  have h0 : (fun k => myLog Real.log (init k) + only a x k) = only a (Real.log q + x) := by
    funext k
    by_cases hk : k = a
    · subst hk; simp [hinit, myLog_pos _ hq]
    · simp [only_ne _ hk]
  simp only [iForward, h0, iForwardFrom, forwardStep_only lookUp logA l hA, anyInf_only]
  rfl

theorem iBackward_two_only (lookUp : LD ℝ → LD ℝ → LD ℝ) (logA : Mat4 ℝ) (l : Fin 4 → Fin 4 → ℝ)
    (hA : ∀ i j, logA i j = fin (l i j)) (e : Vec4 ℝ) (b : Fin 4) (y : ℝ) :
    iBackward Real.log lookUp logA [e, only b y] =
      some [fun k => fin (0 + l k b + y), fun _ => fin 0] := by
  simp [iBackward, log_one_eq, backwardStep_only lookUp logA l hA, anyInf]

/-- The body of the interval loop of the training pass on an interval of two positions
at which only state `a`, then only state `b` is possible: it does not set `stop`, and its
statistics count the one transition `a -> b`. -/
theorem fbUpdateInterval_two_only (options : AppOptions ℝ) (logA : Mat4 ℝ)
    (l : Fin 4 → Fin 4 → ℝ) (hA : ∀ i j, logA i j = fin (l i j)) (iv : Interval ℝ)
    (a b : Fin 4) (x y q : ℝ) (o_0 o_1 : Obs ℝ) (hq : 0 < q) (hinit : iv.initProbs a = fin q)
    (he : iv.eProbs = [only a x, only b y]) (ho : iv.obs.sites = [o_0, o_1]) :
    (fbUpdateInterval Real.log Real.exp options logA iv).stop = false ∧
    (∀ i j, (fbUpdateInterval Real.log Real.exp options logA iv).stats.p i j =
      if i = a ∧ j = b then fin 1 else fin 0) ∧
    (fbUpdateInterval Real.log Real.exp options logA iv).stats.p_2_2 =
      (if (LD.lt (fin 0) options.nThresholdForTransP &&
          LD.le options.nThresholdForTransP o_1.nEstimate) = true
        then (if (2 : Fin 4) = a ∧ (2 : Fin 4) = b then fin 1 else fin 0) else fin 0) ∧
    (fbUpdateInterval Real.log Real.exp options logA iv).stats.p_2_3 =
      (if (LD.lt (fin 0) options.nThresholdForTransP &&
          LD.le options.nThresholdForTransP o_1.nEstimate) = true
        then (if (2 : Fin 4) = a ∧ (3 : Fin 4) = b then fin 1 else fin 0) else fin 0) := by
  have hF := iForward_two_only options.lookUp logA l hA iv.initProbs a b x y q hq hinit
  have hB := iBackward_two_only options.lookUp logA l hA (only a x) b y
  have hxi : ∀ i j, xiAt logA (only a (Real.log q + x)) (only b y) (fun _ => fin 0) i j =
      if i = a ∧ j = b then fin (Real.log q + x + l a b + y + 0) else nan := by
    intro i j
    by_cases hi : i = a
    · by_cases hj : j = b
      · subst hi hj; simp [xiAt, hA]
      · simp [xiAt, only_ne _ hj, hj]
    · simp [xiAt, only_ne _ hi, hi]
  have hnorm : xiNorm options.lookUp
      (xiAt logA (only a (Real.log q + x)) (only b y) (fun _ => fin 0)) =
        fin (Real.log q + x + l a b + y + 0) := by
    rw [xiNorm_single options.lookUp _ a b (fun i j hij => by rw [hxi, if_neg hij]), hxi]
    simp
  have hterm : ∀ i j, myExp Real.exp
      (xiAt logA (only a (Real.log q + x)) (only b y) (fun _ => fin 0) i j -
        fin (Real.log q + x + l a b + y + 0)) = if i = a ∧ j = b then fin 1 else fin 0 := by
    intro i j
    rw [hxi]
    by_cases hij : i = a ∧ j = b
    · simp [hij]
    · simp [hij]
  simp only [fbUpdateInterval, he, ho, hF, hB, posteriors, List.zipWith_cons_cons,
    List.zipWith_nil_right, List.tail_cons, xiLoop, xiStep, hnorm, hterm, TransStats.zero]
  refine ⟨?_, ?_, ?_, ?_⟩
  · rw [posteriorAt_only options.lookUp a _ (fun k => 0 + l k b + y),
      posteriorAt_only options.lookUp b _ (fun _ => 0)]
    simp [anyBadPosterior_indicator]
  · intro i j
    by_cases hij : i = a ∧ j = b
    · simp [hij]
    · simp [hij]
  · split
    · by_cases hij : (2 : Fin 4) = a ∧ (2 : Fin 4) = b
      · obtain ⟨rfl, rfl⟩ := hij; simp
      · simp [hij]
    · rfl
  · split
    · by_cases hij : (2 : Fin 4) = a ∧ (3 : Fin 4) = b
      · obtain ⟨rfl, rfl⟩ := hij; simp
      · simp [hij]
    · rfl

/-! ## Re-estimation of the transition matrix -/

theorem DBL_MIN_pos : (0 : ℝ) < DBL_MIN := by unfold DBL_MIN; positivity

theorem DBL_MIN_lt : (DBL_MIN : ℝ) < 1 / 100 := by
  unfold DBL_MIN
  rw [div_lt_div_iff₀ (by positivity) (by norm_num)]
  have h : (2 : ℝ) ^ 7 ≤ 2 ^ 1022 := pow_le_pow_right₀ (by norm_num) (by norm_num)
  linarith

theorem logMatrix_uniform (i j : Fin 4) :
    logMatrix Real.log (fun _ _ => fin (1 / 4 : ℝ)) i j =
      fin ((fun _ _ => Real.log (1 / 4)) i j) := by
  simp only [logMatrix]
  exact log_pos_eq (by norm_num)

/-- The result of the training pass when its forward strand has one interval and its
reverse strand none. -/
theorem computeStatePosteriorsFBupdateTrans_single (options : AppOptions ℝ) (A : Mat4 ℝ)
    (iv : Interval ℝ)
    (hstop : (fbUpdateInterval Real.log Real.exp options (logMatrix Real.log A) iv).stop
      = false) :
    (computeStatePosteriorsFBupdateTrans Real.log Real.exp options ⟨A, [iv], []⟩).1 = true ∧
    (computeStatePosteriorsFBupdateTrans Real.log Real.exp options ⟨A, [iv], []⟩).2.transMatrix =
      updateTransMatrix options (TransStats.zero.add
        (fbUpdateInterval Real.log Real.exp options (logMatrix Real.log A) iv).stats) := by
  simp [computeStatePosteriorsFBupdateTrans, hstop, accumulatedStats, strandStats]

/-- The training pass on `twoSiteInterval a b n` under the uniform transition matrix. -/
theorem fbUpdateInterval_twoSite (options : AppOptions ℝ) (a b : Fin 4) (n : ℝ) :
    (fbUpdateInterval Real.log Real.exp options (logMatrix Real.log (fun _ _ => fin (1 / 4)))
      (twoSiteInterval a b n)).stop = false ∧
    (∀ i j, (fbUpdateInterval Real.log Real.exp options
      (logMatrix Real.log (fun _ _ => fin (1 / 4))) (twoSiteInterval a b n)).stats.p i j =
        if i = a ∧ j = b then fin 1 else fin 0) ∧
    (fbUpdateInterval Real.log Real.exp options (logMatrix Real.log (fun _ _ => fin (1 / 4)))
      (twoSiteInterval a b n)).stats.p_2_2 =
      (if (LD.lt (fin 0) options.nThresholdForTransP &&
          LD.le options.nThresholdForTransP (fin n)) = true
        then (if (2 : Fin 4) = a ∧ (2 : Fin 4) = b then fin 1 else fin 0) else fin 0) ∧
    (fbUpdateInterval Real.log Real.exp options (logMatrix Real.log (fun _ _ => fin (1 / 4)))
      (twoSiteInterval a b n)).stats.p_2_3 =
      (if (LD.lt (fin 0) options.nThresholdForTransP &&
          LD.le options.nThresholdForTransP (fin n)) = true
        then (if (2 : Fin 4) = a ∧ (3 : Fin 4) = b then fin 1 else fin 0) else fin 0) :=
  fbUpdateInterval_two_only options _ _ logMatrix_uniform (twoSiteInterval a b n) a b 0 0
    (1 / 4) ⟨fin 1, a.val % 2, fin n, fin 0⟩ ⟨fin 1, b.val % 2, fin n, fin 0⟩ (by norm_num)
    rfl rfl rfl

/-- The overwrite from the restricted sums `p_2_2 = 0`, `p_2_3 = 1` after the single
transition `2 -> 3`. -/
theorem updateTransMatrix_overwrite_zero (options : AppOptions ℝ) (st : TransStats ℝ)
    (hthr : options.nThresholdForTransP = fin 1) (hmin : options.minTransProbCS = fin (1 / 100))
    (hp : ∀ i j, st.p i j = if i = 2 ∧ j = 3 then fin 1 else fin 0)
    (h22 : st.p_2_2 = fin 0) (h23 : st.p_2_3 = fin 1) :
    updateTransMatrix options (TransStats.zero.add st) 2 2 = fin 0 := by
  have hm := DBL_MIN_pos
  have hm2 := DBL_MIN_lt
  have hm3 : ¬ (DBL_MIN + 1 < (100 : ℝ)⁻¹) := by norm_num; linarith
  have h10 : ¬ ((1 : ℝ) ≤ 0) := by norm_num
  simp +decide [updateTransMatrix, keepMinTransProbCS, fixTrans23, normalizeFloor, setEntry,
    TransStats.add, TransStats.zero, hp, h22, h23, hthr, hmin, LD.fin_div_fin_eq, hm3, h10]

/-- C2 fails on the code. With `nThresholdForTransP = 1`, one interval of two positions
at which only state 2, then only state 3 is possible, and `nEstimates = 5`, the pass
succeeds and the overwrite from the restricted sums (`p_2_2 = 0`, `p_2_3 = 1`) leaves
`transMatrix[2][2] = 0`, which is not `> 0`. -/
theorem transMatrix_zero_after_overwrite :
    (computeStatePosteriorsFBupdateTrans Real.log Real.exp
      ⟨logSumExp_add Real.log Real.exp, fin 1, fin (1 / 100), fin 0⟩
      ⟨fun _ _ => fin (1 / 4), [twoSiteInterval 2 3 5], []⟩).1 = true ∧
    (computeStatePosteriorsFBupdateTrans Real.log Real.exp
      ⟨logSumExp_add Real.log Real.exp, fin 1, fin (1 / 100), fin 0⟩
      ⟨fun _ _ => fin (1 / 4), [twoSiteInterval 2 3 5], []⟩).2.transMatrix 2 2 = fin 0 ∧
    LD.lt (fin 0) ((computeStatePosteriorsFBupdateTrans Real.log Real.exp
      ⟨logSumExp_add Real.log Real.exp, fin 1, fin (1 / 100), fin 0⟩
      ⟨fun _ _ => fin (1 / 4), [twoSiteInterval 2 3 5], []⟩).2.transMatrix 2 2) = false := by
  obtain ⟨hstop, hp, h22, h23⟩ := fbUpdateInterval_twoSite
    ⟨logSumExp_add Real.log Real.exp, fin 1, fin (1 / 100), fin 0⟩ 2 3 5
  obtain ⟨h1, h2⟩ := computeStatePosteriorsFBupdateTrans_single _ _ _ hstop
  have h3 := updateTransMatrix_overwrite_zero
    ⟨logSumExp_add Real.log Real.exp, fin 1, fin (1 / 100), fin 0⟩ _ rfl rfl hp
    (by rw [h22]; simp +decide) (by rw [h23]; simp +decide)
  rw [← h2] at h3
  exact ⟨h1, h3, by rw [h3]; simp⟩

/-- After the single transition `2 -> 2` at a position below the threshold the
restricted sums are both `0`, and the overwrite writes `0/0` into `A[2][3]`. -/
theorem updateTransMatrix_nan_entry (options : AppOptions ℝ) (st : TransStats ℝ)
    (hthr : options.nThresholdForTransP = fin 1) (hmin : options.minTransProbCS = fin (1 / 100))
    (hp : ∀ i j, st.p i j = if i = 2 ∧ j = 2 then fin 1 else fin 0)
    (h22 : st.p_2_2 = fin 0) (h23 : st.p_2_3 = fin 0) :
    updateTransMatrix options (TransStats.zero.add st) 2 3 = nan := by
  have h10 : ¬ ((1 : ℝ) ≤ 0) := by norm_num
  simp +decide [updateTransMatrix, keepMinTransProbCS, fixTrans23, normalizeFloor, setEntry,
    TransStats.add, TransStats.zero, hp, h22, h23, hthr, hmin, LD.fin_div_fin_eq, h10]

/-- C3 fails on the code. With `nThresholdForTransP = 1`, `minTransProbCS = 0.01` and one
interval of two positions with `nEstimates = 0` at which only state 2 is possible, the
pass succeeds with `p_2_2 = p_2_3 = 0`; the overwrite from the restricted sums makes
`transMatrix[2][3]` the NaN `0/0`, which is not raised: `transMatrix[2][3] >=
minTransProbCS` is false. -/
theorem transMatrix_2_3_nan_below_min :
    (computeStatePosteriorsFBupdateTrans Real.log Real.exp
      ⟨logSumExp_add Real.log Real.exp, fin 1, fin (1 / 100), fin 0⟩
      ⟨fun _ _ => fin (1 / 4), [twoSiteInterval 2 2 0], []⟩).1 = true ∧
    (computeStatePosteriorsFBupdateTrans Real.log Real.exp
      ⟨logSumExp_add Real.log Real.exp, fin 1, fin (1 / 100), fin 0⟩
      ⟨fun _ _ => fin (1 / 4), [twoSiteInterval 2 2 0], []⟩).2.transMatrix 2 3 = nan ∧
    LD.le (fin (1 / 100)) ((computeStatePosteriorsFBupdateTrans Real.log Real.exp
      ⟨logSumExp_add Real.log Real.exp, fin 1, fin (1 / 100), fin 0⟩
      ⟨fun _ _ => fin (1 / 4), [twoSiteInterval 2 2 0], []⟩).2.transMatrix 2 3) = false := by
  obtain ⟨hstop, hp, h22, h23⟩ := fbUpdateInterval_twoSite
    ⟨logSumExp_add Real.log Real.exp, fin 1, fin (1 / 100), fin 0⟩ 2 2 0
  obtain ⟨h1, h2⟩ := computeStatePosteriorsFBupdateTrans_single _ _ _ hstop
  have h3 := updateTransMatrix_nan_entry
    ⟨logSumExp_add Real.log Real.exp, fin 1, fin (1 / 100), fin 0⟩ _ rfl rfl hp
    (by rw [h22]; simp +decide) (by rw [h23]; simp +decide)
  rw [← h2] at h3
  exact ⟨h1, h3, by rw [h3]; simp⟩

/-- After the single transition `2 -> 2`, row 2 of the new matrix holds three floored
entries `DBL_MIN`, of which `A[2][3]` is raised to `minTransProbCS = 0.01`. -/
theorem updateTransMatrix_raised_row (options : AppOptions ℝ) (st : TransStats ℝ)
    (hthr : options.nThresholdForTransP = fin 0) (hmin : options.minTransProbCS = fin (1 / 100))
    (hp : ∀ i j, st.p i j = if i = 2 ∧ j = 2 then fin 1 else fin 0) :
    rowSum (updateTransMatrix options (TransStats.zero.add st) 2) =
      fin (DBL_MIN + DBL_MIN + 1 + 1 / 100) := by
  have hm2 : (DBL_MIN : ℝ) < 100⁻¹ := by have := DBL_MIN_lt; rwa [one_div] at this
  have h10 : ¬ ((1 : ℝ) ≤ 0) := by norm_num
  simp +decide [rowSum, updateTransMatrix, keepMinTransProbCS, fixTrans23, normalizeFloor,
    setEntry, TransStats.add, TransStats.zero, hp, hthr, hmin, LD.fin_div_fin_eq, hm2, h10]

/-- C4 fails as stated. With the threshold-restricted statistics disabled,
`minTransProbCS = 0.01` and one interval of two positions at which only state 2 is
possible, the pass succeeds and row 2 of the new matrix is
`(DBL_MIN, DBL_MIN, 1, 0.01)`: its sum is not `1`. -/
theorem transMatrix_row_sum_not_one :
    (computeStatePosteriorsFBupdateTrans Real.log Real.exp
      ⟨logSumExp_add Real.log Real.exp, fin 0, fin (1 / 100), fin 0⟩
      ⟨fun _ _ => fin (1 / 4), [twoSiteInterval 2 2 5], []⟩).1 = true ∧
    rowSum ((computeStatePosteriorsFBupdateTrans Real.log Real.exp
      ⟨logSumExp_add Real.log Real.exp, fin 0, fin (1 / 100), fin 0⟩
      ⟨fun _ _ => fin (1 / 4), [twoSiteInterval 2 2 5], []⟩).2.transMatrix 2) =
        fin (DBL_MIN + DBL_MIN + 1 + 1 / 100) ∧
    rowSum ((computeStatePosteriorsFBupdateTrans Real.log Real.exp
      ⟨logSumExp_add Real.log Real.exp, fin 0, fin (1 / 100), fin 0⟩
      ⟨fun _ _ => fin (1 / 4), [twoSiteInterval 2 2 5], []⟩).2.transMatrix 2) ≠ fin 1 := by
  obtain ⟨hstop, hp, _, _⟩ := fbUpdateInterval_twoSite
    ⟨logSumExp_add Real.log Real.exp, fin 0, fin (1 / 100), fin 0⟩ 2 2 5
  obtain ⟨h1, h2⟩ := computeStatePosteriorsFBupdateTrans_single _ _ _ hstop
  have h3 := updateTransMatrix_raised_row
    ⟨logSumExp_add Real.log Real.exp, fin 0, fin (1 / 100), fin 0⟩ _ rfl rfl hp
  rw [← h2] at h3
  refine ⟨h1, h3, ?_⟩
  rw [h3]
  intro h
  have hm := DBL_MIN_pos
  have := LD.fin.inj h
  linarith

/-! ## Rows that sum to one -/

/-- A successful training pass assigns the matrix computed from the accumulated
statistics. -/
theorem computeStatePosteriorsFBupdateTrans_success (options : AppOptions ℝ) (h : HMM ℝ)
    (hs : (computeStatePosteriorsFBupdateTrans Real.log Real.exp options h).1 = true) :
    (computeStatePosteriorsFBupdateTrans Real.log Real.exp options h).2.transMatrix =
      updateTransMatrix options (accumulatedStats Real.log Real.exp options h) := by
  simp only [computeStatePosteriorsFBupdateTrans] at hs ⊢
  split at hs
  · simp at hs
  · split at hs
    · simp at hs
    · rename_i h1 h2
      simp [h1, h2]

theorem setEntry_other_row (A : Mat4 ℝ) (i j : Fin 4) (v : LD ℝ) (k : Fin 4) (hk : k ≠ i) :
    setEntry A i j v k = A k := by
  funext c
  simp [setEntry, hk]

/-- A row of strictly positive statistics is normalised without a floored entry. -/
theorem normalizeFloor_pos_row (p : Mat4 ℝ) (k : Fin 4) (r : Fin 4 → ℝ) (hr : ∀ j, 0 < r j)
    (hp : ∀ j, p k j = fin (r j)) (j : Fin 4) :
    normalizeFloor p k j = fin (r j / (r 0 + r 1 + r 2 + r 3)) := by
  have hD : 0 < r 0 + r 1 + r 2 + r 3 := by
    have := hr 0; have := hr 1; have := hr 2; have := hr 3; linarith
  have hq : ¬ (r j / (r 0 + r 1 + r 2 + r 3) ≤ 0) := not_le.mpr (div_pos (hr j) hD)
  simp [normalizeFloor, hp, LD.fin_div_fin_eq, hD.ne', hq]

theorem row_quotients_sum (r : Fin 4 → ℝ) (hD : 0 < r 0 + r 1 + r 2 + r 3) :
    r 0 / (r 0 + r 1 + r 2 + r 3) + r 1 / (r 0 + r 1 + r 2 + r 3) +
      r 2 / (r 0 + r 1 + r 2 + r 3) + r 3 / (r 0 + r 1 + r 2 + r 3) = 1 := by
  field_simp

/-- The row sums of the matrix computed from accumulated statistics: a row of strictly
positive statistics sums to `1` when the overwrite from the restricted sums is disabled
or has a non-zero divisor, and the minimum raised no entry of the row. -/
theorem updateTransMatrix_row_sum (options : AppOptions ℝ) (st : TransStats ℝ) (k : Fin 4)
    (hp : ∀ j, ∃ r, 0 < r ∧ st.p k j = fin r)
    (hthr : k = 2 → LD.lt (fin 0) options.nThresholdForTransP = true →
      ∃ a b, st.p_2_2 = fin a ∧ st.p_2_3 = fin b ∧ a + b ≠ 0)
    (hmin2 : k = 2 →
      LD.lt (fixTrans23 options st (normalizeFloor st.p) 2 3) options.minTransProbCS = false)
    (hmin3 : k = 3 →
      (LD.lt (fixTrans23 options st (normalizeFloor st.p) 2 3) options.minTransProbCS &&
        LD.lt (fixTrans23 options st (normalizeFloor st.p) 3 3) options.minTransProbCS)
          = false) :
    rowSum (updateTransMatrix options st k) = fin 1 := by
  choose r hr hpr using hp
  have hD : 0 < r 0 + r 1 + r 2 + r 3 := by
    have := hr 0; have := hr 1; have := hr 2; have := hr 3; linarith
  have hN := normalizeFloor_pos_row st.p k r hr hpr
  have hNsum : rowSum (normalizeFloor st.p k) = fin 1 := by
    simp only [rowSum, hN, fin_add_fin, row_quotients_sum r hD]
  -- the overwrite from the restricted sums
  have hF : rowSum (fixTrans23 options st (normalizeFloor st.p) k) = fin 1 := by
    unfold fixTrans23
    split
    · rename_i hen
      by_cases hk : k = 2
      · subst hk
        obtain ⟨a, b, ha, hb, hab⟩ := hthr rfl hen
        simp +decide only [rowSum, setEntry, hN, ha, hb, fin_add_fin, fin_mul_fin,
          LD.fin_div_fin _ _ hab, and_true, and_false, if_true, if_false, true_and]
        congr 1
        field_simp
        ring
      · rw [setEntry_other_row _ _ _ _ _ hk, setEntry_other_row _ _ _ _ _ hk]
        exact hNsum
    · exact hNsum
  -- the minimum on `A[2][3]` and `A[3][3]`
  unfold updateTransMatrix keepMinTransProbCS
  split
  · rename_i h23
    split
    · rename_i h33
      by_cases hk2 : k = 2
      · rw [hmin2 hk2] at h23; simp at h23
      · by_cases hk3 : k = 3
        · have := hmin3 hk3; simp [h23, h33] at this
        · rw [setEntry_other_row _ _ _ _ _ hk3, setEntry_other_row _ _ _ _ _ hk2]
          exact hF
    · by_cases hk2 : k = 2
      · rw [hmin2 hk2] at h23; simp at h23
      · rw [setEntry_other_row _ _ _ _ _ hk2]
        exact hF
  · exact hF

/-- C4, amended. The transition matrix built by the constructor has every row summing to
`1`. After a successful call of `computeStatePosteriorsFBupdateTrans`, row `k` of
`transMatrix` sums to `1` provided that the four accumulated statistics `p[k][.]` are
strictly positive (no entry of the row is floored to `DBL_MIN`), that for `k = 2` with
`nThresholdForTransP > 0` the restricted sums have `p_2_2 + p_2_3 != 0`, and that the
minimum `minTransProbCS` raised no entry of the row (`A[2][3]` for `k = 2`, `A[3][3]`
for `k = 3`). -/
theorem transMatrix_row_sum_one (uninit : LD ℝ) (setObsF setObsR : List (Observations ℝ))
    (options : AppOptions ℝ) (h : HMM ℝ) (k : Fin 4)
    (hs : (computeStatePosteriorsFBupdateTrans Real.log Real.exp options h).1 = true)
    (hp : ∀ j, ∃ r, 0 < r ∧ (accumulatedStats Real.log Real.exp options h).p k j = fin r)
    (hthr : k = 2 → LD.lt (fin 0) options.nThresholdForTransP = true →
      ∃ a b, (accumulatedStats Real.log Real.exp options h).p_2_2 = fin a ∧
        (accumulatedStats Real.log Real.exp options h).p_2_3 = fin b ∧ a + b ≠ 0)
    (hmin2 : k = 2 →
      LD.lt (fixTrans23 options (accumulatedStats Real.log Real.exp options h)
        (normalizeFloor (accumulatedStats Real.log Real.exp options h).p) 2 3)
          options.minTransProbCS = false)
    (hmin3 : k = 3 →
      (LD.lt (fixTrans23 options (accumulatedStats Real.log Real.exp options h)
          (normalizeFloor (accumulatedStats Real.log Real.exp options h).p) 2 3)
            options.minTransProbCS &&
        LD.lt (fixTrans23 options (accumulatedStats Real.log Real.exp options h)
          (normalizeFloor (accumulatedStats Real.log Real.exp options h).p) 3 3)
            options.minTransProbCS) = false) :
    (∀ k_1, rowSum ((HMM.HMM uninit setObsF setObsR).transMatrix k_1) = fin 1) ∧
    rowSum ((computeStatePosteriorsFBupdateTrans Real.log Real.exp options h).2.transMatrix k)
      = fin 1 := by
  constructor
  · intro k_1
    simp only [rowSum, HMM.HMM, fin_add_fin]
    norm_num
  · rw [computeStatePosteriorsFBupdateTrans_success options h hs]
    exact updateTransMatrix_row_sum options _ k hp hthr hmin2 hmin3

/-- Witness for `transMatrix_row_sum_one`: four intervals with the single transitions
`2 -> 0`, `2 -> 1`, `2 -> 2` and `2 -> 3`, the restricted statistics disabled and
`minTransProbCS = 0.01`; row 2 of the new matrix is `(1/4, 1/4, 1/4, 1/4)`. -/
theorem transMatrix_row_sum_one_witness :
    rowSum ((computeStatePosteriorsFBupdateTrans Real.log Real.exp
      ⟨logSumExp_add Real.log Real.exp, fin 0, fin (1 / 100), fin 0⟩
      ⟨fun _ _ => fin (1 / 4), [twoSiteInterval 2 0 5, twoSiteInterval 2 1 5,
        twoSiteInterval 2 2 5, twoSiteInterval 2 3 5], []⟩).2.transMatrix 2) = fin 1 := by
  have h0 := fbUpdateInterval_twoSite
    ⟨logSumExp_add Real.log Real.exp, fin 0, fin (1 / 100), fin 0⟩ 2 0 5
  have h1 := fbUpdateInterval_twoSite
    ⟨logSumExp_add Real.log Real.exp, fin 0, fin (1 / 100), fin 0⟩ 2 1 5
  have h2 := fbUpdateInterval_twoSite
    ⟨logSumExp_add Real.log Real.exp, fin 0, fin (1 / 100), fin 0⟩ 2 2 5
  have h3 := fbUpdateInterval_twoSite
    ⟨logSumExp_add Real.log Real.exp, fin 0, fin (1 / 100), fin 0⟩ 2 3 5
  have hp : ∀ j, (accumulatedStats Real.log Real.exp
      ⟨logSumExp_add Real.log Real.exp, fin 0, fin (1 / 100), fin 0⟩
      ⟨fun _ _ => fin (1 / 4), [twoSiteInterval 2 0 5, twoSiteInterval 2 1 5,
        twoSiteInterval 2 2 5, twoSiteInterval 2 3 5], []⟩).p 2 j = fin ((fun _ => 1) j) := by
    intro j
    simp only [accumulatedStats, strandStats, List.foldl_cons, List.foldl_nil, TransStats.add,
      TransStats.zero, h0.2.1, h1.2.1, h2.2.1, h3.2.1]
    fin_cases j <;> simp +decide
  refine (transMatrix_row_sum_one (fin 0) [] []
    ⟨logSumExp_add Real.log Real.exp, fin 0, fin (1 / 100), fin 0⟩
    ⟨fun _ _ => fin (1 / 4), [twoSiteInterval 2 0 5, twoSiteInterval 2 1 5,
      twoSiteInterval 2 2 5, twoSiteInterval 2 3 5], []⟩ 2 ?_ ?_ ?_ ?_ ?_).2
  · simp only [computeStatePosteriorsFBupdateTrans, List.any_cons, List.any_nil, h0.1, h1.1,
      h2.1, h3.1]
    rfl
  · exact fun j => ⟨1, one_pos, hp j⟩
  · intro _ hc
    simp at hc
  · intro _
    have hN := normalizeFloor_pos_row _ 2 (fun _ => (1 : ℝ)) (fun _ => one_pos) hp 3
    simp only [fixTrans23, lt_fin_fin, lt_self_iff_false, decide_False, Bool.false_eq_true,
      if_false, hN]
    norm_num
  · intro hc
    exact absurd hc (by decide)

/-! ## Viterbi decoding -/

/-- C1 fails on the code. For one interval with a single position whose emission entry
is `(0, NaN, NaN, NaN)` (state 0 certain, as for a position below the support threshold
with truncation count 0), uniform initial probabilities and the uniform transition
matrix, `viterbi` returns minus infinity, because it adds `log(eProbs[..][0])` = `log 0`
instead of the stored log-probability; the joint log-probability of the state sequence
`(0)` is `log(1/4)`, and no state sequence has the joint log-probability minus
infinity. -/
theorem viterbi_value_not_joint_maximum (toDouble : LD ℝ → LD ℝ) :
    (viterbi toDouble Real.log
      ⟨fun _ _ => fin (1 / 4),
        [⟨⟨[⟨fin 1, 0, fin 0, fin 0⟩], false⟩, fun _ => fin (1 / 4), [only 0 0],
          [fun _ => fin 0]⟩], []⟩ ([], [])).1 = ninf ∧
    jointLogProb Real.log (fun _ => fin (1 / 4)) (fun _ _ => fin (1 / 4)) [only 0 0] [0] =
      fin (Real.log (1 / 4)) ∧
    ∀ z : Fin 4,
      jointLogProb Real.log (fun _ => fin (1 / 4)) (fun _ _ => fin (1 / 4)) [only 0 0] [z] ≠
        ninf := by
  have hL : LD.log Real.log (fin (1 / 4 : ℝ)) = fin (Real.log (1 / 4)) :=
    log_pos_eq (by norm_num)
  have h0 : LD.log Real.log (fin (0 : ℝ)) = ninf := by simp [LD.log]
  have hn : LD.log Real.log (nan : LD ℝ) = nan := rfl
  have hv : ∀ k, viterbiInit Real.log (fun _ => fin (1 / 4)) (only 0 0) k =
      if k = 0 then ninf else nan := by
    intro k
    by_cases hk : k = 0
    · subst hk; simp only [viterbiInit, hL, only_self, h0, fin_add_ninf, if_true]
    · simp only [viterbiInit, hL, only_ne _ hk, hn, add_nan, if_neg hk]
  have hb : bestLast (viterbiInit Real.log (fun _ => fin (1 / 4)) (only 0 0)) = (ninf, 0) := by
    simp +decide only [bestLast, lastStep, hv, le_nan_right, if_true, if_false,
      Bool.false_eq_true]
  refine ⟨?_, ?_, ?_⟩
  · simp only [viterbi, viterbiStrand, resize, viterbiInterval, viterbiRows, List.map_nil,
      List.getLast?_nil, Option.getD_none, hb, List.length_cons, List.length_nil, List.take_nil,
      List.nil_append, List.replicate, List.length_singleton, Nat.sub_zero,
      Bool.false_eq_true, if_false, fin_add_ninf]
  · simp only [jointLogProb, jointLogProbFrom, hL, only_self, fin_add_fin, add_zero]
  · intro z
    by_cases hz : z = 0
    · subst hz
      simp only [jointLogProb, jointLogProbFrom, hL, only_self, fin_add_fin]
      exact fun h => nomatch h
    · simp only [jointLogProb, jointLogProbFrom, hL, only_ne _ hz, add_nan, nan_add]
      exact fun h => nomatch h


/-! ## Validity of a position -/

theorem add_eq_zero_of_nonneg {x y : LD ℝ} (hx : LD.le (fin 0) x = true)
    (hy : LD.le (fin 0) y = true) :
    LD.eq (x + y) (fin 0) = true ↔ x = fin 0 ∧ y = fin 0 := by
  cases x with
  | nan => simp at hx
  | ninf => simp [LD.le] at hx
  | pinf =>
    cases y with
    | nan => simp at hy
    | ninf => simp [LD.le] at hy
    | pinf => simp [LD.eq]
    | fin b => simp [LD.eq]
  | fin a =>
    cases y with
    | nan => simp at hy
    | ninf => simp [LD.le] at hy
    | pinf => simp [LD.eq]
    | fin b =>
      simp only [le_fin_fin, decide_eq_true_eq] at hx hy
      simp only [fin_add_fin, eq_fin_fin, decide_eq_true_eq, LD.fin.injEq]
      constructor
      · intro h; constructor <;> linarith
      · rintro ⟨rfl, rfl⟩; simp

theorem logEmissions_all_nan_iff (ln : ℝ → ℝ) (g b : LD ℝ × LD ℝ) :
    ((logEmissions ln g b 0).isnan && (logEmissions ln g b 1).isnan &&
      (logEmissions ln g b 2).isnan && (logEmissions ln g b 3).isnan) = true ↔
    ∀ e c : Fin 2, myLog ln (pick g e) + myLog ln (pick b c) = nan := by
  simp only [Bool.and_eq_true, LD.isnan_iff]
  constructor
  · rintro ⟨⟨⟨h0, h1⟩, h2⟩, h3⟩ e c
    fin_cases e <;> fin_cases c
    · simpa [logEmissions, pick] using h0
    · simpa [logEmissions, pick] using h1
    · simpa [logEmissions, pick] using h2
    · simpa [logEmissions, pick] using h3
  · intro h
    refine ⟨⟨⟨?_, ?_⟩, ?_⟩, ?_⟩
    · simpa [logEmissions, pick] using h 0 0
    · simpa [logEmissions, pick] using h 0 1
    · simpa [logEmissions, pick] using h 1 0
    · simpa [logEmissions, pick] using h 1 1

/-- The validity check of `computeEProb` on density values that are not negative. -/
theorem eProbFromValues_invalid_iff (ln : ℝ → ℝ) (g b : LD ℝ × LD ℝ)
    (hg : ∀ e, LD.le (fin 0) (pick g e) = true) (hb : ∀ c, LD.le (fin 0) (pick b c) = true) :
    (eProbFromValues ln g b).1 = false ↔
      (g.1 = fin 0 ∧ g.2 = fin 0) ∨ (b.1 = fin 0 ∧ b.2 = fin 0) ∨
        ∀ e c : Fin 2, myLog ln (pick g e) + myLog ln (pick b c) = nan := by
  have hg1 : LD.le (fin 0) g.1 = true := by simpa [pick] using hg 0
  have hg2 : LD.le (fin 0) g.2 = true := by simpa [pick] using hg 1
  have hb1 : LD.le (fin 0) b.1 = true := by simpa [pick] using hb 0
  have hb2 : LD.le (fin 0) b.2 = true := by simpa [pick] using hb 1
  rw [← add_eq_zero_of_nonneg hg1 hg2, ← add_eq_zero_of_nonneg hb1 hb2,
    ← logEmissions_all_nan_iff]
  simp only [eProbFromValues]
  split
  · rename_i hc
    simp only [Bool.or_eq_true] at hc
    simp only [true_iff]
    rcases hc with (hc | hc) | hc
    · exact Or.inl hc
    · exact Or.inr (Or.inl hc)
    · exact Or.inr (Or.inr hc)
  · rename_i hc
    simp only [Bool.or_eq_true, not_or] at hc
    simp only [Bool.true_eq_false, false_iff, not_or]
    exact ⟨hc.1.1, hc.1.2, hc.2⟩

theorem eProbFromValues_invalid_entry (ln : ℝ → ℝ) (g b : LD ℝ × LD ℝ)
    (h : (eProbFromValues ln g b).1 = false) :
    (eProbFromValues ln g b).2 = ![fin 0, nan, nan, nan] := by
  simp only [eProbFromValues] at h ⊢
  split
  · rfl
  · rename_i hc; simp [hc] at h

/-- C11. For density values that are not negative, `computeEProb` (for `GAMMA2` and for
`GAMMA2_REG` with `ZTBIN`) returns false if and only if both coverage density values are
zero, or both count density values are zero, or all four computed log-probabilities
`myLog(g_e) + myLog(bin_c)` are the NaN sentinel; whenever it returns false the stored
emission entry is `(0, NaN, NaN, NaN)`. -/
theorem computeEProb_invalid_iff (d1 d2 : GAMMA2 ℝ) (r1 r2 : GAMMA2_REG ℝ) (bin1 bin2 : ZTBIN ℝ)
    (o : Obs ℝ) (options : AppOptions ℝ)
    (hg : ∀ e, LD.le (fin 0) (pick (gammaValues d1 d2 o) e) = true)
    (hr : ∀ e, LD.le (fin 0) (pick (gammaValuesReg Real.exp r1 r2 o options) e) = true)
    (hb : ∀ c, LD.le (fin 0) (pick (binValues bin1 bin2 o options) c) = true) :
    ((computeEProb Real.log d1 d2 bin1 bin2 o options).1 = false ↔
      ((gammaValues d1 d2 o).1 = fin 0 ∧ (gammaValues d1 d2 o).2 = fin 0) ∨
      ((binValues bin1 bin2 o options).1 = fin 0 ∧ (binValues bin1 bin2 o options).2 = fin 0) ∨
      ∀ e c : Fin 2, myLog Real.log (pick (gammaValues d1 d2 o) e) +
        myLog Real.log (pick (binValues bin1 bin2 o options) c) = nan) ∧
    ((computeEProb Real.log d1 d2 bin1 bin2 o options).1 = false →
      (computeEProb Real.log d1 d2 bin1 bin2 o options).2 = ![fin 0, nan, nan, nan]) ∧
    ((computeEProbReg Real.log Real.exp r1 r2 bin1 bin2 o options).1 = false ↔
      ((gammaValuesReg Real.exp r1 r2 o options).1 = fin 0 ∧
        (gammaValuesReg Real.exp r1 r2 o options).2 = fin 0) ∨
      ((binValues bin1 bin2 o options).1 = fin 0 ∧ (binValues bin1 bin2 o options).2 = fin 0) ∨
      ∀ e c : Fin 2, myLog Real.log (pick (gammaValuesReg Real.exp r1 r2 o options) e) +
        myLog Real.log (pick (binValues bin1 bin2 o options) c) = nan) ∧
    ((computeEProbReg Real.log Real.exp r1 r2 bin1 bin2 o options).1 = false →
      (computeEProbReg Real.log Real.exp r1 r2 bin1 bin2 o options).2 =
        ![fin 0, nan, nan, nan]) :=
  ⟨eProbFromValues_invalid_iff Real.log _ _ hg hb, eProbFromValues_invalid_entry Real.log _ _,
    eProbFromValues_invalid_iff Real.log _ _ hr hb, eProbFromValues_invalid_entry Real.log _ _⟩

/-- Witness for `computeEProb_invalid_iff`: a position below the support threshold with
truncation count 1 at which both count densities are `0` is invalid, and its entry is
`(0, NaN, NaN, NaN)`. -/
theorem computeEProb_invalid_iff_witness :
    (computeEProb Real.log ⟨fin 1, fun _ => fin 1⟩ ⟨fin 1, fun _ => fin 1⟩
        ⟨fun _ _ _ => fin 0⟩ ⟨fun _ _ _ => fin 0⟩ ⟨fin 0, 1, fin 1, fin 0⟩
        ⟨logSumExp_add Real.log Real.exp, fin 0, fin 0, fin 0⟩).1 = false ∧
    (computeEProb Real.log ⟨fin 1, fun _ => fin 1⟩ ⟨fin 1, fun _ => fin 1⟩
        ⟨fun _ _ _ => fin 0⟩ ⟨fun _ _ _ => fin 0⟩ ⟨fin 0, 1, fin 1, fin 0⟩
        ⟨logSumExp_add Real.log Real.exp, fin 0, fin 0, fin 0⟩).2 = ![fin 0, nan, nan, nan] := by
  have h := computeEProb_invalid_iff ⟨fin 1, fun _ => fin 1⟩ ⟨fin 1, fun _ => fin 1⟩
    ⟨fin 1, fin 0, fin 0, fun _ _ _ => fin 1⟩ ⟨fin 1, fin 0, fin 0, fun _ _ _ => fin 1⟩
    ⟨fun _ _ _ => fin 0⟩ ⟨fun _ _ _ => fin 0⟩ ⟨fin 0, 1, fin 1, fin 0⟩
    ⟨logSumExp_add Real.log Real.exp, fin 0, fin 0, fin 0⟩
    (fun e => by fin_cases e <;> norm_num [gammaValues, pick])
    (fun e => by fin_cases e <;> norm_num [gammaValuesReg, pick])
    (fun c => by fin_cases c <;> norm_num [binValues, pick])
  have hf := h.1.mpr (Or.inr (Or.inl (by norm_num [binValues])))
  exact ⟨hf, h.2.1 hf⟩


/-! ## Emission probabilities of all intervals -/

theorem emissionInterval_eProbs (eProb : Obs ℝ → Bool × Vec4 ℝ) (learning : Bool)
    (iv : Interval ℝ) :
    (emissionInterval eProb learning iv).interval.eProbs =
      iv.obs.sites.map (fun o => (eProb o).2) := rfl

theorem emissionInterval_learning_obs (eProb : Obs ℝ → Bool × Vec4 ℝ) (iv : Interval ℝ) :
    (emissionInterval eProb true iv).interval.obs = iv.obs := by
  simp [emissionInterval]

theorem emissionInterval_frame (eProb : Obs ℝ → Bool × Vec4 ℝ) (learning : Bool)
    (iv : Interval ℝ) :
    (emissionInterval eProb learning iv).interval.initProbs = iv.initProbs ∧
    (emissionInterval eProb learning iv).interval.statePosteriors = iv.statePosteriors ∧
    (emissionInterval eProb learning iv).interval.obs.sites = iv.obs.sites := by
  refine ⟨rfl, rfl, ?_⟩
  simp only [emissionInterval]
  split <;> rfl

theorem emissionInterval_decode_discard (eProb : Obs ℝ → Bool × Vec4 ℝ) (iv : Interval ℝ) :
    (emissionInterval eProb false iv).interval.obs.discard =
      (iv.obs.discard || iv.obs.sites.any (fun o => !(eProb o).1)) := by
  simp only [emissionInterval]
  split
  · rename_i h
    simp only [Bool.not_false, Bool.true_and] at h
    simp [h]
  · rename_i h
    simp only [Bool.not_false, Bool.true_and, Bool.not_eq_true] at h
    simp [h]

theorem emissionInterval_stop_of_invalid (eProb : Obs ℝ → Bool × Vec4 ℝ) (iv : Interval ℝ)
    (o : Obs ℝ) (ho : o ∈ iv.obs.sites) (hv : (eProb o).1 = false) :
    (emissionInterval eProb true iv).stop = true := by
  simp only [emissionInterval, Bool.true_and, Bool.or_eq_true, List.any_eq_true]
  exact Or.inr ⟨o, ho, by simp [hv]⟩

theorem emissionInterval_stop_of_zero (eProb : Obs ℝ → Bool × Vec4 ℝ) (learning : Bool)
    (iv : Interval ℝ) (o : Obs ℝ) (ho : o ∈ iv.obs.sites) (hz : o.kde = fin 0) :
    (emissionInterval eProb learning iv).stop = true := by
  simp only [emissionInterval, Bool.or_eq_true, List.any_eq_true]
  exact Or.inl ⟨o, ho, by simp [hz]⟩

theorem emissionInterval_decode_stop (eProb : Obs ℝ → Bool × Vec4 ℝ) (iv : Interval ℝ) :
    (emissionInterval eProb false iv).stop = iv.obs.sites.any (fun o => LD.eq o.kde (fin 0)) := by
  simp [emissionInterval]

theorem computeEmissionProbs_fwd {G B : Type}
    (cEP : G → G → B → B → Obs ℝ → AppOptions ℝ → Bool × Vec4 ℝ)
    (d1 d2 : G) (bin1 bin2 : B) (learning : Bool) (options : AppOptions ℝ) (h : HMM ℝ) :
    (computeEmissionProbs cEP d1 d2 bin1 bin2 learning options h).2.fwd =
      h.fwd.map (fun iv =>
        (emissionInterval (fun o => cEP d1 d2 bin1 bin2 o options) learning iv).interval) := rfl

theorem computeEmissionProbs_rev {G B : Type}
    (cEP : G → G → B → B → Obs ℝ → AppOptions ℝ → Bool × Vec4 ℝ)
    (d1 d2 : G) (bin1 bin2 : B) (learning : Bool) (options : AppOptions ℝ) (h : HMM ℝ) :
    (computeEmissionProbs cEP d1 d2 bin1 bin2 learning options h).2.rev =
      h.rev.map (fun iv =>
        (emissionInterval (fun o => cEP d1 d2 bin1 bin2 o options) learning iv).interval) := rfl

theorem computeEmissionProbs_transMatrix {G B : Type}
    (cEP : G → G → B → B → Obs ℝ → AppOptions ℝ → Bool × Vec4 ℝ)
    (d1 d2 : G) (bin1 bin2 : B) (learning : Bool) (options : AppOptions ℝ) (h : HMM ℝ) :
    (computeEmissionProbs cEP d1 d2 bin1 bin2 learning options h).2.transMatrix =
      h.transMatrix := rfl

theorem computeEmissionProbs_false_of_stop {G B : Type}
    (cEP : G → G → B → B → Obs ℝ → AppOptions ℝ → Bool × Vec4 ℝ)
    (d1 d2 : G) (bin1 bin2 : B) (learning : Bool) (options : AppOptions ℝ) (h : HMM ℝ)
    (iv : Interval ℝ) (hiv : iv ∈ h.fwd ++ h.rev)
    (hs : (emissionInterval (fun o => cEP d1 d2 bin1 bin2 o options) learning iv).stop = true) :
    (computeEmissionProbs cEP d1 d2 bin1 bin2 learning options h).1 = false := by
  simp only [computeEmissionProbs, Bool.not_eq_false_eq_eq_true, Bool.or_eq_true,
    List.any_eq_true]
  rcases List.mem_append.mp hiv with hm | hm
  · exact Or.inl ⟨iv, hm, hs⟩
  · exact Or.inr ⟨iv, hm, hs⟩

theorem computeEmissionProbs_decode_flag {G B : Type}
    (cEP : G → G → B → B → Obs ℝ → AppOptions ℝ → Bool × Vec4 ℝ)
    (d1 d2 : G) (bin1 bin2 : B) (options : AppOptions ℝ) (h : HMM ℝ) :
    (computeEmissionProbs cEP d1 d2 bin1 bin2 false options h).1 = true ↔
      ∀ iv ∈ h.fwd ++ h.rev, ∀ o ∈ iv.obs.sites, LD.eq o.kde (fin 0) = false := by
  simp only [computeEmissionProbs, emissionInterval_decode_stop, Bool.not_eq_true_eq_eq_false,
    Bool.or_eq_false_iff, List.any_eq_false, List.mem_append, Bool.not_eq_true]
  constructor
  · rintro ⟨hf, hr⟩ iv hiv o ho
    rcases hiv with hm | hm
    · exact hf iv hm o ho
    · exact hr iv hm o ho
  · intro hall
    exact ⟨fun iv hm o ho => hall iv (Or.inl hm) o ho, fun iv hm o ho => hall iv (Or.inr hm) o ho⟩


/-- C12. In training mode, when some position of some interval of either strand is
invalid, `computeEmissionProbs` returns failure, and (invalid position or not) it leaves
the observations of every interval, discard flag included, as they were.  The iteration
of `baumWelch` then ends with `return false` and `baumWelch` returns failure; the engine
is then the one `computeEmissionProbs` left, whose transition matrix, state posteriors and
initial probabilities are those before the iteration: no forward-backward pass has run. -/
theorem training_invalid_position_fails {G B : Type} (ops : DensityOps ℝ G B)
    (learnTag : String) (options : BaumWelchOptions ℝ) (iter fuel : Nat) (st : BWState ℝ G B)
    (iv : Interval ℝ) (o : Obs ℝ) (hiv : iv ∈ st.hmm.fwd ++ st.hmm.rev) (ho : o ∈ iv.obs.sites)
    (hinv : (ops.computeEProb st.d1 st.d2 st.bin1 st.bin2 o options.toAppOptions).1 = false)
    (hit : iter < options.maxIter_bw) :
    (computeEmissionProbs ops.computeEProb st.d1 st.d2 st.bin1 st.bin2 true
      options.toAppOptions st.hmm).1 = false ∧
    (computeEmissionProbs ops.computeEProb st.d1 st.d2 st.bin1 st.bin2 true
      options.toAppOptions st.hmm).2.fwd.map (fun x => x.obs) =
        st.hmm.fwd.map (fun x => x.obs) ∧
    (computeEmissionProbs ops.computeEProb st.d1 st.d2 st.bin1 st.bin2 true
      options.toAppOptions st.hmm).2.rev.map (fun x => x.obs) =
        st.hmm.rev.map (fun x => x.obs) ∧
    bwIteration Real.log Real.exp ops learnTag options iter st =
      BWStep.failed { st with hmm := (computeEmissionProbs ops.computeEProb st.d1 st.d2
        st.bin1 st.bin2 true options.toAppOptions st.hmm).2 } ∧
    baumWelchLoop Real.log Real.exp ops learnTag options (fuel + 1) iter st =
      some (false, { st with hmm := (computeEmissionProbs ops.computeEProb st.d1 st.d2
        st.bin1 st.bin2 true options.toAppOptions st.hmm).2 }) ∧
    (computeEmissionProbs ops.computeEProb st.d1 st.d2 st.bin1 st.bin2 true
      options.toAppOptions st.hmm).2.transMatrix = st.hmm.transMatrix ∧
    (∀ s : Bool,
      ((if s then HMM.rev else HMM.fwd) (computeEmissionProbs ops.computeEProb st.d1 st.d2
        st.bin1 st.bin2 true options.toAppOptions st.hmm).2).map
          (fun x => (x.initProbs, x.statePosteriors)) =
      ((if s then HMM.rev else HMM.fwd) st.hmm).map
          (fun x => (x.initProbs, x.statePosteriors))) := by
  have h1 : (computeEmissionProbs ops.computeEProb st.d1 st.d2 st.bin1 st.bin2 true
      options.toAppOptions st.hmm).1 = false :=
    computeEmissionProbs_false_of_stop _ _ _ _ _ _ _ _ iv hiv
      (emissionInterval_stop_of_invalid _ iv o ho hinv)
  have h4 : bwIteration Real.log Real.exp ops learnTag options iter st =
      BWStep.failed { st with hmm := (computeEmissionProbs ops.computeEProb st.d1 st.d2
        st.bin1 st.bin2 true options.toAppOptions st.hmm).2 } := by
    simp only [bwIteration, h1, Bool.false_eq_true, if_false]
  refine ⟨h1, ?_, ?_, h4, ?_, rfl, ?_⟩
  · simp only [computeEmissionProbs_fwd, List.map_map]
    exact List.map_congr_left (fun x _ => emissionInterval_learning_obs _ x)
  · simp only [computeEmissionProbs_rev, List.map_map]
    exact List.map_congr_left (fun x _ => emissionInterval_learning_obs _ x)
  · simp only [baumWelchLoop, hit, if_true, h4]
  · intro s
    cases s
    · simp only [Bool.false_eq_true, if_false, computeEmissionProbs_fwd, List.map_map]
      exact List.map_congr_left (fun x _ => rfl)
    · simp only [if_true, computeEmissionProbs_rev, List.map_map]
      exact List.map_congr_left (fun x _ => rfl)

/-- Witness for `training_invalid_position_fails`: training on one interval with one
position at which both count densities are `0` fails in the first iteration. -/
theorem training_invalid_position_fails_witness :
    (baumWelch Real.log Real.exp (constantOps Real.log) 1 (constGamma 2 1) (constGamma 2 1)
      (constBin 0) (constBin 0) "LEARN_GAMMA" (plainOptions Real.log Real.exp 1)
      (HMM.HMM nan [⟨[site 1 1], false⟩] [])).map Prod.fst = some false := by
  have h := training_invalid_position_fails (constantOps Real.log) "LEARN_GAMMA"
    (plainOptions Real.log Real.exp 1) 0 0
    { hmm := HMM.HMM nan [⟨[site 1 1], false⟩] [], d1 := constGamma 2 1, d2 := constGamma 2 1,
      bin1 := constBin 0, bin2 := constBin 0, prev_d1 := constGamma 2 1,
      prev_d2 := constGamma 2 1, prev_bin1 := constBin 0, prev_bin2 := constBin 0, trial := 0 }
    (Interval.ofObs nan ⟨[site 1 1], false⟩) (site 1 1)
    (by simp [HMM.HMM]) (by simp [Interval.ofObs])
    (by norm_num [constantOps, computeEProb, eProbFromValues, binValues, gammaValues, constBin,
      constGamma, site, plainOptions])
    (by simp [plainOptions])
  simp only [baumWelch]
  rw [h.2.2.2.2.1]
  rfl


theorem computeEmissionProbs_decode_interval {G B : Type}
    (cEP : G → G → B → B → Obs ℝ → AppOptions ℝ → Bool × Vec4 ℝ)
    (d1 d2 : G) (bin1 bin2 : B) (options : AppOptions ℝ) (ivs : List (Interval ℝ))
    (i : Nat) (iv : Interval ℝ) (hi : ivs[i]? = some iv) :
    ∃ iv_1, (ivs.map (fun x =>
        (emissionInterval (fun o => cEP d1 d2 bin1 bin2 o options) false x).interval))[i]? =
          some iv_1 ∧
      (iv_1.obs.discard = true ↔ iv.obs.discard = true ∨
        ∃ o ∈ iv.obs.sites, (cEP d1 d2 bin1 bin2 o options).1 = false) ∧
      iv_1.obs.sites = iv.obs.sites ∧
      iv_1.eProbs = iv.obs.sites.map (fun o => (cEP d1 d2 bin1 bin2 o options).2) := by
  refine ⟨_, by rw [List.getElem?_map, hi]; rfl, ?_, (emissionInterval_frame _ _ _).2.2,
    emissionInterval_eProbs _ _ _⟩
  rw [emissionInterval_decode_discard]
  simp [List.any_eq_true]

/-- C13. In decode mode, `computeEmissionProbs` keeps the number of intervals of each
strand, and for every interval of either strand: afterwards its discard flag is set if
and only if it was set before or the interval contains an invalid position (so the flag of
an interval without invalid position is unchanged), its positions are unchanged, and its
emission entries are those `computeEProb` stores for its positions (every interval is
processed).  The call returns success if and only if no position has a coverage estimate
equal to `0.0`: invalid positions do not make it fail. -/
theorem decode_invalid_position_discards {G B : Type}
    (cEP : G → G → B → B → Obs ℝ → AppOptions ℝ → Bool × Vec4 ℝ)
    (d1 d2 : G) (bin1 bin2 : B) (options : AppOptions ℝ) (h : HMM ℝ) :
    (computeEmissionProbs cEP d1 d2 bin1 bin2 false options h).2.fwd.length = h.fwd.length ∧
    (computeEmissionProbs cEP d1 d2 bin1 bin2 false options h).2.rev.length = h.rev.length ∧
    (∀ (i : Nat) (iv : Interval ℝ), h.fwd[i]? = some iv →
      ∃ iv_1 : Interval ℝ, (computeEmissionProbs cEP d1 d2 bin1 bin2 false options h).2.fwd[i]? = some iv_1 ∧
        (iv_1.obs.discard = true ↔ iv.obs.discard = true ∨
          ∃ o ∈ iv.obs.sites, (cEP d1 d2 bin1 bin2 o options).1 = false) ∧
        iv_1.obs.sites = iv.obs.sites ∧
        iv_1.eProbs = iv.obs.sites.map (fun o => (cEP d1 d2 bin1 bin2 o options).2)) ∧
    (∀ (i : Nat) (iv : Interval ℝ), h.rev[i]? = some iv →
      ∃ iv_1 : Interval ℝ, (computeEmissionProbs cEP d1 d2 bin1 bin2 false options h).2.rev[i]? = some iv_1 ∧
        (iv_1.obs.discard = true ↔ iv.obs.discard = true ∨
          ∃ o ∈ iv.obs.sites, (cEP d1 d2 bin1 bin2 o options).1 = false) ∧
        iv_1.obs.sites = iv.obs.sites ∧
        iv_1.eProbs = iv.obs.sites.map (fun o => (cEP d1 d2 bin1 bin2 o options).2)) ∧
    ((computeEmissionProbs cEP d1 d2 bin1 bin2 false options h).1 = true ↔
      ∀ iv ∈ h.fwd ++ h.rev, ∀ o ∈ iv.obs.sites, LD.eq o.kde (fin 0) = false) := by
  refine ⟨by simp [computeEmissionProbs_fwd], by simp [computeEmissionProbs_rev], ?_, ?_,
    computeEmissionProbs_decode_flag cEP d1 d2 bin1 bin2 options h⟩
  · intro i iv hi
    exact computeEmissionProbs_decode_interval cEP d1 d2 bin1 bin2 options h.fwd i iv hi
  · intro i iv hi
    exact computeEmissionProbs_decode_interval cEP d1 d2 bin1 bin2 options h.rev i iv hi

/-- C14 fails as stated.  One interval with one position whose coverage estimate is
`0.0`: the position is valid (`computeEProb` returns true), and `computeEmissionProbs`
returns failure in training mode and in decode mode. -/
theorem zero_kde_not_success :
    (computeEProb Real.log (constGamma 2 1) (constGamma 2 1) (constBin 1) (constBin 1)
      (site 0 0) (plainOptions Real.log Real.exp 1).toAppOptions).1 = true ∧
    (computeEmissionProbs (computeEProb Real.log) (constGamma 2 1) (constGamma 2 1)
      (constBin 1) (constBin 1) true (plainOptions Real.log Real.exp 1).toAppOptions
      (HMM.HMM nan [⟨[site 0 0], false⟩] [])).1 = false ∧
    (computeEmissionProbs (computeEProb Real.log) (constGamma 2 1) (constGamma 2 1)
      (constBin 1) (constBin 1) false (plainOptions Real.log Real.exp 1).toAppOptions
      (HMM.HMM nan [⟨[site 0 0], false⟩] [])).1 = false := by
  refine ⟨?_, ?_, ?_⟩
  · norm_num [computeEProb, eProbFromValues, binValues, gammaValues, constBin, constGamma, site,
      plainOptions, logEmissions, myLog, log_one_eq]
  · exact computeEmissionProbs_false_of_stop _ _ _ _ _ _ _ _
      (Interval.ofObs nan ⟨[site 0 0], false⟩) (by simp [HMM.HMM])
      (emissionInterval_stop_of_zero _ _ _ (site 0 0) (by simp [Interval.ofObs]) rfl)
  · exact computeEmissionProbs_false_of_stop _ _ _ _ _ _ _ _
      (Interval.ofObs nan ⟨[site 0 0], false⟩) (by simp [HMM.HMM])
      (emissionInterval_stop_of_zero _ _ _ (site 0 0) (by simp [Interval.ofObs]) rfl)

/-- C14, amended.  A position whose coverage estimate is exactly `0.0` is fatal for the
call: in training and in decode mode `computeEmissionProbs` returns failure, whether or not
the positions are valid; it still computes the emission entry of that position and of
every other position of every interval. -/
theorem zero_kde_fails {G B : Type}
    (cEP : G → G → B → B → Obs ℝ → AppOptions ℝ → Bool × Vec4 ℝ)
    (d1 d2 : G) (bin1 bin2 : B) (learning : Bool) (options : AppOptions ℝ) (h : HMM ℝ)
    (iv : Interval ℝ) (o : Obs ℝ) (hiv : iv ∈ h.fwd ++ h.rev) (ho : o ∈ iv.obs.sites)
    (hz : o.kde = fin 0) :
    (computeEmissionProbs cEP d1 d2 bin1 bin2 learning options h).1 = false ∧
    (computeEmissionProbs cEP d1 d2 bin1 bin2 learning options h).2.fwd.map
        (fun x => x.eProbs) =
      h.fwd.map (fun x => x.obs.sites.map (fun o => (cEP d1 d2 bin1 bin2 o options).2)) ∧
    (computeEmissionProbs cEP d1 d2 bin1 bin2 learning options h).2.rev.map
        (fun x => x.eProbs) =
      h.rev.map (fun x => x.obs.sites.map (fun o => (cEP d1 d2 bin1 bin2 o options).2)) := by
  refine ⟨computeEmissionProbs_false_of_stop _ _ _ _ _ _ _ _ iv hiv
    (emissionInterval_stop_of_zero _ _ iv o ho hz), ?_, ?_⟩
  · simp only [computeEmissionProbs_fwd, List.map_map]
    exact List.map_congr_left (fun x _ => rfl)
  · simp only [computeEmissionProbs_rev, List.map_map]
    exact List.map_congr_left (fun x _ => rfl)

/-- Witness for `zero_kde_fails`: one interval with one valid position whose coverage
estimate is `0.0`, in decode mode. -/
theorem zero_kde_fails_witness :
    (computeEmissionProbs (computeEProb Real.log) (constGamma 2 1) (constGamma 2 1)
      (constBin 1) (constBin 1) false (plainOptions Real.log Real.exp 1).toAppOptions
      (HMM.HMM nan [⟨[site 0 0], false⟩] [])).1 = false :=
  (zero_kde_fails (computeEProb Real.log) (constGamma 2 1) (constGamma 2 1)
    (constBin 1) (constBin 1) false (plainOptions Real.log Real.exp 1).toAppOptions
    (HMM.HMM nan [⟨[site 0 0], false⟩] []) (Interval.ofObs nan ⟨[site 0 0], false⟩) (site 0 0)
    (by simp [HMM.HMM]) (by simp [Interval.ofObs]) rfl).1


/-! ## Frame of the decode pass and the initial probabilities -/

theorem fbInterval_obs (lookUp : LD ℝ → LD ℝ → LD ℝ) (logA : Mat4 ℝ) (iv : Interval ℝ) :
    ((fbInterval Real.log Real.exp lookUp logA iv).getD iv).obs = iv.obs ∧
    ((fbInterval Real.log Real.exp lookUp logA iv).getD iv).eProbs = iv.eProbs := by
  simp only [fbInterval]
  split
  · exact ⟨rfl, rfl⟩
  · split
    · exact ⟨rfl, rfl⟩
    · exact ⟨rfl, rfl⟩

theorem computeStatePosteriorsFB_frame (options : AppOptions ℝ) (h : HMM ℝ) :
    (computeStatePosteriorsFB Real.log Real.exp options h).2.transMatrix = h.transMatrix ∧
    (computeStatePosteriorsFB Real.log Real.exp options h).2.fwd.map (fun x => x.obs) =
      h.fwd.map (fun x => x.obs) ∧
    (computeStatePosteriorsFB Real.log Real.exp options h).2.rev.map (fun x => x.obs) =
      h.rev.map (fun x => x.obs) := by
  have hf : ∀ l : List (Interval ℝ), (l.map (fun iv => (fbInterval Real.log Real.exp
      options.lookUp (logMatrix Real.log h.transMatrix) iv).getD iv)).map (fun x => x.obs) =
      l.map (fun x => x.obs) := by
    intro l
    rw [List.map_map]
    exact List.map_congr_left (fun x _ => (fbInterval_obs _ _ x).1)
  simp only [computeStatePosteriorsFB]
  split
  · exact ⟨rfl, hf _, rfl⟩
  · split
    · exact ⟨rfl, hf _, hf _⟩
    · exact ⟨rfl, hf _, hf _⟩

/-- C15. Method `applyParameters` never modifies the transition matrix: whether it
returns success or failure, `transMatrix` afterwards equals `transMatrix` before the call.
The positions of every interval are unchanged too (the emission entries, the posteriors,
the initial probabilities and the discard flags are what the call may change). -/
theorem applyParameters_keeps_transMatrix {G B : Type}
    (cEP : G → G → B → B → Obs ℝ → AppOptions ℝ → Bool × Vec4 ℝ)
    (d1 d2 : G) (bin1 bin2 : B) (options : AppOptions ℝ) (h : HMM ℝ) :
    (applyParameters Real.log Real.exp cEP d1 d2 bin1 bin2 options h).2.transMatrix =
      h.transMatrix ∧
    (applyParameters Real.log Real.exp cEP d1 d2 bin1 bin2 options h).2.fwd.map
      (fun x => x.obs.sites) = h.fwd.map (fun x => x.obs.sites) ∧
    (applyParameters Real.log Real.exp cEP d1 d2 bin1 bin2 options h).2.rev.map
      (fun x => x.obs.sites) = h.rev.map (fun x => x.obs.sites) := by
  have he1 : (computeEmissionProbs cEP d1 d2 bin1 bin2 false options h).2.fwd.map
      (fun x => x.obs.sites) = h.fwd.map (fun x => x.obs.sites) := by
    simp only [computeEmissionProbs_fwd, List.map_map]
    exact List.map_congr_left (fun x _ => (emissionInterval_frame _ _ x).2.2)
  have he2 : (computeEmissionProbs cEP d1 d2 bin1 bin2 false options h).2.rev.map
      (fun x => x.obs.sites) = h.rev.map (fun x => x.obs.sites) := by
    simp only [computeEmissionProbs_rev, List.map_map]
    exact List.map_congr_left (fun x _ => (emissionInterval_frame _ _ x).2.2)
  have hs : ∀ l m : List (Interval ℝ), l.map (fun x => x.obs) = m.map (fun x => x.obs) →
      l.map (fun x => x.obs.sites) = m.map (fun x => x.obs.sites) := by
    intro l m hlm
    have := congrArg (List.map (fun o : Observations ℝ => o.sites)) hlm
    simpa [List.map_map] using this
  simp only [applyParameters]
  split
  · have hfr := computeStatePosteriorsFB_frame options
      (computeEmissionProbs cEP d1 d2 bin1 bin2 false options h).2
    exact ⟨hfr.1.trans (computeEmissionProbs_transMatrix _ _ _ _ _ _ _ _),
      (hs _ _ hfr.2.1).trans he1, (hs _ _ hfr.2.2).trans he2⟩
  · exact ⟨computeEmissionProbs_transMatrix _ _ _ _ _ _ _ _, he1, he2⟩

theorem iForwardFrom_length (lookUp : LD ℝ → LD ℝ → LD ℝ) (logA : Mat4 ℝ) :
    ∀ (es : List (Vec4 ℝ)) (prev : Vec4 ℝ) (r : List (Vec4 ℝ)),
      iForwardFrom lookUp logA prev es = some r → r.length = es.length := by
  intro es
  induction es with
  | nil =>
    intro prev r hr
    simp only [iForwardFrom, Option.some.injEq] at hr
    rw [← hr]
  | cons e es ih =>
    intro prev r hr
    simp only [iForwardFrom] at hr
    split at hr
    · exact absurd hr (by simp)
    · simp only [Option.map_eq_some'] at hr
      obtain ⟨r0, hr0, rfl⟩ := hr
      simp [ih _ _ hr0]

theorem iForward_length (lookUp : LD ℝ → LD ℝ → LD ℝ) (logA : Mat4 ℝ) (init : Vec4 ℝ)
    (es r : List (Vec4 ℝ)) (hr : iForward Real.log lookUp logA init es = some r) :
    r.length = es.length := by
  cases es with
  | nil =>
    simp only [iForward, Option.some.injEq] at hr
    rw [← hr]
  | cons e es =>
    simp only [iForward, Option.map_eq_some'] at hr
    obtain ⟨r0, hr0, rfl⟩ := hr
    simp [iForwardFrom_length _ _ _ _ _ hr0]

theorem iBackward_length (lookUp : LD ℝ → LD ℝ → LD ℝ) (logA : Mat4 ℝ) :
    ∀ (es r : List (Vec4 ℝ)), iBackward Real.log lookUp logA es = some r →
      r.length = es.length := by
  intro es
  induction es with
  | nil =>
    intro r hr
    simp only [iBackward, Option.some.injEq] at hr
    rw [← hr]
  | cons e0 es ih =>
    intro r hr
    cases es with
    | nil =>
      simp only [iBackward, Option.some.injEq] at hr
      rw [← hr]; rfl
    | cons e es =>
      simp only [iBackward] at hr
      split at hr
      · rename_i next bs hb
        split at hr
        · exact absurd hr (by simp)
        · simp only [Option.some.injEq] at hr
          rw [← hr]
          have := ih _ hb
          simp only [List.length_cons] at this ⊢
          omega
      · exact absurd hr (by simp)

theorem newInitProbs_first (old : Vec4 ℝ) (ps : List (Vec4 ℝ)) (p : Vec4 ℝ)
    (rest : List (Vec4 ℝ)) (hp : ps = p :: rest) : newInitProbs old ps = p := by
  subst hp; rfl

/-- An interval that the body of either forward-backward pass has updated: its
posteriors are those of its forward and backward tables, and its initial probabilities
are `newInitProbs` of them. -/
theorem updated_interval_first (iv : Interval ℝ) (lookUp : LD ℝ → LD ℝ → LD ℝ) (logA : Mat4 ℝ)
    (alphas betas : List (Vec4 ℝ))
    (ha : iForward Real.log lookUp logA iv.initProbs iv.eProbs = some alphas)
    (hb : iBackward Real.log lookUp logA iv.eProbs = some betas) :
    (posteriors Real.exp lookUp alphas betas).length = iv.eProbs.length ∧
    ∀ p rest, posteriors Real.exp lookUp alphas betas = p :: rest →
      newInitProbs iv.initProbs (posteriors Real.exp lookUp alphas betas) = p := by
  refine ⟨?_, fun p rest hp => newInitProbs_first _ _ p rest hp⟩
  simp [posteriors, iForward_length _ _ _ _ _ ha, iBackward_length _ _ _ _ hb]

theorem fbInterval_first (lookUp : LD ℝ → LD ℝ → LD ℝ) (logA : Mat4 ℝ) (iv iv_1 : Interval ℝ)
    (h : fbInterval Real.log Real.exp lookUp logA iv = some iv_1) :
    iv_1.statePosteriors.length = iv_1.eProbs.length ∧
    ∀ p rest, iv_1.statePosteriors = p :: rest → iv_1.initProbs = p := by
  simp only [fbInterval] at h
  split at h
  · exact absurd h (by simp)
  · rename_i alphas ha
    split at h
    · exact absurd h (by simp)
    · rename_i betas hb
      simp only [Option.some.injEq] at h
      subst h
      exact updated_interval_first iv lookUp logA alphas betas ha hb

theorem fbUpdateInterval_first (options : AppOptions ℝ) (logA : Mat4 ℝ) (iv : Interval ℝ)
    (h : (fbUpdateInterval Real.log Real.exp options logA iv).stop = false) :
    (fbUpdateInterval Real.log Real.exp options logA iv).interval.statePosteriors.length =
      (fbUpdateInterval Real.log Real.exp options logA iv).interval.eProbs.length ∧
    ∀ p rest, (fbUpdateInterval Real.log Real.exp options logA iv).interval.statePosteriors =
        p :: rest →
      (fbUpdateInterval Real.log Real.exp options logA iv).interval.initProbs = p := by
  simp only [fbUpdateInterval] at h ⊢
  split
  · rename_i ha
    simp [ha] at h
  · rename_i alphas ha
    split
    · rename_i hb
      simp [ha, hb] at h
    · rename_i betas hb
      exact updated_interval_first iv options.lookUp logA alphas betas ha hb

theorem computeStatePosteriorsFB_intervals (options : AppOptions ℝ) (h : HMM ℝ)
    (hs : (computeStatePosteriorsFB Real.log Real.exp options h).1 = true) (iv : Interval ℝ)
    (hiv : iv ∈ (computeStatePosteriorsFB Real.log Real.exp options h).2.fwd ++
      (computeStatePosteriorsFB Real.log Real.exp options h).2.rev) :
    ∃ iv_0, fbInterval Real.log Real.exp options.lookUp (logMatrix Real.log h.transMatrix) iv_0 =
      some iv := by
  simp only [computeStatePosteriorsFB] at hs hiv
  split at hs
  · simp at hs
  · split at hs
    · simp at hs
    · rename_i h1 h2
      simp only [h1, h2, Bool.false_eq_true, if_false, List.mem_append, List.mem_map] at hiv
      simp only [Bool.not_eq_true, List.any_eq_false] at h1 h2
      rcases hiv with ⟨x, hx, rfl⟩ | ⟨x, hx, rfl⟩
      · have := h1 x hx
        cases hfx : fbInterval Real.log Real.exp options.lookUp
          (logMatrix Real.log h.transMatrix) x with
        | none => simp [hfx] at this
        | some y => exact ⟨x, by simp [hfx]⟩
      · have := h2 x hx
        cases hfx : fbInterval Real.log Real.exp options.lookUp
          (logMatrix Real.log h.transMatrix) x with
        | none => simp [hfx] at this
        | some y => exact ⟨x, by simp [hfx]⟩

theorem computeStatePosteriorsFBupdateTrans_intervals (options : AppOptions ℝ) (h : HMM ℝ)
    (hs : (computeStatePosteriorsFBupdateTrans Real.log Real.exp options h).1 = true)
    (iv : Interval ℝ)
    (hiv : iv ∈ (computeStatePosteriorsFBupdateTrans Real.log Real.exp options h).2.fwd ++
      (computeStatePosteriorsFBupdateTrans Real.log Real.exp options h).2.rev) :
    ∃ iv_0, (fbUpdateInterval Real.log Real.exp options (logMatrix Real.log h.transMatrix)
        iv_0).stop = false ∧
      iv = (fbUpdateInterval Real.log Real.exp options (logMatrix Real.log h.transMatrix)
        iv_0).interval := by
  simp only [computeStatePosteriorsFBupdateTrans] at hs hiv
  split at hs
  · simp at hs
  · split at hs
    · simp at hs
    · rename_i h1 h2
      simp only [h1, h2, Bool.false_eq_true, if_false, List.mem_append, List.mem_map] at hiv
      simp only [Bool.not_eq_true, List.any_eq_false] at h1 h2
      rcases hiv with ⟨x, hx, rfl⟩ | ⟨x, hx, rfl⟩
      · exact ⟨x, by simpa using h1 x hx, rfl⟩
      · exact ⟨x, by simpa using h2 x hx, rfl⟩

/-- C16. After a successful forward-backward pass (the training pass when `training`,
else the decode pass), every interval of either strand has one stored posterior per
position, and its initial probabilities are the stored posteriors of its first position,
state by state; so they sum to `1` whenever those posteriors do. -/
theorem initProbs_eq_first_posterior (training : Bool) (options : AppOptions ℝ) (h : HMM ℝ)
    (hs : (if training then computeStatePosteriorsFBupdateTrans Real.log Real.exp options h
      else computeStatePosteriorsFB Real.log Real.exp options h).1 = true)
    (iv : Interval ℝ)
    (hiv : iv ∈ (if training then computeStatePosteriorsFBupdateTrans Real.log Real.exp options h
        else computeStatePosteriorsFB Real.log Real.exp options h).2.fwd ++
      (if training then computeStatePosteriorsFBupdateTrans Real.log Real.exp options h
        else computeStatePosteriorsFB Real.log Real.exp options h).2.rev) :
    iv.statePosteriors.length = iv.eProbs.length ∧
    ∀ p rest, iv.statePosteriors = p :: rest →
      (∀ k, iv.initProbs k = p k) ∧ (rowSum p = fin 1 → rowSum iv.initProbs = fin 1) := by
  have key : iv.statePosteriors.length = iv.eProbs.length ∧
      ∀ p rest, iv.statePosteriors = p :: rest → iv.initProbs = p := by
    cases training
    · simp only [Bool.false_eq_true, if_false] at hs hiv
      obtain ⟨iv_0, h0⟩ := computeStatePosteriorsFB_intervals options h hs iv hiv
      exact fbInterval_first _ _ iv_0 iv h0
    · simp only [if_true] at hs hiv
      obtain ⟨iv_0, h0, rfl⟩ := computeStatePosteriorsFBupdateTrans_intervals options h hs iv hiv
      exact fbUpdateInterval_first options _ iv_0 h0
  refine ⟨key.1, fun p rest hp => ?_⟩
  have := key.2 p rest hp
  exact ⟨fun k => by rw [this], fun hsum => by rw [this]; exact hsum⟩


theorem computeStatePosteriorsFBupdateTrans_fwd (options : AppOptions ℝ) (h : HMM ℝ) :
    (computeStatePosteriorsFBupdateTrans Real.log Real.exp options h).2.fwd =
      h.fwd.map (fun iv => (fbUpdateInterval Real.log Real.exp options
        (logMatrix Real.log h.transMatrix) iv).interval) := by
  simp only [computeStatePosteriorsFBupdateTrans]
  split
  · rfl
  · split <;> rfl

/-- Witness for `initProbs_eq_first_posterior`: the training pass on the interval of two
positions at which only state 2, then only state 3 is possible, under the uniform
transition matrix, succeeds, and the interval it leaves has its initial probabilities
equal to the posteriors of its first position. -/
theorem initProbs_eq_first_posterior_witness :
    (computeStatePosteriorsFBupdateTrans Real.log Real.exp
      (plainOptions Real.log Real.exp 1).toAppOptions
      ⟨fun _ _ => fin (1 / 4), [twoSiteInterval 2 3 0], []⟩).1 = true ∧
    ((fbUpdateInterval Real.log Real.exp (plainOptions Real.log Real.exp 1).toAppOptions
        (logMatrix Real.log (fun _ _ => fin (1 / 4)))
        (twoSiteInterval 2 3 0)).interval.statePosteriors.length =
      (fbUpdateInterval Real.log Real.exp (plainOptions Real.log Real.exp 1).toAppOptions
        (logMatrix Real.log (fun _ _ => fin (1 / 4)))
        (twoSiteInterval 2 3 0)).interval.eProbs.length ∧
    ∀ p rest, (fbUpdateInterval Real.log Real.exp (plainOptions Real.log Real.exp 1).toAppOptions
        (logMatrix Real.log (fun _ _ => fin (1 / 4)))
        (twoSiteInterval 2 3 0)).interval.statePosteriors = p :: rest →
      (∀ k, (fbUpdateInterval Real.log Real.exp (plainOptions Real.log Real.exp 1).toAppOptions
        (logMatrix Real.log (fun _ _ => fin (1 / 4)))
        (twoSiteInterval 2 3 0)).interval.initProbs k = p k) ∧
      (rowSum p = fin 1 →
        rowSum (fbUpdateInterval Real.log Real.exp (plainOptions Real.log Real.exp 1).toAppOptions
          (logMatrix Real.log (fun _ _ => fin (1 / 4)))
          (twoSiteInterval 2 3 0)).interval.initProbs = fin 1)) := by
  have hstop := (fbUpdateInterval_twoSite (plainOptions Real.log Real.exp 1).toAppOptions
    2 3 0).1
  have hsucc := (computeStatePosteriorsFBupdateTrans_single
    (plainOptions Real.log Real.exp 1).toAppOptions (fun _ _ => fin (1 / 4))
    (twoSiteInterval 2 3 0) hstop).1
  exact ⟨hsucc, initProbs_eq_first_posterior true
    (plainOptions Real.log Real.exp 1).toAppOptions
    ⟨fun _ _ => fin (1 / 4), [twoSiteInterval 2 3 0], []⟩ (by simpa using hsucc) _
    (by
      simp only [if_true, computeStatePosteriorsFBupdateTrans_fwd, List.map_cons, List.map_nil]
      exact List.mem_append_left _ (List.mem_singleton.mpr rfl))⟩


/-! ## Posteriors that fail the check -/

theorem posteriors_minusInf (lookUp : LD ℝ → LD ℝ → LD ℝ) :
    posteriors Real.exp lookUp
      [fun k => myLog Real.log (fin (1 / 4)) + (![ninf, fin 0, nan, nan] : Vec4 ℝ) k]
      [fun _ => LD.log Real.log (fin 1)] = [![fin 0, pinf, fin 0, fin 0]] := by
  have h4 : myLog Real.log (fin (1 / 4 : ℝ)) = fin (Real.log (1 / 4)) :=
    myLog_pos Real.log (by norm_num)
  simp only [posteriors, List.zipWith, h4, log_one_eq, List.cons.injEq, and_true]
  funext k
  have hk : k = 0 ∨ k = 1 ∨ k = 2 ∨ k = 3 := by fin_cases k <;> simp
  rcases hk with rfl | rfl | rfl | rfl <;>
    simp [posteriorAt, get_logSumExp_states, get_logSumExp, myExp, LD.exp]

/-- C17 fails on the code. The decode pass has no check of the stored posteriors.  On one
interval with one position, uniform initial probabilities and the emission entry
`(-inf, 0, NaN, NaN)`, the normaliser is `-inf` and the stored posterior of state 1 is
`+inf`, which fails the check of the training pass: the decode pass
`computeStatePosteriorsFB` returns true and stores it, while the training pass
`computeStatePosteriorsFBupdateTrans` returns false on the same input. -/
theorem decode_pass_accepts_infinite_posterior :
    (computeStatePosteriorsFB Real.log Real.exp (plainOptions Real.log Real.exp 1).toAppOptions
      ⟨fun _ _ => fin (1 / 4), [minusInfInterval], []⟩).1 = true ∧
    (computeStatePosteriorsFB Real.log Real.exp (plainOptions Real.log Real.exp 1).toAppOptions
      ⟨fun _ _ => fin (1 / 4), [minusInfInterval], []⟩).2.fwd.map
        (fun iv => iv.statePosteriors.map (fun v => v 1)) = [[pinf]] ∧
    badPosterior (pinf : LD ℝ) = true ∧
    (computeStatePosteriorsFBupdateTrans Real.log Real.exp
      (plainOptions Real.log Real.exp 1).toAppOptions
      ⟨fun _ _ => fin (1 / 4), [minusInfInterval], []⟩).1 = false := by
  have hp := posteriors_minusInf (plainOptions Real.log Real.exp 1).toAppOptions.lookUp
  have hfb : fbInterval Real.log Real.exp (plainOptions Real.log Real.exp 1).toAppOptions.lookUp
      (logMatrix Real.log (fun _ _ => fin (1 / 4))) minusInfInterval =
      some { minusInfInterval with
        statePosteriors := [![fin 0, pinf, fin 0, fin 0]]
        initProbs := ![fin 0, pinf, fin 0, fin 0] } := by
    simp only [fbInterval, minusInfInterval, iForward, iForwardFrom, iBackward, Option.map_some',
      hp, newInitProbs]
  have hup : (fbUpdateInterval Real.log Real.exp (plainOptions Real.log Real.exp 1).toAppOptions
      (logMatrix Real.log (fun _ _ => fin (1 / 4))) minusInfInterval).stop = true := by
    simp only [fbUpdateInterval, minusInfInterval, iForward, iForwardFrom, iBackward,
      Option.map_some', hp]
    simp [anyBadPosterior, badPosterior, LD.isinf]
  refine ⟨?_, ?_, by simp [badPosterior, LD.isinf], ?_⟩
  · simp only [computeStatePosteriorsFB, List.any_cons, List.any_nil, List.map_cons,
      List.map_nil, hfb]
    simp
  · simp only [computeStatePosteriorsFB, List.any_cons, List.any_nil, List.map_cons,
      List.map_nil, hfb]
    simp
  · simp only [computeStatePosteriorsFBupdateTrans, List.any_cons, List.any_nil, hup]
    simp


/-! ## Order of the floating-point values -/

theorem LD.lt_irrefl_eq (a : LD R) : LD.lt a a = false := by
  cases a <;> simp [LD.lt]

theorem LD.lt_trans_eq {a b c : LD R} (h1 : LD.lt a b = true) (h2 : LD.lt b c = true) :
    LD.lt a c = true := by
  cases a <;> cases b <;> cases c <;> simp [LD.lt] at h1 h2 ⊢
  exact lt_trans h1 h2

theorem LD.lt_of_lt_of_le_eq {a b c : LD R} (h1 : LD.lt a b = true) (h2 : LD.le b c = true) :
    LD.lt a c = true := by
  cases a <;> cases b <;> cases c <;> simp [LD.lt, LD.le] at h1 h2 ⊢
  exact lt_of_lt_of_le h1 h2

theorem LD.lt_of_le_of_lt_eq {a b c : LD R} (h1 : LD.le a b = true) (h2 : LD.lt b c = true) :
    LD.lt a c = true := by
  cases a <;> cases b <;> cases c <;> simp [LD.lt, LD.le] at h1 h2 ⊢
  exact lt_of_le_of_lt h1 h2

theorem LD.le_trans_eq {a b c : LD R} (h1 : LD.le a b = true) (h2 : LD.le b c = true) :
    LD.le a c = true := by
  cases a <;> cases b <;> cases c <;> simp [LD.le] at h1 h2 ⊢
  exact le_trans h1 h2

theorem LD.le_of_lt_eq {a b : LD R} (h : LD.lt a b = true) : LD.le a b = true := by
  cases a <;> cases b <;> simp [LD.lt, LD.le] at h ⊢
  exact le_of_lt h

theorem LD.le_refl_eq {a : LD R} (h : a ≠ nan) : LD.le a a = true := by
  cases a <;> simp [LD.le] at h ⊢

theorem LD.le_of_not_lt_eq {a b : LD R} (ha : a ≠ nan) (hb : b ≠ nan)
    (h : LD.lt a b = false) : LD.le b a = true := by
  cases a <;> cases b <;> simp [LD.lt, LD.le] at ha hb h ⊢
  exact h

theorem LD.lt_of_not_le_eq {a b : LD R} (ha : a ≠ nan) (hb : b ≠ nan)
    (h : LD.le a b = false) : LD.lt b a = true := by
  cases a <;> cases b <;> simp [LD.lt, LD.le] at ha hb h ⊢
  exact h

/-! ## Scans for the best state -/

/-- One step of a scan that replaces on `>`: the running best state stays the
lowest-indexed state among those seen that no seen state exceeds. -/
theorem postStep_inv (v : Vec4 R) (m : LD R × Fin 4) (n : Fin 4)
    (h1 : m.1 = v m.2) (h2 : m.2 < n)
    (ha : ∀ j, j < n → LD.lt (v m.2) (v j) = false)
    (hb : ∀ j, j < m.2 → LD.le (v m.2) (v j) = false) :
    (postStep v m n).1 = v (postStep v m n).2 ∧ (postStep v m n).2 ≤ n ∧
    (∀ j, j ≤ n → LD.lt (v (postStep v m n).2) (v j) = false) ∧
    (∀ j, j < (postStep v m n).2 → LD.le (v (postStep v m n).2) (v j) = false) := by
  simp only [postStep]
  split
  · rename_i hlt
    rw [h1] at hlt
    refine ⟨rfl, le_refl _, ?_, ?_⟩
    · intro j hj
      rcases lt_or_eq_of_le hj with hj | rfl
      · cases hx : LD.lt (v n) (v j) with
        | false => rfl
        | true =>
          have := ha j hj
          rw [LD.lt_trans_eq hlt hx] at this
          exact absurd this (by simp)
      · exact LD.lt_irrefl_eq _
    · intro j hj
      cases hx : LD.le (v n) (v j) with
      | false => rfl
      | true =>
        have := ha j hj
        rw [LD.lt_of_lt_of_le_eq hlt hx] at this
        exact absurd this (by simp)
  · rename_i hlt
    rw [h1] at hlt
    refine ⟨h1, le_of_lt h2, ?_, hb⟩
    intro j hj
    rcases lt_or_eq_of_le hj with hj | rfl
    · exact ha j hj
    · simpa using hlt

theorem postStep_inv_max (v : Vec4 R) (m : LD R × Fin 4) (n : Fin 4) (hv : ∀ j, v j ≠ nan)
    (h1 : m.1 = v m.2) (hc : ∀ j, j < n → LD.le (v j) (v m.2) = true) :
    ∀ j, j ≤ n → LD.le (v j) (v (postStep v m n).2) = true := by
  simp only [postStep]
  split
  · rename_i hlt
    rw [h1] at hlt
    intro j hj
    rcases lt_or_eq_of_le hj with hj | rfl
    · exact LD.le_of_lt_eq (LD.lt_of_le_of_lt_eq (hc j hj) hlt)
    · exact LD.le_refl_eq (hv _)
  · rename_i hlt
    rw [h1] at hlt
    intro j hj
    rcases lt_or_eq_of_le hj with hj | rfl
    · exact hc j hj
    · exact LD.le_of_not_lt_eq (hv _) (hv _) (by simpa using hlt)

/-- One step of a scan that replaces on `>=`: the running best state stays the
highest-indexed state among those seen that no seen state exceeds. -/
theorem lastStep_inv (v : Vec4 R) (m : LD R × Fin 4) (n : Fin 4)
    (h1 : m.1 = v m.2) (h2 : m.2 < n)
    (ha : ∀ j, j < n → LD.lt (v m.2) (v j) = false)
    (hb : ∀ j, m.2 < j → j < n → LD.le (v m.2) (v j) = false) :
    (lastStep v m n).1 = v (lastStep v m n).2 ∧ (lastStep v m n).2 ≤ n ∧
    (∀ j, j ≤ n → LD.lt (v (lastStep v m n).2) (v j) = false) ∧
    (∀ j, (lastStep v m n).2 < j → j ≤ n → LD.le (v (lastStep v m n).2) (v j) = false) := by
  simp only [lastStep]
  split
  · rename_i hle
    rw [h1] at hle
    refine ⟨rfl, le_refl _, ?_, ?_⟩
    · intro j hj
      rcases lt_or_eq_of_le hj with hj | rfl
      · cases hx : LD.lt (v n) (v j) with
        | false => rfl
        | true =>
          have := ha j hj
          rw [LD.lt_of_le_of_lt_eq hle hx] at this
          exact absurd this (by simp)
      · exact LD.lt_irrefl_eq _
    · intro j hj hjn
      exact absurd (lt_of_lt_of_le hj hjn) (lt_irrefl _)
  · rename_i hle
    rw [h1] at hle
    have hle_1 : LD.le (v m.2) (v n) = false := by simpa using hle
    refine ⟨h1, le_of_lt h2, ?_, ?_⟩
    · intro j hj
      rcases lt_or_eq_of_le hj with hj | rfl
      · exact ha j hj
      · cases hx : LD.lt (v m.2) (v j) with
        | false => rfl
        | true => rw [LD.le_of_lt_eq hx] at hle_1; exact absurd hle_1 (by simp)
    · intro j hj hjn
      rcases lt_or_eq_of_le hjn with hjn | rfl
      · exact hb j hj hjn
      · exact hle_1

theorem lastStep_inv_max (v : Vec4 R) (m : LD R × Fin 4) (n : Fin 4) (hv : ∀ j, v j ≠ nan)
    (h1 : m.1 = v m.2) (hc : ∀ j, j < n → LD.le (v j) (v m.2) = true) :
    ∀ j, j ≤ n → LD.le (v j) (v (lastStep v m n).2) = true := by
  simp only [lastStep]
  split
  · rename_i hle
    rw [h1] at hle
    intro j hj
    rcases lt_or_eq_of_le hj with hj | rfl
    · exact LD.le_trans_eq (hc j hj) hle
    · exact LD.le_refl_eq (hv _)
  · rename_i hle
    rw [h1] at hle
    intro j hj
    rcases lt_or_eq_of_le hj with hj | rfl
    · exact hc j hj
    · exact LD.le_of_lt_eq (LD.lt_of_not_le_eq (hv _) (hv _) (by simpa using hle))


theorem fin4_lt_succ {j : Fin 4} {n : Fin 4} (a : Fin 4) (h : j < a) (ha : a.val = n.val + 1) :
    j ≤ n := by
  rw [Fin.le_def]; rw [Fin.lt_def] at h; omega

theorem fin4_le_three (j : Fin 4) : j ≤ 3 := by
  rw [Fin.le_def]; have := j.isLt; simp; omega

theorem predStep_eq_postStep (toDouble : LD R → LD R) (ln : R → R) (A : Mat4 R) (prev : Vec4 R)
    (k : Fin 4) (m : LD R × Fin 4) (k_p : Fin 4) (hk : k_p ≠ 0) :
    predStep toDouble ln A prev k m k_p = postStep (compared toDouble ln A prev k) m k_p := by
  simp only [predStep, postStep, compared, candidate, if_neg hk]

/-- The scan of the recursion of `viterbi` over the predecessors of state `k`: the recorded
predecessor is the lowest-indexed one among those whose compared value no other compared
value exceeds. -/
theorem bestPred_spec (toDouble : LD R → LD R) (ln : R → R) (A : Mat4 R) (prev : Vec4 R)
    (k : Fin 4) :
    (bestPred toDouble ln A prev k).1 =
      compared toDouble ln A prev k (bestPred toDouble ln A prev k).2 ∧
    (∀ j, LD.lt (compared toDouble ln A prev k (bestPred toDouble ln A prev k).2)
      (compared toDouble ln A prev k j) = false) ∧
    (∀ j, j < (bestPred toDouble ln A prev k).2 →
      LD.le (compared toDouble ln A prev k (bestPred toDouble ln A prev k).2)
        (compared toDouble ln A prev k j) = false) ∧
    ((∀ j, compared toDouble ln A prev k j ≠ nan) →
      ∀ j, LD.le (compared toDouble ln A prev k j)
        (compared toDouble ln A prev k (bestPred toDouble ln A prev k).2) = true) := by
  have e : bestPred toDouble ln A prev k = postStep (compared toDouble ln A prev k) (postStep
      (compared toDouble ln A prev k) (postStep (compared toDouble ln A prev k)
        (compared toDouble ln A prev k 0, 0) 1) 2) 3 := by
    rw [← predStep_eq_postStep toDouble ln A prev k _ 3 (by decide),
      ← predStep_eq_postStep toDouble ln A prev k _ 2 (by decide),
      ← predStep_eq_postStep toDouble ln A prev k _ 1 (by decide)]
    rfl
  rw [e]
  generalize compared toDouble ln A prev k = v
  have s1 := postStep_inv v (v 0, 0) 1 rfl (show (0 : Fin 4) < 1 by decide)
    (fun j hj => by
      have : j = 0 := by rw [Fin.lt_def] at hj; ext; simp at hj ⊢; omega
      subst this; exact LD.lt_irrefl_eq _)
    (fun j hj => absurd hj (by rw [Fin.lt_def]; simp))
  have s2 := postStep_inv v _ 2 s1.1 (by
      have := s1.2.1; rw [Fin.lt_def]; rw [Fin.le_def] at this; simp at this ⊢; omega)
    (fun j hj => s1.2.2.1 j (fin4_lt_succ 2 hj rfl)) s1.2.2.2
  have s3 := postStep_inv v _ 3 s2.1 (by
      have := s2.2.1; rw [Fin.lt_def]; rw [Fin.le_def] at this; simp at this ⊢; omega)
    (fun j hj => s2.2.2.1 j (fin4_lt_succ 3 hj rfl)) s2.2.2.2
  refine ⟨s3.1, fun j => s3.2.2.1 j (fin4_le_three j), s3.2.2.2, fun hv => ?_⟩
  have m1 := postStep_inv_max v (v 0, 0) 1 hv rfl (fun j hj => by
      have : j = 0 := by rw [Fin.lt_def] at hj; ext; simp at hj ⊢; omega
      subst this; exact LD.le_refl_eq (hv _))
  have m2 := postStep_inv_max v _ 2 hv s1.1 (fun j hj => m1 j (fin4_lt_succ 2 hj rfl))
  have m3 := postStep_inv_max v _ 3 hv s2.1 (fun j hj => m2 j (fin4_lt_succ 3 hj rfl))
  exact fun j => m3 j (fin4_le_three j)

/-- The scan of `viterbi` over the states of the last position. -/
theorem bestLast_spec (v : Vec4 R) :
    (bestLast v).1 = v (bestLast v).2 ∧
    (∀ j, LD.lt (v (bestLast v).2) (v j) = false) ∧
    (∀ j, (bestLast v).2 < j → LD.le (v (bestLast v).2) (v j) = false) ∧
    ((∀ j, v j ≠ nan) → ∀ j, LD.le (v j) (v (bestLast v).2) = true) := by
  have e : bestLast v = lastStep v (lastStep v (lastStep v (v 0, 0) 1) 2) 3 := rfl
  rw [e]
  have s1 := lastStep_inv v (v 0, 0) 1 rfl (show (0 : Fin 4) < 1 by decide)
    (fun j hj => by
      have : j = 0 := by rw [Fin.lt_def] at hj; ext; simp at hj ⊢; omega
      subst this; exact LD.lt_irrefl_eq _)
    (fun j hj hjn => by
      rw [Fin.lt_def] at hj hjn; simp at hj hjn; omega)
  have s2 := lastStep_inv v _ 2 s1.1 (by
      have := s1.2.1; rw [Fin.lt_def]; rw [Fin.le_def] at this; simp at this ⊢; omega)
    (fun j hj => s1.2.2.1 j (fin4_lt_succ 2 hj rfl))
    (fun j hj hjn => s1.2.2.2 j hj (fin4_lt_succ 2 hjn rfl))
  have s3 := lastStep_inv v _ 3 s2.1 (by
      have := s2.2.1; rw [Fin.lt_def]; rw [Fin.le_def] at this; simp at this ⊢; omega)
    (fun j hj => s2.2.2.1 j (fin4_lt_succ 3 hj rfl))
    (fun j hj hjn => s2.2.2.2 j hj (fin4_lt_succ 3 hjn rfl))
  refine ⟨s3.1, fun j => s3.2.2.1 j (fin4_le_three j),
    fun j hj => s3.2.2.2 j hj (fin4_le_three j), fun hv => ?_⟩
  have m1 := lastStep_inv_max v (v 0, 0) 1 hv rfl (fun j hj => by
      have : j = 0 := by rw [Fin.lt_def] at hj; ext; simp at hj ⊢; omega
      subst this; exact LD.le_refl_eq (hv _))
  have m2 := lastStep_inv_max v _ 2 hv s1.1 (fun j hj => m1 j (fin4_lt_succ 2 hj rfl))
  have m3 := lastStep_inv_max v _ 3 hv s2.1 (fun j hj => m2 j (fin4_lt_succ 3 hj rfl))
  exact fun j => m3 j (fin4_le_three j)

/-- The rows of the recursion: the row `track[t+1]` and the row `vits[t+1]` are those
that `viterbiStep` computes from the row `vits[t]` and the emission entry of position
`t+1`. -/
theorem viterbi_tables_step (toDouble : LD R → LD R) (ln : R → R) (A : Mat4 R) :
    ∀ (es : List (Vec4 R)) (v0 : Vec4 R) (t : Nat) (prev : Vec4 R) (tr : Fin 4 → Fin 4),
      (vitsTable toDouble ln A v0 es)[t]? = some prev → (trackTable toDouble ln A v0 es)[t]? = some tr →
      ∃ e, es[t]? = some e ∧ tr = (viterbiStep toDouble ln A prev e).2 ∧
        (vitsTable toDouble ln A v0 es)[t + 1]? = some (viterbiStep toDouble ln A prev e).1 := by
  intro es
  induction es with
  | nil =>
    intro v0 t prev tr _ htr
    simp [trackTable, viterbiRows] at htr
  | cons e es ih =>
    intro v0 t prev tr hprev htr
    cases t with
    | zero =>
      simp only [vitsTable, trackTable, viterbiRows, List.map_cons, List.getElem?_cons_zero,
        Option.some.injEq] at hprev htr
      subst hprev
      exact ⟨e, by simp, htr.symm, by simp [vitsTable, viterbiRows]⟩
    | succ t =>
      have hprev_1 : (vitsTable toDouble ln A (viterbiStep toDouble ln A v0 e).1 es)[t]? = some prev := by
        simpa [vitsTable, viterbiRows] using hprev
      have htr_1 : (trackTable toDouble ln A (viterbiStep toDouble ln A v0 e).1 es)[t]? = some tr := by
        simpa [trackTable, viterbiRows] using htr
      obtain ⟨e_1, he, htr_2, hv⟩ := ih _ t prev tr hprev_1 htr_1
      refine ⟨e_1, by simpa using he, htr_2, ?_⟩
      simpa [vitsTable, viterbiRows] using hv


/-- In the recursion of `viterbi`, at every position after the first and for every state
`k`, with `prev` the row `vits[t-1]` and `tr` the row `track[t]`, the recorded predecessor
is determined by the values that the loop compares, the sum of the predecessor 0 and the
sums of the other predecessors converted to `double`: no predecessor has a compared value
greater than that of the recorded predecessor `tr k`, and no lower-indexed predecessor has
one greater than or equal to it.  When none of the four compared values is NaN, the
recorded predecessor attains their maximum and every lower-indexed predecessor is strictly
below it.  The row `vits[t]` is the compared value of the recorded predecessor plus
`log(eProbs[s][i][t][k])`. -/
theorem viterbi_predecessor_compared (toDouble : LD ℝ → LD ℝ) (A : Mat4 ℝ) (v0 : Vec4 ℝ)
    (es : List (Vec4 ℝ)) (t : Nat) (prev : Vec4 ℝ) (tr : Fin 4 → Fin 4) (k : Fin 4)
    (hprev : (vitsTable toDouble Real.log A v0 es)[t]? = some prev)
    (htr : (trackTable toDouble Real.log A v0 es)[t]? = some tr) :
    (∀ j, LD.lt (compared toDouble Real.log A prev k (tr k))
      (compared toDouble Real.log A prev k j) = false) ∧
    (∀ j, j < tr k →
      LD.le (compared toDouble Real.log A prev k (tr k))
        (compared toDouble Real.log A prev k j) = false) ∧
    ((∀ j, compared toDouble Real.log A prev k j ≠ nan) →
      (∀ j, LD.le (compared toDouble Real.log A prev k j)
        (compared toDouble Real.log A prev k (tr k)) = true) ∧
      (∀ j, j < tr k →
        LD.lt (compared toDouble Real.log A prev k j)
          (compared toDouble Real.log A prev k (tr k)) = true)) ∧
    (∃ e, es[t]? = some e ∧
      (vitsTable toDouble Real.log A v0 es)[t + 1]? =
        some (fun k_1 => compared toDouble Real.log A prev k_1 (tr k_1) +
          LD.log Real.log (e k_1))) := by
  obtain ⟨e, he, htr_1, hv⟩ := viterbi_tables_step toDouble Real.log A es v0 t prev tr hprev htr
  have hk : ∀ k_1, tr k_1 = (bestPred toDouble Real.log A prev k_1).2 :=
    fun k_1 => by rw [htr_1]; rfl
  have hs := bestPred_spec toDouble Real.log A prev k
  rw [← hk k] at hs
  refine ⟨hs.2.1, hs.2.2.1, fun hv_1 => ⟨hs.2.2.2 hv_1, fun j hj => ?_⟩, e, he, ?_⟩
  · exact LD.lt_of_not_le_eq (hv_1 _) (hv_1 _) (hs.2.2.1 j hj)
  · rw [hv]
    congr 1
    funext k_1
    have := (bestPred_spec toDouble Real.log A prev k_1).1
    simp only [viterbiStep]
    rw [this, ← hk k_1]

/-- When the conversion to `double` returns the sums
`vits[t-1][k_p] + log transMatrix[k_p][k]` of a row as they are, the recorded predecessor
of every state `k` of that row is the lowest-indexed state attaining the maximum of these
sums (none of them being NaN), and the row `vits[t]` is that maximum plus
`log(eProbs[s][i][t][k])`. -/
theorem viterbi_predecessor_lowest_argmax (toDouble : LD ℝ → LD ℝ) (A : Mat4 ℝ) (v0 : Vec4 ℝ)
    (es : List (Vec4 ℝ)) (t : Nat) (prev : Vec4 ℝ) (tr : Fin 4 → Fin 4) (k : Fin 4)
    (hprev : (vitsTable toDouble Real.log A v0 es)[t]? = some prev)
    (htr : (trackTable toDouble Real.log A v0 es)[t]? = some tr)
    (hexact : ∀ k_1 j, toDouble (candidate Real.log A prev k_1 j) =
      candidate Real.log A prev k_1 j) :
    (∀ j, LD.lt (candidate Real.log A prev k (tr k)) (candidate Real.log A prev k j) = false) ∧
    (∀ j, j < tr k →
      LD.le (candidate Real.log A prev k (tr k)) (candidate Real.log A prev k j) = false) ∧
    ((∀ j, candidate Real.log A prev k j ≠ nan) →
      (∀ j, LD.le (candidate Real.log A prev k j) (candidate Real.log A prev k (tr k)) = true) ∧
      (∀ j, j < tr k →
        LD.lt (candidate Real.log A prev k j) (candidate Real.log A prev k (tr k)) = true)) ∧
    (∃ e, es[t]? = some e ∧
      (vitsTable toDouble Real.log A v0 es)[t + 1]? =
        some (fun k_1 => candidate Real.log A prev k_1 (tr k_1) + LD.log Real.log (e k_1))) := by
  have hc : ∀ k_1, compared toDouble Real.log A prev k_1 = candidate Real.log A prev k_1 := by
    intro k_1
    funext j
    by_cases hj : j = 0
    · simp only [compared, hj, if_true]
    · simp only [compared, if_neg hj, hexact]
  have h := viterbi_predecessor_compared toDouble A v0 es t prev tr k hprev htr
  simp only [hc] at h
  exact h

/-- The binary64 number `6243314768165359 / 2^53` is below `log 2`. -/
theorem log_two_gt_binary64 : (6243314768165359 : ℝ) / 2 ^ 53 < Real.log 2 := by
  rw [Real.lt_log_iff_exp_lt (by norm_num)]
  have h := @Real.exp_bound' ((6243314768165359 : ℝ) / 2 ^ 53) (by norm_num) (by norm_num) 20
    (by norm_num)
  refine lt_of_le_of_lt h ?_
  simp only [Finset.sum_range_succ, Finset.sum_range_zero, Nat.factorial]
  norm_num

/-- The number `log 2` is less than half a unit in the last place above the binary64 number
`6243314768165359 / 2^53`. -/
theorem log_two_lt_binary64 : Real.log 2 < (6243314768165359 : ℝ) / 2 ^ 53 + 1 / 2 ^ 54 := by
  rw [Real.log_lt_iff_lt_exp (by norm_num)]
  have h := Real.sum_le_exp_of_nonneg
    (show (0 : ℝ) ≤ (6243314768165359 : ℝ) / 2 ^ 53 + 1 / 2 ^ 54 by norm_num) 20
  refine lt_of_lt_of_le ?_ h
  simp only [Finset.sum_range_succ, Finset.sum_range_zero, Nat.factorial]
  norm_num

theorem log_quarter_eq : Real.log (1 / 4) = -(2 * Real.log 2) := by
  have h : (1 / 4 : ℝ) = (2 ^ 2)⁻¹ := by norm_num
  rw [h, Real.log_inv, Real.log_pow]
  push_cast
  ring

/-- The number `log 0.25` lies less than half a unit in the last place below the binary64
number `-6243314768165359 / 2^52`. -/
theorem log_quarter_bounds :
    -(6243314768165359 / 2 ^ 52) - 1 / 2 ^ 53 < Real.log (1 / 4) ∧
    Real.log (1 / 4) < -(6243314768165359 / 2 ^ 52) := by
  have h1 := log_two_gt_binary64
  have h2 := log_two_lt_binary64
  rw [log_quarter_eq]
  constructor
  · linarith
  · linarith

/-- The conversion `roundNearLogQuarter` rounds `log 0.25` up to the binary64 number
`-6243314768165359 / 2^52`. -/
theorem roundNearLogQuarter_log_quarter :
    roundNearLogQuarter (fin (Real.log (1 / 4))) = fin (-(6243314768165359 / 2 ^ 52)) ∧
    LD.lt (fin (Real.log (1 / 4))) (roundNearLogQuarter (fin (Real.log (1 / 4)))) = true := by
  have hb := log_quarter_bounds
  have h1 : roundNearLogQuarter (fin (Real.log (1 / 4))) =
      fin (-(6243314768165359 / 2 ^ 52)) := by
    have hb2 : Real.log (1 / 4) < -(6243314768165359 / 2 ^ 52) + 1 / 2 ^ 53 := by
      have := hb.2
      have h0 : (0 : ℝ) < 1 / 2 ^ 53 := by positivity
      linarith
    simp only [roundNearLogQuarter, lt_fin_fin, hb.1, hb2, decide_True, Bool.and_self, if_true]
  refine ⟨h1, ?_⟩
  rw [h1]
  simp only [lt_fin_fin, hb.2, decide_True]

/-- C18 fails on the code. On the row `vits[t-1] = (0, 0, 0, 0)` under the uniform transition
matrix the four sums `vits[t-1][k_p] + log transMatrix[k_p][k]` are all `log 0.25`, so the
lowest-indexed state attaining their maximum is state 0.  The loop compares the sum of
the predecessor 1, converted to the temporary `double v`, with the `long double` sum of the
predecessor 0: whenever the conversion rounds `log 0.25` upwards, `v > max_v` holds and the
recorded predecessor of every state is 1, not 0, and the row `vits[t]` holds the converted
value (plus `log 1`), which is above the maximum of the sums. -/
theorem viterbi_predecessor_not_lowest_argmax (toDouble : LD ℝ → LD ℝ)
    (hup : LD.lt (fin (Real.log (1 / 4))) (toDouble (fin (Real.log (1 / 4)))) = true) :
    (vitsTable toDouble Real.log (fun _ _ => fin (1 / 4)) (fun _ => fin 0)
      [fun _ => fin 1])[0]? = some (fun _ => fin 0) ∧
    (∀ k j, candidate Real.log (fun _ _ => fin (1 / 4)) (fun _ => fin 0) k j =
      fin (Real.log (1 / 4))) ∧
    (∃ tr, (trackTable toDouble Real.log (fun _ _ => fin (1 / 4)) (fun _ => fin 0)
      [fun _ => fin 1])[0]? = some tr ∧ ∀ k, tr k = 1) ∧
    (vitsTable toDouble Real.log (fun _ _ => fin (1 / 4)) (fun _ => fin 0)
      [fun _ => fin 1])[1]? =
        some (fun _ => toDouble (fin (Real.log (1 / 4))) + LD.log Real.log (fin 1)) := by
  have hL : LD.log Real.log (fin (1 / 4 : ℝ)) = fin (Real.log (1 / 4)) :=
    log_pos_eq (by norm_num)
  have hc : ∀ k j, candidate Real.log (fun _ _ => fin (1 / 4)) (fun _ => fin 0) k j =
      fin (Real.log (1 / 4)) := by
    intro k j
    simp only [candidate, hL, fin_add_fin, zero_add]
  have hb : ∀ k, bestPred toDouble Real.log (fun _ _ => fin (1 / 4)) (fun _ => fin 0) k =
      (toDouble (fin (Real.log (1 / 4))), 1) := by
    intro k
    simp only [bestPred, predStep, hL, fin_add_fin, zero_add, hup, if_true, LD.lt_irrefl_eq,
      Bool.false_eq_true, if_false]
  refine ⟨by simp only [vitsTable, List.getElem?_cons_zero], hc,
    ⟨(viterbiStep toDouble Real.log (fun _ _ => fin (1 / 4)) (fun _ => fin 0)
      (fun _ => fin 1)).2, ?_, fun k => ?_⟩, ?_⟩
  · simp only [trackTable, viterbiRows, List.map_cons, List.map_nil, List.getElem?_cons_zero]
  · simp only [viterbiStep, hb]
  · simp only [vitsTable, viterbiRows, List.map_cons, List.map_nil, viterbiStep, hb,
      List.getElem?_cons_succ, List.getElem?_cons_zero]

/-- Witness for `viterbi_predecessor_not_lowest_argmax`: the conversion that rounds the
numbers within half a unit in the last place of the binary64 number
`-6243314768165359 / 2^52` to it rounds `log 0.25` upwards, and the recursion records the
predecessor 1. -/
theorem viterbi_predecessor_not_lowest_argmax_witness :
    LD.lt (fin (Real.log (1 / 4))) (roundNearLogQuarter (fin (Real.log (1 / 4)))) = true ∧
    ∃ tr, (trackTable roundNearLogQuarter Real.log (fun _ _ => fin (1 / 4)) (fun _ => fin 0)
      [fun _ => fin 1])[0]? = some tr ∧ ∀ k, tr k = 1 :=
  ⟨roundNearLogQuarter_log_quarter.2,
    (viterbi_predecessor_not_lowest_argmax roundNearLogQuarter
      roundNearLogQuarter_log_quarter.2).2.2.1⟩

/-! ## Backtracking -/

theorem backtrack_cons (tr : Fin 4 → Fin 4) (trs : List (Fin 4 → Fin 4)) (last : Fin 4) :
    ∃ s ss, backtrack trs last = s :: ss ∧ backtrack (tr :: trs) last = tr s :: s :: ss ∧
      ss.length = trs.length := by
  induction trs generalizing tr with
  | nil => exact ⟨last, [], rfl, rfl, rfl⟩
  | cons tr_1 trs ih =>
    obtain ⟨s, ss, h1, h2, h3⟩ := ih tr_1
    refine ⟨tr_1 s, s :: ss, h2, ?_, by simp [h3]⟩
    simp only [backtrack, h1]

theorem backtrack_spec (trs : List (Fin 4 → Fin 4)) (last : Fin 4) :
    (backtrack trs last).length = trs.length + 1 ∧
    (backtrack trs last)[trs.length]? = some last ∧
    ∀ t tr, trs[t]? = some tr →
      ∃ s, (backtrack trs last)[t + 1]? = some s ∧ (backtrack trs last)[t]? = some (tr s) := by
  induction trs with
  | nil =>
    refine ⟨rfl, rfl, ?_⟩
    intro t tr h
    simp at h
  | cons tr_0 trs ih =>
    obtain ⟨s, ss, h1, h2, h3⟩ := backtrack_cons tr_0 trs last
    rw [h2]
    rw [h1] at ih
    refine ⟨by simp [h3], ?_, ?_⟩
    · simpa using ih.2.1
    · intro t tr h
      cases t with
      | zero =>
        simp only [List.getElem?_cons_zero, Option.some.injEq] at h
        subst h
        exact ⟨s, by simp, by simp⟩
      | succ t =>
        simp only [List.getElem?_cons_succ] at h
        obtain ⟨s_1, hs1, hs2⟩ := ih.2.2 t tr h
        exact ⟨s_1, by simpa using hs1, by simpa using hs2⟩

theorem viterbiRows_length (toDouble : LD R → LD R) (ln : R → R) (A : Mat4 R) :
    ∀ (es : List (Vec4 R)) (v0 : Vec4 R), (viterbiRows toDouble ln A v0 es).length = es.length := by
  intro es
  induction es with
  | nil => intro v0; rfl
  | cons e es ih => intro v0; simp [viterbiRows, ih]

theorem vitsTable_getLast (toDouble : LD R → LD R) (ln : R → R) (A : Mat4 R) (v0 : Vec4 R)
    (es : List (Vec4 R)) :
    ((vitsTable toDouble ln A v0 es).getLast?).getD v0 =
      (((viterbiRows toDouble ln A v0 es).map Prod.fst).getLast?).getD v0 := by
  simp only [vitsTable]
  cases (viterbiRows toDouble ln A v0 es).map Prod.fst with
  | nil => rfl
  | cons a l => simp [List.getLast?_cons_cons]

/-- C19. For an interval with the emission entries `e :: es` that is not discarded, with
`vlast` the row `vits[T-1]`: `viterbi` assigns to the last position a state `last` such
that no state has a greater value `vits[T-1][k]`, and no higher-indexed state has a value
greater than or equal to it (a later state replaces the current one when greater or
equal); when none of the four values is NaN, `last` attains their maximum and every
higher-indexed state is strictly below it: it is the highest-indexed state attaining the
maximum.  The value added to `p` is `vits[T-1][last]`, the state sequence has one state per
position, and the state of every earlier position `t` is `track[t+1][state at t+1]`. -/
theorem viterbi_backtracking_highest_argmax (toDouble : LD ℝ → LD ℝ) (A : Mat4 ℝ)
    (obs : Observations ℝ) (init e : Vec4 ℝ) (es sp : List (Vec4 ℝ)) :
    ∃ last : Fin 4,
      ((viterbiInterval toDouble Real.log A ⟨obs, init, e :: es, sp⟩).2).length = es.length + 1 ∧
      ((viterbiInterval toDouble Real.log A ⟨obs, init, e :: es, sp⟩).2)[es.length]? = some last.val ∧
      (viterbiInterval toDouble Real.log A ⟨obs, init, e :: es, sp⟩).1 =
        ((vitsTable toDouble Real.log A (viterbiInit Real.log init e) es).getLast?).getD
          (viterbiInit Real.log init e) last ∧
      (∀ j, LD.lt
        (((vitsTable toDouble Real.log A (viterbiInit Real.log init e) es).getLast?).getD
          (viterbiInit Real.log init e) last)
        (((vitsTable toDouble Real.log A (viterbiInit Real.log init e) es).getLast?).getD
          (viterbiInit Real.log init e) j) = false) ∧
      (∀ j, last < j → LD.le
        (((vitsTable toDouble Real.log A (viterbiInit Real.log init e) es).getLast?).getD
          (viterbiInit Real.log init e) last)
        (((vitsTable toDouble Real.log A (viterbiInit Real.log init e) es).getLast?).getD
          (viterbiInit Real.log init e) j) = false) ∧
      ((∀ j, ((vitsTable toDouble Real.log A (viterbiInit Real.log init e) es).getLast?).getD
          (viterbiInit Real.log init e) j ≠ nan) →
        (∀ j, LD.le
          (((vitsTable toDouble Real.log A (viterbiInit Real.log init e) es).getLast?).getD
            (viterbiInit Real.log init e) j)
          (((vitsTable toDouble Real.log A (viterbiInit Real.log init e) es).getLast?).getD
            (viterbiInit Real.log init e) last) = true) ∧
        (∀ j, last < j → LD.lt
          (((vitsTable toDouble Real.log A (viterbiInit Real.log init e) es).getLast?).getD
            (viterbiInit Real.log init e) j)
          (((vitsTable toDouble Real.log A (viterbiInit Real.log init e) es).getLast?).getD
            (viterbiInit Real.log init e) last) = true)) ∧
      (∀ t tr, (trackTable toDouble Real.log A (viterbiInit Real.log init e) es)[t]? = some tr →
        ∃ s : Fin 4,
          ((viterbiInterval toDouble Real.log A ⟨obs, init, e :: es, sp⟩).2)[t + 1]? = some s.val ∧
          ((viterbiInterval toDouble Real.log A ⟨obs, init, e :: es, sp⟩).2)[t]? = some (tr s).val) := by
  rw [vitsTable_getLast]
  generalize hvl : (((viterbiRows toDouble Real.log A (viterbiInit Real.log init e) es).map
    Prod.fst).getLast?).getD (viterbiInit Real.log init e) = vlast
  have hI : viterbiInterval toDouble Real.log A ⟨obs, init, e :: es, sp⟩ =
      ((bestLast vlast).1, (backtrack (trackTable toDouble Real.log A (viterbiInit Real.log init e) es)
        (bestLast vlast).2).map Fin.val) := by
    simp only [viterbiInterval, trackTable, hvl]
  have hb := backtrack_spec (trackTable toDouble Real.log A (viterbiInit Real.log init e) es)
    (bestLast vlast).2
  have hlen : (trackTable toDouble Real.log A (viterbiInit Real.log init e) es).length = es.length := by
    simp [trackTable, viterbiRows_length]
  have hs := bestLast_spec vlast
  rw [hI]
  refine ⟨(bestLast vlast).2, ?_, ?_, hs.1, hs.2.1, hs.2.2.1, fun hv => ⟨hs.2.2.2 hv, ?_⟩, ?_⟩
  · simp [hb.1, hlen]
  · rw [List.getElem?_map, ← hlen, hb.2.1]; rfl
  · intro j hj
    exact LD.lt_of_not_le_eq (hv _) (hv _) (hs.2.2.1 j hj)
  · intro t tr htr
    obtain ⟨s, h1, h2⟩ := hb.2.2 t tr htr
    exact ⟨s, by rw [List.getElem?_map, h1]; rfl, by rw [List.getElem?_map, h2]; rfl⟩


/-! ## Discarded intervals -/

theorem resize_length {α : Type} (xs : List α) (n : Nat) (d : α) :
    (resize xs n d).length = n := by
  simp only [resize, List.length_append, List.length_take, List.length_replicate]
  omega

theorem resize_getElem? {α : Type} (xs : List α) (n : Nat) (d : α) (i : Nat) (hi : i < n) :
    (resize xs n d)[i]? = some ((xs[i]?).getD d) := by
  simp only [resize]
  by_cases hx : i < xs.length
  · rw [List.getElem?_append_left (by simp; omega), List.getElem?_take]
    simp [hi, hx]
  · have hx_1 : xs.length ≤ i := Nat.le_of_not_lt hx
    rw [List.getElem?_append_right (by simp; omega)]
    have hn : xs[i]? = none := List.getElem?_eq_none hx_1
    rw [hn, List.getElem?_replicate]
    have hlt : i - (List.take n xs).length < n - xs.length := by
      simp only [List.length_take]; omega
    rw [if_pos hlt]; rfl

theorem viterbiInterval_states (toDouble : LD ℝ → LD ℝ) (A : Mat4 ℝ) (iv : Interval ℝ) :
    (viterbiInterval toDouble Real.log A iv).2.length = iv.eProbs.length ∧
    ∀ x ∈ (viterbiInterval toDouble Real.log A iv).2, x < 4 := by
  simp only [viterbiInterval]
  split
  · rename_i he
    simp [he]
  · rename_i e es he
    refine ⟨?_, ?_⟩
    · simp [he, (backtrack_spec _ _).1, viterbiRows_length]
    · intro x hx
      simp only [List.mem_map] at hx
      obtain ⟨s, _, rfl⟩ := hx
      exact s.isLt

theorem viterbiStrand_spec (toDouble : LD ℝ → LD ℝ) (A : Mat4 ℝ) :
    ∀ (ivs : List (Interval ℝ)) (sts : List (List Nat)) (p : LD ℝ), sts.length = ivs.length →
      (viterbiStrand toDouble Real.log A p ivs sts).1 =
        (ivs.filter (fun iv => !iv.obs.discard)).foldl
          (fun q iv => q + (viterbiInterval toDouble Real.log A iv).1) p ∧
      ∀ (i : Nat) (iv : Interval ℝ), ivs[i]? = some iv →
        (viterbiStrand toDouble Real.log A p ivs sts).2[i]? =
          some (if iv.obs.discard then (sts[i]?).getD []
            else (viterbiInterval toDouble Real.log A iv).2) := by
  intro ivs
  induction ivs with
  | nil =>
    intro sts p _
    refine ⟨by cases sts <;> rfl, ?_⟩
    intro i iv h
    simp at h
  | cons iv_0 ivs ih =>
    intro sts p hlen
    cases sts with
    | nil => simp at hlen
    | cons st sts =>
      have hlen_1 : sts.length = ivs.length := by simpa using hlen
      simp only [viterbiStrand]
      by_cases hd : iv_0.obs.discard = true
      · simp only [hd, if_true]
        refine ⟨by simpa [List.filter, hd] using (ih sts p hlen_1).1, ?_⟩
        intro i iv h
        cases i with
        | zero =>
          simp only [List.getElem?_cons_zero, Option.some.injEq] at h
          subst h
          simp [hd]
        | succ i =>
          simp only [List.getElem?_cons_succ] at h ⊢
          exact (ih sts p hlen_1).2 i iv h
      · simp only [hd, Bool.false_eq_true, if_false]
        have hd_1 : iv_0.obs.discard = false := by simpa using hd
        refine ⟨by simpa [List.filter, hd_1] using (ih sts _ hlen_1).1, ?_⟩
        intro i iv h
        cases i with
        | zero =>
          simp only [List.getElem?_cons_zero, Option.some.injEq] at h
          subst h
          simp [hd_1]
        | succ i =>
          simp only [List.getElem?_cons_succ] at h ⊢
          exact (ih sts _ hlen_1).2 i iv h

theorem posteriorDecodingStrand_spec :
    ∀ (ivs : List (Interval ℝ)) (sts : List (List Nat)), sts.length = ivs.length →
      ∀ (i : Nat) (iv : Interval ℝ), ivs[i]? = some iv →
        (posteriorDecodingStrand ivs sts)[i]? =
          some (if iv.obs.discard then (sts[i]?).getD []
            else iv.statePosteriors.map (fun v => (bestPosterior v).val)) := by
  intro ivs
  induction ivs with
  | nil =>
    intro sts _ i iv h
    simp at h
  | cons iv_0 ivs ih =>
    intro sts hlen
    cases sts with
    | nil => simp at hlen
    | cons st sts =>
      have hlen_1 : sts.length = ivs.length := by simpa using hlen
      intro i iv h
      simp only [posteriorDecodingStrand]
      by_cases hd : iv_0.obs.discard = true
      · simp only [hd, if_true]
        cases i with
        | zero =>
          simp only [List.getElem?_cons_zero, Option.some.injEq] at h
          subst h
          simp [hd]
        | succ i =>
          simp only [List.getElem?_cons_succ] at h ⊢
          exact ih sts hlen_1 i iv h
      · simp only [hd, Bool.false_eq_true, if_false]
        have hd_1 : iv_0.obs.discard = false := by simpa using hd
        cases i with
        | zero =>
          simp only [List.getElem?_cons_zero, Option.some.injEq] at h
          subst h
          simp [hd_1]
        | succ i =>
          simp only [List.getElem?_cons_succ] at h ⊢
          exact ih sts hlen_1 i iv h

theorem getElem?_lt_length {α : Type} {l : List α} {i : Nat} {a : α} (h : l[i]? = some a) :
    i < l.length := by
  by_contra hc
  rw [List.getElem?_eq_none (Nat.le_of_not_lt hc)] at h
  exact absurd h (by simp)

theorem resize_getD {α : Type} (xs : List α) (n : Nat) (d : α) (i : Nat) (hi : i < n) :
    ((resize xs n d)[i]?).getD d = (xs[i]?).getD d := by
  rw [resize_getElem? xs n d i hi]; rfl


theorem viterbi_value (toDouble : LD ℝ → LD ℝ) (h : HMM ℝ)
    (states : List (List Nat) × List (List Nat)) :
    (viterbi toDouble Real.log h states).1 =
      ((h.fwd ++ h.rev).filter (fun iv => !iv.obs.discard)).foldl
        (fun p iv => p + (viterbiInterval toDouble Real.log h.transMatrix iv).1) (fin 0) := by
  simp only [viterbi, List.filter_append, List.foldl_append]
  rw [(viterbiStrand_spec toDouble h.transMatrix h.rev _ _ (resize_length _ _ _)).1,
    (viterbiStrand_spec toDouble h.transMatrix h.fwd _ _ (resize_length _ _ _)).1]

theorem viterbi_states (toDouble : LD ℝ → LD ℝ) (h : HMM ℝ)
    (states : List (List Nat) × List (List Nat)) (s : Bool)
    (i : Nat) (iv : Interval ℝ) (hiv : (if s then h.rev else h.fwd)[i]? = some iv) :
    (if s then (viterbi toDouble Real.log h states).2.2 else (viterbi toDouble Real.log h states).2.1)[i]? =
      some (if iv.obs.discard then ((if s then states.2 else states.1)[i]?).getD []
        else (viterbiInterval toDouble Real.log h.transMatrix iv).2) := by
  cases s
  · simp only [Bool.false_eq_true, if_false] at hiv ⊢
    simp only [viterbi]
    rw [(viterbiStrand_spec toDouble h.transMatrix h.fwd _ _ (resize_length _ _ _)).2 i iv hiv,
      resize_getD _ _ _ _ (getElem?_lt_length hiv)]
  · simp only [if_true] at hiv ⊢
    simp only [viterbi]
    rw [(viterbiStrand_spec toDouble h.transMatrix h.rev _ _ (resize_length _ _ _)).2 i iv hiv,
      resize_getD _ _ _ _ (getElem?_lt_length hiv)]

theorem posteriorDecoding_states (h : HMM ℝ) (states : List (List Nat) × List (List Nat))
    (s : Bool) (i : Nat) (iv : Interval ℝ) (hiv : (if s then h.rev else h.fwd)[i]? = some iv) :
    (if s then (posteriorDecoding h states).2 else (posteriorDecoding h states).1)[i]? =
      some (if iv.obs.discard then ((if s then states.2 else states.1)[i]?).getD []
        else iv.statePosteriors.map (fun v => (bestPosterior v).val)) := by
  cases s
  · simp only [Bool.false_eq_true, if_false] at hiv ⊢
    simp only [posteriorDecoding]
    rw [posteriorDecodingStrand_spec h.fwd _ (resize_length _ _ _) i iv hiv,
      resize_getD _ _ _ _ (getElem?_lt_length hiv)]
  · simp only [if_true] at hiv ⊢
    simp only [posteriorDecoding]
    rw [posteriorDecodingStrand_spec h.rev _ (resize_length _ _ _) i iv hiv,
      resize_getD _ _ _ _ (getElem?_lt_length hiv)]

/-- C20. For the interval `i` of strand `s` (the reverse strand when `s` is true), whose
tables have one entry per position: if its discard flag is set, `viterbi` and
`posteriorDecoding` leave `states[s][i]` as it was before the call (the empty sequence
when the table had no entry `i`); if it is not set, the state sequence that each of them
stores has the interval's length and every state is below 4.  The log-probability that
`viterbi` returns is the sum of the values of the intervals that are not discarded, so a
discarded interval adds nothing to it. -/
theorem discarded_intervals_excluded (toDouble : LD ℝ → LD ℝ) (h : HMM ℝ)
    (states : List (List Nat) × List (List Nat)) (s : Bool) (i : Nat) (iv : Interval ℝ)
    (hiv : (if s then h.rev else h.fwd)[i]? = some iv)
    (hsize : iv.eProbs.length = iv.obs.sites.length ∧
      iv.statePosteriors.length = iv.obs.sites.length) :
    (iv.obs.discard = true →
      (if s then (viterbi toDouble Real.log h states).2.2 else (viterbi toDouble Real.log h states).2.1)[i]? =
        some (((if s then states.2 else states.1)[i]?).getD []) ∧
      (if s then (posteriorDecoding h states).2 else (posteriorDecoding h states).1)[i]? =
        some (((if s then states.2 else states.1)[i]?).getD [])) ∧
    (iv.obs.discard = false →
      (∃ st, (if s then (viterbi toDouble Real.log h states).2.2
          else (viterbi toDouble Real.log h states).2.1)[i]? = some st ∧
        st.length = iv.obs.sites.length ∧ ∀ x ∈ st, x < 4) ∧
      (∃ st, (if s then (posteriorDecoding h states).2
          else (posteriorDecoding h states).1)[i]? = some st ∧
        st.length = iv.obs.sites.length ∧ ∀ x ∈ st, x < 4)) ∧
    (viterbi toDouble Real.log h states).1 =
      ((h.fwd ++ h.rev).filter (fun iv => !iv.obs.discard)).foldl
        (fun p iv => p + (viterbiInterval toDouble Real.log h.transMatrix iv).1) (fin 0) := by
  have hv := viterbi_states toDouble h states s i iv hiv
  have hp := posteriorDecoding_states h states s i iv hiv
  refine ⟨fun hd => ?_, fun hd => ?_, viterbi_value toDouble h states⟩
  · rw [hv, hp]
    simp [hd]
  · rw [hv, hp]
    simp only [hd, Bool.false_eq_true, if_false]
    refine ⟨⟨_, rfl, ?_, (viterbiInterval_states toDouble h.transMatrix iv).2⟩, ⟨_, rfl, ?_, ?_⟩⟩
    · rw [(viterbiInterval_states toDouble h.transMatrix iv).1, hsize.1]
    · simp [hsize.2]
    · intro x hx
      simp only [List.mem_map] at hx
      obtain ⟨v, _, rfl⟩ := hx
      exact (bestPosterior v).isLt

/-- Witness for `discarded_intervals_excluded`: one discarded interval on the forward
strand, whose state sequence was `[7]` before the calls, keeps it. -/
theorem discarded_intervals_excluded_witness :
    (viterbi (fun x => x) Real.log (HMM.HMM nan [⟨[site 1 0], true⟩] []) ([[7]], [])).2.1[0]? =
      some [7] ∧
    (posteriorDecoding (HMM.HMM (nan : LD ℝ) [⟨[site 1 0], true⟩] []) ([[7]], [])).1[0]? =
      some [7] := by
  have h := (discarded_intervals_excluded (fun x => x) (HMM.HMM nan [⟨[site 1 0], true⟩] [])
    ([[7]], [])
    false 0 (Interval.ofObs nan ⟨[site 1 0], true⟩) (by simp [HMM.HMM])
    (by simp [Interval.ofObs])).1 rfl
  simpa using h


/-! ## Posterior decoding -/

theorem LD.ne_nan_of_lt_left {a b : LD R} (h : LD.lt a b = true) : a ≠ nan := by
  intro ha; subst ha; simp at h

theorem LD.ne_nan_of_lt_right {a b : LD R} (h : LD.lt a b = true) : b ≠ nan := by
  intro hb; subst hb; simp at h

/-- One step of the scan of `posteriorDecoding`. -/
theorem postStep_scan (v : Vec4 R) (m : LD R × Fin 4) (n : Fin 4)
    (h : PosteriorScan v n.val m) : PosteriorScan v (n.val + 1) (postStep v m n) := by
  have hlt : ∀ j : Fin 4, j.val < n.val + 1 → j.val < n.val ∨ j = n := by
    intro j hj
    rcases Nat.lt_succ_iff_lt_or_eq.mp hj with h1 | h1
    · exact Or.inl h1
    · exact Or.inr (Fin.ext h1)
  rcases h with ⟨rfl, h0⟩ | ⟨h1, h2, h3, ha, hb, hc⟩
  · simp only [postStep]
    split
    · rename_i hpos
      refine Or.inr ⟨rfl, Nat.lt_succ_self _, hpos, ?_, ?_, ?_⟩
      · intro j hj
        rcases hlt j hj with hj | rfl
        · cases hx : LD.lt (v n) (v j) with
          | false => rfl
          | true =>
            have := h0 j hj
            rw [LD.lt_trans_eq hpos hx] at this
            exact absurd this (by simp)
        · exact LD.lt_irrefl_eq _
      · intro j hj
        cases hx : LD.le (v n) (v j) with
        | false => rfl
        | true =>
          have := h0 j hj
          rw [LD.lt_of_lt_of_le_eq hpos hx] at this
          exact absurd this (by simp)
      · intro j hj hnan
        rcases hlt j hj with hj | rfl
        · exact LD.le_of_lt_eq (LD.lt_of_le_of_lt_eq
            (LD.le_of_not_lt_eq (LD.fin_ne_nan 0) hnan (h0 j hj)) hpos)
        · exact LD.le_refl_eq hnan
    · rename_i hpos
      refine Or.inl ⟨rfl, ?_⟩
      intro j hj
      rcases hlt j hj with hj | rfl
      · exact h0 j hj
      · simpa using hpos
  · have hm : v m.2 ≠ nan := LD.ne_nan_of_lt_right h3
    simp only [postStep]
    split
    · rename_i hgt
      rw [h1] at hgt
      refine Or.inr ⟨rfl, Nat.lt_succ_self _, LD.lt_trans_eq h3 hgt, ?_, ?_, ?_⟩
      · intro j hj
        rcases hlt j hj with hj | rfl
        · cases hx : LD.lt (v n) (v j) with
          | false => rfl
          | true =>
            have := ha j hj
            rw [LD.lt_trans_eq hgt hx] at this
            exact absurd this (by simp)
        · exact LD.lt_irrefl_eq _
      · intro j hj
        cases hx : LD.le (v n) (v j) with
        | false => rfl
        | true =>
          have := ha j hj
          rw [LD.lt_of_lt_of_le_eq hgt hx] at this
          exact absurd this (by simp)
      · intro j hj hnan
        rcases hlt j hj with hj | rfl
        · exact LD.le_of_lt_eq (LD.lt_of_le_of_lt_eq (hc j hj hnan) hgt)
        · exact LD.le_refl_eq hnan
    · rename_i hgt
      rw [h1] at hgt
      refine Or.inr ⟨h1, Nat.lt_succ_of_lt h2, h3, ?_, hb, ?_⟩
      · intro j hj
        rcases hlt j hj with hj | rfl
        · exact ha j hj
        · simpa using hgt
      · intro j hj hnan
        rcases hlt j hj with hj | rfl
        · exact hc j hj hnan
        · exact LD.le_of_not_lt_eq hm hnan (by simpa using hgt)

/-- The state that `posteriorDecoding` assigns to a position with the posteriors `v`. -/
theorem bestPosterior_spec (v : Vec4 R) :
    ((∃ j, LD.lt (fin 0) (v j) = true) →
      LD.lt (fin 0) (v (bestPosterior v)) = true ∧
      (∀ j, LD.lt (v (bestPosterior v)) (v j) = false) ∧
      (∀ j, v j ≠ nan → LD.le (v j) (v (bestPosterior v)) = true) ∧
      (∀ j, j < bestPosterior v → LD.le (v (bestPosterior v)) (v j) = false)) ∧
    ((∀ j, LD.lt (fin 0) (v j) = false) → bestPosterior v = 0) := by
  have s0 : PosteriorScan v (0 : Fin 4).val (fin 0, 0) :=
    Or.inl ⟨rfl, fun j hj => absurd hj (by simp)⟩
  have s1 := postStep_scan v _ 0 s0
  have s2 := postStep_scan v _ 1 s1
  have s3 := postStep_scan v _ 2 s2
  have s4 := postStep_scan v _ 3 s3
  have e : bestPosterior v =
      (postStep v (postStep v (postStep v (postStep v (fin 0, 0) 0) 1) 2) 3).2 := rfl
  rw [e]
  rcases s4 with ⟨h1, h0⟩ | ⟨h1, _, h3, ha, hb, hc⟩
  · refine ⟨fun ⟨j, hj⟩ => ?_, fun _ => by rw [h1]⟩
    have := h0 j j.isLt
    rw [hj] at this
    exact absurd this (by simp)
  · refine ⟨fun _ => ⟨h3, fun j => ha j j.isLt, fun j hj => hc j j.isLt hj, hb⟩, fun hall => ?_⟩
    have := hall (postStep v (postStep v (postStep v (postStep v (fin 0, 0) 0) 1) 2) 3).2
    rw [h3] at this
    exact absurd this (by simp)

/-- C21. For every position `t` of an interval `i` of strand `s` that is not discarded,
with `v` the four stored posteriors of the position: `posteriorDecoding` assigns a state
`m` such that, when some posterior is `> 0`, the posterior of `m` is `> 0`, no posterior is
greater, every posterior that is not NaN is at most that of `m`, and no lower-indexed
state has a posterior greater than or equal to it (the lowest-indexed state with the
maximal posterior); when no posterior is `> 0`, `m` is state 0.  Replacing the transition
matrix does not change the result. -/
theorem posteriorDecoding_lowest_argmax (h : HMM ℝ) (states : List (List Nat) × List (List Nat))
    (A_1 : Mat4 ℝ) (s : Bool) (i t : Nat) (iv : Interval ℝ) (v : Vec4 ℝ)
    (hiv : (if s then h.rev else h.fwd)[i]? = some iv) (hd : iv.obs.discard = false)
    (hv : iv.statePosteriors[t]? = some v) :
    (∃ st : List Nat, ∃ m : Fin 4,
      (if s then (posteriorDecoding h states).2 else (posteriorDecoding h states).1)[i]? =
        some st ∧
      st[t]? = some m.val ∧
      ((∃ j, LD.lt (fin 0) (v j) = true) →
        LD.lt (fin 0) (v m) = true ∧
        (∀ j, LD.lt (v m) (v j) = false) ∧
        (∀ j, v j ≠ nan → LD.le (v j) (v m) = true) ∧
        (∀ j, j < m → LD.le (v m) (v j) = false)) ∧
      ((∀ j, LD.lt (fin 0) (v j) = false) → m = 0)) ∧
    posteriorDecoding { h with transMatrix := A_1 } states = posteriorDecoding h states := by
  refine ⟨⟨_, bestPosterior v, (posteriorDecoding_states h states s i iv hiv), ?_,
    (bestPosterior_spec v).1, (bestPosterior_spec v).2⟩, rfl⟩
  simp only [hd, Bool.false_eq_true, if_false]
  rw [List.getElem?_map, hv]
  rfl

/-- Witness for `posteriorDecoding_lowest_argmax`: for one interval with one position whose
posteriors are `(0, 1, 1, 0)`, the state assigned is 1, the lower of the two states with
the maximal posterior. -/
theorem posteriorDecoding_lowest_argmax_witness :
    ∃ st : List Nat,
      (posteriorDecoding (⟨fun _ _ => fin (1 / 4), [tiedPosteriorInterval], []⟩ : HMM ℝ)
        ([], [])).1[0]? = some st ∧ st[0]? = some 1 := by
  obtain ⟨⟨st, m, hst, hm, hpos, _⟩, _⟩ := posteriorDecoding_lowest_argmax
    ⟨fun _ _ => fin (1 / 4), [tiedPosteriorInterval], []⟩ ([], []) (fun _ _ => fin 1) false 0 0
    tiedPosteriorInterval ![fin 0, fin 1, fin 1, fin 0] (by simp) rfl
    (by simp [tiedPosteriorInterval])
  refine ⟨st, by simpa using hst, ?_⟩
  obtain ⟨h1, _, _, h4⟩ := hpos ⟨1, by simp⟩
  have hm1 : m = 1 := by
    have hk : m = 0 ∨ m = 1 ∨ m = 2 ∨ m = 3 := by fin_cases m <;> simp
    rcases hk with rfl | rfl | rfl | rfl
    · simp at h1
    · rfl
    · have := h4 1 (by decide)
      simp at this
    · simp at h1
  rw [hm, hm1]
  rfl


/-! ## Removal of border artifacts -/

theorem rmPositions_spec (g1 : GAMMA2_REG ℝ) :
    ∀ (os : List (Obs ℝ)) (sts : List Nat),
      (rmPositions Real.exp g1 os sts).length = sts.length ∧
      ∀ (t : Nat) (o : Obs ℝ) (st : Nat), os[t]? = some o → sts[t]? = some st →
        (rmPositions Real.exp g1 os sts)[t]? =
          some (if 2 ≤ st ∧ LD.lt o.kde (LD.exp Real.exp (g1.b0 + g1.b1 * o.rpkm)) = true
            then st - 2 else st) := by
  intro os
  induction os with
  | nil =>
    intro sts
    refine ⟨by cases sts <;> rfl, ?_⟩
    intro t o st ho
    simp at ho
  | cons o_0 os ih =>
    intro sts
    cases sts with
    | nil =>
      refine ⟨rfl, ?_⟩
      intro t o st _ hst
      simp at hst
    | cons st_0 sts =>
      refine ⟨by simp [rmPositions, (ih sts).1], ?_⟩
      intro t o st ho hst
      cases t with
      | zero =>
        simp only [List.getElem?_cons_zero, Option.some.injEq] at ho hst
        subst ho hst
        simp [rmPositions]
      | succ t =>
        simp only [List.getElem?_cons_succ] at ho hst
        simpa [rmPositions] using (ih sts).2 t o st ho hst

theorem rmIntervals_spec (g1 : GAMMA2_REG ℝ) :
    ∀ (obs : List (Observations ℝ)) (states : List (List Nat)),
      (rmIntervals Real.exp g1 obs states).length = states.length ∧
      ∀ (i : Nat) (o : Observations ℝ) (sts : List Nat), obs[i]? = some o →
        states[i]? = some sts →
        (rmIntervals Real.exp g1 obs states)[i]? =
          some (if o.discard then sts else rmPositions Real.exp g1 o.sites sts) := by
  intro obs
  induction obs with
  | nil =>
    intro states
    refine ⟨by cases states <;> rfl, ?_⟩
    intro i o sts ho
    simp at ho
  | cons o_0 obs ih =>
    intro states
    cases states with
    | nil =>
      refine ⟨rfl, ?_⟩
      intro i o sts _ hst
      simp at hst
    | cons sts_0 states =>
      refine ⟨by simp [rmIntervals, (ih states).1], ?_⟩
      intro i o sts ho hst
      cases i with
      | zero =>
        simp only [List.getElem?_cons_zero, Option.some.injEq] at ho hst
        subst ho hst
        simp [rmIntervals]
      | succ i =>
        simp only [List.getElem?_cons_succ] at ho hst
        simpa [rmIntervals] using (ih states).2 i o sts ho hst

/-- C22. For the position `t` (with observation `o` and state `st`) of the interval `i` of
strand `s`: `rmBoarderArtifacts` with the regression-linked density `g1` stores `st - 2`
when the interval is not discarded, `st >= 2` and the coverage estimate is strictly below
`exp(b0 + b1 * rpkms[t])`, and leaves the state as it is otherwise; the state sequences and
the strands keep their lengths.  With the density `GAMMA2` the table `states` is
unchanged. -/
theorem rmBoarderArtifacts_downgrades (h : HMM ℝ) (states : List (List Nat) × List (List Nat))
    (g1 : GAMMA2_REG ℝ) (g : GAMMA2 ℝ) (s : Bool) (i t : Nat) (iv : Interval ℝ) (o : Obs ℝ)
    (sts : List Nat) (st : Nat)
    (hiv : (if s then h.rev else h.fwd)[i]? = some iv)
    (hsts : (if s then states.2 else states.1)[i]? = some sts)
    (ho : iv.obs.sites[t]? = some o) (hst : sts[t]? = some st) :
    (∃ sts_1 : List Nat,
      (if s then (rmBoarderArtifactsReg Real.exp h states g1).2
        else (rmBoarderArtifactsReg Real.exp h states g1).1)[i]? = some sts_1 ∧
      sts_1.length = sts.length ∧
      sts_1[t]? = some (if iv.obs.discard = false ∧ 2 ≤ st ∧
          LD.lt o.kde (LD.exp Real.exp (g1.b0 + g1.b1 * o.rpkm)) = true
        then st - 2 else st)) ∧
    (rmBoarderArtifactsReg Real.exp h states g1).1.length = states.1.length ∧
    (rmBoarderArtifactsReg Real.exp h states g1).2.length = states.2.length ∧
    rmBoarderArtifacts h states g = states := by
  refine ⟨?_, (rmIntervals_spec g1 _ _).1, (rmIntervals_spec g1 _ _).1, rfl⟩
  have key : ∀ (ivs : List (Interval ℝ)) (sss : List (List Nat)), ivs[i]? = some iv →
      sss[i]? = some sts →
      ∃ sts_1 : List Nat,
        (rmIntervals Real.exp g1 (ivs.map (fun x => x.obs)) sss)[i]? = some sts_1 ∧
        sts_1.length = sts.length ∧
        sts_1[t]? = some (if iv.obs.discard = false ∧ 2 ≤ st ∧
            LD.lt o.kde (LD.exp Real.exp (g1.b0 + g1.b1 * o.rpkm)) = true
          then st - 2 else st) := by
    intro ivs sss h1 h2
    have h3 : (ivs.map (fun x => x.obs))[i]? = some iv.obs := by
      rw [List.getElem?_map, h1]; rfl
    refine ⟨_, (rmIntervals_spec g1 _ _).2 i iv.obs sts h3 h2, ?_, ?_⟩
    · split
      · rfl
      · exact (rmPositions_spec g1 _ _).1
    · by_cases hd : iv.obs.discard = true
      · simp [hd, hst]
      · have hd_1 : iv.obs.discard = false := by simpa using hd
        simp only [hd_1, Bool.false_eq_true, if_false, true_and]
        exact (rmPositions_spec g1 _ _).2 t o st ho hst
  cases s
  · simp only [Bool.false_eq_true, if_false] at hiv hsts ⊢
    exact key h.fwd states.1 hiv hsts
  · simp only [if_true] at hiv hsts ⊢
    exact key h.rev states.2 hiv hsts

/-- Witness for `rmBoarderArtifacts_downgrades`: a position with coverage estimate `1`
and state 3 under the density with `b0 = 1`, `b1 = 0` (predicted mean `exp 1`) gets the
state 1. -/
theorem rmBoarderArtifacts_downgrades_witness :
    ∃ sts_1 : List Nat,
      (rmBoarderArtifactsReg Real.exp (HMM.HMM nan [⟨[site 1 1], false⟩] [])
        ([[3]], []) ⟨fin 1, fin 1, fin 0, fun _ _ _ => fin 1⟩).1[0]? = some sts_1 ∧
      sts_1[0]? = some 1 := by
  obtain ⟨⟨sts_1, h1, _, h3⟩, _⟩ := rmBoarderArtifacts_downgrades
    (HMM.HMM nan [⟨[site 1 1], false⟩] []) ([[3]], [])
    ⟨fin 1, fin 1, fin 0, fun _ _ _ => fin 1⟩ (constGamma 1 1) false 0 0
    (Interval.ofObs nan ⟨[site 1 1], false⟩) (site 1 1) [3] 3
    (by simp [HMM.HMM]) (by simp) (by simp [Interval.ofObs]) (by simp)
  refine ⟨sts_1, by simpa using h1, ?_⟩
  have hlt : LD.lt (site (1 : ℝ) 1).kde
      (LD.exp Real.exp ((fin 1 : LD ℝ) + fin 0 * (site (1 : ℝ) 1).rpkm)) = true := by
    simp only [site, fin_mul_fin, fin_add_fin, LD.exp, lt_fin_fin, decide_eq_true_eq]
    have := Real.add_one_lt_exp (one_ne_zero : (1 : ℝ) ≠ 0)
    norm_num at this ⊢
  rw [h3, if_pos ⟨rfl, by decide, hlt⟩]


/-! ## The overwrite from the threshold-restricted sums -/

/-- C28. With the threshold-restricted statistics enabled (`nThresholdForTransP > 0`),
finite restricted sums with `p_2_2 + p_2_3 > 0`, and finite normalised-and-floored entries
`A[2][2]`, `A[2][3]`: right after the overwrite `A[2][2] + A[2][3]` equals the sum of the
two entries before it, `A[2][2] * p_2_3 = A[2][3] * p_2_2` (so `A[2][2] : A[2][3] =
p_2_2 : p_2_3`), and every other entry of the matrix is unchanged. -/
theorem overwrite_preserves_mass (options : AppOptions ℝ) (st : TransStats ℝ) (a b x y : ℝ)
    (hthr : LD.lt (fin 0) options.nThresholdForTransP = true)
    (hx : st.p_2_2 = fin x) (hy : st.p_2_3 = fin y) (hxy : 0 < x + y)
    (ha : normalizeFloor st.p 2 2 = fin a) (hb : normalizeFloor st.p 2 3 = fin b) :
    fixTrans23 options st (normalizeFloor st.p) 2 2 = fin ((a + b) * x / (x + y)) ∧
    fixTrans23 options st (normalizeFloor st.p) 2 3 = fin ((a + b) * y / (x + y)) ∧
    fixTrans23 options st (normalizeFloor st.p) 2 2 +
      fixTrans23 options st (normalizeFloor st.p) 2 3 =
        normalizeFloor st.p 2 2 + normalizeFloor st.p 2 3 ∧
    fixTrans23 options st (normalizeFloor st.p) 2 2 * st.p_2_3 =
      fixTrans23 options st (normalizeFloor st.p) 2 3 * st.p_2_2 ∧
    (∀ i j, ¬ (i = 2 ∧ (j = 2 ∨ j = 3)) →
      fixTrans23 options st (normalizeFloor st.p) i j = normalizeFloor st.p i j) := by
  have hne : x + y ≠ 0 := ne_of_gt hxy
  have h22 : fixTrans23 options st (normalizeFloor st.p) 2 2 = fin ((a + b) * x / (x + y)) := by
    simp +decide only [fixTrans23, hthr, if_true, setEntry, ha, hb, hx, hy, fin_add_fin,
      fin_mul_fin, fin_div_fin _ _ hne, and_false, if_false, and_self]
  have h23 : fixTrans23 options st (normalizeFloor st.p) 2 3 = fin ((a + b) * y / (x + y)) := by
    simp +decide only [fixTrans23, hthr, if_true, setEntry, ha, hb, hx, hy, fin_add_fin,
      fin_mul_fin, fin_div_fin _ _ hne, and_self]
  refine ⟨h22, h23, ?_, ?_, ?_⟩
  · rw [h22, h23, ha, hb, fin_add_fin, fin_add_fin]
    congr 1
    field_simp
    ring
  · rw [h22, h23, hx, hy, fin_mul_fin, fin_mul_fin]
    congr 1
    field_simp
    ring
  · intro i j hij
    simp only [fixTrans23, hthr, if_true, setEntry]
    have h1 : ¬ (i = 2 ∧ j = 3) := fun h => hij ⟨h.1, Or.inr h.2⟩
    have h2 : ¬ (i = 2 ∧ j = 2) := fun h => hij ⟨h.1, Or.inl h.2⟩
    rw [if_neg h1, if_neg h2]

/-- Witness for `overwrite_preserves_mass`: statistics `p[k][l] = 1` for all entries (every
normalised entry is `1/4`) with the restricted sums `p_2_2 = 1`, `p_2_3 = 3`. -/
theorem overwrite_preserves_mass_witness :
    fixTrans23 ⟨logSumExp_add Real.log Real.exp, fin 1, fin 0, fin 0⟩
        ⟨fun _ _ => fin 1, fin 1, fin 3⟩ (normalizeFloor (fun _ _ => fin (1 : ℝ))) 2 2 =
      fin ((1 / 4 + 1 / 4) * 1 / (1 + 3)) ∧
    fixTrans23 ⟨logSumExp_add Real.log Real.exp, fin 1, fin 0, fin 0⟩
        ⟨fun _ _ => fin 1, fin 1, fin 3⟩ (normalizeFloor (fun _ _ => fin (1 : ℝ))) 2 3 =
      fin ((1 / 4 + 1 / 4) * 3 / (1 + 3)) := by
  have hn : ∀ j, normalizeFloor (fun _ _ => fin (1 : ℝ)) 2 j = fin (1 / 4) := by
    intro j
    have := normalizeFloor_pos_row (fun _ _ => fin (1 : ℝ)) 2 (fun _ => 1) (fun _ => one_pos)
      (fun _ => rfl) j
    rw [this]
    norm_num
  have h := overwrite_preserves_mass ⟨logSumExp_add Real.log Real.exp, fin 1, fin 0, fin 0⟩
    ⟨fun _ _ => fin 1, fin 1, fin 3⟩ (1 / 4) (1 / 4) 1 3 (by simp) rfl rfl (by norm_num)
    (hn 2) (hn 3)
  exact ⟨h.1, h.2.1⟩


/-! ## The discard flags -/

theorem forall₂_map_of_imp {P : Interval ℝ → Interval ℝ → Prop} (f : Interval ℝ → Interval ℝ)
    (hf : ∀ iv, P iv (f iv)) : ∀ l : List (Interval ℝ), List.Forall₂ P l (l.map f) := by
  intro l
  induction l with
  | nil => exact List.Forall₂.nil
  | cons a l ih => exact List.Forall₂.cons (hf a) ih

theorem DiscardMonotone.refl_of (h : HMM ℝ) : DiscardMonotone h h := by
  have := forall₂_map_of_imp (P := fun iv iv_1 => iv.obs.discard = true →
    iv_1.obs.discard = true) id (fun _ hd => hd)
  refine ⟨?_, ?_⟩
  · have a := this h.fwd
    rwa [List.map_id] at a
  · have a := this h.rev
    rwa [List.map_id] at a

theorem DiscardMonotone.trans_of {h h_1 h_2 : HMM ℝ} (a : DiscardMonotone h h_1)
    (b : DiscardMonotone h_1 h_2) : DiscardMonotone h h_2 := by
  have key : ∀ l l_1 l_2 : List (Interval ℝ),
      List.Forall₂ (fun iv iv_1 => iv.obs.discard = true → iv_1.obs.discard = true) l l_1 →
      List.Forall₂ (fun iv iv_1 => iv.obs.discard = true → iv_1.obs.discard = true) l_1 l_2 →
      List.Forall₂ (fun iv iv_1 => iv.obs.discard = true → iv_1.obs.discard = true) l l_2 := by
    intro l l_1 l_2 h1
    induction h1 generalizing l_2 with
    | nil => intro h2; cases h2; exact List.Forall₂.nil
    | cons hab _ ih =>
      intro h2
      cases h2 with
      | cons hbc h2 => exact List.Forall₂.cons (fun hd => hbc (hab hd)) (ih _ h2)
  exact ⟨key _ _ _ a.1 b.1, key _ _ _ a.2 b.2⟩

theorem DiscardMonotone.of_maps (h h_1 : HMM ℝ) (f g : Interval ℝ → Interval ℝ)
    (hf : ∀ iv, iv.obs.discard = true → (f iv).obs.discard = true)
    (hg : ∀ iv, iv.obs.discard = true → (g iv).obs.discard = true)
    (h1 : h_1.fwd = h.fwd.map f) (h2 : h_1.rev = h.rev.map g) : DiscardMonotone h h_1 := by
  refine ⟨?_, ?_⟩
  · rw [h1]; exact forall₂_map_of_imp f hf _
  · rw [h2]; exact forall₂_map_of_imp g hg _

theorem emissionInterval_discard_mono (eProb : Obs ℝ → Bool × Vec4 ℝ) (learning : Bool)
    (iv : Interval ℝ) (hd : iv.obs.discard = true) :
    (emissionInterval eProb learning iv).interval.obs.discard = true := by
  cases learning
  · rw [emissionInterval_decode_discard, hd]; rfl
  · rw [emissionInterval_learning_obs, hd]

theorem computeEmissionProbs_discard_mono {G B : Type}
    (cEP : G → G → B → B → Obs ℝ → AppOptions ℝ → Bool × Vec4 ℝ)
    (d1 d2 : G) (bin1 bin2 : B) (learning : Bool) (options : AppOptions ℝ) (h : HMM ℝ) :
    DiscardMonotone h (computeEmissionProbs cEP d1 d2 bin1 bin2 learning options h).2 :=
  DiscardMonotone.of_maps _ _ _ _ (emissionInterval_discard_mono _ learning)
    (emissionInterval_discard_mono _ learning) rfl rfl

theorem computeStatePosteriorsFB_discard_mono (options : AppOptions ℝ) (h : HMM ℝ) :
    DiscardMonotone h (computeStatePosteriorsFB Real.log Real.exp options h).2 := by
  have hf : ∀ iv : Interval ℝ, iv.obs.discard = true →
      ((fbInterval Real.log Real.exp options.lookUp (logMatrix Real.log h.transMatrix)
        iv).getD iv).obs.discard = true := by
    intro iv hd
    rw [(fbInterval_obs _ _ iv).1, hd]
  simp only [computeStatePosteriorsFB]
  split
  · exact DiscardMonotone.of_maps _ _ _ id hf (fun _ hd => hd) rfl (by simp)
  · split
    · exact DiscardMonotone.of_maps _ _ _ _ hf hf rfl rfl
    · exact DiscardMonotone.of_maps _ _ _ _ hf hf rfl rfl

theorem fbUpdateInterval_obs (options : AppOptions ℝ) (logA : Mat4 ℝ) (iv : Interval ℝ) :
    (fbUpdateInterval Real.log Real.exp options logA iv).interval.obs = iv.obs ∧
    (fbUpdateInterval Real.log Real.exp options logA iv).interval.eProbs = iv.eProbs := by
  simp only [fbUpdateInterval]
  split
  · exact ⟨rfl, rfl⟩
  · split
    · exact ⟨rfl, rfl⟩
    · exact ⟨rfl, rfl⟩

theorem computeStatePosteriorsFBupdateTrans_discard_mono (options : AppOptions ℝ) (h : HMM ℝ) :
    DiscardMonotone h (computeStatePosteriorsFBupdateTrans Real.log Real.exp options h).2 := by
  have hf : ∀ iv : Interval ℝ, iv.obs.discard = true →
      (fbUpdateInterval Real.log Real.exp options (logMatrix Real.log h.transMatrix)
        iv).interval.obs.discard = true := by
    intro iv hd
    rw [(fbUpdateInterval_obs _ _ iv).1, hd]
  simp only [computeStatePosteriorsFBupdateTrans]
  split
  · exact DiscardMonotone.of_maps _ _ _ id hf (fun _ hd => hd) rfl (by simp)
  · split
    · exact DiscardMonotone.of_maps _ _ _ _ hf hf rfl rfl
    · exact DiscardMonotone.of_maps _ _ _ _ hf hf rfl rfl

theorem applyParameters_discard_mono {G B : Type}
    (cEP : G → G → B → B → Obs ℝ → AppOptions ℝ → Bool × Vec4 ℝ)
    (d1 d2 : G) (bin1 bin2 : B) (options : AppOptions ℝ) (h : HMM ℝ) :
    DiscardMonotone h (applyParameters Real.log Real.exp cEP d1 d2 bin1 bin2 options h).2 := by
  simp only [applyParameters]
  split
  · exact (computeEmissionProbs_discard_mono cEP d1 d2 bin1 bin2 false options h).trans_of
      (computeStatePosteriorsFB_discard_mono options _)
  · exact computeEmissionProbs_discard_mono cEP d1 d2 bin1 bin2 false options h

theorem BWStep.failed_cases {G B : Type} (P : BWState ℝ G B → Prop) (x : BWState ℝ G B)
    (hx : P x) :
    (∀ st_1, BWStep.failed x = BWStep.failed st_1 → P st_1) ∧
    (∀ st_1, BWStep.failed x = BWStep.converged st_1 → P st_1) ∧
    (∀ st_1 iter_1, BWStep.failed x = BWStep.next st_1 iter_1 → P st_1) := by
  refine ⟨?_, ?_, ?_⟩
  · intro st_1 h; cases h; exact hx
  · intro st_1 h; cases h
  · intro st_1 iter_1 h; cases h

theorem bwConvergence_hmm {G B : Type} (ops : DensityOps ℝ G B) (learnTag : String)
    (options : BaumWelchOptions ℝ) (iter : Nat) (st : BWState ℝ G B) :
    (∀ st_1, bwConvergence ops learnTag options iter st = BWStep.failed st_1 →
      st_1.hmm = st.hmm) ∧
    (∀ st_1, bwConvergence ops learnTag options iter st = BWStep.converged st_1 →
      st_1.hmm = st.hmm) ∧
    (∀ st_1 iter_1, bwConvergence ops learnTag options iter st = BWStep.next st_1 iter_1 →
      st_1.hmm = st.hmm) := by
  simp only [bwConvergence]
  refine ⟨?_, ?_, ?_⟩
  · intro st_1 h
    split at h
    · cases h
    · split at h <;> cases h
  · intro st_1 h
    split at h
    · cases h; rfl
    · split at h
      · cases h; rfl
      · cases h
  · intro st_1 iter_1 h
    split at h
    · cases h
    · split at h
      · cases h
      · cases h; rfl

theorem bwUpdate_hmm {G B : Type} (ops : DensityOps ℝ G B) (learnTag : String)
    (options : BaumWelchOptions ℝ) (iter : Nat) (st : BWState ℝ G B) :
    (∀ st_1, bwUpdate ops learnTag options iter st = BWStep.failed st_1 →
      st_1.hmm = st.hmm) ∧
    (∀ st_1, bwUpdate ops learnTag options iter st = BWStep.converged st_1 →
      st_1.hmm = st.hmm) ∧
    (∀ st_1 iter_1, bwUpdate ops learnTag options iter st = BWStep.next st_1 iter_1 →
      st_1.hmm = st.hmm) := by
  simp only [bwUpdate]
  split
  · split
    · exact bwConvergence_hmm ops learnTag options iter _
    · exact BWStep.failed_cases (fun x => x.hmm = st.hmm) _ rfl
  · split
    · split
      · exact BWStep.failed_cases (fun x => x.hmm = st.hmm) _ rfl
      · exact bwConvergence_hmm ops learnTag options _ _
    · exact BWStep.failed_cases (fun x => x.hmm = st.hmm) _ rfl

/-- The engine after one iteration of `baumWelch`, however it ends, has the discard flags
of the engine before it or more. -/
theorem bwIteration_discard_mono {G B : Type} (ops : DensityOps ℝ G B) (learnTag : String)
    (options : BaumWelchOptions ℝ) (iter : Nat) (st : BWState ℝ G B) :
    (∀ st_1, bwIteration Real.log Real.exp ops learnTag options iter st = BWStep.failed st_1 →
      DiscardMonotone st.hmm st_1.hmm) ∧
    (∀ st_1, bwIteration Real.log Real.exp ops learnTag options iter st =
      BWStep.converged st_1 → DiscardMonotone st.hmm st_1.hmm) ∧
    (∀ st_1 iter_1, bwIteration Real.log Real.exp ops learnTag options iter st =
      BWStep.next st_1 iter_1 → DiscardMonotone st.hmm st_1.hmm) := by
  have he := computeEmissionProbs_discard_mono ops.computeEProb st.d1 st.d2 st.bin1 st.bin2
    true options.toAppOptions st.hmm
  have hfb := he.trans_of (computeStatePosteriorsFBupdateTrans_discard_mono
    options.toAppOptions (computeEmissionProbs ops.computeEProb st.d1 st.d2 st.bin1 st.bin2
      true options.toAppOptions st.hmm).2)
  simp only [bwIteration]
  split
  · split
    · have hu := bwUpdate_hmm ops learnTag options iter
        { st with hmm := (computeStatePosteriorsFBupdateTrans Real.log Real.exp
            options.toAppOptions (computeEmissionProbs ops.computeEProb st.d1 st.d2 st.bin1
              st.bin2 true options.toAppOptions st.hmm).2).2 }
      refine ⟨fun st_1 h => ?_, fun st_1 h => ?_, fun st_1 iter_1 h => ?_⟩
      · rw [hu.1 st_1 h]; exact hfb
      · rw [hu.2.1 st_1 h]; exact hfb
      · rw [hu.2.2 st_1 iter_1 h]; exact hfb
    · exact BWStep.failed_cases (fun x => DiscardMonotone st.hmm x.hmm) _ hfb
  · exact BWStep.failed_cases (fun x => DiscardMonotone st.hmm x.hmm) _ he

theorem baumWelchLoop_discard_mono {G B : Type} (ops : DensityOps ℝ G B) (learnTag : String)
    (options : BaumWelchOptions ℝ) :
    ∀ (fuel iter : Nat) (st : BWState ℝ G B) (r : Bool × BWState ℝ G B),
      baumWelchLoop Real.log Real.exp ops learnTag options fuel iter st = some r →
      DiscardMonotone st.hmm r.2.hmm := by
  intro fuel
  induction fuel with
  | zero =>
    intro iter st r h
    simp [baumWelchLoop] at h
  | succ fuel ih =>
    intro iter st r h
    simp only [baumWelchLoop] at h
    split at h
    · have hi := bwIteration_discard_mono ops learnTag options iter st
      split at h
      · rename_i st_1 hst
        cases h
        exact hi.1 st_1 hst
      · rename_i st_1 hst
        cases h
        exact hi.2.1 st_1 hst
      · rename_i st_1 iter_1 hst
        exact (hi.2.2 st_1 iter_1 hst).trans_of (ih _ _ _ h)
    · cases h
      exact DiscardMonotone.refl_of _

/-- C29. The discard flag is monotonic: after `computeEmissionProbs` (in either mode),
after each forward-backward pass, after `applyParameters` and after a run of `baumWelch`
that ends, every strand has as many intervals as before and every interval whose discard
flag was set has it set.  (The methods `viterbi`, `posteriorDecoding` and
`rmBoarderArtifacts` assign to no table of the engine; they are functions of the engine
that yield the table `states`.) -/
theorem discard_flag_monotonic {G B : Type} (ops : DensityOps ℝ G B) (d1 d2 : G)
    (bin1 bin2 : B) (learning : Bool) (learnTag : String) (options : BaumWelchOptions ℝ)
    (h : HMM ℝ) :
    DiscardMonotone h (computeEmissionProbs ops.computeEProb d1 d2 bin1 bin2 learning
      options.toAppOptions h).2 ∧
    DiscardMonotone h (computeStatePosteriorsFB Real.log Real.exp options.toAppOptions h).2 ∧
    DiscardMonotone h
      (computeStatePosteriorsFBupdateTrans Real.log Real.exp options.toAppOptions h).2 ∧
    DiscardMonotone h (applyParameters Real.log Real.exp ops.computeEProb d1 d2 bin1 bin2
      options.toAppOptions h).2 ∧
    (∀ (fuel : Nat) (r : Bool × BWState ℝ G B),
      baumWelch Real.log Real.exp ops fuel d1 d2 bin1 bin2 learnTag options h = some r →
      DiscardMonotone h r.2.hmm) :=
  ⟨computeEmissionProbs_discard_mono _ _ _ _ _ _ _ _,
    computeStatePosteriorsFB_discard_mono _ _,
    computeStatePosteriorsFBupdateTrans_discard_mono _ _,
    applyParameters_discard_mono _ _ _ _ _ _ _,
    fun fuel r hr => baumWelchLoop_discard_mono ops learnTag options fuel 0 _ r hr⟩


/-! ## Order of the intervals -/

theorem LD.add_right_comm_eq (a b c : LD ℝ) : a + b + c = a + c + b := by
  cases a <;> cases b <;> cases c <;> simp
  exact add_right_comm _ _ _

theorem TransStats.add_right_comm (a x y : TransStats ℝ) :
    (a.add x).add y = (a.add y).add x := by
  simp only [TransStats.add, LD.add_right_comm_eq]

theorem strandStats_perm (options : AppOptions ℝ) (logA : Mat4 ℝ) (acc : TransStats ℝ)
    (l l_1 : List (Interval ℝ)) (hp : List.Perm l l_1) :
    strandStats Real.log Real.exp options logA acc l =
      strandStats Real.log Real.exp options logA acc l_1 := by
  simp only [strandStats]
  induction hp generalizing acc with
  | nil => rfl
  | cons x _ ih => exact ih _
  | swap x y l => simp only [List.foldl_cons, TransStats.add_right_comm]
  | trans _ _ ih1 ih2 => exact (ih1 acc).trans (ih2 acc)

theorem any_perm {α : Type} (f : α → Bool) (l l_1 : List α) (hp : List.Perm l l_1) :
    l.any f = l_1.any f := by
  rw [Bool.eq_iff_iff]
  simp only [List.any_eq_true]
  exact ⟨fun ⟨x, hx, hfx⟩ => ⟨x, hp.mem_iff.mp hx, hfx⟩,
    fun ⟨x, hx, hfx⟩ => ⟨x, hp.mem_iff.mpr hx, hfx⟩⟩

/-- C30. Permuting the intervals of the forward strand and of the reverse strand does
not change the result flag of `computeStatePosteriorsFBupdateTrans` nor the transition
matrix afterwards, and the interval tables afterwards are permuted accordingly: in both
runs the forward-strand intervals are the images of the given ones under the same
function of the interval alone (the body of the interval loop), and so are the
reverse-strand intervals. -/
theorem interval_order_insensitive (options : AppOptions ℝ) (A : Mat4 ℝ)
    (fwd fwd_1 rev rev_1 : List (Interval ℝ))
    (hf : List.Perm fwd fwd_1) (hr : List.Perm rev rev_1) :
    (computeStatePosteriorsFBupdateTrans Real.log Real.exp options ⟨A, fwd, rev⟩).1 =
      (computeStatePosteriorsFBupdateTrans Real.log Real.exp options ⟨A, fwd_1, rev_1⟩).1 ∧
    (computeStatePosteriorsFBupdateTrans Real.log Real.exp options ⟨A, fwd, rev⟩).2.transMatrix =
      (computeStatePosteriorsFBupdateTrans Real.log Real.exp options
        ⟨A, fwd_1, rev_1⟩).2.transMatrix ∧
    (computeStatePosteriorsFBupdateTrans Real.log Real.exp options ⟨A, fwd, rev⟩).2.fwd =
      fwd.map (fun iv =>
        (fbUpdateInterval Real.log Real.exp options (logMatrix Real.log A) iv).interval) ∧
    (computeStatePosteriorsFBupdateTrans Real.log Real.exp options ⟨A, fwd_1, rev_1⟩).2.fwd =
      fwd_1.map (fun iv =>
        (fbUpdateInterval Real.log Real.exp options (logMatrix Real.log A) iv).interval) ∧
    (∃ g : Interval ℝ → Interval ℝ,
      (computeStatePosteriorsFBupdateTrans Real.log Real.exp options ⟨A, fwd, rev⟩).2.rev =
        rev.map g ∧
      (computeStatePosteriorsFBupdateTrans Real.log Real.exp options ⟨A, fwd_1, rev_1⟩).2.rev =
        rev_1.map g) := by
  have h1 := any_perm (fun iv => (fbUpdateInterval Real.log Real.exp options
    (logMatrix Real.log A) iv).stop) fwd fwd_1 hf
  have h2 := any_perm (fun iv => (fbUpdateInterval Real.log Real.exp options
    (logMatrix Real.log A) iv).stop) rev rev_1 hr
  have h3 : accumulatedStats Real.log Real.exp options ⟨A, fwd, rev⟩ =
      accumulatedStats Real.log Real.exp options ⟨A, fwd_1, rev_1⟩ := by
    simp only [accumulatedStats]
    rw [strandStats_perm options _ _ fwd fwd_1 hf, strandStats_perm options _ _ rev rev_1 hr]
  refine ⟨?_, ?_, computeStatePosteriorsFBupdateTrans_fwd options _,
    computeStatePosteriorsFBupdateTrans_fwd options _, ?_⟩
  · simp only [computeStatePosteriorsFBupdateTrans, ← h1, ← h2]
    split
    · rfl
    · split <;> rfl
  · simp only [computeStatePosteriorsFBupdateTrans, ← h1, ← h2, h3]
    split
    · rfl
    · split <;> rfl
  · simp only [computeStatePosteriorsFBupdateTrans, ← h1, ← h2]
    split
    · exact ⟨id, by simp, by simp⟩
    · split
      · exact ⟨_, rfl, rfl⟩
      · exact ⟨_, rfl, rfl⟩

/-- Witness for `interval_order_insensitive`: two intervals of the forward strand,
swapped. -/
theorem interval_order_insensitive_witness :
    (computeStatePosteriorsFBupdateTrans Real.log Real.exp
      (plainOptions Real.log Real.exp 1).toAppOptions
      ⟨fun _ _ => fin (1 / 4), [twoSiteInterval 2 3 0, twoSiteInterval 0 1 0], []⟩).2.transMatrix =
    (computeStatePosteriorsFBupdateTrans Real.log Real.exp
      (plainOptions Real.log Real.exp 1).toAppOptions
      ⟨fun _ _ => fin (1 / 4), [twoSiteInterval 0 1 0, twoSiteInterval 2 3 0], []⟩).2.transMatrix :=
  (interval_order_insensitive (plainOptions Real.log Real.exp 1).toAppOptions
    (fun _ _ => fin (1 / 4)) [twoSiteInterval 2 3 0, twoSiteInterval 0 1 0]
    [twoSiteInterval 0 1 0, twoSiteInterval 2 3 0] [] [] (List.Perm.swap _ _ _)
    (List.Perm.refl _)).2.1


/-! ## Iterations of the training -/

theorem computeEProb_state0 (d1 d2 : GAMMA2 ℝ) (bin1 bin2 : ZTBIN ℝ) (o : Obs ℝ)
    (options : AppOptions ℝ) (hk : LD.le d1.tp o.kde = false) (hc : o.truncCount = 0) :
    computeEProb Real.log d1 d2 bin1 bin2 o options = (true, only 0 0) := by
  have he : logEmissions Real.log ((fin 1 : LD ℝ), (fin 0 : LD ℝ)) (fin 1, fin 0) = only 0 0 := by
    funext k
    have hk : k = 0 ∨ k = 1 ∨ k = 2 ∨ k = 3 := by fin_cases k <;> simp
    rcases hk with rfl | rfl | rfl | rfl <;>
      simp +decide [logEmissions, only, myLog, log_one_eq]
  simp only [computeEProb, gammaValues, hk, binValues, hc, lt_irrefl, if_false,
    Bool.false_eq_true, eProbFromValues, he]
  simp +decide [only]

/-- The first two calls of an iteration of `baumWelch` on the engine with the uniform
transition matrix and the interval `twoSiteInterval 0 0 n`, with coverage densities whose
support threshold is above the coverage estimate: both succeed, and the first leaves the
engine as it is. -/
theorem training_calls_twoSite (d1 d2 : GAMMA2 ℝ) (bin1 bin2 : ZTBIN ℝ)
    (options : AppOptions ℝ) (n : ℝ) (hd : d1.tp = fin 2) :
    computeEmissionProbs (computeEProb Real.log) d1 d2 bin1 bin2 true options
      ⟨fun _ _ => fin (1 / 4), [twoSiteInterval 0 0 n], []⟩ =
        (true, ⟨fun _ _ => fin (1 / 4), [twoSiteInterval 0 0 n], []⟩) ∧
    (computeStatePosteriorsFBupdateTrans Real.log Real.exp options
      ⟨fun _ _ => fin (1 / 4), [twoSiteInterval 0 0 n], []⟩).1 = true := by
  refine ⟨?_, (computeStatePosteriorsFBupdateTrans_single options _ _
    (fbUpdateInterval_twoSite options 0 0 n).1).1⟩
  have hs : ∀ c : ℝ, computeEProb Real.log d1 d2 bin1 bin2 ⟨fin 1, (0 : Fin 4).val % 2, fin c, fin 0⟩
      options = (true, only 0 0) := by
    intro c
    exact computeEProb_state0 d1 d2 bin1 bin2 _ options (by rw [hd]; norm_num) rfl
  simp only [computeEmissionProbs, emissionInterval, twoSiteInterval, List.any_cons,
    List.any_nil, List.map_cons, List.map_nil, hs]
  simp


theorem bwIteration_of_success {G B : Type} (ops : DensityOps ℝ G B) (learnTag : String)
    (options : BaumWelchOptions ℝ) (iter : Nat) (st : BWState ℝ G B)
    (he : (computeEmissionProbs ops.computeEProb st.d1 st.d2 st.bin1 st.bin2 true
      options.toAppOptions st.hmm).1 = true)
    (hfb : (computeStatePosteriorsFBupdateTrans Real.log Real.exp options.toAppOptions
      (computeEmissionProbs ops.computeEProb st.d1 st.d2 st.bin1 st.bin2 true
        options.toAppOptions st.hmm).2).1 = true) :
    bwIteration Real.log Real.exp ops learnTag options iter st =
      bwUpdate ops learnTag options iter
        { st with hmm := (computeStatePosteriorsFBupdateTrans Real.log Real.exp
            options.toAppOptions (computeEmissionProbs ops.computeEProb st.d1 st.d2 st.bin1
              st.bin2 true options.toAppOptions st.hmm).2).2 } := by
  simp only [bwIteration, he, hfb, if_true]

theorem bwConvergence_ne_failed {G B : Type} (ops : DensityOps ℝ G B) (learnTag : String)
    (options : BaumWelchOptions ℝ) (iter : Nat) (st st_1 : BWState ℝ G B) :
    bwConvergence ops learnTag options iter st ≠ BWStep.failed st_1 := by
  simp only [bwConvergence]
  split
  · exact fun h => nomatch h
  · split
    · exact fun h => nomatch h
    · exact fun h => nomatch h

/-- C26. In an iteration of `baumWelch` that trains the coverage densities (`learnTag` is
not `LEARN_BINOMIAL`) and whose calls of `computeEmissionProbs` and
`computeStatePosteriorsFBupdateTrans` succeed: if the counter `trial` after the update of
the densities exceeds 10, the iteration ends with `return false`, so `baumWelch` returns
failure with the state of that iteration and performs no further iteration; if it does
not exceed 10, the iteration does not end with `return false`. -/
theorem retry_budget_exceeded_fails {G B : Type} (ops : DensityOps ℝ G B) (learnTag : String)
    (options : BaumWelchOptions ℝ) (iter fuel : Nat) (st : BWState ℝ G B)
    (hit : iter < options.maxIter_bw)
    (htag : (learnTag == "LEARN_BINOMIAL") = false)
    (he : (computeEmissionProbs ops.computeEProb st.d1 st.d2 st.bin1 st.bin2 true
      options.toAppOptions st.hmm).1 = true)
    (hfb : (computeStatePosteriorsFBupdateTrans Real.log Real.exp options.toAppOptions
      (computeEmissionProbs ops.computeEProb st.d1 st.d2 st.bin1 st.bin2 true
        options.toAppOptions st.hmm).2).1 = true) :
    (10 < (updateDensityParams ops
        (computeStatePosteriorsFBupdateTrans Real.log Real.exp options.toAppOptions
          (computeEmissionProbs ops.computeEProb st.d1 st.d2 st.bin1 st.bin2 true
            options.toAppOptions st.hmm).2).2 st.d1 st.d2 iter st.trial options).2.2.2.2 →
      ∃ st_1 : BWState ℝ G B,
        bwIteration Real.log Real.exp ops learnTag options iter st = BWStep.failed st_1 ∧
        baumWelchLoop Real.log Real.exp ops learnTag options (fuel + 1) iter st =
          some (false, st_1) ∧
        st_1.trial = (updateDensityParams ops
          (computeStatePosteriorsFBupdateTrans Real.log Real.exp options.toAppOptions
            (computeEmissionProbs ops.computeEProb st.d1 st.d2 st.bin1 st.bin2 true
              options.toAppOptions st.hmm).2).2 st.d1 st.d2 iter st.trial options).2.2.2.2) ∧
    ((updateDensityParams ops
        (computeStatePosteriorsFBupdateTrans Real.log Real.exp options.toAppOptions
          (computeEmissionProbs ops.computeEProb st.d1 st.d2 st.bin1 st.bin2 true
            options.toAppOptions st.hmm).2).2 st.d1 st.d2 iter st.trial options).2.2.2.2 ≤ 10 →
      ∀ st_1 : BWState ℝ G B,
        bwIteration Real.log Real.exp ops learnTag options iter st ≠ BWStep.failed st_1) := by
  rw [bwIteration_of_success ops learnTag options iter st he hfb]
  refine ⟨fun ht => ?_, fun ht => ?_⟩
  · refine ⟨{ st with
        hmm := (computeStatePosteriorsFBupdateTrans Real.log Real.exp options.toAppOptions
          (computeEmissionProbs ops.computeEProb st.d1 st.d2 st.bin1 st.bin2 true
            options.toAppOptions st.hmm).2).2
        d1 := (updateDensityParams ops
          (computeStatePosteriorsFBupdateTrans Real.log Real.exp options.toAppOptions
            (computeEmissionProbs ops.computeEProb st.d1 st.d2 st.bin1 st.bin2 true
              options.toAppOptions st.hmm).2).2 st.d1 st.d2 iter st.trial options).2.1
        d2 := (updateDensityParams ops
          (computeStatePosteriorsFBupdateTrans Real.log Real.exp options.toAppOptions
            (computeEmissionProbs ops.computeEProb st.d1 st.d2 st.bin1 st.bin2 true
              options.toAppOptions st.hmm).2).2 st.d1 st.d2 iter st.trial options).2.2.1
        trial := (updateDensityParams ops
          (computeStatePosteriorsFBupdateTrans Real.log Real.exp options.toAppOptions
            (computeEmissionProbs ops.computeEProb st.d1 st.d2 st.bin1 st.bin2 true
              options.toAppOptions st.hmm).2).2 st.d1 st.d2 iter st.trial options).2.2.2.2 },
      ?_, ?_, rfl⟩
    · simp only [bwUpdate, htag, Bool.false_eq_true, if_false, updateDensityParams, if_true]
        at ht ⊢
      rw [if_pos ht]
    · simp only [baumWelchLoop, hit, if_true,
        bwIteration_of_success ops learnTag options iter st he hfb]
      simp only [bwUpdate, htag, Bool.false_eq_true, if_false, updateDensityParams, if_true]
        at ht ⊢
      rw [if_pos ht]
  · intro st_1
    simp only [bwUpdate, htag, Bool.false_eq_true, if_false, updateDensityParams, if_true]
      at ht ⊢
    rw [if_neg (Nat.not_lt.mpr ht)]
    exact bwConvergence_ne_failed ops learnTag options _ _ st_1

/-- Witness for `retry_budget_exceeded_fails`: a run on one interval in which the update of
the coverage densities leaves `trial` at 11 fails in its first iteration, although five
iterations are allowed. -/
theorem retry_budget_exceeded_fails_witness :
    (baumWelch Real.log Real.exp (reseedingOps Real.log) 1 (constGamma 2 1) (constGamma 2 1)
      (constBin 1) (constBin 1) "LEARN_GAMMA" (plainOptions Real.log Real.exp 5)
      ⟨fun _ _ => fin (1 / 4), [twoSiteInterval 0 0 0], []⟩).map Prod.fst = some false := by
  have hc := training_calls_twoSite (constGamma 2 1) (constGamma 2 1) (constBin 1) (constBin 1)
    (plainOptions Real.log Real.exp 5).toAppOptions 0 rfl
  obtain ⟨st_1, _, h2, _⟩ := (retry_budget_exceeded_fails (reseedingOps Real.log) "LEARN_GAMMA"
    (plainOptions Real.log Real.exp 5) 0 0
    { hmm := ⟨fun _ _ => fin (1 / 4), [twoSiteInterval 0 0 0], []⟩, d1 := constGamma 2 1,
      d2 := constGamma 2 1, bin1 := constBin 1, bin2 := constBin 1, prev_d1 := constGamma 2 1,
      prev_d2 := constGamma 2 1, prev_bin1 := constBin 1, prev_bin2 := constBin 1, trial := 0 }
    (by simp [plainOptions]) (by decide)
    (by
      show (computeEmissionProbs (computeEProb Real.log) _ _ _ _ true _ _).1 = true
      rw [hc.1])
    (by
      show (computeStatePosteriorsFBupdateTrans Real.log Real.exp _
        (computeEmissionProbs (computeEProb Real.log) _ _ _ _ true _ _).2).1 = true
      rw [hc.1]; exact hc.2)).1
    (by
      show 10 < 11
      decide)
  simp only [baumWelch]
  rw [h2]
  rfl


/-- C25 fails on the code. When `updateThetaAndK` reports failure, `updateDensityParams2`
returns false, but `updateDensityParams` does not read that result and returns true
(for every density type and every operation). A run of `baumWelch` on one interval whose
update of the coverage densities fails in this way returns true. -/
theorem updateDensityParams_ignores_failure {G B : Type} (ops : DensityOps ℝ G B) (d1_0 d2_0 : G)
    (h : HMM ℝ) (d1 d2 : GAMMA2 ℝ) (iter trial : Nat) (options : BaumWelchOptions ℝ) :
    (updateDensityParams2 failingGammaOps (posteriorTable (fun v => v 0 + v 1) h)
      (posteriorTable (fun v => v 2 + v 3) h) (setObsTable h) d1 d2 iter trial options).1 =
        false ∧
    (updateDensityParams (failingUpdateOps Real.log) h d1 d2 iter trial options).1 = true ∧
    (updateDensityParams ops h d1_0 d2_0 iter trial options).1 = true ∧
    (baumWelch Real.log Real.exp (failingUpdateOps Real.log) 1 (constGamma 2 1)
      (constGamma 2 1) (constBin 1) (constBin 1) "LEARN_GAMMA"
      (plainOptions Real.log Real.exp 1)
      ⟨fun _ _ => fin (1 / 4), [twoSiteInterval 0 0 0], []⟩).map Prod.fst = some true := by
  refine ⟨rfl, rfl, rfl, ?_⟩
  have hc := training_calls_twoSite (constGamma 2 1) (constGamma 2 1) (constBin 1) (constBin 1)
    (plainOptions Real.log Real.exp 1).toAppOptions 0 rfl
  have hi := bwIteration_of_success (failingUpdateOps Real.log) "LEARN_GAMMA"
    (plainOptions Real.log Real.exp 1) 0
    { hmm := ⟨fun _ _ => fin (1 / 4), [twoSiteInterval 0 0 0], []⟩, d1 := constGamma 2 1,
      d2 := constGamma 2 1, bin1 := constBin 1, bin2 := constBin 1, prev_d1 := constGamma 2 1,
      prev_d2 := constGamma 2 1, prev_bin1 := constBin 1, prev_bin2 := constBin 1, trial := 0 }
    (by
      show (computeEmissionProbs (computeEProb Real.log) _ _ _ _ true _ _).1 = true
      rw [hc.1])
    (by
      show (computeStatePosteriorsFBupdateTrans Real.log Real.exp _
        (computeEmissionProbs (computeEProb Real.log) _ _ _ _ true _ _).2).1 = true
      rw [hc.1]; exact hc.2)
  simp only [baumWelch, baumWelchLoop, plainOptions, Nat.lt_one_iff, if_true] at hi ⊢
  rw [hi]
  simp +decide [bwUpdate, updateDensityParams, failingUpdateOps, updateDensityParams2,
    failingGammaOps, bwConvergence]


/-! ## A pass that fails -/

theorem fbUpdateInterval_oneSite (options : AppOptions ℝ) (logA : Mat4 ℝ) (a : Fin 4) :
    (fbUpdateInterval Real.log Real.exp options logA (oneSiteInterval a)).stop = false ∧
    (fbUpdateInterval Real.log Real.exp options logA (oneSiteInterval a)).interval =
      { (oneSiteInterval a : Interval ℝ) with
        statePosteriors := [fun k => if k = a then fin 1 else fin 0]
        initProbs := fun k => if k = a then fin 1 else fin 0 } := by
  have h0 : (fun k => myLog Real.log ((oneSiteInterval a : Interval ℝ).initProbs k) +
      only a 0 k) = only a (Real.log (1 / 4) + 0) := by
    funext k
    have h4 : myLog Real.log (fin (1 / 4 : ℝ)) = fin (Real.log (1 / 4)) :=
      myLog_pos Real.log (by norm_num)
    by_cases hk : k = a
    · subst hk; simp only [oneSiteInterval, h4, only_self, fin_add_fin]
    · simp only [oneSiteInterval, h4, only_ne _ hk, add_nan]
  have hF : iForward Real.log options.lookUp logA (oneSiteInterval a : Interval ℝ).initProbs
      (oneSiteInterval a : Interval ℝ).eProbs = some [only a (Real.log (1 / 4) + 0)] := by
    show iForward Real.log options.lookUp logA _ [only a 0] = _
    simp only [iForward, iForwardFrom, Option.map_some', h0]
  have hB : iBackward Real.log options.lookUp logA (oneSiteInterval a : Interval ℝ).eProbs =
      some [fun _ => fin 0] := by
    show iBackward Real.log options.lookUp logA [only a 0] = _
    simp only [iBackward, log_one_eq]
  have hP : posteriors Real.exp options.lookUp [only a (Real.log (1 / 4) + 0)]
      [fun _ => (fin 0 : LD ℝ)] = [fun k => if k = a then fin 1 else fin 0] := by
    simp only [posteriors, List.zipWith_cons_cons, List.zipWith_nil_right,
      posteriorAt_only options.lookUp a _ (fun _ => 0)]
  simp only [fbUpdateInterval, hF, hB, hP, List.any_cons, List.any_nil,
    anyBadPosterior_indicator, Bool.or_false, newInitProbs, true_and]

theorem fbUpdateInterval_blocked (options : AppOptions ℝ) (n : ℝ) :
    (fbUpdateInterval Real.log Real.exp options (logMatrix Real.log zeroEntryMatrix)
      (twoSiteInterval 2 2 n)).stop = true ∧
    (fbUpdateInterval Real.log Real.exp options (logMatrix Real.log zeroEntryMatrix)
      (twoSiteInterval 2 2 n)).interval = twoSiteInterval 2 2 n := by
  have h0 : (fun k => myLog Real.log ((twoSiteInterval 2 2 n : Interval ℝ).initProbs k) +
      only 2 0 k) = only 2 (Real.log (1 / 4) + 0) := by
    funext k
    have h4 : myLog Real.log (fin (1 / 4 : ℝ)) = fin (Real.log (1 / 4)) :=
      myLog_pos Real.log (by norm_num)
    by_cases hk : k = 2
    · subst hk; simp only [twoSiteInterval, h4, only_self, fin_add_fin]
    · simp only [twoSiteInterval, h4, only_ne _ hk, add_nan]
  have hinf : anyInf (forwardStep options.lookUp (logMatrix Real.log zeroEntryMatrix)
      (only 2 (Real.log (1 / 4) + 0)) (only 2 0)) = true := by
    have h2 : forwardStep options.lookUp (logMatrix Real.log zeroEntryMatrix)
        (only 2 (Real.log (1 / 4) + 0)) (only 2 0) 2 = ninf := by
      simp only [forwardStep]
      rw [get_logSumExp_states_single options.lookUp
        (fun j => only 2 (Real.log (1 / 4) + 0) j + logMatrix Real.log zeroEntryMatrix j 2 +
          only 2 0 2) 2 (fun j hj => by simp [only_ne _ hj])]
      simp [logMatrix, zeroEntryMatrix, setEntry, LD.log, only_self]
    simp only [anyInf, h2, isinf_ninf, Bool.or_true, Bool.true_or]
  have hF : iForward Real.log options.lookUp (logMatrix Real.log zeroEntryMatrix)
      (twoSiteInterval 2 2 n : Interval ℝ).initProbs
      (twoSiteInterval 2 2 n : Interval ℝ).eProbs = none := by
    show iForward Real.log options.lookUp _ _ [only 2 0, only 2 0] = _
    simp only [iForward, iForwardFrom, h0, hinf, if_true, Option.map_none']
  simp only [fbUpdateInterval, hF, and_self]

/-- C27 fails as stated. With the transition probability `transMatrix[2][2] = 0` and two
intervals on the forward strand, the first with one position at which only state 2 is
possible, the second with two positions at which only state 2 is possible: `iForward`
fails on the second interval and the pass returns failure, but the posteriors and the
initial probabilities of the first interval have been overwritten (state 2: posterior `1`
instead of `0`, initial probability `1` instead of `1/4`). -/
theorem failed_pass_commits_posteriors :
    (computeStatePosteriorsFBupdateTrans Real.log Real.exp
      (plainOptions Real.log Real.exp 1).toAppOptions
      ⟨zeroEntryMatrix, [oneSiteInterval 2, twoSiteInterval 2 2 0], []⟩).1 = false ∧
    (computeStatePosteriorsFBupdateTrans Real.log Real.exp
      (plainOptions Real.log Real.exp 1).toAppOptions
      ⟨zeroEntryMatrix, [oneSiteInterval 2, twoSiteInterval 2 2 0], []⟩).2.fwd.map
        (fun iv => (iv.initProbs 2, iv.statePosteriors.map (fun v => v 2))) =
      [(fin 1, [fin 1]), (fin (1 / 4), [fin 0, fin 0])] ∧
    ([oneSiteInterval 2, twoSiteInterval 2 2 0] : List (Interval ℝ)).map
        (fun iv => (iv.initProbs 2, iv.statePosteriors.map (fun v => v 2))) =
      [(fin (1 / 4), [fin 0]), (fin (1 / 4), [fin 0, fin 0])] := by
  have h1 := fbUpdateInterval_oneSite (plainOptions Real.log Real.exp 1).toAppOptions
    (logMatrix Real.log zeroEntryMatrix) 2
  have h2 := fbUpdateInterval_blocked (plainOptions Real.log Real.exp 1).toAppOptions 0
  refine ⟨?_, ?_, rfl⟩
  · simp only [computeStatePosteriorsFBupdateTrans, List.any_cons, List.any_nil, h1.1, h2.1,
      Bool.or_false, Bool.false_or, if_true]
  · rw [computeStatePosteriorsFBupdateTrans_fwd]
    simp only [List.map_cons, List.map_nil, h1.2, h2.2]
    simp [twoSiteInterval]


/-- C27, amended. When `computeStatePosteriorsFBupdateTrans` returns failure, the transition
matrix is the one before the call.  The tables of an interval whose `iForward` or
`iBackward` failed are unchanged, and so are those of every reverse-strand interval when
an interval of the forward strand failed.  Every other interval of the forward strand,
and of the reverse strand when the failure occurred there, has its state posteriors
overwritten by the newly computed ones and its initial probabilities by the posteriors of
its first position. -/
theorem failed_pass_partial_commit (options : AppOptions ℝ) (h : HMM ℝ)
    (hfail : (computeStatePosteriorsFBupdateTrans Real.log Real.exp options h).1 = false) :
    (computeStatePosteriorsFBupdateTrans Real.log Real.exp options h).2.transMatrix =
      h.transMatrix ∧
    (computeStatePosteriorsFBupdateTrans Real.log Real.exp options h).2.fwd =
      h.fwd.map (fun iv => (fbUpdateInterval Real.log Real.exp options
        (logMatrix Real.log h.transMatrix) iv).interval) ∧
    (h.fwd.any (fun iv => (fbUpdateInterval Real.log Real.exp options
        (logMatrix Real.log h.transMatrix) iv).stop) = true →
      (computeStatePosteriorsFBupdateTrans Real.log Real.exp options h).2.rev = h.rev) ∧
    (h.fwd.any (fun iv => (fbUpdateInterval Real.log Real.exp options
        (logMatrix Real.log h.transMatrix) iv).stop) = false →
      (computeStatePosteriorsFBupdateTrans Real.log Real.exp options h).2.rev =
        h.rev.map (fun iv => (fbUpdateInterval Real.log Real.exp options
          (logMatrix Real.log h.transMatrix) iv).interval)) ∧
    (∀ iv : Interval ℝ,
      (iForward Real.log options.lookUp (logMatrix Real.log h.transMatrix) iv.initProbs
          iv.eProbs = none ∨
        iBackward Real.log options.lookUp (logMatrix Real.log h.transMatrix) iv.eProbs = none) →
      (fbUpdateInterval Real.log Real.exp options (logMatrix Real.log h.transMatrix)
        iv).interval = iv) ∧
    (∀ (iv : Interval ℝ) (alphas betas : List (Vec4 ℝ)),
      iForward Real.log options.lookUp (logMatrix Real.log h.transMatrix) iv.initProbs
        iv.eProbs = some alphas →
      iBackward Real.log options.lookUp (logMatrix Real.log h.transMatrix) iv.eProbs =
        some betas →
      (fbUpdateInterval Real.log Real.exp options (logMatrix Real.log h.transMatrix)
        iv).interval =
        { iv with
          statePosteriors := posteriors Real.exp options.lookUp alphas betas
          initProbs := newInitProbs iv.initProbs
            (posteriors Real.exp options.lookUp alphas betas) }) := by
  refine ⟨?_, computeStatePosteriorsFBupdateTrans_fwd options h, ?_, ?_, ?_, ?_⟩
  · simp only [computeStatePosteriorsFBupdateTrans] at hfail ⊢
    split
    · rfl
    · split
      · rfl
      · rename_i h1 h2
        simp [h1, h2] at hfail
  · intro h1
    simp only [computeStatePosteriorsFBupdateTrans, h1, if_true]
  · intro h1
    simp only [computeStatePosteriorsFBupdateTrans, h1, Bool.false_eq_true, if_false] at hfail ⊢
    split
    · rfl
    · rename_i h2
      simp [h2] at hfail
  · intro iv hiv
    simp only [fbUpdateInterval]
    rcases hiv with hF | hB
    · rw [hF]
    · rw [hB]
      split <;> rfl
  · intro iv alphas betas hF hB
    simp only [fbUpdateInterval, hF, hB]

/-- Witness for `failed_pass_partial_commit`: the pass that fails on the second of two
intervals because `transMatrix[2][2] = 0` leaves the transition matrix as it was. -/
theorem failed_pass_partial_commit_witness :
    (computeStatePosteriorsFBupdateTrans Real.log Real.exp
      (plainOptions Real.log Real.exp 1).toAppOptions
      ⟨zeroEntryMatrix, [oneSiteInterval 2, twoSiteInterval 2 2 0], []⟩).2.transMatrix =
        zeroEntryMatrix :=
  (failed_pass_partial_commit (plainOptions Real.log Real.exp 1).toAppOptions
    ⟨zeroEntryMatrix, [oneSiteInterval 2, twoSiteInterval 2 2 0], []⟩
    (by
      simp only [computeStatePosteriorsFBupdateTrans, List.any_cons, List.any_nil,
        (fbUpdateInterval_oneSite (plainOptions Real.log Real.exp 1).toAppOptions
          (logMatrix Real.log zeroEntryMatrix) 2).1,
        (fbUpdateInterval_blocked (plainOptions Real.log Real.exp 1).toAppOptions 0).1,
        Bool.or_false, Bool.false_or, if_true])).1


/-! ## Region records -/

theorem crosslinkPositionsFrom_ge :
    ∀ (xs : List Nat) (t u : Nat), u ∈ crosslinkPositionsFrom t xs → t ≤ u := by
  intro xs
  induction xs with
  | nil => intro t u h; simp [crosslinkPositionsFrom] at h
  | cons x xs ih =>
    intro t u h
    simp only [crosslinkPositionsFrom] at h
    split at h
    · rcases List.mem_cons.mp h with rfl | h
      · exact le_refl _
      · exact Nat.le_of_succ_le (ih _ _ h)
    · exact Nat.le_of_succ_le (ih _ _ h)

theorem regionOfGroup_single (env : RegionEnv ℝ) (s : Bool) (setPos : Nat)
    (post : Nat → Vec4 ℝ) (t : Nat) :
    regionOfGroup Real.log env s setPos post (t, []) =
      startRegion Real.log env s setPos t (post t) := rfl

theorem regionOfGroup_snoc (env : RegionEnv ℝ) (s : Bool) (setPos : Nat)
    (post : Nat → Vec4 ℝ) (g : Nat × List Nat) (t : Nat) :
    regionOfGroup Real.log env s setPos post (g.1, g.2 ++ [t]) =
      extendRegion Real.log env s setPos (regionOfGroup Real.log env s setPos post g) t
        (post t) := by
  simp only [regionOfGroup, List.foldl_append, List.foldl_cons, List.foldl_nil]

theorem regionOfGroup_prev_cs (env : RegionEnv ℝ) (s : Bool) (setPos : Nat)
    (post : Nat → Vec4 ℝ) (g : Nat × List Nat) :
    (regionOfGroup Real.log env s setPos post g).prev_cs = g.2.getLastD g.1 := by
  obtain ⟨a, rest⟩ := g
  induction rest using List.reverseRecOn with
  | nil => rfl
  | append_singleton l t _ =>
    rw [regionOfGroup_snoc env s setPos post (a, l) t]
    simp [extendRegion]

/-- The loops of `writeRegions` over the positions of an interval build the regions of
the groups of its crosslink positions. -/
theorem regionScan_eq (env : RegionEnv ℝ) (s : Bool) (setPos : Nat) (post : Nat → Vec4 ℝ) :
    ∀ (xs : List Nat) (t : Nat),
      regionScan Real.log env s setPos post none t xs =
        (mergeGroups env.distMerge (crosslinkPositionsFrom t xs)).map
          (fun g => closeRegion env s (regionOfGroup Real.log env s setPos post g)) ∧
      ∀ g : Nat × List Nat,
        regionScan Real.log env s setPos post
            (some (regionOfGroup Real.log env s setPos post g)) t xs =
          (groupFrom env.distMerge g (crosslinkPositionsFrom t xs)).map
            (fun g => closeRegion env s (regionOfGroup Real.log env s setPos post g)) := by
  intro xs
  induction xs with
  | nil =>
    intro t
    exact ⟨rfl, fun g => rfl⟩
  | cons x xs ih =>
    intro t
    have hnone : regionScan Real.log env s setPos post none t (x :: xs) =
        (mergeGroups env.distMerge (crosslinkPositionsFrom t (x :: xs))).map
          (fun g => closeRegion env s (regionOfGroup Real.log env s setPos post g)) := by
      simp only [regionScan, crosslinkPositionsFrom]
      split
      · rw [← regionOfGroup_single, (ih (t + 1)).2 (t, [])]
        rfl
      · exact (ih (t + 1)).1
    refine ⟨hnone, fun g => ?_⟩
    simp only [regionScan, regionOfGroup_prev_cs]
    split
    · rename_i hd
      simp only [crosslinkPositionsFrom]
      split
      · rw [← regionOfGroup_snoc, (ih (t + 1)).2 (g.1, g.2 ++ [t])]
        simp only [groupFrom, hd, if_true]
      · exact (ih (t + 1)).2 g
    · rename_i hd
      have hrest : (if x = 3 then
            regionScan Real.log env s setPos post
              (some (startRegion Real.log env s setPos t (post t))) (t + 1) xs
          else regionScan Real.log env s setPos post none (t + 1) xs) =
          (mergeGroups env.distMerge (crosslinkPositionsFrom t (x :: xs))).map
            (fun g => closeRegion env s (regionOfGroup Real.log env s setPos post g)) := by
        rw [← hnone]
        simp only [regionScan]
      rw [hrest]
      cases hc : crosslinkPositionsFrom t (x :: xs) with
      | nil => rfl
      | cons u us =>
        have hu : t ≤ u := crosslinkPositionsFrom_ge (x :: xs) t u (by rw [hc]; simp)
        have hd_1 : ¬ (u - g.2.getLastD g.1 ≤ env.distMerge) := by omega
        simp only [groupFrom, hd_1, if_false, mergeGroups, List.map_cons]

theorem writeRegionsInterval_eq (env : RegionEnv ℝ) (s : Bool) (iv : DataInterval ℝ) :
    writeRegionsInterval Real.log env s iv =
      if iv.discard then []
      else (mergeGroups env.distMerge (crosslinkPositionsFrom 0 iv.states)).map
        (fun g => closeRegion env s
          (regionOfGroup Real.log env s iv.setPos (posteriorsAt iv) g)) := by
  simp only [writeRegionsInterval, (regionScan_eq env s iv.setPos (posteriorsAt iv) _ 0).1]


theorem group_getLast? (g : Nat × List Nat) :
    (g.1 :: g.2).getLast? = some (g.2.getLastD g.1) := by
  rw [List.getLast?_cons, List.getLastD_eq_getLast?]

theorem groupFrom_flatten (dm : Nat) :
    ∀ (ts : List Nat) (g : Nat × List Nat),
      ((groupFrom dm g ts).map (fun g => g.1 :: g.2)).flatten = (g.1 :: g.2) ++ ts := by
  intro ts
  induction ts with
  | nil => intro g; simp [groupFrom]
  | cons t ts ih =>
    intro g
    simp only [groupFrom]
    split
    · rw [ih]; simp
    · rw [List.map_cons, List.flatten_cons, ih]
      rfl

theorem groupFrom_head (dm : Nat) :
    ∀ (ts : List Nat) (g : Nat × List Nat),
      ∃ rest gs, groupFrom dm g ts = (g.1, rest) :: gs := by
  intro ts
  induction ts with
  | nil => intro g; exact ⟨g.2, [], rfl⟩
  | cons t ts ih =>
    intro g
    simp only [groupFrom]
    split
    · exact ih (g.1, g.2 ++ [t])
    · exact ⟨g.2, _, rfl⟩

/-- The groups are maximal runs of positions whose consecutive distances are at most
`dm`: inside a group consecutive positions are at most `dm` apart, and the first
position of a group is more than `dm` after the last position of the group before. -/
theorem groupFrom_chain (dm : Nat) :
    ∀ (ts : List Nat) (g : Nat × List Nat),
      List.Chain' (fun a b => b - a ≤ dm) (g.1 :: g.2) →
      (∀ g_1 ∈ groupFrom dm g ts, List.Chain' (fun a b => b - a ≤ dm) (g_1.1 :: g_1.2)) ∧
      List.Chain' (fun g_1 g_2 : Nat × List Nat => dm < g_2.1 - g_1.2.getLastD g_1.1)
        (groupFrom dm g ts) := by
  intro ts
  induction ts with
  | nil =>
    intro g hg
    simp only [groupFrom, List.mem_singleton, List.chain'_singleton, and_true]
    rintro g_1 rfl
    exact hg
  | cons t ts ih =>
    intro g hg
    simp only [groupFrom]
    split
    · rename_i hd
      apply ih (g.1, g.2 ++ [t])
      have : g.1 :: (g.2 ++ [t]) = (g.1 :: g.2) ++ [t] := rfl
      rw [this, List.chain'_append]
      refine ⟨hg, List.chain'_singleton _, ?_⟩
      intro x hx y hy
      rw [group_getLast?] at hx
      simp only [Option.mem_def, Option.some.injEq, List.head?_cons] at hx hy
      subst hx hy
      exact hd
    · rename_i hd
      have h1 := ih (t, []) (List.chain'_singleton _)
      obtain ⟨rest, gs, hgs⟩ := groupFrom_head dm ts (t, [])
      refine ⟨?_, ?_⟩
      · intro g_1 hg_1
        rcases List.mem_cons.mp hg_1 with rfl | hg_1
        · exact hg
        · exact h1.1 g_1 hg_1
      · rw [List.chain'_cons']
        refine ⟨?_, h1.2⟩
        intro y hy
        rw [hgs] at hy
        simp only [List.head?_cons, Option.mem_def, Option.some.injEq] at hy
        subst hy
        exact Nat.lt_of_not_le hd

/-- Two consecutive positions of an increasing list are in the same group if and only if
their distance is at most `dm`. -/
theorem groupFrom_same (dm : Nat) :
    ∀ (ts : List Nat) (g : Nat × List Nat),
      List.Chain' (fun a b => a < b) ((g.1 :: g.2) ++ ts) →
      List.Chain' (fun a b => b - a ≤ dm) (g.1 :: g.2) →
      List.Chain' (fun a b =>
        (∃ g_1 ∈ groupFrom dm g ts, a ∈ g_1.1 :: g_1.2 ∧ b ∈ g_1.1 :: g_1.2) ↔ b - a ≤ dm)
        ((g.1 :: g.2) ++ ts) := by
  intro ts
  induction ts with
  | nil =>
    intro g _ hg
    rw [List.append_nil]
    rw [List.Chain'.iff_mem] at hg
    refine hg.imp ?_
    intro a b ⟨ha, hb, hab⟩
    exact ⟨fun _ => hab, fun _ => ⟨g, by simp [groupFrom], ha, hb⟩⟩
  | cons t ts ih =>
    intro g hs hg
    simp only [groupFrom]
    split
    · rename_i hd
      have e : (g.1 :: g.2) ++ t :: ts = (g.1 :: (g.2 ++ [t])) ++ ts := by simp
      rw [e] at hs ⊢
      refine ih (g.1, g.2 ++ [t]) hs ?_
      have : g.1 :: (g.2 ++ [t]) = (g.1 :: g.2) ++ [t] := rfl
      rw [this, List.chain'_append]
      refine ⟨hg, List.chain'_singleton _, ?_⟩
      intro x hx y hy
      rw [group_getLast?] at hx
      simp only [Option.mem_def, Option.some.injEq, List.head?_cons] at hx hy
      subst hx hy
      exact hd
    · rename_i hd
      have hp : List.Pairwise (fun a b : Nat => a < b) ((g.1 :: g.2) ++ t :: ts) :=
        List.chain'_iff_pairwise.mp hs
      have hlt : ∀ a ∈ g.1 :: g.2, ∀ b ∈ t :: ts, a < b := (List.pairwise_append.mp hp).2.2
      have hs_1 : List.Chain' (fun a b : Nat => a < b) (((t, []) : Nat × List Nat).1 ::
          ((t, []) : Nat × List Nat).2 ++ ts) := (List.chain'_append.mp hs).2.1
      have h1 := ih (t, []) hs_1 (List.chain'_singleton _)
      have hmem : ∀ g_1 ∈ groupFrom dm (t, []) ts, ∀ a ∈ g_1.1 :: g_1.2, a ∈ t :: ts := by
        intro g_1 hg_1 a ha
        have := groupFrom_flatten dm ts (t, [])
        have ha_1 : a ∈ ((groupFrom dm (t, []) ts).map (fun g => g.1 :: g.2)).flatten :=
          List.mem_flatten.mpr ⟨_, List.mem_map.mpr ⟨g_1, hg_1, rfl⟩, ha⟩
        rw [this] at ha_1
        exact ha_1
      rw [List.chain'_append]
      refine ⟨?_, ?_, ?_⟩
      · rw [List.Chain'.iff_mem] at hg
        refine hg.imp ?_
        intro a b ⟨ha, hb, hab⟩
        exact ⟨fun _ => hab, fun _ => ⟨g, List.mem_cons_self _ _, ha, hb⟩⟩
      · rw [List.Chain'.iff_mem] at h1
        refine h1.imp ?_
        intro a b ⟨ha, hb, hab⟩
        rw [← hab]
        constructor
        · rintro ⟨g_1, hg_1, ha_1, hb_1⟩
          rcases List.mem_cons.mp hg_1 with rfl | hg_1
          · exact absurd (hlt a ha_1 a ha) (lt_irrefl _)
          · exact ⟨g_1, hg_1, ha_1, hb_1⟩
        · rintro ⟨g_1, hg_1, ha_1, hb_1⟩
          exact ⟨g_1, List.mem_cons_of_mem _ hg_1, ha_1, hb_1⟩
      · intro x hx y hy
        rw [group_getLast?] at hx
        simp only [Option.mem_def, Option.some.injEq, List.head?_cons] at hx hy
        subst hx hy
        have hxg : g.2.getLastD g.1 ∈ g.1 :: g.2 :=
          List.mem_of_getLast?_eq_some (group_getLast? g)
        constructor
        · rintro ⟨g_1, hg_1, ha_1, hb_1⟩
          rcases List.mem_cons.mp hg_1 with rfl | hg_1
          · exact absurd (hlt t hb_1 t (List.mem_cons_self _ _)) (lt_irrefl _)
          · exact absurd (hlt _ hxg _ (hmem g_1 hg_1 _ ha_1)) (lt_irrefl _)
        · intro h
          exact absurd h hd

theorem crosslinkPositionsFrom_sorted :
    ∀ (xs : List Nat) (t : Nat),
      List.Chain' (fun a b => a < b) (crosslinkPositionsFrom t xs) := by
  intro xs
  induction xs with
  | nil => intro t; exact List.chain'_nil
  | cons x xs ih =>
    intro t
    simp only [crosslinkPositionsFrom]
    split
    · rw [List.chain'_cons']
      refine ⟨?_, ih (t + 1)⟩
      intro y hy
      exact crosslinkPositionsFrom_ge xs (t + 1) y (List.mem_of_mem_head? hy)
    · exact ih (t + 1)

theorem crosslinkPositionsFrom_mem :
    ∀ (xs : List Nat) (t u : Nat),
      u ∈ crosslinkPositionsFrom t xs ↔ t ≤ u ∧ xs[u - t]? = some 3 := by
  intro xs
  induction xs with
  | nil => intro t u; simp [crosslinkPositionsFrom]
  | cons x xs ih =>
    intro t u
    simp only [crosslinkPositionsFrom]
    by_cases hut : u = t
    · subst hut
      split
      · rename_i hx
        simp [hx]
      · rename_i hx
        rw [ih]
        simp [hx]
    · have key : (t + 1 ≤ u ∧ xs[u - (t + 1)]? = some 3) ↔
          (t ≤ u ∧ (x :: xs)[u - t]? = some 3) := by
        constructor
        · rintro ⟨h1, h2⟩
          refine ⟨by omega, ?_⟩
          have : u - t = (u - (t + 1)) + 1 := by omega
          rw [this, List.getElem?_cons_succ]
          exact h2
        · rintro ⟨h1, h2⟩
          have h3 : t + 1 ≤ u := by omega
          refine ⟨h3, ?_⟩
          have : u - t = (u - (t + 1)) + 1 := by omega
          rw [this, List.getElem?_cons_succ] at h2
          exact h2
      split
      · rw [List.mem_cons, ih, key]
        simp [hut]
      · rw [ih, key]


theorem mergeGroups_flatten (dm : Nat) (l : List Nat) :
    ((mergeGroups dm l).map (fun g => g.1 :: g.2)).flatten = l := by
  cases l with
  | nil => rfl
  | cons t ts => exact groupFrom_flatten dm ts (t, [])

theorem mergeGroups_same (dm : Nat) (l : List Nat) (hl : List.Chain' (fun a b => a < b) l) :
    List.Chain' (fun a b =>
      (∃ g ∈ mergeGroups dm l, a ∈ g.1 :: g.2 ∧ b ∈ g.1 :: g.2) ↔ b - a ≤ dm) l := by
  cases l with
  | nil => exact List.chain'_nil
  | cons t ts => exact groupFrom_same dm ts (t, []) hl (List.chain'_singleton _)

theorem regionOfGroup_positions (env : RegionEnv ℝ) (s : Bool) (setPos : Nat)
    (post : Nat → Vec4 ℝ) (g : Nat × List Nat) :
    (regionOfGroup Real.log env s setPos post g).beginPos =
      (if s then siteBegin env s setPos (g.2.getLastD g.1) else siteBegin env s setPos g.1) ∧
    (regionOfGroup Real.log env s setPos post g).endPos =
      (if s then siteBegin env s setPos g.1 + 1
        else siteBegin env s setPos (g.2.getLastD g.1) + 1) := by
  obtain ⟨a, rest⟩ := g
  induction rest using List.reverseRecOn with
  | nil =>
    simp only [regionOfGroup_single, startRegion, List.getLastD_nil, ite_self, and_self]
  | append_singleton l t ih =>
    rw [regionOfGroup_snoc env s setPos post (a, l) t]
    simp only [extendRegion, List.getLastD_concat]
    cases s
    · refine ⟨by simpa using ih.1, ?_⟩
      simp only [Bool.false_eq_true, if_false, siteBegin]
      split <;> ring
    · refine ⟨rfl, by simpa using ih.2⟩

/-- C23. For an interval that is not discarded, with the crosslink positions (the
positions `t` with `states[s][i][t] == 3`, in increasing order) and their groups: the
records of `writeRegions` are the records of the groups, one per group, and the positions
of a record are those of the first and of the last position of its group; the groups
partition the crosslink positions in order; and two consecutive crosslink positions are
in the same group if and only if their distance is at most `distMerge`.  In particular
crosslink positions 5 and `5 + distMerge` give one record, and crosslink positions 5 and
`5 + distMerge + 1` give two.  A discarded interval gives no record. -/
theorem regions_merge_within_distMerge (env : RegionEnv ℝ) (s : Bool) (setPos : Nat)
    (states : List Nat) (posts : List (Vec4 ℝ)) :
    (writeRegionsInterval Real.log env s ⟨false, setPos, states, posts⟩).map
        (fun r => (r.beginPos, r.endPos)) =
      (mergeGroups env.distMerge (crosslinkPositionsFrom 0 states)).map
        (fun g =>
          (if s then siteBegin env s setPos (g.2.getLastD g.1) else siteBegin env s setPos g.1,
            if s then siteBegin env s setPos g.1 + 1
            else siteBegin env s setPos (g.2.getLastD g.1) + 1)) ∧
    (∀ u, u ∈ crosslinkPositionsFrom 0 states ↔ states[u]? = some 3) ∧
    List.Chain' (fun a b => a < b) (crosslinkPositionsFrom 0 states) ∧
    ((mergeGroups env.distMerge (crosslinkPositionsFrom 0 states)).map
      (fun g => g.1 :: g.2)).flatten = crosslinkPositionsFrom 0 states ∧
    List.Chain' (fun a b =>
      (∃ g ∈ mergeGroups env.distMerge (crosslinkPositionsFrom 0 states),
        a ∈ g.1 :: g.2 ∧ b ∈ g.1 :: g.2) ↔ b - a ≤ env.distMerge)
      (crosslinkPositionsFrom 0 states) ∧
    (crosslinkPositionsFrom 0 states = [5, 5 + env.distMerge] →
      (writeRegionsInterval Real.log env s ⟨false, setPos, states, posts⟩).length = 1) ∧
    (crosslinkPositionsFrom 0 states = [5, 5 + env.distMerge + 1] →
      (writeRegionsInterval Real.log env s ⟨false, setPos, states, posts⟩).length = 2) ∧
    writeRegionsInterval Real.log env s ⟨true, setPos, states, posts⟩ = [] := by
  have he := writeRegionsInterval_eq env s ⟨false, setPos, states, posts⟩
  simp only [Bool.false_eq_true, if_false] at he
  refine ⟨?_, ?_, crosslinkPositionsFrom_sorted states 0, mergeGroups_flatten _ _,
    mergeGroups_same _ _ (crosslinkPositionsFrom_sorted states 0), ?_, ?_, ?_⟩
  · rw [he, List.map_map]
    refine List.map_congr_left (fun g _ => ?_)
    have hp := regionOfGroup_positions env s setPos
      (posteriorsAt ⟨false, setPos, states, posts⟩) g
    simp only [Function.comp, closeRegion, hp.1, hp.2]
  · intro u
    rw [crosslinkPositionsFrom_mem]
    simp
  · intro hc
    rw [he, hc]
    simp [mergeGroups, groupFrom]
  · intro hc
    rw [he, hc]
    have hgap : ¬ (5 + env.distMerge + 1 - 5 ≤ env.distMerge) := by omega
    simp only [mergeGroups, groupFrom, List.getLastD_nil, if_neg hgap, List.map_cons,
      List.map_nil, List.length_cons, List.length_nil]
  · simp [writeRegionsInterval]

/-- With `distMerge = 2`: crosslink positions 5 and 7 give one record, crosslink positions
5 and 8 give two. -/
theorem regions_example (env : RegionEnv ℝ) (s : Bool) (setPos : Nat) (posts : List (Vec4 ℝ))
    (hdm : env.distMerge = 2) :
    (writeRegionsInterval Real.log env s
      ⟨false, setPos, [0, 0, 0, 0, 0, 3, 0, 3], posts⟩).length = 1 ∧
    (writeRegionsInterval Real.log env s
      ⟨false, setPos, [0, 0, 0, 0, 0, 3, 0, 0, 3], posts⟩).length = 2 := by
  constructor
  · rw [writeRegionsInterval_eq]
    simp [crosslinkPositionsFrom, mergeGroups, groupFrom, hdm]
  · rw [writeRegionsInterval_eq]
    simp [crosslinkPositionsFrom, mergeGroups, groupFrom, hdm]

theorem String.join_concat (l : List String) (x : String) :
    String.join (l ++ [x]) = String.join l ++ x := by
  simp only [String.join, List.foldl_append, List.foldl_cons, List.foldl_nil]

theorem regionOfGroup_scores (env : RegionEnv ℝ) (s : Bool) (setPos : Nat)
    (post : Nat → Vec4 ℝ) (g : Nat × List Nat) :
    (regionOfGroup Real.log env s setPos post g).scoresSum =
      groupScore (fun t => ratioScore Real.log env 3 (post t)) g ∧
    (regionOfGroup Real.log env s setPos post g).indivScores =
      groupName env.showDouble (fun t => ratioScore Real.log env 3 (post t)) g := by
  obtain ⟨a, rest⟩ := g
  induction rest using List.reverseRecOn with
  | nil =>
    refine ⟨rfl, ?_⟩
    simp only [regionOfGroup_single, startRegion, groupName, List.map_cons, List.map_nil]
    have := String.join_concat [] (env.showDouble (ratioScore Real.log env 3 (post a)) ++ ";")
    rw [List.nil_append] at this
    rw [this]
    rfl
  | append_singleton l t ih =>
    rw [regionOfGroup_snoc env s setPos post (a, l) t]
    refine ⟨?_, ?_⟩
    · simp only [extendRegion, ih.1, groupScore, List.foldl_append, List.foldl_cons,
        List.foldl_nil]
    · simp only [extendRegion, ih.2, groupName, List.map_append, List.map_cons, List.map_nil]
      rw [← List.cons_append, String.join_concat]

theorem logEmissions_all_nan_of_nonneg (g b : LD ℝ × LD ℝ)
    (hg : ∀ e, LD.le (fin 0) (pick g e) = true) (hb : ∀ c, LD.le (fin 0) (pick b c) = true) :
    (∀ e c : Fin 2, myLog Real.log (pick g e) + myLog Real.log (pick b c) = nan) ↔
      (g.1 = fin 0 ∧ g.2 = fin 0) ∨ (b.1 = fin 0 ∧ b.2 = fin 0) := by
  have hp : ∀ e c : Fin 2, myLog Real.log (pick g e) + myLog Real.log (pick b c) = nan ↔
      pick g e = fin 0 ∨ pick b c = fin 0 := fun e c => by
    rw [myLog_add_eq_nan_iff, myLog_eq_nan_iff Real.log (hg e), myLog_eq_nan_iff Real.log (hb c)]
  constructor
  · intro h
    have h00 := (hp 0 0).mp (h 0 0)
    have h01 := (hp 0 1).mp (h 0 1)
    have h10 := (hp 1 0).mp (h 1 0)
    have h11 := (hp 1 1).mp (h 1 1)
    simp only [pick, if_true, Fin.isValue, one_ne_zero, if_false] at h00 h01 h10 h11
    by_cases hb1 : b.1 = fin 0
    · by_cases hb2 : b.2 = fin 0
      · exact Or.inr ⟨hb1, hb2⟩
      · exact Or.inl ⟨h01.resolve_right hb2, h11.resolve_right hb2⟩
    · exact Or.inl ⟨h00.resolve_right hb1, h10.resolve_right hb1⟩
  · rintro (⟨h1, h2⟩ | ⟨h1, h2⟩) e c
    · refine (hp e c).mpr (Or.inl ?_)
      fin_cases e <;> simp [pick, h1, h2]
    · refine (hp e c).mpr (Or.inr ?_)
      fin_cases c <;> simp [pick, h1, h2]

/-- C37. For coverage density values `g` and count density values `b` that are not
negative: all four computed log-probabilities `myLog(g_e) + myLog(bin_c)` are the NaN
sentinel if and only if `g1_d + g2_d == 0.0` or `bin1_d + bin2_d == 0.0`; so the result of
the validity check is that of its first two conditions alone, and the position is valid
exactly when at least one of the four computed log-probabilities is not the sentinel.
The same holds for `computeEProb` with `GAMMA2` and with `GAMMA2_REG`. -/
theorem validity_third_condition_redundant (g b : LD ℝ × LD ℝ)
    (hg : ∀ e, LD.le (fin 0) (pick g e) = true) (hb : ∀ c, LD.le (fin 0) (pick b c) = true) :
    (((logEmissions Real.log g b 0).isnan && (logEmissions Real.log g b 1).isnan &&
        (logEmissions Real.log g b 2).isnan && (logEmissions Real.log g b 3).isnan) = true ↔
      (LD.eq (g.1 + g.2) (fin 0) || LD.eq (b.1 + b.2) (fin 0)) = true) ∧
    (eProbFromValues Real.log g b).1 =
      !(LD.eq (g.1 + g.2) (fin 0) || LD.eq (b.1 + b.2) (fin 0)) ∧
    ((eProbFromValues Real.log g b).1 = true ↔
      ∃ k, (logEmissions Real.log g b k).isnan = false) ∧
    (∀ (d1 d2 : GAMMA2 ℝ) (bin1 bin2 : ZTBIN ℝ) (o : Obs ℝ) (options : AppOptions ℝ),
      g = gammaValues d1 d2 o → b = binValues bin1 bin2 o options →
      ((computeEProb Real.log d1 d2 bin1 bin2 o options).1 = true ↔
        ∃ k, (logEmissions Real.log g b k).isnan = false)) ∧
    (∀ (d1 d2 : GAMMA2_REG ℝ) (bin1 bin2 : ZTBIN ℝ) (o : Obs ℝ) (options : AppOptions ℝ),
      g = gammaValuesReg Real.exp d1 d2 o options → b = binValues bin1 bin2 o options →
      ((computeEProbReg Real.log Real.exp d1 d2 bin1 bin2 o options).1 = true ↔
        ∃ k, (logEmissions Real.log g b k).isnan = false)) := by
  have hg1 : LD.le (fin 0) g.1 = true := by simpa [pick] using hg 0
  have hg2 : LD.le (fin 0) g.2 = true := by simpa [pick] using hg 1
  have hb1 : LD.le (fin 0) b.1 = true := by simpa [pick] using hb 0
  have hb2 : LD.le (fin 0) b.2 = true := by simpa [pick] using hb 1
  have h1 : ((logEmissions Real.log g b 0).isnan && (logEmissions Real.log g b 1).isnan &&
        (logEmissions Real.log g b 2).isnan && (logEmissions Real.log g b 3).isnan) = true ↔
      (LD.eq (g.1 + g.2) (fin 0) || LD.eq (b.1 + b.2) (fin 0)) = true := by
    rw [logEmissions_all_nan_iff, logEmissions_all_nan_of_nonneg g b hg hb, Bool.or_eq_true,
      add_eq_zero_of_nonneg hg1 hg2, add_eq_zero_of_nonneg hb1 hb2]
  have h2 : (eProbFromValues Real.log g b).1 =
      !(LD.eq (g.1 + g.2) (fin 0) || LD.eq (b.1 + b.2) (fin 0)) := by
    simp only [eProbFromValues]
    by_cases hc : (LD.eq (g.1 + g.2) (fin 0) || LD.eq (b.1 + b.2) (fin 0)) = true
    · simp [hc]
    · have hn : ¬ ((logEmissions Real.log g b 0).isnan && (logEmissions Real.log g b 1).isnan &&
          (logEmissions Real.log g b 2).isnan && (logEmissions Real.log g b 3).isnan) = true :=
        fun h => hc (h1.mp h)
      simp only [Bool.not_eq_true] at hc hn
      simp [hc, hn]
  have h3 : (eProbFromValues Real.log g b).1 = true ↔
      ∃ k, (logEmissions Real.log g b k).isnan = false := by
    rw [h2, Bool.not_eq_true', ← Bool.not_eq_true, ← h1]
    constructor
    · intro h
      by_contra hc
      push_neg at hc
      simp only [Bool.not_eq_false] at hc
      exact h (by simp [hc])
    · rintro ⟨k, hk⟩ h
      simp only [Bool.and_eq_true] at h
      have hk_1 : k = 0 ∨ k = 1 ∨ k = 2 ∨ k = 3 := by fin_cases k <;> simp
      rcases hk_1 with rfl | rfl | rfl | rfl
      · rw [h.1.1.1] at hk; exact absurd hk (by simp)
      · rw [h.1.1.2] at hk; exact absurd hk (by simp)
      · rw [h.1.2] at hk; exact absurd hk (by simp)
      · rw [h.2] at hk; exact absurd hk (by simp)
  refine ⟨h1, h2, h3, ?_, ?_⟩
  · intro d1 d2 bin1 bin2 o options eg eb
    rw [← h3, eg, eb]; rfl
  · intro d1 d2 bin1 bin2 o options eg eb
    rw [← h3, eg, eb]; rfl

/-- Witness for `validity_third_condition_redundant`: with the coverage values `(1, 0)`
and the count values `(1, 0)` the position is valid, and the log-probability of state 0
is not the sentinel. -/
theorem validity_third_condition_redundant_witness :
    (eProbFromValues Real.log ((fin 1, fin 0) : LD ℝ × LD ℝ) (fin 1, fin 0)).1 = true ∧
    (logEmissions Real.log ((fin 1, fin 0) : LD ℝ × LD ℝ) (fin 1, fin 0) 0).isnan = false := by
  have h := validity_third_condition_redundant ((fin 1, fin 0) : LD ℝ × LD ℝ) (fin 1, fin 0)
    (fun e => by fin_cases e <;> norm_num [pick])
    (fun c => by fin_cases c <;> norm_num [pick])
  have h0 : (logEmissions Real.log ((fin 1, fin 0) : LD ℝ × LD ℝ) (fin 1, fin 0) 0).isnan
      = false := by
    norm_num [logEmissions, myLog_pos]
  exact ⟨h.2.2.1.mpr ⟨0, h0⟩, h0⟩


/-! ## The removal of border artifacts as a downgrade -/

theorem rmPositions_le (g1 : GAMMA2_REG ℝ) :
    ∀ (os : List (Obs ℝ)) (sts : List Nat),
      List.Forall₂ (fun new old => new ≤ old ∧ new % 2 = old % 2)
        (rmPositions Real.exp g1 os sts) sts := by
  intro os
  induction os with
  | nil =>
    intro sts
    have e : rmPositions Real.exp g1 [] sts = sts := by cases sts <;> rfl
    rw [e]
    exact List.forall₂_same.mpr (fun _ _ => ⟨le_rfl, rfl⟩)
  | cons o os ih =>
    intro sts
    cases sts with
    | nil => exact List.Forall₂.nil
    | cons st sts =>
      simp only [rmPositions]
      refine List.Forall₂.cons ?_ (ih sts)
      split
      · rename_i hc
        exact ⟨Nat.sub_le _ _, by have := hc.1; omega⟩
      · exact ⟨le_rfl, rfl⟩

theorem rmPositions_bound (g1 : GAMMA2_REG ℝ) :
    ∀ (os : List (Obs ℝ)) (sts : List Nat), (∀ st ∈ sts, st ≤ 3) →
      ∀ st ∈ rmPositions Real.exp g1 os sts, st ≤ 3 := by
  intro os
  induction os with
  | nil =>
    intro sts h
    have e : rmPositions Real.exp g1 [] sts = sts := by cases sts <;> rfl
    rw [e]; exact h
  | cons o os ih =>
    intro sts h
    cases sts with
    | nil => intro st hst; simp [rmPositions] at hst
    | cons st_0 sts =>
      intro st hst
      simp only [rmPositions, List.mem_cons] at hst
      rcases hst with rfl | hst
      · have := h st_0 (List.mem_cons_self _ _)
        split <;> omega
      · exact ih sts (fun x hx => h x (List.mem_cons_of_mem _ hx)) st hst

theorem rmPositions_idem (g1 : GAMMA2_REG ℝ) :
    ∀ (os : List (Obs ℝ)) (sts : List Nat), (∀ st ∈ sts, st ≤ 3) →
      rmPositions Real.exp g1 os (rmPositions Real.exp g1 os sts) =
        rmPositions Real.exp g1 os sts := by
  intro os
  induction os with
  | nil =>
    intro sts _
    have e : ∀ l : List Nat, rmPositions Real.exp g1 [] l = l := fun l => by cases l <;> rfl
    rw [e, e]
  | cons o os ih =>
    intro sts h
    cases sts with
    | nil => rfl
    | cons st sts =>
      have hst := h st (List.mem_cons_self _ _)
      simp only [rmPositions]
      rw [ih sts (fun x hx => h x (List.mem_cons_of_mem _ hx))]
      congr 1
      by_cases hc : 2 ≤ st ∧ LD.lt o.kde (LD.exp Real.exp (g1.b0 + g1.b1 * o.rpkm)) = true
      · rw [if_pos hc, if_neg]
        intro hc_1
        have := hc_1.1
        omega
      · rw [if_neg hc, if_neg hc]

theorem rmIntervals_le (g1 : GAMMA2_REG ℝ) :
    ∀ (obs : List (Observations ℝ)) (states : List (List Nat)),
      List.Forall₂ (List.Forall₂ (fun new old => new ≤ old ∧ new % 2 = old % 2))
        (rmIntervals Real.exp g1 obs states) states := by
  have hrefl : ∀ l : List Nat,
      List.Forall₂ (fun new old => new ≤ old ∧ new % 2 = old % 2) l l :=
    fun l => List.forall₂_same.mpr (fun _ _ => ⟨le_rfl, rfl⟩)
  intro obs
  induction obs with
  | nil =>
    intro states
    have e : rmIntervals Real.exp g1 [] states = states := by cases states <;> rfl
    rw [e]
    exact List.forall₂_same.mpr (fun l _ => hrefl l)
  | cons o obs ih =>
    intro states
    cases states with
    | nil => exact List.Forall₂.nil
    | cons sts states =>
      simp only [rmIntervals]
      refine List.Forall₂.cons ?_ (ih states)
      split
      · exact hrefl sts
      · exact rmPositions_le g1 _ _

theorem rmIntervals_bound (g1 : GAMMA2_REG ℝ) :
    ∀ (obs : List (Observations ℝ)) (states : List (List Nat)),
      (∀ sts ∈ states, ∀ st ∈ sts, st ≤ 3) →
      ∀ sts ∈ rmIntervals Real.exp g1 obs states, ∀ st ∈ sts, st ≤ 3 := by
  intro obs
  induction obs with
  | nil =>
    intro states h
    have e : rmIntervals Real.exp g1 [] states = states := by cases states <;> rfl
    rw [e]; exact h
  | cons o obs ih =>
    intro states h
    cases states with
    | nil => intro sts hsts; simp [rmIntervals] at hsts
    | cons sts_0 states =>
      intro sts hsts
      simp only [rmIntervals, List.mem_cons] at hsts
      rcases hsts with rfl | hsts
      · split
        · exact h sts_0 (List.mem_cons_self _ _)
        · exact rmPositions_bound g1 _ _ (h sts_0 (List.mem_cons_self _ _))
      · exact ih states (fun x hx => h x (List.mem_cons_of_mem _ hx)) sts hsts

theorem rmIntervals_idem (g1 : GAMMA2_REG ℝ) :
    ∀ (obs : List (Observations ℝ)) (states : List (List Nat)),
      (∀ sts ∈ states, ∀ st ∈ sts, st ≤ 3) →
      rmIntervals Real.exp g1 obs (rmIntervals Real.exp g1 obs states) =
        rmIntervals Real.exp g1 obs states := by
  intro obs
  induction obs with
  | nil =>
    intro states _
    have e : ∀ l : List (List Nat), rmIntervals Real.exp g1 [] l = l :=
      fun l => by cases l <;> rfl
    rw [e, e]
  | cons o obs ih =>
    intro states h
    cases states with
    | nil => rfl
    | cons sts states =>
      simp only [rmIntervals]
      rw [ih states (fun x hx => h x (List.mem_cons_of_mem _ hx))]
      congr 1
      by_cases hd : o.discard = true
      · simp [hd]
      · simp only [hd, Bool.false_eq_true, if_false]
        exact rmPositions_idem g1 _ _ (h sts (List.mem_cons_self _ _))

/-- C39. For a table `states` with entries in `{0, 1, 2, 3}`, `rmBoarderArtifacts` with the
regression-linked density gives a table with entries in `{0, 1, 2, 3}`; position by
position the new state is at most the old one and has the same crosslink bit
(`state mod 2`); the state sequence of a discarded interval is unchanged; and applying it
again to its result changes nothing.  With the density `GAMMA2` the table is unchanged. -/
theorem rmBoarderArtifacts_idempotent_downgrade (h : HMM ℝ)
    (states : List (List Nat) × List (List Nat)) (g1 : GAMMA2_REG ℝ) (g : GAMMA2 ℝ)
    (hst : ∀ sts ∈ states.1 ++ states.2, ∀ st ∈ sts, st ≤ 3) :
    (∀ sts ∈ (rmBoarderArtifactsReg Real.exp h states g1).1 ++
        (rmBoarderArtifactsReg Real.exp h states g1).2, ∀ st ∈ sts, st ≤ 3) ∧
    List.Forall₂ (List.Forall₂ (fun new old => new ≤ old ∧ new % 2 = old % 2))
      (rmBoarderArtifactsReg Real.exp h states g1).1 states.1 ∧
    List.Forall₂ (List.Forall₂ (fun new old => new ≤ old ∧ new % 2 = old % 2))
      (rmBoarderArtifactsReg Real.exp h states g1).2 states.2 ∧
    (∀ (s : Bool) (i : Nat) (iv : Interval ℝ) (sts : List Nat),
      (if s then h.rev else h.fwd)[i]? = some iv → iv.obs.discard = true →
      (if s then states.2 else states.1)[i]? = some sts →
      (if s then (rmBoarderArtifactsReg Real.exp h states g1).2
        else (rmBoarderArtifactsReg Real.exp h states g1).1)[i]? = some sts) ∧
    rmBoarderArtifactsReg Real.exp h (rmBoarderArtifactsReg Real.exp h states g1) g1 =
      rmBoarderArtifactsReg Real.exp h states g1 ∧
    rmBoarderArtifacts h states g = states ∧
    rmBoarderArtifacts h (rmBoarderArtifacts h states g) g = rmBoarderArtifacts h states g := by
  have h1 : ∀ sts ∈ states.1, ∀ st ∈ sts, st ≤ 3 :=
    fun sts hs => hst sts (List.mem_append_left _ hs)
  have h2 : ∀ sts ∈ states.2, ∀ st ∈ sts, st ≤ 3 :=
    fun sts hs => hst sts (List.mem_append_right _ hs)
  refine ⟨?_, rmIntervals_le g1 _ _, rmIntervals_le g1 _ _, ?_, ?_, rfl, rfl⟩
  · intro sts hs
    rcases List.mem_append.mp hs with hs | hs
    · exact rmIntervals_bound g1 _ _ h1 sts hs
    · exact rmIntervals_bound g1 _ _ h2 sts hs
  · intro s i iv sts hiv hd hsts
    have key : ∀ (ivs : List (Interval ℝ)) (sss : List (List Nat)), ivs[i]? = some iv →
        sss[i]? = some sts →
        (rmIntervals Real.exp g1 (ivs.map (fun x => x.obs)) sss)[i]? = some sts := by
      intro ivs sss h_1 h_2
      have h_3 : (ivs.map (fun x => x.obs))[i]? = some iv.obs := by
        rw [List.getElem?_map, h_1]; rfl
      rw [(rmIntervals_spec g1 _ _).2 i iv.obs sts h_3 h_2, if_pos hd]
    cases s
    · simp only [Bool.false_eq_true, if_false] at hiv hsts ⊢
      exact key h.fwd states.1 hiv hsts
    · simp only [if_true] at hiv hsts ⊢
      exact key h.rev states.2 hiv hsts
  · show (rmIntervals Real.exp g1 _ (rmIntervals Real.exp g1 _ states.1),
      rmIntervals Real.exp g1 _ (rmIntervals Real.exp g1 _ states.2)) = _
    rw [rmIntervals_idem g1 _ _ h1, rmIntervals_idem g1 _ _ h2]
    rfl

/-- Witness for `rmBoarderArtifacts_idempotent_downgrade`: one interval of one position
with state 3; a second application gives the result of the first. -/
theorem rmBoarderArtifacts_idempotent_downgrade_witness :
    rmBoarderArtifactsReg Real.exp (HMM.HMM nan [⟨[site 1 1], false⟩] [])
        (rmBoarderArtifactsReg Real.exp (HMM.HMM nan [⟨[site 1 1], false⟩] [])
          ([[3]], []) ⟨fin 1, fin 1, fin 0, fun _ _ _ => fin 1⟩)
        ⟨fin 1, fin 1, fin 0, fun _ _ _ => fin 1⟩ =
      rmBoarderArtifactsReg Real.exp (HMM.HMM nan [⟨[site 1 1], false⟩] [])
        ([[3]], []) ⟨fin 1, fin 1, fin 0, fun _ _ _ => fin 1⟩ :=
  (rmBoarderArtifacts_idempotent_downgrade (HMM.HMM nan [⟨[site 1 1], false⟩] [])
    ([[3]], []) ⟨fin 1, fin 1, fin 0, fun _ _ _ => fin 1⟩ (constGamma 1 1)
    (by simp)).2.2.2.2.1

/-! ## The predicted mean of the non-enriched density -/

theorem exp_one_gt_two : (2 : ℝ) < Real.exp 1 := by
  have := Real.exp_one_gt_d9
  linarith

/-- C38. With the coefficients `b0 = 0`, `b1 = 1`, the covariate `0` and
`options.minRPKMtoFit = 1`: `computeEProb` calls the density `d1` with the predicted mean
`exp(0 + 1 * max(0, 1)) = e`, while `rmBoarderArtifacts` compares the coverage estimate with
`exp(0 + 1 * 0) = 1`; a position with coverage estimate `2` and state 2 is below the
predicted mean of `computeEProb` and keeps its state.  For a covariate that is not below
`options.minRPKMtoFit` the two predicted means are equal. -/
theorem rmBoarderArtifacts_mean_not_clamped :
    (gammaValuesReg Real.exp (meanProbe 0 1) (meanProbe 0 1) ⟨fin 2, 0, fin 1, fin 0⟩
      ⟨logSumExp_add Real.log Real.exp, fin 0, fin 0, fin 1⟩).1 = fin (Real.exp 1) ∧
    LD.lt (fin 2) (fin (Real.exp 1)) = true ∧
    rmBoarderArtifactsReg Real.exp (HMM.HMM nan [⟨[⟨fin 2, 0, fin 1, fin 0⟩], false⟩] [])
      ([[2]], []) (meanProbe 0 1) = ([[2]], []) ∧
    (∀ (b0 b1 : ℝ) (o : Obs ℝ) (options : AppOptions ℝ),
      LD.le (fin 0) o.kde = true → LD.lt o.rpkm options.minRPKMtoFit = false →
      (gammaValuesReg Real.exp (meanProbe b0 b1) (meanProbe b0 b1) o options).1 =
        LD.exp Real.exp ((meanProbe b0 b1).b0 + (meanProbe b0 b1).b1 * o.rpkm)) := by
  refine ⟨?_, ?_, ?_, ?_⟩
  · simp [gammaValuesReg, meanProbe, LD.max, LD.exp]
  · simpa using exp_one_gt_two
  · simp [rmBoarderArtifactsReg, rmBoarderArtifacts2Reg, rmIntervals, rmPositions, setObsTable,
      HMM.HMM, Interval.ofObs, meanProbe, LD.exp]
  · intro b0 b1 o options hk hlt
    simp [gammaValuesReg, meanProbe, LD.max, hlt, hk]


/-! ## The support threshold of the coverage densities -/

/-- The coverage estimate `3` lies at or above the threshold `1` of the non-enriched
density and below the threshold `5` of the enriched density: `computeEProb` evaluates the
enriched density all the same, `g2_d` is its value `1` and not the default `0`, and the
log-probability of state 2 is `log 1 + log 1 = 0` and not the NaN sentinel. -/
theorem enriched_density_evaluated_below_own_threshold :
    LD.le (constGamma (5 : ℝ) 1).tp (site (3 : ℝ) 0).kde = false ∧
    (gammaValues (constGamma (1 : ℝ) 1) (constGamma 5 1) (site 3 0)).2 = fin 1 ∧
    (computeEProb Real.log (constGamma (1 : ℝ) 1) (constGamma 5 1) (constBin 1) (constBin 1)
      (site 3 0) (plainOptions Real.log Real.exp 1).toAppOptions).2 2 = fin 0 := by
  refine ⟨by norm_num [constGamma, site], by norm_num [gammaValues, constGamma, site], ?_⟩
  norm_num [computeEProb, eProbFromValues, gammaValues, binValues, logEmissions, constGamma,
    constBin, site, myLog_pos]

/-- C32. In `computeEProb` (for `GAMMA2` and for `GAMMA2_REG`) both coverage density values
are those of the evaluators when `kdes[t] >= d1.tp` and the defaults `(1, 0)` otherwise; the
threshold `d2.tp` of the enriched density is not read: replacing it changes neither the
result nor the stored entry.  Both count density values are those of the evaluators when
`truncCounts[t] > 0` and the defaults `(1, 0)` otherwise.  When `kdes[t] >= d1.tp` is false,
result and stored entry do not depend on the evaluators of the coverage densities, and
when the truncation count is 0 they do not depend on the count densities. -/
theorem coverage_densities_share_threshold (d1 d2 : GAMMA2 ℝ) (r1 r2 : GAMMA2_REG ℝ)
    (bin1 bin2 : ZTBIN ℝ) (o : Obs ℝ) (options : AppOptions ℝ) :
    computeEProb Real.log d1 d2 bin1 bin2 o options =
      eProbFromValues Real.log
        (if LD.le d1.tp o.kde = true then (d1.getDensity o.kde, d2.getDensity o.kde)
          else (fin 1, fin 0))
        (if 0 < o.truncCount then
          (bin1.getDensity o.truncCount o.nEstimate options,
            bin2.getDensity o.truncCount o.nEstimate options)
          else (fin 1, fin 0)) ∧
    computeEProbReg Real.log Real.exp r1 r2 bin1 bin2 o options =
      eProbFromValues Real.log
        (if LD.le r1.tp o.kde = true then
          (r1.getDensity o.kde
              (LD.exp Real.exp (r1.b0 + r1.b1 * LD.max o.rpkm options.minRPKMtoFit)) options,
            r2.getDensity o.kde
              (LD.exp Real.exp (r2.b0 + r2.b1 * LD.max o.rpkm options.minRPKMtoFit)) options)
          else (fin 1, fin 0))
        (if 0 < o.truncCount then
          (bin1.getDensity o.truncCount o.nEstimate options,
            bin2.getDensity o.truncCount o.nEstimate options)
          else (fin 1, fin 0)) ∧
    (∀ tp : LD ℝ, computeEProb Real.log d1 { d2 with tp := tp } bin1 bin2 o options =
      computeEProb Real.log d1 d2 bin1 bin2 o options) ∧
    (∀ tp : LD ℝ,
      computeEProbReg Real.log Real.exp r1 { r2 with tp := tp } bin1 bin2 o options =
        computeEProbReg Real.log Real.exp r1 r2 bin1 bin2 o options) ∧
    (LD.le d1.tp o.kde = false → ∀ (tp : LD ℝ) (e_1 e_2 : LD ℝ → LD ℝ),
      computeEProb Real.log ⟨d1.tp, e_1⟩ ⟨tp, e_2⟩ bin1 bin2 o options =
        computeEProb Real.log d1 d2 bin1 bin2 o options) ∧
    (LD.le r1.tp o.kde = false →
      ∀ (tp b0_1 b1_1 b0_2 b1_2 : LD ℝ) (e_1 e_2 : LD ℝ → LD ℝ → AppOptions ℝ → LD ℝ),
      computeEProbReg Real.log Real.exp ⟨r1.tp, b0_1, b1_1, e_1⟩ ⟨tp, b0_2, b1_2, e_2⟩ bin1 bin2
          o options =
        computeEProbReg Real.log Real.exp r1 r2 bin1 bin2 o options) ∧
    (o.truncCount = 0 → ∀ b_1 b_2 : ZTBIN ℝ,
      computeEProb Real.log d1 d2 b_1 b_2 o options =
        computeEProb Real.log d1 d2 bin1 bin2 o options ∧
      computeEProbReg Real.log Real.exp r1 r2 b_1 b_2 o options =
        computeEProbReg Real.log Real.exp r1 r2 bin1 bin2 o options) := by
  refine ⟨rfl, rfl, fun _ => rfl, fun _ => rfl, ?_, ?_, ?_⟩
  · intro h tp e_1 e_2
    simp only [computeEProb, gammaValues, h, Bool.false_eq_true, if_false]
  · intro h tp b0_1 b1_1 b0_2 b1_2 e_1 e_2
    simp only [computeEProbReg, gammaValuesReg, h, Bool.false_eq_true, if_false]
  · intro h b_1 b_2
    simp only [computeEProb, computeEProbReg, binValues, h, lt_irrefl, if_false, and_self]


/-! ## Positions without truncation counts -/

theorem logEmissions_crosslink_nan (ln : ℝ → ℝ) (g : LD ℝ × LD ℝ) (x : LD ℝ) :
    logEmissions ln g (x, fin 0) 1 = nan ∧ logEmissions ln g (x, fin 0) 3 = nan := by
  constructor <;> simp [logEmissions]

theorem eProbFromValues_crosslink_nan (ln : ℝ → ℝ) (g : LD ℝ × LD ℝ) (x : LD ℝ) :
    (eProbFromValues ln g (x, fin 0)).2 1 = nan ∧ (eProbFromValues ln g (x, fin 0)).2 3 = nan := by
  simp only [eProbFromValues]
  split
  · constructor <;> rfl
  · exact logEmissions_crosslink_nan ln g x

theorem binValues_zero (bin1 bin2 : ZTBIN ℝ) (o : Obs ℝ) (options : AppOptions ℝ)
    (h : o.truncCount = 0) : binValues bin1 bin2 o options = (fin 1, fin 0) := by
  simp [binValues, h]

theorem forwardStep_nan (lookUp : LD ℝ → LD ℝ → LD ℝ) (logA : Mat4 ℝ) (prev e : Vec4 ℝ)
    (k : Fin 4) (hk : e k = nan) : forwardStep lookUp logA prev e k = nan := by
  simp [forwardStep, hk, get_logSumExp_states]

theorem iForwardFrom_nan (lookUp : LD ℝ → LD ℝ → LD ℝ) (logA : Mat4 ℝ) (k : Fin 4) :
    ∀ (es : List (Vec4 ℝ)) (prev : Vec4 ℝ) (r : List (Vec4 ℝ)),
      iForwardFrom lookUp logA prev es = some r →
      ∀ (t : Nat) (e a : Vec4 ℝ), es[t]? = some e → r[t]? = some a → e k = nan → a k = nan := by
  intro es
  induction es with
  | nil =>
    intro prev r _ t e a he
    simp at he
  | cons e_0 es ih =>
    intro prev r hr t e a he ha hk
    simp only [iForwardFrom] at hr
    split at hr
    · exact absurd hr (by simp)
    · simp only [Option.map_eq_some'] at hr
      obtain ⟨r0, hr0, rfl⟩ := hr
      cases t with
      | zero =>
        simp only [List.getElem?_cons_zero, Option.some.injEq] at he ha
        subst he ha
        exact forwardStep_nan lookUp logA prev _ k hk
      | succ t =>
        simp only [List.getElem?_cons_succ] at he ha
        exact ih _ r0 hr0 t e a he ha hk

theorem iForward_nan (lookUp : LD ℝ → LD ℝ → LD ℝ) (logA : Mat4 ℝ) (init : Vec4 ℝ) (k : Fin 4)
    (es r : List (Vec4 ℝ)) (hr : iForward Real.log lookUp logA init es = some r)
    (t : Nat) (e a : Vec4 ℝ) (he : es[t]? = some e) (ha : r[t]? = some a) (hk : e k = nan) :
    a k = nan := by
  cases es with
  | nil => simp at he
  | cons e_0 es =>
    simp only [iForward, Option.map_eq_some'] at hr
    obtain ⟨r0, hr0, rfl⟩ := hr
    cases t with
    | zero =>
      simp only [List.getElem?_cons_zero, Option.some.injEq] at he ha
      subst he ha
      simp [hk]
    | succ t =>
      simp only [List.getElem?_cons_succ] at he ha
      exact iForwardFrom_nan lookUp logA k es _ r0 hr0 t e a he ha hk

theorem posteriorAt_nan (lookUp : LD ℝ → LD ℝ → LD ℝ) (a b : Vec4 ℝ) (k : Fin 4)
    (hk : a k = nan) : posteriorAt Real.exp lookUp a b k = fin 0 := by
  simp [posteriorAt, hk]

/-- The posterior that either pass computes for a state whose emission entry at the
position is the NaN sentinel is exactly `0`. -/
theorem updated_posterior_zero (iv : Interval ℝ) (lookUp : LD ℝ → LD ℝ → LD ℝ) (logA : Mat4 ℝ)
    (alphas betas : List (Vec4 ℝ))
    (ha : iForward Real.log lookUp logA iv.initProbs iv.eProbs = some alphas)
    (hb : iBackward Real.log lookUp logA iv.eProbs = some betas)
    (t : Nat) (e : Vec4 ℝ) (k : Fin 4) (he : iv.eProbs[t]? = some e) (hk : e k = nan) :
    ∃ p, (posteriors Real.exp lookUp alphas betas)[t]? = some p ∧ p k = fin 0 := by
  have hla := iForward_length _ _ _ _ _ ha
  have hlb := iBackward_length _ _ _ _ hb
  have ht := getElem?_lt_length he
  have hta : t < alphas.length := by omega
  have htb : t < betas.length := by omega
  have h1 : alphas[t]? = some alphas[t] := List.getElem?_eq_getElem hta
  have h2 : betas[t]? = some betas[t] := List.getElem?_eq_getElem htb
  refine ⟨posteriorAt Real.exp lookUp alphas[t] betas[t], ?_, ?_⟩
  · simp only [posteriors, List.getElem?_zipWith, h1, h2]
  · exact posteriorAt_nan lookUp _ _ k (iForward_nan lookUp logA _ k _ _ ha t e _ he h1 hk)

theorem fbInterval_posterior_zero (lookUp : LD ℝ → LD ℝ → LD ℝ) (logA : Mat4 ℝ)
    (iv iv_1 : Interval ℝ) (h : fbInterval Real.log Real.exp lookUp logA iv = some iv_1)
    (t : Nat) (e : Vec4 ℝ) (k : Fin 4) (he : iv.eProbs[t]? = some e) (hk : e k = nan) :
    ∃ p, iv_1.statePosteriors[t]? = some p ∧ p k = fin 0 := by
  simp only [fbInterval] at h
  split at h
  · exact absurd h (by simp)
  · rename_i alphas ha
    split at h
    · exact absurd h (by simp)
    · rename_i betas hb
      simp only [Option.some.injEq] at h
      subst h
      exact updated_posterior_zero iv lookUp logA alphas betas ha hb t e k he hk

theorem fbUpdateInterval_posterior_zero (options : AppOptions ℝ) (logA : Mat4 ℝ)
    (iv : Interval ℝ)
    (hf : (iForward Real.log options.lookUp logA iv.initProbs iv.eProbs).isSome = true)
    (hb : (iBackward Real.log options.lookUp logA iv.eProbs).isSome = true)
    (t : Nat) (e : Vec4 ℝ) (k : Fin 4) (he : iv.eProbs[t]? = some e) (hk : e k = nan) :
    ∃ p, (fbUpdateInterval Real.log Real.exp options logA iv).interval.statePosteriors[t]? =
      some p ∧ p k = fin 0 := by
  obtain ⟨alphas, ha⟩ := Option.isSome_iff_exists.mp hf
  obtain ⟨betas, hb_1⟩ := Option.isSome_iff_exists.mp hb
  simp only [fbUpdateInterval, ha, hb_1]
  exact updated_posterior_zero iv options.lookUp logA alphas betas ha hb_1 t e k he hk

theorem bestPosterior_ne_of_zero (v : Vec4 ℝ) (k : Fin 4) (hk : k ≠ 0) (hv : v k = fin 0) :
    bestPosterior v ≠ k := by
  intro hbest
  by_cases hex : ∃ j, LD.lt (fin 0) (v j) = true
  · have := ((bestPosterior_spec v).1 hex).1
    rw [hbest, hv] at this
    simp at this
  · have hall : ∀ j, LD.lt (fin 0) (v j) = false := fun j => by
      by_contra hc
      exact hex ⟨j, by simpa using hc⟩
    exact hk (hbest ▸ (bestPosterior_spec v).2 hall)

theorem computeStatePosteriorsFB_intervals_mem (options : AppOptions ℝ) (h : HMM ℝ)
    (hs : (computeStatePosteriorsFB Real.log Real.exp options h).1 = true) (s : Bool) (i : Nat)
    (iv : Interval ℝ)
    (hiv : (if s then (computeStatePosteriorsFB Real.log Real.exp options h).2.rev
      else (computeStatePosteriorsFB Real.log Real.exp options h).2.fwd)[i]? = some iv) :
    ∃ iv_0, (if s then h.rev else h.fwd)[i]? = some iv_0 ∧
      fbInterval Real.log Real.exp options.lookUp (logMatrix Real.log h.transMatrix) iv_0 =
        some iv := by
  simp only [computeStatePosteriorsFB] at hs hiv
  split at hs
  · simp at hs
  · split at hs
    · simp at hs
    · rename_i h1 h2
      simp only [h1, h2, Bool.false_eq_true, if_false] at hiv
      simp only [Bool.not_eq_true, List.any_eq_false] at h1 h2
      have key : ∀ ivs : List (Interval ℝ),
          (∀ x ∈ ivs, (fbInterval Real.log Real.exp options.lookUp
            (logMatrix Real.log h.transMatrix) x).isNone = false) →
          (ivs.map (fun iv => (fbInterval Real.log Real.exp options.lookUp
            (logMatrix Real.log h.transMatrix) iv).getD iv))[i]? = some iv →
          ∃ iv_0, ivs[i]? = some iv_0 ∧
            fbInterval Real.log Real.exp options.lookUp (logMatrix Real.log h.transMatrix) iv_0 =
              some iv := by
        intro ivs hall hm
        rw [List.getElem?_map] at hm
        cases hx : ivs[i]? with
        | none => simp [hx] at hm
        | some x =>
          simp only [hx, Option.map_some', Option.some.injEq] at hm
          have := hall x (List.getElem?_mem hx)
          cases hfx : fbInterval Real.log Real.exp options.lookUp
            (logMatrix Real.log h.transMatrix) x with
          | none => simp [hfx] at this
          | some y =>
            rw [hfx] at hm
            exact ⟨x, rfl, by rw [hfx, ← hm]; rfl⟩
      cases s
      · simp only [Bool.false_eq_true, if_false] at hiv ⊢
        exact key h.fwd h1 hiv
      · simp only [if_true] at hiv ⊢
        exact key h.rev h2 hiv

/-- After a successful `applyParameters`, at every position whose emission entry (as
`computeEProb` stores it) is the NaN sentinel for state `k`, the stored posterior of `k` is
exactly `0`. -/
theorem applyParameters_posterior_zero {G B : Type}
    (cEP : G → G → B → B → Obs ℝ → AppOptions ℝ → Bool × Vec4 ℝ)
    (d1 d2 : G) (bin1 bin2 : B) (options : AppOptions ℝ) (h : HMM ℝ)
    (hs : (applyParameters Real.log Real.exp cEP d1 d2 bin1 bin2 options h).1 = true)
    (s : Bool) (i t : Nat) (iv : Interval ℝ) (o : Obs ℝ) (k : Fin 4)
    (hiv : (if s then (applyParameters Real.log Real.exp cEP d1 d2 bin1 bin2 options h).2.rev
      else (applyParameters Real.log Real.exp cEP d1 d2 bin1 bin2 options h).2.fwd)[i]? =
        some iv)
    (ho : iv.obs.sites[t]? = some o) (hk : (cEP d1 d2 bin1 bin2 o options).2 k = nan) :
    ∃ p, iv.statePosteriors[t]? = some p ∧ p k = fin 0 := by
  simp only [applyParameters] at hs hiv
  split at hs
  · rename_i hE
    simp only [hE, if_true] at hiv
    obtain ⟨iv_0, h0, hfb⟩ := computeStatePosteriorsFB_intervals_mem options _ hs s i iv hiv
    have hobs : iv.obs = iv_0.obs := by
      have := (fbInterval_obs options.lookUp
        (logMatrix Real.log (computeEmissionProbs cEP d1 d2 bin1 bin2 false options
          h).2.transMatrix) iv_0).1
      rw [hfb] at this
      exact this
    have key : ∀ ivs : List (Interval ℝ),
        (ivs.map (fun x => (emissionInterval (fun o => cEP d1 d2 bin1 bin2 o options) false
          x).interval))[i]? = some iv_0 →
        iv_0.eProbs = iv_0.obs.sites.map (fun o => (cEP d1 d2 bin1 bin2 o options).2) := by
      intro ivs hm
      rw [List.getElem?_map] at hm
      cases hx : ivs[i]? with
      | none => simp [hx] at hm
      | some x =>
        simp only [hx, Option.map_some', Option.some.injEq] at hm
        rw [← hm, emissionInterval_eProbs, (emissionInterval_frame _ _ x).2.2]
    have hep : iv_0.eProbs = iv_0.obs.sites.map (fun o => (cEP d1 d2 bin1 bin2 o options).2) := by
      cases s
      · simp only [Bool.false_eq_true, if_false] at h0
        exact key h.fwd h0
      · simp only [if_true] at h0
        exact key h.rev h0
    have he : iv_0.eProbs[t]? = some (cEP d1 d2 bin1 bin2 o options).2 := by
      rw [hep, List.getElem?_map, ← hobs, ho]; rfl
    exact fbInterval_posterior_zero _ _ iv_0 iv hfb t _ k he hk
  · simp at hs

/-- C34. At a position with truncation count 0, `computeEProb` (for `GAMMA2` and for
`GAMMA2_REG`, valid position or not) stores the NaN sentinel for the states 1 and 3.  In
both forward-backward passes, an interval whose `iForward` and `iBackward` succeed gets,
at every position whose emission entry is the sentinel for state `k`, exactly the
posterior `0` for `k`.  A position whose posteriors of the states 1 and 3 are `0` is not
assigned state 1 or 3 by `posteriorDecoding`.  So after a successful `applyParameters`,
every position with truncation count 0 of an interval that is not discarded has the
posterior `0` for the states 1 and 3, and `posteriorDecoding` stores a state other than 1
and 3 for it. -/
theorem crosslink_impossible_without_counts :
    (∀ (d1 d2 : GAMMA2 ℝ) (r1 r2 : GAMMA2_REG ℝ) (bin1 bin2 : ZTBIN ℝ) (o : Obs ℝ)
      (options : AppOptions ℝ), o.truncCount = 0 →
      (computeEProb Real.log d1 d2 bin1 bin2 o options).2 1 = nan ∧
      (computeEProb Real.log d1 d2 bin1 bin2 o options).2 3 = nan ∧
      (computeEProbReg Real.log Real.exp r1 r2 bin1 bin2 o options).2 1 = nan ∧
      (computeEProbReg Real.log Real.exp r1 r2 bin1 bin2 o options).2 3 = nan) ∧
    (∀ (options : AppOptions ℝ) (logA : Mat4 ℝ) (iv : Interval ℝ) (t : Nat) (e : Vec4 ℝ)
      (k : Fin 4), iv.eProbs[t]? = some e → e k = nan →
      (∀ iv_1, fbInterval Real.log Real.exp options.lookUp logA iv = some iv_1 →
        ∃ p, iv_1.statePosteriors[t]? = some p ∧ p k = fin 0) ∧
      ((iForward Real.log options.lookUp logA iv.initProbs iv.eProbs).isSome = true →
        (iBackward Real.log options.lookUp logA iv.eProbs).isSome = true →
        ∃ p, (fbUpdateInterval Real.log Real.exp options logA iv).interval.statePosteriors[t]? =
          some p ∧ p k = fin 0)) ∧
    (∀ v : Vec4 ℝ, v 1 = fin 0 → v 3 = fin 0 → bestPosterior v ≠ 1 ∧ bestPosterior v ≠ 3) ∧
    (∀ (d1 d2 : GAMMA2 ℝ) (bin1 bin2 : ZTBIN ℝ) (options : AppOptions ℝ) (h : HMM ℝ)
      (states : List (List Nat) × List (List Nat)) (s : Bool) (i t : Nat) (iv : Interval ℝ)
      (o : Obs ℝ),
      (applyParameters Real.log Real.exp (computeEProb Real.log) d1 d2 bin1 bin2 options h).1 =
        true →
      (if s then
          (applyParameters Real.log Real.exp (computeEProb Real.log) d1 d2 bin1 bin2 options
            h).2.rev
        else (applyParameters Real.log Real.exp (computeEProb Real.log) d1 d2 bin1 bin2 options
            h).2.fwd)[i]? = some iv →
      iv.obs.discard = false → iv.obs.sites[t]? = some o → o.truncCount = 0 →
      (∃ p, iv.statePosteriors[t]? = some p ∧ p 1 = fin 0 ∧ p 3 = fin 0) ∧
      ∃ sts st,
        (if s then
            (posteriorDecoding (applyParameters Real.log Real.exp (computeEProb Real.log)
              d1 d2 bin1 bin2 options h).2 states).2
          else (posteriorDecoding (applyParameters Real.log Real.exp (computeEProb Real.log)
              d1 d2 bin1 bin2 options h).2 states).1)[i]? = some sts ∧
        sts[t]? = some st ∧ st ≠ 1 ∧ st ≠ 3) ∧
    (∀ (r1 r2 : GAMMA2_REG ℝ) (bin1 bin2 : ZTBIN ℝ) (options : AppOptions ℝ) (h : HMM ℝ)
      (states : List (List Nat) × List (List Nat)) (s : Bool) (i t : Nat) (iv : Interval ℝ)
      (o : Obs ℝ),
      (applyParameters Real.log Real.exp (computeEProbReg Real.log Real.exp) r1 r2 bin1 bin2
        options h).1 = true →
      (if s then
          (applyParameters Real.log Real.exp (computeEProbReg Real.log Real.exp) r1 r2 bin1 bin2
            options h).2.rev
        else (applyParameters Real.log Real.exp (computeEProbReg Real.log Real.exp) r1 r2 bin1
            bin2 options h).2.fwd)[i]? = some iv →
      iv.obs.discard = false → iv.obs.sites[t]? = some o → o.truncCount = 0 →
      (∃ p, iv.statePosteriors[t]? = some p ∧ p 1 = fin 0 ∧ p 3 = fin 0) ∧
      ∃ sts st,
        (if s then
            (posteriorDecoding (applyParameters Real.log Real.exp
              (computeEProbReg Real.log Real.exp) r1 r2 bin1 bin2 options h).2 states).2
          else (posteriorDecoding (applyParameters Real.log Real.exp
              (computeEProbReg Real.log Real.exp) r1 r2 bin1 bin2 options h).2 states).1)[i]? =
          some sts ∧
        sts[t]? = some st ∧ st ≠ 1 ∧ st ≠ 3) := by
  have hA : ∀ (d1 d2 : GAMMA2 ℝ) (r1 r2 : GAMMA2_REG ℝ) (bin1 bin2 : ZTBIN ℝ) (o : Obs ℝ)
      (options : AppOptions ℝ), o.truncCount = 0 →
      (computeEProb Real.log d1 d2 bin1 bin2 o options).2 1 = nan ∧
      (computeEProb Real.log d1 d2 bin1 bin2 o options).2 3 = nan ∧
      (computeEProbReg Real.log Real.exp r1 r2 bin1 bin2 o options).2 1 = nan ∧
      (computeEProbReg Real.log Real.exp r1 r2 bin1 bin2 o options).2 3 = nan := by
    intro d1 d2 r1 r2 bin1 bin2 o options h0
    simp only [computeEProb, computeEProbReg, binValues_zero bin1 bin2 o options h0]
    exact ⟨(eProbFromValues_crosslink_nan _ _ _).1, (eProbFromValues_crosslink_nan _ _ _).2,
      (eProbFromValues_crosslink_nan _ _ _).1, (eProbFromValues_crosslink_nan _ _ _).2⟩
  have hC : ∀ v : Vec4 ℝ, v 1 = fin 0 → v 3 = fin 0 → bestPosterior v ≠ 1 ∧ bestPosterior v ≠ 3 :=
    fun v h1 h3 => ⟨bestPosterior_ne_of_zero v 1 (by decide) h1,
      bestPosterior_ne_of_zero v 3 (by decide) h3⟩
  have hD : ∀ (H : HMM ℝ) (states : List (List Nat) × List (List Nat)) (s : Bool) (i t : Nat)
      (iv : Interval ℝ), (if s then H.rev else H.fwd)[i]? = some iv → iv.obs.discard = false →
      (∃ p, iv.statePosteriors[t]? = some p ∧ p 1 = fin 0) →
      (∃ p, iv.statePosteriors[t]? = some p ∧ p 3 = fin 0) →
      (∃ p, iv.statePosteriors[t]? = some p ∧ p 1 = fin 0 ∧ p 3 = fin 0) ∧
      ∃ sts st, (if s then (posteriorDecoding H states).2
          else (posteriorDecoding H states).1)[i]? = some sts ∧
        sts[t]? = some st ∧ st ≠ 1 ∧ st ≠ 3 := by
    intro H states s i t iv hiv hd h1 h3
    obtain ⟨p, hp, hp1⟩ := h1
    obtain ⟨p_1, hp_1, hp3⟩ := h3
    rw [hp] at hp_1
    obtain rfl := Option.some.inj hp_1
    refine ⟨⟨p, hp, hp1, hp3⟩, _, (bestPosterior p).val,
      posteriorDecoding_states H states s i iv hiv, ?_, ?_, ?_⟩
    · simp [hd, List.getElem?_map, hp]
    · intro hc
      exact (hC p hp1 hp3).1 (Fin.ext hc)
    · intro hc
      exact (hC p hp1 hp3).2 (Fin.ext hc)
  refine ⟨hA, ?_, hC, ?_, ?_⟩
  · intro options logA iv t e k he hk
    exact ⟨fun iv_1 h => fbInterval_posterior_zero _ _ iv iv_1 h t e k he hk,
      fun hf hb => fbUpdateInterval_posterior_zero options logA iv hf hb t e k he hk⟩
  · intro d1 d2 bin1 bin2 options h states s i t iv o hs hiv hd ho h0
    have hn := hA d1 d2 ⟨nan, nan, nan, fun _ _ _ => nan⟩ ⟨nan, nan, nan, fun _ _ _ => nan⟩
      bin1 bin2 o options h0
    exact hD _ states s i t iv hiv hd
      (applyParameters_posterior_zero _ d1 d2 bin1 bin2 options h hs s i t iv o 1 hiv ho hn.1)
      (applyParameters_posterior_zero _ d1 d2 bin1 bin2 options h hs s i t iv o 3 hiv ho hn.2.1)
  · intro r1 r2 bin1 bin2 options h states s i t iv o hs hiv hd ho h0
    have hn := hA ⟨nan, fun _ => nan⟩ ⟨nan, fun _ => nan⟩ r1 r2 bin1 bin2 o options h0
    exact hD _ states s i t iv hiv hd
      (applyParameters_posterior_zero _ r1 r2 bin1 bin2 options h hs s i t iv o 1 hiv ho
        hn.2.2.1)
      (applyParameters_posterior_zero _ r1 r2 bin1 bin2 options h hs s i t iv o 3 hiv ho
        hn.2.2.2)


theorem applyParameters_example :
    (applyParameters Real.log Real.exp (computeEProb Real.log) (constGamma (2 : ℝ) 1)
      (constGamma 2 1) (constBin 1) (constBin 1)
      (plainOptions Real.log Real.exp 1).toAppOptions
      (HMM.HMM nan [⟨[site 1 0], false⟩] [])).1 = true ∧
    ∃ iv, (applyParameters Real.log Real.exp (computeEProb Real.log) (constGamma (2 : ℝ) 1)
      (constGamma 2 1) (constBin 1) (constBin 1)
      (plainOptions Real.log Real.exp 1).toAppOptions
      (HMM.HMM nan [⟨[site 1 0], false⟩] [])).2.fwd[0]? = some iv ∧
      iv.obs = ⟨[site 1 0], false⟩ := by
  have hE : (computeEmissionProbs (computeEProb Real.log) (constGamma (2 : ℝ) 1)
      (constGamma 2 1) (constBin 1) (constBin 1) false
      (plainOptions Real.log Real.exp 1).toAppOptions
      (HMM.HMM nan [⟨[site 1 0], false⟩] [])).1 = true := by
    rw [computeEmissionProbs_decode_flag]
    intro iv hiv o ho
    simp only [HMM.HMM, List.map_cons, List.map_nil, List.append_nil, List.mem_singleton] at hiv
    subst hiv
    simp only [Interval.ofObs, List.mem_singleton] at ho
    subst ho
    norm_num [site]
  have hv : computeEProb Real.log (constGamma (2 : ℝ) 1) (constGamma 2 1) (constBin 1)
      (constBin 1) (site 1 0) (plainOptions Real.log Real.exp 1).toAppOptions =
        (true, only 0 0) :=
    computeEProb_state0 _ _ _ _ _ _ (by norm_num [constGamma, site]) rfl
  simp only [applyParameters, hE, if_true]
  constructor
  · simp [computeStatePosteriorsFB, computeEmissionProbs, HMM.HMM, Interval.ofObs, fbInterval,
      iForward, iForwardFrom, iBackward, emissionInterval]
  · simp [computeStatePosteriorsFB, computeEmissionProbs, HMM.HMM, Interval.ofObs, fbInterval,
      iForward, iForwardFrom, iBackward, emissionInterval, hv]

/-- Witness for `crosslink_impossible_without_counts`: after `applyParameters` on one
interval of one position with coverage estimate `1` below the support threshold `2` and
truncation count 0, `posteriorDecoding` stores a state other than 1 and 3 for the
position. -/
theorem crosslink_impossible_without_counts_witness :
    ∃ sts st,
      (posteriorDecoding (applyParameters Real.log Real.exp (computeEProb Real.log)
        (constGamma (2 : ℝ) 1) (constGamma 2 1) (constBin 1) (constBin 1)
        (plainOptions Real.log Real.exp 1).toAppOptions
        (HMM.HMM nan [⟨[site 1 0], false⟩] [])).2 ([], [])).1[0]? = some sts ∧
      sts[0]? = some st ∧ st ≠ 1 ∧ st ≠ 3 := by
  obtain ⟨hs, iv, hiv, hobs⟩ := applyParameters_example
  have h := (crosslink_impossible_without_counts.2.2.2.1 (constGamma (2 : ℝ) 1)
    (constGamma 2 1) (constBin 1) (constBin 1) (plainOptions Real.log Real.exp 1).toAppOptions
    (HMM.HMM nan [⟨[site 1 0], false⟩] []) ([], []) false 0 0 iv (site 1 0) hs
    (by simpa using hiv) (by rw [hobs]) (by rw [hobs]; rfl) rfl).2
  simpa using h


/-! ## The transition matrix of a run that fails -/

theorem computeStatePosteriorsFBupdateTrans_failed (options : AppOptions ℝ) (h : HMM ℝ)
    (hfail : (computeStatePosteriorsFBupdateTrans Real.log Real.exp options h).1 = false) :
    (computeStatePosteriorsFBupdateTrans Real.log Real.exp options h).2.transMatrix =
      h.transMatrix := by
  simp only [computeStatePosteriorsFBupdateTrans] at hfail ⊢
  split
  · rfl
  · split
    · rfl
    · rename_i h1 h2
      simp [h1, h2] at hfail

theorem computeEProbReg_state0 (d1 d2 : GAMMA2_REG ℝ) (bin1 bin2 : ZTBIN ℝ) (o : Obs ℝ)
    (options : AppOptions ℝ) (hk : LD.le d1.tp o.kde = false) (hc : o.truncCount = 0) :
    computeEProbReg Real.log Real.exp d1 d2 bin1 bin2 o options = (true, only 0 0) := by
  have he : logEmissions Real.log ((fin 1 : LD ℝ), (fin 0 : LD ℝ)) (fin 1, fin 0) = only 0 0 := by
    funext k
    have hk : k = 0 ∨ k = 1 ∨ k = 2 ∨ k = 3 := by fin_cases k <;> simp
    rcases hk with rfl | rfl | rfl | rfl <;>
      simp +decide [logEmissions, only, myLog, log_one_eq]
  simp only [computeEProbReg, gammaValuesReg, hk, binValues, hc, lt_irrefl, if_false,
    Bool.false_eq_true, eProbFromValues, he]
  simp +decide [only]

/-- The new matrix after the single transition `0 -> 0`, without the overwrite from the
restricted sums and without a minimum: `A[0][0] = 1`. -/
theorem updateTransMatrix_first_entry (options : AppOptions ℝ) (st : TransStats ℝ)
    (hthr : options.nThresholdForTransP = fin 0) (hmin : options.minTransProbCS = fin 0)
    (hp : ∀ i j, st.p i j = if i = 0 ∧ j = 0 then fin 1 else fin 0) :
    updateTransMatrix options (TransStats.zero.add st) 0 0 = fin 1 := by
  have h10 : ¬ ((1 : ℝ) ≤ 0) := by norm_num
  simp +decide [updateTransMatrix, keepMinTransProbCS, fixTrans23, normalizeFloor, setEntry,
    TransStats.add, TransStats.zero, hp, hthr, hmin, LD.fin_div_fin_eq, h10]

/-- The first two calls of an iteration of `baumWelch` for `GAMMA2_REG` on the engine with
the uniform transition matrix and the interval `twoSiteInterval 0 0 n`: both succeed, the
first leaves the engine as it is, and the second assigns `transMatrix[0][0] = 1`. -/
theorem training_calls_twoSite_reg (d1 d2 : GAMMA2_REG ℝ) (bin1 bin2 : ZTBIN ℝ)
    (options : AppOptions ℝ) (n : ℝ) (hd : d1.tp = fin 2)
    (hthr : options.nThresholdForTransP = fin 0) (hmin : options.minTransProbCS = fin 0) :
    computeEmissionProbs (computeEProbReg Real.log Real.exp) d1 d2 bin1 bin2 true options
      ⟨fun _ _ => fin (1 / 4), [twoSiteInterval 0 0 n], []⟩ =
        (true, ⟨fun _ _ => fin (1 / 4), [twoSiteInterval 0 0 n], []⟩) ∧
    (computeStatePosteriorsFBupdateTrans Real.log Real.exp options
      ⟨fun _ _ => fin (1 / 4), [twoSiteInterval 0 0 n], []⟩).1 = true ∧
    (computeStatePosteriorsFBupdateTrans Real.log Real.exp options
      ⟨fun _ _ => fin (1 / 4), [twoSiteInterval 0 0 n], []⟩).2.transMatrix 0 0 = fin 1 := by
  obtain ⟨hstop, hp, _, _⟩ := fbUpdateInterval_twoSite options 0 0 n
  obtain ⟨h1, h2⟩ := computeStatePosteriorsFBupdateTrans_single options _ _ hstop
  refine ⟨?_, h1, ?_⟩
  · have hs : ∀ c : ℝ, computeEProbReg Real.log Real.exp d1 d2 bin1 bin2
        ⟨fin 1, (0 : Fin 4).val % 2, fin c, fin 0⟩ options = (true, only 0 0) := by
      intro c
      exact computeEProbReg_state0 d1 d2 bin1 bin2 _ options (by rw [hd]; norm_num) rfl
    simp only [computeEmissionProbs, emissionInterval, twoSiteInterval, List.any_cons,
      List.any_nil, List.map_cons, List.map_nil, hs]
    norm_num
  · rw [h2]
    exact updateTransMatrix_first_entry options _ hthr hmin hp

/-- C40 fails as stated. A run of `baumWelch` for `GAMMA2_REG` on one interval, in which
`checkOrderG1G2` leaves the counter `trial` at 11: the first iteration's calls of
`computeEmissionProbs` and `computeStatePosteriorsFBupdateTrans` succeed, the run then
returns failure because `trial > 10`, and the transition matrix is the one that the pass
of this iteration assigned (`transMatrix[0][0] = 1`), not the one before the iteration
(`0.25`). -/
theorem failed_run_has_new_transMatrix :
    ∃ st_1 : BWState ℝ (GAMMA2_REG ℝ) (ZTBIN ℝ),
      baumWelch Real.log Real.exp (reseedingRegOps Real.log Real.exp) 1 (constGammaReg 2 1)
        (constGammaReg 2 1) (constBin 1) (constBin 1) "LEARN_GAMMA"
        (plainOptions Real.log Real.exp 5)
        ⟨fun _ _ => fin (1 / 4), [twoSiteInterval 0 0 0], []⟩ = some (false, st_1) ∧
      st_1.hmm.transMatrix 0 0 = fin 1 ∧
      st_1.hmm.transMatrix 0 0 ≠ fin (1 / 4) := by
  have hc := training_calls_twoSite_reg (constGammaReg 2 1) (constGammaReg 2 1) (constBin 1)
    (constBin 1) (plainOptions Real.log Real.exp 5).toAppOptions 0 rfl rfl rfl
  have hi := bwIteration_of_success (reseedingRegOps Real.log Real.exp) "LEARN_GAMMA"
    (plainOptions Real.log Real.exp 5) 0
    { hmm := ⟨fun _ _ => fin (1 / 4), [twoSiteInterval 0 0 0], []⟩, d1 := constGammaReg 2 1,
      d2 := constGammaReg 2 1, bin1 := constBin 1, bin2 := constBin 1,
      prev_d1 := constGammaReg 2 1, prev_d2 := constGammaReg 2 1, prev_bin1 := constBin 1,
      prev_bin2 := constBin 1, trial := 0 }
    (by
      show (computeEmissionProbs (computeEProbReg Real.log Real.exp) _ _ _ _ true _ _).1 = true
      rw [hc.1])
    (by
      show (computeStatePosteriorsFBupdateTrans Real.log Real.exp _
        (computeEmissionProbs (computeEProbReg Real.log Real.exp) _ _ _ _ true _ _).2).1 = true
      rw [hc.1]; exact hc.2.1)
  have hE : (computeEmissionProbs (reseedingRegOps Real.log Real.exp).computeEProb
      (constGammaReg 2 1) (constGammaReg 2 1) (constBin 1) (constBin 1) true
      (plainOptions Real.log Real.exp 5).toAppOptions
      ⟨fun _ _ => fin (1 / 4), [twoSiteInterval 0 0 0], []⟩).2 =
        ⟨fun _ _ => fin (1 / 4), [twoSiteInterval 0 0 0], []⟩ := by
    show (computeEmissionProbs (computeEProbReg Real.log Real.exp) _ _ _ _ true _ _).2 = _
    rw [hc.1]
  refine ⟨⟨(computeStatePosteriorsFBupdateTrans Real.log Real.exp
      (plainOptions Real.log Real.exp 5).toAppOptions
      ⟨fun _ _ => fin (1 / 4), [twoSiteInterval 0 0 0], []⟩).2,
    constGammaReg 2 1, constGammaReg 2 1, constBin 1, constBin 1,
    constGammaReg 2 1, constGammaReg 2 1, constBin 1, constBin 1, 11⟩, ?_, hc.2.2, ?_⟩
  · simp only [baumWelch, baumWelchLoop]
    rw [if_pos (by simp [plainOptions]), hi]
    simp only [hE]
    simp +decide only [bwUpdate, updateDensityParams, reseedingRegOps, updateDensityParams2Reg,
      reseedingGammaRegOps, if_true, if_false]
  · show (computeStatePosteriorsFBupdateTrans Real.log Real.exp _ _).2.transMatrix 0 0 ≠ _
    rw [hc.2.2]
    norm_num

/-- C40, amended. Whenever `computeStatePosteriorsFBupdateTrans` returns failure, the
transition matrix is the one before the call.  An iteration of `baumWelch` that ends with
`return false` ends the run with failure; if it failed in `computeEmissionProbs` or in
`computeStatePosteriorsFBupdateTrans`, the transition matrix is the one before the
iteration (the one committed by the previous iteration); if both calls succeeded, the
iteration failed because `trial > 10` after the update of the coverage densities, and the
transition matrix is the new one that the pass of this iteration assigned. -/
theorem failed_iteration_transMatrix {G B : Type} (ops : DensityOps ℝ G B) (learnTag : String)
    (options : BaumWelchOptions ℝ) (iter fuel : Nat) (st st_1 : BWState ℝ G B)
    (hit : iter < options.maxIter_bw)
    (hf : bwIteration Real.log Real.exp ops learnTag options iter st = BWStep.failed st_1) :
    (∀ (o : AppOptions ℝ) (h : HMM ℝ),
      (computeStatePosteriorsFBupdateTrans Real.log Real.exp o h).1 = false →
      (computeStatePosteriorsFBupdateTrans Real.log Real.exp o h).2.transMatrix =
        h.transMatrix) ∧
    baumWelchLoop Real.log Real.exp ops learnTag options (fuel + 1) iter st =
      some (false, st_1) ∧
    (((computeEmissionProbs ops.computeEProb st.d1 st.d2 st.bin1 st.bin2 true
        options.toAppOptions st.hmm).1 = false ∨
      (computeStatePosteriorsFBupdateTrans Real.log Real.exp options.toAppOptions
        (computeEmissionProbs ops.computeEProb st.d1 st.d2 st.bin1 st.bin2 true
          options.toAppOptions st.hmm).2).1 = false) →
      st_1.hmm.transMatrix = st.hmm.transMatrix) ∧
    ((computeEmissionProbs ops.computeEProb st.d1 st.d2 st.bin1 st.bin2 true
        options.toAppOptions st.hmm).1 = true →
      (computeStatePosteriorsFBupdateTrans Real.log Real.exp options.toAppOptions
        (computeEmissionProbs ops.computeEProb st.d1 st.d2 st.bin1 st.bin2 true
          options.toAppOptions st.hmm).2).1 = true →
      (learnTag == "LEARN_BINOMIAL") = false ∧ 10 < st_1.trial ∧
      st_1.hmm.transMatrix = updateTransMatrix options.toAppOptions
        (accumulatedStats Real.log Real.exp options.toAppOptions
          (computeEmissionProbs ops.computeEProb st.d1 st.d2 st.bin1 st.bin2 true
            options.toAppOptions st.hmm).2)) := by
  refine ⟨computeStatePosteriorsFBupdateTrans_failed, ?_, ?_, ?_⟩
  · simp only [baumWelchLoop, hit, if_true, hf]
  · intro hor
    by_cases he : (computeEmissionProbs ops.computeEProb st.d1 st.d2 st.bin1 st.bin2 true
        options.toAppOptions st.hmm).1 = true
    · have hfb : (computeStatePosteriorsFBupdateTrans Real.log Real.exp options.toAppOptions
          (computeEmissionProbs ops.computeEProb st.d1 st.d2 st.bin1 st.bin2 true
            options.toAppOptions st.hmm).2).1 = false := by
        rcases hor with h | h
        · rw [he] at h; exact absurd h (by simp)
        · exact h
      simp only [bwIteration, he, hfb, if_true, Bool.false_eq_true, if_false,
        BWStep.failed.injEq] at hf
      rw [← hf]
      exact (computeStatePosteriorsFBupdateTrans_failed _ _ hfb).trans
        (computeEmissionProbs_transMatrix _ _ _ _ _ _ _ _)
    · simp only [bwIteration, he, Bool.false_eq_true, if_false, BWStep.failed.injEq] at hf
      rw [← hf]
      exact computeEmissionProbs_transMatrix _ _ _ _ _ _ _ _
  · intro he hfb
    rw [bwIteration_of_success ops learnTag options iter st he hfb] at hf
    have hM := computeStatePosteriorsFBupdateTrans_success options.toAppOptions _ hfb
    simp only [bwUpdate] at hf
    split at hf
    · split at hf
      · exact absurd hf (bwConvergence_ne_failed ops learnTag options _ _ st_1)
      · rename_i hc
        exact absurd rfl hc
    · rename_i htag
      split at hf
      · split at hf
        · rename_i ht
          simp only [BWStep.failed.injEq] at hf
          rw [← hf]
          exact ⟨by simpa using htag, ht, hM⟩
        · exact absurd hf (bwConvergence_ne_failed ops learnTag options _ _ st_1)
      · rename_i hc
        exact absurd rfl hc

/-- Witness for `failed_iteration_transMatrix`: an iteration on an engine with
`transMatrix[2][2] = 0` and an interval of two positions at which only state 2 is
possible fails in the forward-backward pass, and the transition matrix of the failed run
is the one before the iteration. -/
theorem failed_iteration_transMatrix_witness :
    ∃ st_1 : BWState ℝ (GAMMA2 ℝ) (ZTBIN ℝ),
      baumWelchLoop Real.log Real.exp (constantOps Real.log) "LEARN_GAMMA"
        (plainOptions Real.log Real.exp 5) 1 0
        ⟨⟨zeroEntryMatrix, [twoSiteInterval 2 2 0], []⟩, constGamma 1 0, constGamma 1 1,
          constBin 1, constBin 1, constGamma 1 0, constGamma 1 1, constBin 1, constBin 1, 0⟩ =
        some (false, st_1) ∧
      st_1.hmm.transMatrix = zeroEntryMatrix := by
  have hs : ∀ c : ℝ, computeEProb Real.log (constGamma (1 : ℝ) 0) (constGamma 1 1) (constBin 1)
      (constBin 1) ⟨fin 1, (2 : Fin 4).val % 2, fin c, fin 0⟩
      (plainOptions Real.log Real.exp 5).toAppOptions = (true, only 2 0) := by
    intro c
    have he : logEmissions Real.log ((fin 0 : LD ℝ), (fin 1 : LD ℝ)) (fin 1, fin 0) =
        only 2 0 := by
      funext k
      have hk : k = 0 ∨ k = 1 ∨ k = 2 ∨ k = 3 := by fin_cases k <;> simp
      rcases hk with rfl | rfl | rfl | rfl <;>
        simp +decide [logEmissions, only, myLog, log_one_eq]
    simp only [computeEProb, gammaValues, constGamma, binValues, constBin, eProbFromValues]
    simp +decide only [le_fin_fin, le_refl, if_true, if_false]
    simp +decide [he, only]
  have hE : computeEmissionProbs (computeEProb Real.log) (constGamma (1 : ℝ) 0) (constGamma 1 1)
      (constBin 1) (constBin 1) true (plainOptions Real.log Real.exp 5).toAppOptions
      ⟨zeroEntryMatrix, [twoSiteInterval 2 2 0], []⟩ =
        (true, ⟨zeroEntryMatrix, [twoSiteInterval 2 2 0], []⟩) := by
    simp only [computeEmissionProbs, emissionInterval, twoSiteInterval, List.any_cons,
      List.any_nil, List.map_cons, List.map_nil, hs]
    norm_num
  have hB := fbUpdateInterval_blocked (plainOptions Real.log Real.exp 5).toAppOptions 0
  have hF : (computeStatePosteriorsFBupdateTrans Real.log Real.exp
      (plainOptions Real.log Real.exp 5).toAppOptions
      ⟨zeroEntryMatrix, [twoSiteInterval 2 2 0], []⟩).1 = false := by
    simp only [computeStatePosteriorsFBupdateTrans, List.any_cons, List.any_nil, hB.1,
      Bool.or_false, if_true]
  have hI : bwIteration Real.log Real.exp (constantOps Real.log) "LEARN_GAMMA"
      (plainOptions Real.log Real.exp 5) 0
      ⟨⟨zeroEntryMatrix, [twoSiteInterval 2 2 0], []⟩, constGamma 1 0, constGamma 1 1,
        constBin 1, constBin 1, constGamma 1 0, constGamma 1 1, constBin 1, constBin 1, 0⟩ =
      BWStep.failed
        ⟨(computeStatePosteriorsFBupdateTrans Real.log Real.exp
          (plainOptions Real.log Real.exp 5).toAppOptions
          ⟨zeroEntryMatrix, [twoSiteInterval 2 2 0], []⟩).2, constGamma 1 0, constGamma 1 1,
          constBin 1, constBin 1, constGamma 1 0, constGamma 1 1, constBin 1, constBin 1, 0⟩ := by
    simp only [bwIteration, constantOps, hE, hF, if_true, Bool.false_eq_true, if_false]
  have h := failed_iteration_transMatrix (constantOps Real.log) "LEARN_GAMMA"
    (plainOptions Real.log Real.exp 5) 0 0 _ _ (by simp [plainOptions]) hI
  refine ⟨_, h.2.1, ?_⟩
  exact h.2.2.1 (Or.inr (by
    show (computeStatePosteriorsFBupdateTrans Real.log Real.exp _
      (computeEmissionProbs (computeEProb Real.log) _ _ _ _ true _ _).2).1 = false
    rw [hE]; exact hF))


/-! ## The discard flag in the training pass -/

theorem fbUpdateInterval_setDiscard (options : AppOptions ℝ) (logA : Mat4 ℝ) (d : Bool)
    (iv : Interval ℝ) :
    (fbUpdateInterval Real.log Real.exp options logA (setDiscard d iv)).stop =
      (fbUpdateInterval Real.log Real.exp options logA iv).stop ∧
    (fbUpdateInterval Real.log Real.exp options logA (setDiscard d iv)).stats =
      (fbUpdateInterval Real.log Real.exp options logA iv).stats ∧
    (fbUpdateInterval Real.log Real.exp options logA (setDiscard d iv)).interval =
      setDiscard d (fbUpdateInterval Real.log Real.exp options logA iv).interval := by
  simp only [fbUpdateInterval, setDiscard]
  split
  · exact ⟨rfl, rfl, rfl⟩
  · split
    · exact ⟨rfl, rfl, rfl⟩
    · exact ⟨rfl, rfl, rfl⟩

theorem strandStats_setDiscard (options : AppOptions ℝ) (logA : Mat4 ℝ) (f : Interval ℝ → Bool) :
    ∀ (ivs : List (Interval ℝ)) (acc : TransStats ℝ),
      strandStats Real.log Real.exp options logA acc (ivs.map (fun iv => setDiscard (f iv) iv)) =
        strandStats Real.log Real.exp options logA acc ivs := by
  intro ivs
  induction ivs with
  | nil => intro acc; rfl
  | cons iv ivs ih =>
    intro acc
    simp only [strandStats, List.map_cons, List.foldl_cons] at ih ⊢
    rw [(fbUpdateInterval_setDiscard options logA (f iv) iv).2.1]
    exact ih _

/-- The new matrix after the transitions `2 -> 2` and `2 -> 3` of two intervals, without
the overwrite from the restricted sums and without a minimum: `A[2][2] = 1/2`. -/
theorem updateTransMatrix_two_intervals (options : AppOptions ℝ) (s_1 s_2 : TransStats ℝ)
    (hthr : options.nThresholdForTransP = fin 0) (hmin : options.minTransProbCS = fin 0)
    (hp1 : ∀ i j, s_1.p i j = if i = 2 ∧ j = 2 then fin 1 else fin 0)
    (hp2 : ∀ i j, s_2.p i j = if i = 2 ∧ j = 3 then fin 1 else fin 0) :
    updateTransMatrix options ((TransStats.zero.add s_1).add s_2) 2 2 = fin (1 / 2) ∧
    updateTransMatrix options (TransStats.zero.add s_1) 2 2 = fin 1 := by
  have h10 : ¬ ((1 : ℝ) ≤ 0) := by norm_num
  have h20 : ¬ ((1 : ℝ) / 2 ≤ 0) := by norm_num
  have hm := DBL_MIN_pos
  have hm0 : ¬ ((DBL_MIN : ℝ) < 0) := not_lt.mpr hm.le
  have hN : normalizeFloor ((TransStats.zero.add s_1).add s_2).p 2 2 = fin (1 / 2) ∧
      normalizeFloor ((TransStats.zero.add s_1).add s_2).p 2 3 = fin (1 / 2) := by
    simp only [normalizeFloor, TransStats.add, TransStats.zero, hp1, hp2]
    simp +decide only [if_true, if_false, and_true, and_false, true_and, false_and, fin_add_fin]
    norm_num [LD.fin_div_fin_eq]
  have hM : normalizeFloor (TransStats.zero.add s_1).p 2 2 = fin 1 ∧
      normalizeFloor (TransStats.zero.add s_1).p 2 3 = fin DBL_MIN := by
    simp only [normalizeFloor, TransStats.add, TransStats.zero, hp1]
    simp +decide only [if_true, if_false, and_true, and_false, true_and, false_and, fin_add_fin]
    norm_num [LD.fin_div_fin_eq]
  have hfix : ∀ (st : TransStats ℝ) (A : Mat4 ℝ), fixTrans23 options st A = A := by
    intro st A
    simp [fixTrans23, hthr]
  have h12 : ¬ ((1 : ℝ) / 2 < 0) := by norm_num
  constructor
  · simp only [updateTransMatrix, hfix, keepMinTransProbCS, hN.2, hmin, lt_fin_fin, h12]
    simp [hN.1]
  · simp only [updateTransMatrix, hfix, keepMinTransProbCS, hM.2, hmin, lt_fin_fin, hm0]
    simp [hM.1]

/-- C31 fails as stated. Under the uniform transition matrix, the pass on the interval with
the single transition `2 -> 2` together with a discarded interval with the single
transition `2 -> 3` succeeds and gives `transMatrix[2][2] = 1/2`; on the first interval
alone it gives `transMatrix[2][2] = 1`.  The discarded interval has contributed its
statistics. -/
theorem discarded_interval_contributes :
    (setDiscard true (twoSiteInterval 2 3 (0 : ℝ))).obs.discard = true ∧
    (computeStatePosteriorsFBupdateTrans Real.log Real.exp
      (plainOptions Real.log Real.exp 1).toAppOptions
      ⟨fun _ _ => fin (1 / 4),
        [twoSiteInterval 2 2 0, setDiscard true (twoSiteInterval 2 3 0)], []⟩).1 = true ∧
    (computeStatePosteriorsFBupdateTrans Real.log Real.exp
      (plainOptions Real.log Real.exp 1).toAppOptions
      ⟨fun _ _ => fin (1 / 4),
        [twoSiteInterval 2 2 0, setDiscard true (twoSiteInterval 2 3 0)], []⟩).2.transMatrix 2 2 =
      fin (1 / 2) ∧
    (computeStatePosteriorsFBupdateTrans Real.log Real.exp
      (plainOptions Real.log Real.exp 1).toAppOptions
      ⟨fun _ _ => fin (1 / 4), [twoSiteInterval 2 2 0], []⟩).1 = true ∧
    (computeStatePosteriorsFBupdateTrans Real.log Real.exp
      (plainOptions Real.log Real.exp 1).toAppOptions
      ⟨fun _ _ => fin (1 / 4), [twoSiteInterval 2 2 0], []⟩).2.transMatrix 2 2 = fin 1 := by
  obtain ⟨hs1, hp1, _, _⟩ :=
    fbUpdateInterval_twoSite (plainOptions Real.log Real.exp 1).toAppOptions 2 2 0
  obtain ⟨hs2, hp2, _, _⟩ :=
    fbUpdateInterval_twoSite (plainOptions Real.log Real.exp 1).toAppOptions 2 3 0
  have hd := fbUpdateInterval_setDiscard (plainOptions Real.log Real.exp 1).toAppOptions
    (logMatrix Real.log (fun _ _ => fin (1 / 4))) true (twoSiteInterval 2 3 0)
  have hm := updateTransMatrix_two_intervals (plainOptions Real.log Real.exp 1).toAppOptions
    _ _ rfl rfl hp1 hp2
  obtain ⟨h1, h2⟩ := computeStatePosteriorsFBupdateTrans_single
    (plainOptions Real.log Real.exp 1).toAppOptions _ _ hs1
  have hA : (computeStatePosteriorsFBupdateTrans Real.log Real.exp
      (plainOptions Real.log Real.exp 1).toAppOptions
      ⟨fun _ _ => fin (1 / 4),
        [twoSiteInterval 2 2 0, setDiscard true (twoSiteInterval 2 3 0)], []⟩).1 = true ∧
    (computeStatePosteriorsFBupdateTrans Real.log Real.exp
      (plainOptions Real.log Real.exp 1).toAppOptions
      ⟨fun _ _ => fin (1 / 4),
        [twoSiteInterval 2 2 0, setDiscard true (twoSiteInterval 2 3 0)], []⟩).2.transMatrix =
      updateTransMatrix (plainOptions Real.log Real.exp 1).toAppOptions
        ((TransStats.zero.add (fbUpdateInterval Real.log Real.exp
          (plainOptions Real.log Real.exp 1).toAppOptions
          (logMatrix Real.log (fun _ _ => fin (1 / 4))) (twoSiteInterval 2 2 0)).stats).add
          (fbUpdateInterval Real.log Real.exp (plainOptions Real.log Real.exp 1).toAppOptions
          (logMatrix Real.log (fun _ _ => fin (1 / 4))) (twoSiteInterval 2 3 0)).stats) := by
    simp only [computeStatePosteriorsFBupdateTrans, List.any_cons, List.any_nil, hs1, hd.1, hs2,
      Bool.or_false, Bool.false_eq_true, if_false, accumulatedStats, strandStats,
      List.foldl_cons, List.foldl_nil, hd.2.1, true_and]
  refine ⟨rfl, hA.1, ?_, h1, ?_⟩
  · rw [hA.2]; exact hm.1
  · rw [h2]; exact hm.2

/-- C31, amended. The training pass does not read the discard flags: whatever flags
`f` assigns to the intervals, the pass on the engine with these flags has the same result
and assigns the same transition matrix as on the given engine, the accumulated statistics
are the same, and it leaves the same intervals up to the flags on both strands: every
interval of the forward strand, and every interval of the reverse strand when no interval
of the forward strand stopped the pass, is the interval that the pass on the given engine
leaves, with the flag that `f` assigned; otherwise the reverse strand is as it was.  So an
interval whose discard flag is set contributes its statistics exactly as it does with the
flag cleared. -/
theorem pass_ignores_discard_flags (options : AppOptions ℝ) (h : HMM ℝ)
    (f : Interval ℝ → Bool) :
    (computeStatePosteriorsFBupdateTrans Real.log Real.exp options
      ⟨h.transMatrix, h.fwd.map (fun iv => setDiscard (f iv) iv),
        h.rev.map (fun iv => setDiscard (f iv) iv)⟩).1 =
      (computeStatePosteriorsFBupdateTrans Real.log Real.exp options h).1 ∧
    (computeStatePosteriorsFBupdateTrans Real.log Real.exp options
      ⟨h.transMatrix, h.fwd.map (fun iv => setDiscard (f iv) iv),
        h.rev.map (fun iv => setDiscard (f iv) iv)⟩).2.transMatrix =
      (computeStatePosteriorsFBupdateTrans Real.log Real.exp options h).2.transMatrix ∧
    accumulatedStats Real.log Real.exp options
      ⟨h.transMatrix, h.fwd.map (fun iv => setDiscard (f iv) iv),
        h.rev.map (fun iv => setDiscard (f iv) iv)⟩ =
      accumulatedStats Real.log Real.exp options h ∧
    (computeStatePosteriorsFBupdateTrans Real.log Real.exp options
      ⟨h.transMatrix, h.fwd.map (fun iv => setDiscard (f iv) iv),
        h.rev.map (fun iv => setDiscard (f iv) iv)⟩).2.fwd =
      h.fwd.map (fun iv => setDiscard (f iv)
        (fbUpdateInterval Real.log Real.exp options (logMatrix Real.log h.transMatrix)
          iv).interval) ∧
    (computeStatePosteriorsFBupdateTrans Real.log Real.exp options
      ⟨h.transMatrix, h.fwd.map (fun iv => setDiscard (f iv) iv),
        h.rev.map (fun iv => setDiscard (f iv) iv)⟩).2.rev =
      (if h.fwd.any (fun iv => (fbUpdateInterval Real.log Real.exp options
          (logMatrix Real.log h.transMatrix) iv).stop) then
        h.rev.map (fun iv => setDiscard (f iv) iv)
      else
        h.rev.map (fun iv => setDiscard (f iv)
          (fbUpdateInterval Real.log Real.exp options (logMatrix Real.log h.transMatrix)
            iv).interval)) ∧
    (computeStatePosteriorsFBupdateTrans Real.log Real.exp options h).2.rev =
      (if h.fwd.any (fun iv => (fbUpdateInterval Real.log Real.exp options
          (logMatrix Real.log h.transMatrix) iv).stop) then h.rev
      else
        h.rev.map (fun iv =>
          (fbUpdateInterval Real.log Real.exp options (logMatrix Real.log h.transMatrix)
            iv).interval)) ∧
    ((computeStatePosteriorsFBupdateTrans Real.log Real.exp options
      ⟨h.transMatrix, h.fwd.map (fun iv => setDiscard (f iv) iv),
        h.rev.map (fun iv => setDiscard (f iv) iv)⟩).2.fwd.map (setDiscard false) =
      (computeStatePosteriorsFBupdateTrans Real.log Real.exp options h).2.fwd.map
        (setDiscard false)) ∧
    ((computeStatePosteriorsFBupdateTrans Real.log Real.exp options
      ⟨h.transMatrix, h.fwd.map (fun iv => setDiscard (f iv) iv),
        h.rev.map (fun iv => setDiscard (f iv) iv)⟩).2.rev.map (setDiscard false) =
      (computeStatePosteriorsFBupdateTrans Real.log Real.exp options h).2.rev.map
        (setDiscard false)) := by
  have hst : accumulatedStats Real.log Real.exp options
      ⟨h.transMatrix, h.fwd.map (fun iv => setDiscard (f iv) iv),
        h.rev.map (fun iv => setDiscard (f iv) iv)⟩ =
      accumulatedStats Real.log Real.exp options h := by
    simp only [accumulatedStats, strandStats_setDiscard]
  have hany : ∀ ivs : List (Interval ℝ),
      (ivs.map (fun iv => setDiscard (f iv) iv)).any (fun iv =>
        (fbUpdateInterval Real.log Real.exp options (logMatrix Real.log h.transMatrix)
          iv).stop) =
      ivs.any (fun iv => (fbUpdateInterval Real.log Real.exp options
        (logMatrix Real.log h.transMatrix) iv).stop) := by
    intro ivs
    rw [List.any_map]
    congr 1
    funext iv
    exact (fbUpdateInterval_setDiscard options _ (f iv) iv).1
  have hmap : ∀ ivs : List (Interval ℝ),
      (ivs.map (fun iv => setDiscard (f iv) iv)).map (fun iv =>
        (fbUpdateInterval Real.log Real.exp options (logMatrix Real.log h.transMatrix)
          iv).interval) =
      ivs.map (fun iv => setDiscard (f iv)
        (fbUpdateInterval Real.log Real.exp options (logMatrix Real.log h.transMatrix)
          iv).interval) := by
    intro ivs
    simp only [List.map_map]
    exact List.map_congr_left (fun iv _ => (fbUpdateInterval_setDiscard options _ (f iv) iv).2.2)
  have hclear : ∀ (g : Interval ℝ → Interval ℝ) (ivs : List (Interval ℝ)),
      (ivs.map (fun iv => setDiscard (f iv) (g iv))).map (setDiscard false) =
        (ivs.map g).map (setDiscard false) := by
    intro g ivs
    simp only [List.map_map]
    exact List.map_congr_left (fun iv _ => rfl)
  have hfwd : (computeStatePosteriorsFBupdateTrans Real.log Real.exp options
      ⟨h.transMatrix, h.fwd.map (fun iv => setDiscard (f iv) iv),
        h.rev.map (fun iv => setDiscard (f iv) iv)⟩).2.fwd =
      h.fwd.map (fun iv => setDiscard (f iv)
        (fbUpdateInterval Real.log Real.exp options (logMatrix Real.log h.transMatrix)
          iv).interval) := by
    rw [computeStatePosteriorsFBupdateTrans_fwd]
    exact hmap h.fwd
  have hrev : (computeStatePosteriorsFBupdateTrans Real.log Real.exp options
      ⟨h.transMatrix, h.fwd.map (fun iv => setDiscard (f iv) iv),
        h.rev.map (fun iv => setDiscard (f iv) iv)⟩).2.rev =
      (if h.fwd.any (fun iv => (fbUpdateInterval Real.log Real.exp options
          (logMatrix Real.log h.transMatrix) iv).stop) then
        h.rev.map (fun iv => setDiscard (f iv) iv)
      else
        h.rev.map (fun iv => setDiscard (f iv)
          (fbUpdateInterval Real.log Real.exp options (logMatrix Real.log h.transMatrix)
            iv).interval)) := by
    simp only [computeStatePosteriorsFBupdateTrans, hany, hmap]
    split
    · rfl
    · split <;> rfl
  have hrev_0 : (computeStatePosteriorsFBupdateTrans Real.log Real.exp options h).2.rev =
      (if h.fwd.any (fun iv => (fbUpdateInterval Real.log Real.exp options
          (logMatrix Real.log h.transMatrix) iv).stop) then h.rev
      else
        h.rev.map (fun iv =>
          (fbUpdateInterval Real.log Real.exp options (logMatrix Real.log h.transMatrix)
            iv).interval)) := by
    simp only [computeStatePosteriorsFBupdateTrans]
    split
    · rfl
    · split <;> rfl
  refine ⟨?_, ?_, hst, hfwd, hrev, hrev_0, ?_, ?_⟩
  · simp only [computeStatePosteriorsFBupdateTrans, hany]
    split
    · rfl
    · split <;> rfl
  · simp only [computeStatePosteriorsFBupdateTrans, hany, hst]
    split
    · rfl
    · split <;> rfl
  · rw [hfwd, computeStatePosteriorsFBupdateTrans_fwd]
    exact hclear _ h.fwd
  · rw [hrev, hrev_0]
    split
    · have := hclear (fun iv => iv) h.rev
      simpa using this
    · exact hclear _ h.rev


/-! ## Every crosslink position is in exactly one region record -/

theorem crosslinkPositionsFrom_length :
    ∀ (xs : List Nat) (t : Nat), (crosslinkPositionsFrom t xs).length = xs.count 3 := by
  intro xs
  induction xs with
  | nil => intro t; rfl
  | cons x xs ih =>
    intro t
    simp only [crosslinkPositionsFrom]
    split
    · rename_i hx
      subst hx
      simp [ih]
    · rename_i hx
      rw [ih, List.count_cons_of_ne (fun h => hx h.symm)]

theorem crosslinkPositionsFrom_nodup (xs : List Nat) (t : Nat) :
    (crosslinkPositionsFrom t xs).Nodup :=
  (List.chain'_iff_pairwise.mp (crosslinkPositionsFrom_sorted xs t)).imp (fun h => ne_of_lt h)

theorem groupName_scoreCount {showDouble : LD ℝ → String} (score : Nat → LD ℝ)
    (hshow : ∀ x, ';' ∉ (showDouble x).data) (g : Nat × List Nat) :
    scoreCount (groupName showDouble score g) = (g.1 :: g.2).length := by
  have key : ∀ l : List Nat,
      ((l.map (fun t => showDouble (score t) ++ ";")).map String.data).flatten.count ';' =
        l.length := by
    intro l
    induction l with
    | nil => rfl
    | cons a l ih =>
      simp only [List.map_cons, List.flatten_cons, List.count_append, ih, String.data_append,
        List.count_eq_zero_of_not_mem (hshow (score a)), List.length_cons]
      have : List.count ';' [';'] = 1 := by decide
      omega
  simp only [scoreCount, groupName, String.data_join]
  exact key _

/-- The records of one interval that is not discarded: their names hold, in total, one
individual score per position with state 3. -/
theorem writeRegionsInterval_scoreCount (env : RegionEnv ℝ)
    (hshow : ∀ x, ';' ∉ (env.showDouble x).data) (s : Bool) (iv : DataInterval ℝ) :
    ((writeRegionsInterval Real.log env s iv).map (fun r => scoreCount r.name)).sum =
      if iv.discard then 0 else iv.states.count 3 := by
  rw [writeRegionsInterval_eq]
  by_cases hd : iv.discard = true
  · simp [hd]
  · simp only [hd, Bool.false_eq_true, if_false, List.map_map]
    have e : ∀ g : Nat × List Nat,
        ((fun r : BedRecord => scoreCount r.name) ∘ (fun g => closeRegion env s
          (regionOfGroup Real.log env s iv.setPos (posteriorsAt iv) g))) g =
        (List.length ∘ (fun g : Nat × List Nat => g.1 :: g.2)) g := by
      intro g
      simp only [Function.comp, closeRegion,
        (regionOfGroup_scores env s iv.setPos (posteriorsAt iv) g).2]
      exact groupName_scoreCount _ hshow g
    rw [List.map_congr_left (fun g _ => e g), ← List.map_map, ← List.length_flatten,
      mergeGroups_flatten, crosslinkPositionsFrom_length]

theorem sum_scoreCount_flatten (env : RegionEnv ℝ)
    (hshow : ∀ x, ';' ∉ (env.showDouble x).data) (s : Bool) :
    ∀ ivs : List (DataInterval ℝ),
      (((ivs.map (writeRegionsInterval Real.log env s)).flatten).map
        (fun r => scoreCount r.name)).sum =
      ((ivs.filter (fun iv => !iv.discard)).map (fun iv => iv.states.count 3)).sum := by
  intro ivs
  induction ivs with
  | nil => rfl
  | cons iv ivs ih =>
    simp only [List.map_cons, List.flatten_cons, List.map_append, List.sum_append, ih,
      writeRegionsInterval_scoreCount env hshow s iv, List.filter_cons]
    by_cases hd : iv.discard = true
    · simp [hd]
    · simp [hd]

/-- C36. When the output of a `double` contains no `;`: for every interval that is not
discarded, the names of the records of `writeRegions` are those of the groups of its
crosslink positions, the name of a group holds one individual score per position of the
group, every position with state 3 occurs exactly once in exactly one group and a position
with another state in none, so the names hold one individual score per position with
state 3; a discarded interval gives no record; and the total number of individual scores
over all records that `writeRegions` appends equals the number of positions with state 3
in the intervals that are not discarded. -/
theorem regions_account_for_crosslinks (env : RegionEnv ℝ) (data : Data ℝ)
    (hshow : ∀ x, ';' ∉ (env.showDouble x).data) :
    (∀ (s : Bool) (iv : DataInterval ℝ), iv.discard = false →
      (writeRegionsInterval Real.log env s iv).map (fun r => r.name) =
        (mergeGroups env.distMerge (crosslinkPositionsFrom 0 iv.states)).map
          (groupName env.showDouble (fun t => ratioScore Real.log env 3 (posteriorsAt iv t))) ∧
      (∀ g : Nat × List Nat,
        scoreCount (groupName env.showDouble
          (fun t => ratioScore Real.log env 3 (posteriorsAt iv t)) g) = (g.1 :: g.2).length) ∧
      (∀ u : Nat, ((mergeGroups env.distMerge (crosslinkPositionsFrom 0 iv.states)).map
          (fun g => (g.1 :: g.2).count u)).sum = if iv.states[u]? = some 3 then 1 else 0) ∧
      ((writeRegionsInterval Real.log env s iv).map (fun r => scoreCount r.name)).sum =
        iv.states.count 3) ∧
    (∀ (s : Bool) (iv : DataInterval ℝ), iv.discard = true →
      writeRegionsInterval Real.log env s iv = []) ∧
    ((writeRegions Real.log env [] data).map (fun r => scoreCount r.name)).sum =
      (((data.fwd ++ data.rev).filter (fun iv => !iv.discard)).map
        (fun iv => iv.states.count 3)).sum := by
  refine ⟨?_, ?_, ?_⟩
  · intro s iv hd
    refine ⟨?_, fun g => groupName_scoreCount _ hshow g, ?_, ?_⟩
    · rw [writeRegionsInterval_eq]
      simp only [hd, Bool.false_eq_true, if_false, List.map_map]
      refine List.map_congr_left (fun g _ => ?_)
      simp only [Function.comp, closeRegion,
        (regionOfGroup_scores env s iv.setPos (posteriorsAt iv) g).2]
    · intro u
      have hc := List.count_flatten u
        ((mergeGroups env.distMerge (crosslinkPositionsFrom 0 iv.states)).map
          (fun g => g.1 :: g.2))
      rw [mergeGroups_flatten, List.map_map] at hc
      have hm := crosslinkPositionsFrom_mem iv.states 0 u
      simp only [Nat.zero_le, true_and, Nat.sub_zero] at hm
      have e : (List.count u ∘ fun g : Nat × List Nat => g.1 :: g.2) =
          fun g => (g.1 :: g.2).count u := rfl
      rw [e] at hc
      rw [← hc]
      by_cases h3 : iv.states[u]? = some 3
      · rw [if_pos h3]
        exact List.count_eq_one_of_mem (crosslinkPositionsFrom_nodup _ _) (hm.mpr h3)
      · rw [if_neg h3]
        exact List.count_eq_zero_of_not_mem (fun h => h3 (hm.mp h))
    · rw [writeRegionsInterval_scoreCount env hshow s iv]
      simp [hd]
  · intro s iv hd
    simp [writeRegionsInterval, hd]
  · simp only [writeRegions, List.nil_append, List.map_append, List.sum_append,
      sum_scoreCount_flatten env hshow, List.filter_append]

/-- Witness for `regions_account_for_crosslinks`: a forward-strand interval with the states
`3, 0, 3`, a discarded one with the state `3`, and a reverse-strand interval with the
states `3, 3`; the names of the records hold four individual scores. -/
theorem regions_account_for_crosslinks_witness :
    ((writeRegions Real.log (plainRegionEnv : RegionEnv ℝ) []
      ⟨[⟨false, 10, [3, 0, 3], []⟩, ⟨true, 20, [3], []⟩], [⟨false, 30, [3, 3], []⟩]⟩).map
        (fun r => scoreCount r.name)).sum = 4 :=
  (regions_account_for_crosslinks plainRegionEnv
    ⟨[⟨false, 10, [3, 0, 3], []⟩, ⟨true, 20, [3], []⟩], [⟨false, 30, [3, 3], []⟩]⟩
    (fun _ => by
      show ';' ∉ ("s" : String).data
      decide)).2.2


/-! ## The normalisers of a forward-backward pass -/

theorem linear_add {a b : LD ℝ} (ha : a.IsLogValue) (hb : b.IsLogValue) :
    linear Real.exp (a + b) = linear Real.exp a * linear Real.exp b := by
  rcases ha with rfl | ⟨x, rfl⟩ <;> rcases hb with rfl | ⟨y, rfl⟩ <;>
    simp [linear, Real.exp_add]

theorem eq_of_linear_eq {a b : LD ℝ} (ha : a.IsLogValue) (hb : b.IsLogValue)
    (h : linear Real.exp a = linear Real.exp b) : a = b := by
  rcases ha with rfl | ⟨x, rfl⟩ <;> rcases hb with rfl | ⟨y, rfl⟩
  · rfl
  · simp only [linear] at h
    exact absurd h.symm (Real.exp_pos y).ne'
  · simp only [linear] at h
    exact absurd h (Real.exp_pos x).ne'
  · simp only [linear] at h
    rw [Real.exp_eq_exp.mp h]

/-- The sum over the states of the probabilities that `a[k] + b[k]` stand for. -/
theorem posteriorNorm_linear {lookUp : LD ℝ → LD ℝ → LD ℝ} (hL : ExactLogSumExp lookUp)
    {a b : Vec4 ℝ} (ha : ∀ k, (a k).IsLogValue) (hb : ∀ k, (b k).IsLogValue) :
    (posteriorNorm lookUp a b).IsLogValue ∧
    linear Real.exp (posteriorNorm lookUp a b) =
      linear Real.exp (a 0) * linear Real.exp (b 0) +
      linear Real.exp (a 1) * linear Real.exp (b 1) +
      linear Real.exp (a 2) * linear Real.exp (b 2) +
      linear Real.exp (a 3) * linear Real.exp (b 3) := by
  have h := get_logSumExp_states_linear hL ((ha 0).add (hb 0)) ((ha 1).add (hb 1))
    ((ha 2).add (hb 2)) ((ha 3).add (hb 3))
  refine ⟨h.1, ?_⟩
  rw [posteriorNorm, h.2, linear_add (ha 0) (hb 0), linear_add (ha 1) (hb 1),
    linear_add (ha 2) (hb 2), linear_add (ha 3) (hb 3)]

theorem forwardStep_linear {lookUp : LD ℝ → LD ℝ → LD ℝ} (hL : ExactLogSumExp lookUp)
    {logA : Mat4 ℝ} (hA : ∀ k_1 k_2, ∃ r, logA k_1 k_2 = fin r) {prev e : Vec4 ℝ}
    (hp : ∀ k, (prev k).IsLogValue) (he : ∀ k, (e k).IsLogValue) (k : Fin 4) :
    linear Real.exp (forwardStep lookUp logA prev e k) =
      (linear Real.exp (prev 0) * linear Real.exp (logA 0 k) +
        linear Real.exp (prev 1) * linear Real.exp (logA 1 k) +
        linear Real.exp (prev 2) * linear Real.exp (logA 2 k) +
        linear Real.exp (prev 3) * linear Real.exp (logA 3 k)) * linear Real.exp (e k) := by
  have hl : ∀ j, (logA j k).IsLogValue := fun j => by
    obtain ⟨r, hr⟩ := hA j k
    rw [hr]; exact LD.IsLogValue.fin r
  have h : ∀ j, (prev j + logA j k + e k).IsLogValue ∧
      linear Real.exp (prev j + logA j k + e k) =
        linear Real.exp (prev j) * linear Real.exp (logA j k) * linear Real.exp (e k) :=
    fun j => ⟨((hp j).add (hl j)).add (he k), by
      rw [linear_add ((hp j).add (hl j)) (he k), linear_add (hp j) (hl j)]⟩
  rw [forwardStep, (get_logSumExp_states_linear hL (h 0).1 (h 1).1 (h 2).1 (h 3).1).2,
    (h 0).2, (h 1).2, (h 2).2, (h 3).2]
  ring

theorem backwardStep_linear {lookUp : LD ℝ → LD ℝ → LD ℝ} (hL : ExactLogSumExp lookUp)
    {logA : Mat4 ℝ} (hA : ∀ k_1 k_2, ∃ r, logA k_1 k_2 = fin r) {next e : Vec4 ℝ}
    (hn : ∀ k, (next k).IsLogValue) (he : ∀ k, (e k).IsLogValue) (k : Fin 4) :
    linear Real.exp (backwardStep lookUp logA next e k) =
      linear Real.exp (next 0) * linear Real.exp (logA k 0) * linear Real.exp (e 0) +
      linear Real.exp (next 1) * linear Real.exp (logA k 1) * linear Real.exp (e 1) +
      linear Real.exp (next 2) * linear Real.exp (logA k 2) * linear Real.exp (e 2) +
      linear Real.exp (next 3) * linear Real.exp (logA k 3) * linear Real.exp (e 3) := by
  have hl : ∀ j, (logA k j).IsLogValue := fun j => by
    obtain ⟨r, hr⟩ := hA k j
    rw [hr]; exact LD.IsLogValue.fin r
  have h : ∀ j, (next j + logA k j + e j).IsLogValue ∧
      linear Real.exp (next j + logA k j + e j) =
        linear Real.exp (next j) * linear Real.exp (logA k j) * linear Real.exp (e j) :=
    fun j => ⟨((hn j).add (hl j)).add (he j), by
      rw [linear_add ((hn j).add (hl j)) (he j), linear_add (hn j) (hl j)]⟩
  rw [backwardStep, (get_logSumExp_states_linear hL (h 0).1 (h 1).1 (h 2).1 (h 3).1).2,
    (h 0).2, (h 1).2, (h 2).2, (h 3).2]

/-- One step of the recursions: the normaliser of a position equals that of the next
position. -/
theorem posteriorNorm_step {lookUp : LD ℝ → LD ℝ → LD ℝ} (hL : ExactLogSumExp lookUp)
    {logA : Mat4 ℝ} (hA : ∀ k_1 k_2, ∃ r, logA k_1 k_2 = fin r) {prev e next : Vec4 ℝ}
    (hp : ∀ k, (prev k).IsLogValue) (he : ∀ k, (e k).IsLogValue)
    (hn : ∀ k, (next k).IsLogValue) :
    posteriorNorm lookUp prev (backwardStep lookUp logA next e) =
      posteriorNorm lookUp (forwardStep lookUp logA prev e) next := by
  have hb := fun k => backwardStep_isLogValue hL hA hn he k
  have hf := fun k => forwardStep_isLogValue hL hA hp he k
  have h1 := posteriorNorm_linear hL hp hb
  have h2 := posteriorNorm_linear hL hf hn
  refine eq_of_linear_eq h1.1 h2.1 ?_
  rw [h1.2, h2.2, backwardStep_linear hL hA hn he 0, backwardStep_linear hL hA hn he 1,
    backwardStep_linear hL hA hn he 2, backwardStep_linear hL hA hn he 3,
    forwardStep_linear hL hA hp he 0, forwardStep_linear hL hA hp he 1,
    forwardStep_linear hL hA hp he 2, forwardStep_linear hL hA hp he 3]
  ring

theorem lseRow_linear {lookUp : LD ℝ → LD ℝ → LD ℝ} (hL : ExactLogSumExp lookUp)
    {norm : LD ℝ} {row : Vec4 ℝ} (hn : norm.IsLogValue) (hr : ∀ k, (row k).IsLogValue) :
    (lseRow lookUp norm row).IsLogValue ∧
    linear Real.exp (lseRow lookUp norm row) =
      linear Real.exp norm + linear Real.exp (row 0) + linear Real.exp (row 1) +
        linear Real.exp (row 2) + linear Real.exp (row 3) := by
  have h0 := get_logSumExp_linear hL hn (hr 0)
  have h1 := get_logSumExp_linear hL h0.1 (hr 1)
  have h2 := get_logSumExp_linear hL h1.1 (hr 2)
  have h3 := get_logSumExp_linear hL h2.1 (hr 3)
  exact ⟨h3.1, by rw [lseRow, h3.2, h2.2, h1.2, h0.2]⟩

/-- The normaliser of the `xis` of a position equals the normaliser of its posteriors. -/
theorem xiNorm_eq_posteriorNorm {lookUp : LD ℝ → LD ℝ → LD ℝ} (hL : ExactLogSumExp lookUp)
    {logA : Mat4 ℝ} (hA : ∀ k_1 k_2, ∃ r, logA k_1 k_2 = fin r) {aPrev e b : Vec4 ℝ}
    (hp : ∀ k, (aPrev k).IsLogValue) (he : ∀ k, (e k).IsLogValue)
    (hb : ∀ k, (b k).IsLogValue) :
    xiNorm lookUp (xiAt logA aPrev e b) =
      posteriorNorm lookUp (forwardStep lookUp logA aPrev e) b := by
  have hl : ∀ j k, (logA j k).IsLogValue := fun j k => by
    obtain ⟨r, hr⟩ := hA j k
    rw [hr]; exact LD.IsLogValue.fin r
  have hx : ∀ j k, (xiAt logA aPrev e b j k).IsLogValue ∧
      linear Real.exp (xiAt logA aPrev e b j k) =
        linear Real.exp (aPrev j) * linear Real.exp (logA j k) * linear Real.exp (e k) *
          linear Real.exp (b k) :=
    fun j k => ⟨(((hp j).add (hl j k)).add (he k)).add (hb k), by
      rw [xiAt, linear_add (((hp j).add (hl j k)).add (he k)) (hb k),
        linear_add ((hp j).add (hl j k)) (he k), linear_add (hp j) (hl j k)]⟩
  have r0 := lseRow_linear hL LD.IsLogValue.nan (fun k => (hx 0 k).1)
  have r1 := lseRow_linear hL r0.1 (fun k => (hx 1 k).1)
  have r2 := lseRow_linear hL r1.1 (fun k => (hx 2 k).1)
  have r3 := lseRow_linear hL r2.1 (fun k => (hx 3 k).1)
  have hf := fun k => forwardStep_isLogValue hL hA hp he k
  have h2 := posteriorNorm_linear hL hf hb
  refine eq_of_linear_eq r3.1 h2.1 ?_
  have hnan : linear Real.exp (nan : LD ℝ) = 0 := rfl
  rw [xiNorm, r3.2, r2.2, r1.2, r0.2, h2.2, hnan]
  simp only [fun j k => (hx j k).2, fun k => forwardStep_linear hL hA hp he k]
  ring

/-- Along the tables of `iForwardFrom` and `iBackward` the normaliser of the posteriors
is the same at every position. -/
theorem posteriorNorm_const {lookUp : LD ℝ → LD ℝ → LD ℝ} (hL : ExactLogSumExp lookUp)
    {logA : Mat4 ℝ} (hA : ∀ k_1 k_2, ∃ r, logA k_1 k_2 = fin r) :
    ∀ (es : List (Vec4 ℝ)) (prev e_0 : Vec4 ℝ) (as bs : List (Vec4 ℝ)),
      (∀ k, (prev k).IsLogValue) → (∀ e ∈ es, ∀ k, (e k).IsLogValue) →
      iForwardFrom lookUp logA prev es = some as →
      iBackward Real.log lookUp logA (e_0 :: es) = some bs →
      (∀ a ∈ prev :: as, ∀ k, (a k).IsLogValue) ∧ (∀ b ∈ bs, ∀ k, (b k).IsLogValue) ∧
      (∀ (t : Nat) (a b : Vec4 ℝ), (prev :: as)[t]? = some a → bs[t]? = some b →
        posteriorNorm lookUp a b =
          get_logSumExp_states lookUp (((prev :: as).getLast (by simp)) 0)
            (((prev :: as).getLast (by simp)) 1) (((prev :: as).getLast (by simp)) 2)
            (((prev :: as).getLast (by simp)) 3)) ∧
      (∀ (t : Nat) (a e : Vec4 ℝ), (prev :: as)[t]? = some a → es[t]? = some e →
        as[t]? = some (forwardStep lookUp logA a e)) := by
  intro es
  induction es with
  | nil =>
    intro prev e_0 as bs hp _ hF hB
    simp only [iForwardFrom, Option.some.injEq] at hF
    simp only [iBackward, Option.some.injEq] at hB
    subst hF hB
    refine ⟨?_, ?_, ?_, ?_⟩
    · intro a ha
      simp only [List.mem_singleton] at ha
      subst ha; exact hp
    · intro b hb k
      simp only [List.mem_singleton] at hb
      subst hb
      rw [log_one_eq]; exact LD.IsLogValue.fin 0
    · intro t a b ha hb
      cases t with
      | zero =>
        simp only [List.getElem?_cons_zero, Option.some.injEq] at ha hb
        subst ha hb
        simp only [posteriorNorm, log_one_eq, List.getLast_singleton]
        have e : ∀ k, prev k + fin 0 = prev k := fun k => by
          rcases hp k with h | ⟨x, h⟩ <;> simp [h]
        simp only [e]
      | succ t => simp at ha
    · intro t a e _ he
      simp at he
  | cons e es ih =>
    intro prev e_0 as bs hp he hF hB
    have he_1 : ∀ k, (e k).IsLogValue := he e (List.mem_cons_self _ _)
    have hes : ∀ x ∈ es, ∀ k, (x k).IsLogValue := fun x hx => he x (List.mem_cons_of_mem _ hx)
    simp only [iForwardFrom] at hF
    split at hF
    · exact absurd hF (by simp)
    · simp only [Option.map_eq_some'] at hF
      obtain ⟨as_1, hF_1, rfl⟩ := hF
      simp only [iBackward] at hB
      split at hB
      · rename_i next bs_1 hB_1
        split at hB
        · exact absurd hB (by simp)
        · simp only [Option.some.injEq] at hB
          subst hB
          have hstep := fun k => forwardStep_isLogValue hL hA hp he_1 k
          obtain ⟨i1, i2, i3, i4⟩ := ih (forwardStep lookUp logA prev e) e as_1 (next :: bs_1)
            hstep hes hF_1 hB_1
          have hnext : ∀ k, (next k).IsLogValue := i2 next (List.mem_cons_self _ _)
          refine ⟨?_, ?_, ?_, ?_⟩
          · intro a ha
            rcases List.mem_cons.mp ha with rfl | ha
            · exact hp
            · exact i1 a ha
          · intro b hb
            rcases List.mem_cons.mp hb with rfl | hb
            · exact fun k => backwardStep_isLogValue hL hA hnext he_1 k
            · exact i2 b hb
          · intro t a b ha hb
            have hlast : (prev :: forwardStep lookUp logA prev e :: as_1).getLast (by simp) =
                (forwardStep lookUp logA prev e :: as_1).getLast (by simp) :=
              List.getLast_cons (by simp)
            simp only [hlast]
            cases t with
            | zero =>
              simp only [List.getElem?_cons_zero, Option.some.injEq] at ha hb
              subst ha hb
              rw [posteriorNorm_step hL hA hp he_1 hnext]
              exact i3 0 _ _ (by simp) (by simp)
            | succ t =>
              simp only [List.getElem?_cons_succ] at ha hb
              exact i3 t a b ha hb
          · intro t a e_1 ha he_2
            cases t with
            | zero =>
              simp only [List.getElem?_cons_zero, Option.some.injEq] at ha he_2
              subst ha he_2
              simp
            | succ t =>
              simp only [List.getElem?_cons_succ] at ha he_2 ⊢
              exact i4 t a e_1 ha he_2
      · exact absurd hB (by simp)

/-- C35. For an interval with strictly positive transition entries, an exact log-sum-exp,
finite initial probabilities and log-space emission entries, `iForward` and `iBackward`
succeed with one row per position, and with `aT` the last row of `alphas_1`: at every
position `t` the normaliser `norm` of the state posteriors, the log-sum-exp over the
states of `alphas_1[t][k] + betas_1[t][k]`, equals the log-sum-exp over the states of
`aT[k]`; and at every position `t + 1` the normaliser of the `xis` equals the same
value. -/
theorem forward_backward_norm_constant (options : AppOptions ℝ)
    (hL : ExactLogSumExp options.lookUp) (A : Mat4 ℝ)
    (hA : ∀ k_1 k_2, ∃ r, 0 < r ∧ A k_1 k_2 = fin r) (iv : Interval ℝ)
    (hi : ∀ k, ∃ r, iv.initProbs k = fin r)
    (he : ∀ e ∈ iv.eProbs, ∀ k, (e k).IsLogValue) :
    ∃ alphas betas,
      iForward Real.log options.lookUp (logMatrix Real.log A) iv.initProbs iv.eProbs
        = some alphas ∧
      iBackward Real.log options.lookUp (logMatrix Real.log A) iv.eProbs = some betas ∧
      alphas.length = iv.eProbs.length ∧ betas.length = iv.eProbs.length ∧
      (iv.eProbs ≠ [] → ∃ aT, alphas.getLast? = some aT) ∧
      ∀ aT, alphas.getLast? = some aT →
        (∀ (t : Nat) (a b : Vec4 ℝ), alphas[t]? = some a → betas[t]? = some b →
          posteriorNorm options.lookUp a b =
            get_logSumExp_states options.lookUp (aT 0) (aT 1) (aT 2) (aT 3) ∧
          ∀ k, posteriorAt Real.exp options.lookUp a b k =
            myExp Real.exp (a k + b k - posteriorNorm options.lookUp a b)) ∧
        (∀ (t : Nat) (aPrev e b : Vec4 ℝ), alphas[t]? = some aPrev →
          iv.eProbs[t + 1]? = some e → betas[t + 1]? = some b →
          xiNorm options.lookUp (xiAt (logMatrix Real.log A) aPrev e b) =
            get_logSumExp_states options.lookUp (aT 0) (aT 1) (aT 2) (aT 3)) := by
  have hlogA := logMatrix_finite hA
  obtain ⟨alphas, hal, hlenA, _⟩ := iForward_total hL hlogA hi iv.eProbs he
  obtain ⟨betas, hbe, hlenB, _⟩ := iBackward_total hL hlogA iv.eProbs he
  refine ⟨alphas, betas, hal, hbe, hlenA, hlenB, ?_, ?_⟩
  · intro hne
    have : alphas ≠ [] := fun h => hne (List.length_eq_zero.mp (by rw [← hlenA, h]; rfl))
    exact ⟨alphas.getLast this, List.getLast?_eq_getLast _ this⟩
  · intro aT haT
    cases hes : iv.eProbs with
    | nil =>
      rw [hes] at hlenA
      have : alphas = [] := List.length_eq_zero.mp hlenA
      rw [this] at haT
      simp at haT
    | cons e_0 es =>
      rw [hes] at hal hbe he
      simp only [iForward, Option.map_eq_some'] at hal
      obtain ⟨as, hF, rfl⟩ := hal
      have h0 : ∀ k, (myLog Real.log (iv.initProbs k) + e_0 k).IsLogValue := fun k => by
        obtain ⟨r, hr⟩ := hi k
        rw [hr]
        exact (myLog_isLogValue r).add (he e_0 (List.mem_cons_self _ _) k)
      have hes_1 : ∀ x ∈ es, ∀ k, (x k).IsLogValue :=
        fun x hx => he x (List.mem_cons_of_mem _ hx)
      obtain ⟨i1, i2, i3, i4⟩ := posteriorNorm_const hL hlogA es _ e_0 as betas h0 hes_1 hF hbe
      have hlast : aT = ((fun k => myLog Real.log (iv.initProbs k) + e_0 k) :: as).getLast
          (by simp) := by
        rw [List.getLast?_eq_getLast _ (by simp)] at haT
        exact (Option.some.inj haT).symm
      subst hlast
      refine ⟨fun t a b ha hb => ⟨i3 t a b ha hb, fun _ => rfl⟩, ?_⟩
      intro t aPrev e b ha he_1 hb
      simp only [List.getElem?_cons_succ] at he_1
      have hnext := i4 t aPrev e ha he_1
      rw [xiNorm_eq_posteriorNorm hL hlogA (i1 aPrev (List.getElem?_mem ha))
        (hes_1 e (List.getElem?_mem he_1)) (i2 b (List.getElem?_mem hb))]
      exact i3 (t + 1) _ b (by simpa using hnext) hb

/-- Witness for `forward_backward_norm_constant`: the interval of two positions at which
only state 2, then only state 3 is possible, under the uniform transition matrix. -/
theorem forward_backward_norm_constant_witness :
    ∃ alphas betas,
      iForward Real.log (logSumExp_add Real.log Real.exp)
        (logMatrix Real.log (fun _ _ => fin (1 / 4))) (twoSiteInterval 2 3 (0 : ℝ)).initProbs
        (twoSiteInterval 2 3 (0 : ℝ)).eProbs = some alphas ∧
      iBackward Real.log (logSumExp_add Real.log Real.exp)
        (logMatrix Real.log (fun _ _ => fin (1 / 4))) (twoSiteInterval 2 3 (0 : ℝ)).eProbs =
          some betas ∧
      alphas.length = 2 ∧ betas.length = 2 ∧
      ∃ aT, alphas.getLast? = some aT ∧
        ∀ (t : Nat) (a b : Vec4 ℝ), alphas[t]? = some a → betas[t]? = some b →
          posteriorNorm (logSumExp_add Real.log Real.exp) a b =
            get_logSumExp_states (logSumExp_add Real.log Real.exp) (aT 0) (aT 1) (aT 2)
              (aT 3) := by
  obtain ⟨alphas, betas, h1, h2, h3, h4, h5, h6⟩ := forward_backward_norm_constant
    ⟨logSumExp_add Real.log Real.exp, fin 0, fin 0, fin 0⟩ logSumExp_add_exact
    (fun _ _ => fin (1 / 4)) (fun _ _ => ⟨1 / 4, by norm_num, rfl⟩)
    (twoSiteInterval 2 3 0) (fun _ => ⟨1 / 4, rfl⟩)
    (fun e hm k => by
      simp only [twoSiteInterval, List.mem_cons, List.mem_singleton, List.not_mem_nil,
        or_false] at hm
      rcases hm with rfl | rfl <;> exact only_isLogValue _ _ k)
  obtain ⟨aT, haT⟩ := h5 (by simp [twoSiteInterval])
  exact ⟨alphas, betas, h1, h2, h3, h4, aT, haT, fun t a b ha hb => ((h6 aT haT).1 t a b ha hb).1⟩


/-! ## Writes to the shared variables -/

theorem LD.add_zero_eq (a : LD ℝ) : a + fin 0 = a := by
  cases a <;> simp

theorem TransStats.add_zero (a : TransStats ℝ) : a.add TransStats.zero = a := by
  cases a
  simp only [TransStats.add, TransStats.zero, LD.add_zero_eq]

theorem SharedVars.write_comm (v : SharedVars ℝ) (a b : SharedWrite ℝ) :
    (v.write a).write b = (v.write b).write a := by
  obtain ⟨⟨p, p22, p23⟩, stop⟩ := v
  obtain ⟨ua, ca⟩ := a
  obtain ⟨ub, cb⟩ := b
  cases ua <;> cases ub <;> simp only [SharedVars.write] <;> try rfl
  · rename_i i j x i_1 j_1 y
    congr 2
    funext k_1 k_2
    by_cases hij : i_1 = i ∧ j_1 = j
    · obtain ⟨rfl, rfl⟩ := hij
      simp only [setEntry]
      by_cases h : k_1 = i_1 ∧ k_2 = j_1
      · simp [h, LD.add_right_comm_eq]
      · simp [h]
    · have hji : ¬ (i = i_1 ∧ j = j_1) := fun h => hij ⟨h.1.symm, h.2.symm⟩
      simp only [setEntry, hij, hji, if_false]
      by_cases h1 : k_1 = i ∧ k_2 = j
      · have h2 : ¬ (k_1 = i_1 ∧ k_2 = j_1) :=
          fun h => hij ⟨h.1.symm.trans h1.1, h.2.symm.trans h1.2⟩
        obtain ⟨rfl, rfl⟩ := h1
        simp [h2]
      · by_cases h2 : k_1 = i_1 ∧ k_2 = j_1
        · obtain ⟨rfl, rfl⟩ := h2
          simp [h1]
        · simp [h1, h2]
  · rename_i x y
    simp only [LD.add_right_comm_eq p22 x y]
  · rename_i x y
    simp only [LD.add_right_comm_eq p23 x y]

theorem foldl_write_perm (l l_1 : List (SharedWrite ℝ)) (hp : List.Perm l l_1)
    (v : SharedVars ℝ) : l.foldl SharedVars.write v = l_1.foldl SharedVars.write v := by
  induction hp generalizing v with
  | nil => rfl
  | cons x _ ih => exact ih _
  | swap x y l => simp only [List.foldl_cons, SharedVars.write_comm]
  | trans _ _ ih1 ih2 => exact (ih1 v).trans (ih2 v)

theorem foldl_write_setStop (c : Bool) :
    ∀ (n : Nat) (v : SharedVars ℝ),
      (List.replicate n (⟨SharedUpdate.setStop, c⟩ : SharedWrite ℝ)).foldl SharedVars.write v =
        ⟨v.stats, v.stop || decide (0 < n)⟩ := by
  intro n
  induction n with
  | zero => intro v; simp
  | succ n ih =>
    intro v
    simp only [List.replicate_succ, List.foldl_cons, ih, SharedVars.write]
    simp

theorem map_const_eq_replicate {α β : Type} (l : List α) (b : β) :
    l.map (fun _ => b) = List.replicate l.length b := by
  induction l with
  | nil => rfl
  | cons a l ih => simp [ih, List.replicate_succ]

theorem foldl_write_badPosteriors :
    ∀ (ps : List (Vec4 ℝ)) (v : SharedVars ℝ),
      (ps.flatMap badPosteriorWrites).foldl SharedVars.write v =
        ⟨v.stats, v.stop || ps.any anyBadPosterior⟩ := by
  intro ps
  induction ps with
  | nil => intro v; simp
  | cons q ps ih =>
    intro v
    simp only [List.flatMap_cons, List.foldl_append, ih, List.any_cons]
    simp only [badPosteriorWrites, map_const_eq_replicate, foldl_write_setStop]
    have e : decide (0 < (([0, 1, 2, 3] : List (Fin 4)).filter
        (fun k => badPosterior (q k))).length) = anyBadPosterior q := by
      rw [Bool.eq_iff_iff]
      simp only [decide_eq_true_eq, List.length_pos_iff_exists_mem, List.mem_filter,
        anyBadPosterior, Bool.or_eq_true]
      constructor
      · rintro ⟨k, hk, hb⟩
        have hk_1 : k = 0 ∨ k = 1 ∨ k = 2 ∨ k = 3 := by fin_cases k <;> simp
        rcases hk_1 with rfl | rfl | rfl | rfl
        · exact Or.inl (Or.inl (Or.inl hb))
        · exact Or.inl (Or.inl (Or.inr hb))
        · exact Or.inl (Or.inr hb)
        · exact Or.inr hb
      · rintro (((h | h) | h) | h)
        · exact ⟨0, by simp, h⟩
        · exact ⟨1, by simp, h⟩
        · exact ⟨2, by simp, h⟩
        · exact ⟨3, by simp, h⟩
    rw [e, Bool.or_assoc]

theorem foldl_write_accumulate (s : TransStats ℝ) (v : SharedVars ℝ) :
    (statePairs.map (fun kk : Fin 4 × Fin 4 =>
        (⟨SharedUpdate.addP kk.1 kk.2 (s.p kk.1 kk.2), true⟩ : SharedWrite ℝ)) ++
      [(⟨SharedUpdate.addP22 s.p_2_2, true⟩ : SharedWrite ℝ),
        ⟨SharedUpdate.addP23 s.p_2_3, true⟩]).foldl
        SharedVars.write v = ⟨v.stats.add s, v.stop⟩ := by
  obtain ⟨⟨p, p22, p23⟩, stop⟩ := v
  simp only [statePairs, List.map_cons, List.map_nil, List.cons_append, List.nil_append,
    List.foldl_cons, List.foldl_nil, SharedVars.write, TransStats.add]
  congr 2
  funext i j
  have hi : i = 0 ∨ i = 1 ∨ i = 2 ∨ i = 3 := by fin_cases i <;> simp
  have hj : j = 0 ∨ j = 1 ∨ j = 2 ∨ j = 3 := by fin_cases j <;> simp
  rcases hi with rfl | rfl | rfl | rfl <;> rcases hj with rfl | rfl | rfl | rfl <;>
    simp +decide [setEntry]

/-- The writes of one interval of the training pass, executed in program order, add the
interval's statistics to the accumulators and its `stop` to the flag. -/
theorem foldl_fbUpdateWrites (options : AppOptions ℝ) (logA : Mat4 ℝ) (iv : Interval ℝ)
    (v : SharedVars ℝ) :
    (fbUpdateWrites Real.log Real.exp options logA iv).foldl SharedVars.write v =
      ⟨v.stats.add (fbUpdateInterval Real.log Real.exp options logA iv).stats,
        v.stop || (fbUpdateInterval Real.log Real.exp options logA iv).stop⟩ := by
  simp only [fbUpdateWrites, fbUpdateInterval]
  split
  · simp [SharedVars.write, TransStats.add_zero]
  · split
    · simp [SharedVars.write, TransStats.add_zero]
    · rw [List.append_assoc, List.foldl_append, foldl_write_badPosteriors,
        foldl_write_accumulate]

theorem foldl_emissionWrites (eProb : Obs ℝ → Bool × Vec4 ℝ) (learning : Bool)
    (iv : Interval ℝ) (v : SharedVars ℝ) :
    (emissionWrites eProb learning iv).foldl SharedVars.write v =
      ⟨v.stats, v.stop || (emissionInterval eProb learning iv).stop⟩ := by
  simp only [emissionWrites, List.foldl_append, map_const_eq_replicate, foldl_write_setStop,
    emissionInterval]
  have e : decide (0 < (iv.obs.sites.filter (fun o => LD.eq o.kde (fin 0))).length) =
      iv.obs.sites.any (fun o => LD.eq o.kde (fin 0)) := by
    rw [Bool.eq_iff_iff]
    simp only [decide_eq_true_eq, List.length_pos_iff_exists_mem, List.mem_filter,
      List.any_eq_true]
  rw [e]
  split
  · rename_i hc
    simp only [List.foldl_cons, List.foldl_nil, SharedVars.write, hc, Bool.or_true]
  · rename_i hc
    simp only [Bool.not_eq_true] at hc
    simp only [List.foldl_nil, hc, Bool.or_false]

theorem foldl_flatMap_writes {α : Type} (f : α → List (SharedWrite ℝ))
    (g : α → TransStats ℝ) (c : α → Bool)
    (hf : ∀ (x : α) (v : SharedVars ℝ),
      (f x).foldl SharedVars.write v = ⟨v.stats.add (g x), v.stop || c x⟩) :
    ∀ (l : List α) (v : SharedVars ℝ),
      (l.flatMap f).foldl SharedVars.write v =
        ⟨l.foldl (fun a x => a.add (g x)) v.stats, v.stop || l.any c⟩ := by
  intro l
  induction l with
  | nil => intro v; simp
  | cons x l ih =>
    intro v
    simp only [List.flatMap_cons, List.foldl_append, hf, ih, List.foldl_cons, List.any_cons,
      Bool.or_assoc]

theorem foldl_flatMap_emissionWrites (eProb : Obs ℝ → Bool × Vec4 ℝ) (learning : Bool) :
    ∀ (l : List (Interval ℝ)) (v : SharedVars ℝ),
      (l.flatMap (emissionWrites eProb learning)).foldl SharedVars.write v =
        ⟨v.stats, v.stop || l.any (fun iv => (emissionInterval eProb learning iv).stop)⟩ := by
  intro l
  induction l with
  | nil => intro v; simp
  | cons x l ih =>
    intro v
    simp only [List.flatMap_cons, List.foldl_append, foldl_emissionWrites, ih, List.any_cons,
      Bool.or_assoc]

theorem iForward_blocked (options : AppOptions ℝ) (n : ℝ) :
    iForward Real.log options.lookUp (logMatrix Real.log zeroEntryMatrix)
      (twoSiteInterval 2 2 n : Interval ℝ).initProbs
      (twoSiteInterval 2 2 n : Interval ℝ).eProbs = none := by
  have h0 : (fun k => myLog Real.log ((twoSiteInterval 2 2 n : Interval ℝ).initProbs k) +
      only 2 0 k) = only 2 (Real.log (1 / 4) + 0) := by
    funext k
    have h4 : myLog Real.log (fin (1 / 4 : ℝ)) = fin (Real.log (1 / 4)) :=
      myLog_pos Real.log (by norm_num)
    by_cases hk : k = 2
    · subst hk; simp only [twoSiteInterval, h4, only_self, fin_add_fin]
    · simp only [twoSiteInterval, h4, only_ne _ hk, add_nan]
  have hinf : anyInf (forwardStep options.lookUp (logMatrix Real.log zeroEntryMatrix)
      (only 2 (Real.log (1 / 4) + 0)) (only 2 0)) = true := by
    have h2 : forwardStep options.lookUp (logMatrix Real.log zeroEntryMatrix)
        (only 2 (Real.log (1 / 4) + 0)) (only 2 0) 2 = ninf := by
      simp only [forwardStep]
      rw [get_logSumExp_states_single options.lookUp
        (fun j => only 2 (Real.log (1 / 4) + 0) j + logMatrix Real.log zeroEntryMatrix j 2 +
          only 2 0 2) 2 (fun j hj => by simp [only_ne _ hj])]
      simp [logMatrix, zeroEntryMatrix, setEntry, LD.log, only_self]
    simp only [anyInf, h2, isinf_ninf, Bool.or_true, Bool.true_or]
  show iForward Real.log options.lookUp _ _ [only 2 0, only 2 0] = _
  simp only [iForward, iForwardFrom, h0, hinf, if_true, Option.map_none']

/-- C33 fails on the code. In the training pass, an interval whose `iForward` fails (here:
two positions at which only state 2 is possible, with `transMatrix[2][2] = 0`) executes
the single write `stop = true`, which does not stand under `critical`; two such intervals
of a strand handled by two workers write the shared flag without mutual exclusion.  In
`computeEmissionProbs` in training mode, an interval with an invalid position executes a
write `stop = true` that does not stand under `critical`.  What holds: every write of
the training pass that does not stand under `critical` is a write `stop = true`, so the
accumulators `p`, `p_2_2`, `p_2_3` are only written under `critical`; and if every write
is executed as one indivisible step, every order in which the workers execute the writes
of the intervals of a strand leaves the shared variables as the sequential execution
does (in exact arithmetic). -/
theorem shared_flag_written_outside_critical :
    (∀ (options : AppOptions ℝ) (n : ℝ),
      fbUpdateWrites Real.log Real.exp options (logMatrix Real.log zeroEntryMatrix)
        (twoSiteInterval 2 2 n) = [⟨SharedUpdate.setStop, false⟩]) ∧
    (∀ (eProb : Obs ℝ → Bool × Vec4 ℝ) (iv : Interval ℝ),
      iv.obs.sites.any (fun o => !(eProb o).1) = true →
      (⟨SharedUpdate.setStop, false⟩ : SharedWrite ℝ) ∈ emissionWrites eProb true iv) ∧
    (∀ (options : AppOptions ℝ) (logA : Mat4 ℝ) (iv : Interval ℝ) (w : SharedWrite ℝ),
      w ∈ fbUpdateWrites Real.log Real.exp options logA iv → w.critical = false →
      w.update = SharedUpdate.setStop) ∧
    (∀ (options : AppOptions ℝ) (logA : Mat4 ℝ) (ivs : List (Interval ℝ)) (v : SharedVars ℝ)
      (l : List (SharedWrite ℝ)),
      List.Perm l (ivs.flatMap (fbUpdateWrites Real.log Real.exp options logA)) →
      l.foldl SharedVars.write v =
        ⟨strandStats Real.log Real.exp options logA v.stats ivs,
          v.stop || ivs.any (fun iv =>
            (fbUpdateInterval Real.log Real.exp options logA iv).stop)⟩) ∧
    (∀ (eProb : Obs ℝ → Bool × Vec4 ℝ) (learning : Bool) (ivs : List (Interval ℝ))
      (v : SharedVars ℝ) (l : List (SharedWrite ℝ)),
      List.Perm l (ivs.flatMap (emissionWrites eProb learning)) →
      l.foldl SharedVars.write v =
        ⟨v.stats, v.stop || ivs.any (fun iv => (emissionInterval eProb learning iv).stop)⟩) := by
  refine ⟨?_, ?_, ?_, ?_, ?_⟩
  · intro options n
    simp only [fbUpdateWrites, iForward_blocked]
  · intro eProb iv h
    simp only [emissionWrites, h, Bool.true_and, if_true, List.mem_append, List.mem_singleton,
      or_true]
  · intro options logA iv w hw hc
    simp only [fbUpdateWrites] at hw
    split at hw
    · simp only [List.mem_singleton] at hw
      rw [hw]
    · split at hw
      · simp only [List.mem_singleton] at hw
        rw [hw]
      · simp only [List.mem_append, List.mem_flatMap, badPosteriorWrites, List.mem_map,
          List.mem_cons, List.mem_singleton, List.not_mem_nil, or_false] at hw
        rcases hw with (⟨_, _, _, _, rfl⟩ | ⟨_, _, rfl⟩) | (rfl | rfl)
        · rfl
        · exact absurd hc (by simp)
        · exact absurd hc (by simp)
        · exact absurd hc (by simp)
  · intro options logA ivs v l hp
    rw [foldl_write_perm l _ hp v,
      foldl_flatMap_writes _ (fun iv => (fbUpdateInterval Real.log Real.exp options logA iv).stats)
        (fun iv => (fbUpdateInterval Real.log Real.exp options logA iv).stop)
        (fun iv v => foldl_fbUpdateWrites options logA iv v)]
    rfl
  · intro eProb learning ivs v l hp
    rw [foldl_write_perm l _ hp v, foldl_flatMap_emissionWrites]

end PureCLIP
